import Mathlib

/-!
# go/printer: a shallow embedding of `src/pkg/go/printer/printer.go`

Byte strings (`[]byte`, `string`) are lists of `Char`, one `Char` per byte.
Go `int` values are `Int` (or `Nat` where the source keeps them non-negative);
no value in the printer comes near the machine word size.

The embedding has two layers.

* The printer state and the functions that read or write it (`write0`, `write`,
  `writeNewlines`, `writeItem`, `writeComment`, `intersperseComments`,
  `writeWhitespace`, `print`, `flush`, `commentList`, `leadComment`,
  `lineComment`) are state-passing functions in the namespace `printer`.
  A Go run-time panic is `Except.error`.
* The AST walk (`exprList` ... `file`) never reads the printer state: it only
  calls `print`, `leadComment`, `lineComment` and counts `level` up and down.
  It is embedded as a function from the AST to the sequence of these calls
  (`Walk`), which `printer.run` executes on the state.
-/

set_option linter.unusedVariables false
set_option maxRecDepth 100000

/-! ## Constants and tokens -/

/-- Constant `maxNewlines`: maximum vertical white space. -/
def maxNewlines : Nat := 3

/-- Mode flag `GenHTML`. -/
def GenHTML : Nat := 1
/-- Mode flag `RawFormat`. -/
def RawFormat : Nat := 2
/-- Mode flag `UseSpaces`. -/
def UseSpaces : Nat := 4

/-- Type `whiteSpace` with its four constants. -/
inductive whiteSpace
  | blank
  | tab
  | newline
  | formfeed
  deriving DecidableEq, Repr, Inhabited

/-- Conversion `byte(ch)` of a whitespace atom. -/
def whiteSpace.toByte : whiteSpace → Char
  | .blank => ' '
  | .tab => '\t'
  | .newline => '\n'
  | .formfeed => '\x0c'

/-- Array `tabs`. -/
def tabs : List Char := List.replicate 8 '\t'
/-- Array `newlines`. -/
def newlines : List Char := List.replicate 8 '\n'
/-- Escape `ampersand`. -/
def ampersand : List Char := "&amp;".toList
/-- Escape `lessthan`. -/
def lessthan : List Char := "&lt;".toList
/-- Escape `greaterthan`. -/
def greaterthan : List Char := "&gt;".toList

/-- Modelled from the spec: `token.Position` is declared outside the sources; a
position is `(offset, line, column)`. -/
structure Position where
  Offset : Int
  Line : Int
  Column : Int
  deriving DecidableEq, Repr, Inhabited

/-- Modelled from the spec: the validity predicate of a position, declared
outside the sources, is `offset > 0`. -/
def Position.IsValid (pos : Position) : Bool := decide (pos.Offset > 0)

/-- Modelled from the spec: `token.Token`, declared outside the sources; the
tokens of the language's lexical definition. -/
inductive Token
  | ILLEGAL | EOF | COMMENT
  | IDENT | INT | FLOAT | CHAR | STRING
  | ADD | SUB | MUL | QUO | REM
  | AND | OR | XOR | SHL | SHR | AND_NOT
  | ADD_ASSIGN | SUB_ASSIGN | MUL_ASSIGN | QUO_ASSIGN | REM_ASSIGN
  | AND_ASSIGN | OR_ASSIGN | XOR_ASSIGN | SHL_ASSIGN | SHR_ASSIGN | AND_NOT_ASSIGN
  | LAND | LOR | ARROW | INC | DEC
  | EQL | LSS | GTR | ASSIGN | NOT
  | NEQ | LEQ | GEQ | DEFINE | ELLIPSIS
  | LPAREN | LBRACK | LBRACE | COMMA | PERIOD
  | RPAREN | RBRACK | RBRACE | SEMICOLON | COLON
  | BREAK | CASE | CHAN | CONST | CONTINUE
  | DEFAULT | DEFER | ELSE | FALLTHROUGH | FOR
  | FUNC | GO | GOTO | IF | IMPORT
  | INTERFACE | MAP | PACKAGE | RANGE | RETURN
  | SELECT | STRUCT | SWITCH | TYPE | VAR
  deriving DecidableEq, Repr, Inhabited

/-- Modelled from the spec: the canonical spelling `x.String()` of a token,
fixed by the language's lexical definition. -/
def Token.String : Token → List Char
  | .ILLEGAL => "ILLEGAL".toList | .EOF => "EOF".toList | .COMMENT => "COMMENT".toList
  | .IDENT => "IDENT".toList | .INT => "INT".toList | .FLOAT => "FLOAT".toList
  | .CHAR => "CHAR".toList | .STRING => "STRING".toList
  | .ADD => "+".toList | .SUB => "-".toList | .MUL => "*".toList | .QUO => "/".toList
  | .REM => "%".toList
  | .AND => "&".toList | .OR => "|".toList | .XOR => "^".toList | .SHL => "<<".toList
  | .SHR => ">>".toList | .AND_NOT => "&^".toList
  | .ADD_ASSIGN => "+=".toList | .SUB_ASSIGN => "-=".toList | .MUL_ASSIGN => "*=".toList
  | .QUO_ASSIGN => "/=".toList | .REM_ASSIGN => "%=".toList
  | .AND_ASSIGN => "&=".toList | .OR_ASSIGN => "|=".toList | .XOR_ASSIGN => "^=".toList
  | .SHL_ASSIGN => "<<=".toList | .SHR_ASSIGN => ">>=".toList
  | .AND_NOT_ASSIGN => "&^=".toList
  | .LAND => "&&".toList | .LOR => "||".toList | .ARROW => "<-".toList
  | .INC => "++".toList | .DEC => "--".toList
  | .EQL => "==".toList | .LSS => "<".toList | .GTR => ">".toList | .ASSIGN => "=".toList
  | .NOT => "!".toList
  | .NEQ => "!=".toList | .LEQ => "<=".toList | .GEQ => ">=".toList | .DEFINE => ":=".toList
  | .ELLIPSIS => "...".toList
  | .LPAREN => "(".toList | .LBRACK => "[".toList | .LBRACE => "\x7b".toList
  | .COMMA => ",".toList | .PERIOD => ".".toList
  | .RPAREN => ")".toList | .RBRACK => "]".toList | .RBRACE => "\x7d".toList
  | .SEMICOLON => ";".toList | .COLON => ":".toList
  | .BREAK => "break".toList | .CASE => "case".toList | .CHAN => "chan".toList
  | .CONST => "const".toList | .CONTINUE => "continue".toList
  | .DEFAULT => "default".toList | .DEFER => "defer".toList | .ELSE => "else".toList
  | .FALLTHROUGH => "fallthrough".toList | .FOR => "for".toList
  | .FUNC => "func".toList | .GO => "go".toList | .GOTO => "goto".toList
  | .IF => "if".toList | .IMPORT => "import".toList
  | .INTERFACE => "interface".toList | .MAP => "map".toList | .PACKAGE => "package".toList
  | .RANGE => "range".toList | .RETURN => "return".toList
  | .SELECT => "select".toList | .STRUCT => "struct".toList | .SWITCH => "switch".toList
  | .TYPE => "type".toList | .VAR => "var".toList

/-- Constant `token.LowestPrec` (non-operators). -/
def LowestPrec : Nat := 0
/-- Constant `token.UnaryPrec`. -/
def UnaryPrec : Nat := 7
/-- Constant `token.HighestPrec`. -/
def HighestPrec : Nat := 8

/-- Modelled from the spec: the binary operator precedence `op.Precedence()`,
declared outside the sources: multiplicative above additive above comparison,
`LowestPrec` for non-operators. -/
def Token.Precedence : Token → Nat
  | .LOR => 1
  | .LAND => 2
  | .ARROW => 3
  | .EQL | .NEQ | .LSS | .LEQ | .GTR | .GEQ => 4
  | .ADD | .SUB | .OR | .XOR => 5
  | .MUL | .QUO | .REM | .SHL | .SHR | .AND | .AND_NOT => 6
  | _ => LowestPrec

/-! ## Comments, items, printer state -/

/-- Modelled from the spec: an `ast.Comment`, position and text. -/
structure Comment where
  pos : Position
  Text : List Char
  deriving DecidableEq, Repr, Inhabited

/-- Modelled from the spec: an `ast.CommentGroup`; the `Next` link of the source
is the tail of the list of groups that holds it. -/
structure CommentGroup where
  list : List Comment
  deriving DecidableEq, Repr, Inhabited

/-- Type `htmlTag`: a start and an end tag, empty if absent. -/
structure htmlTag where
  start : List Char
  «end» : List Char
  deriving DecidableEq, Repr, Inhabited

/-- One argument of `print`, by its dynamic type. An argument of type `[]byte`
is `bytes x` for a slice that is not nil (the empty slice included) and
`nilBytes` for the nil slice, which `print` takes for no data (`data != nil`). -/
inductive Item
  | int (x : Int)
  | whiteSpace (x : whiteSpace)
  | bytes (x : List Char)
  | nilBytes
  | string (x : List Char)
  | token (x : Token)
  | position (x : Position)
  | lineTag (x : Position)
  | htmlTag (x : htmlTag)
  deriving DecidableEq, Repr

/-- Type `printer`. The sink `output` is the list of the bytes it has accepted;
it accepts every write in full. -/
structure printer where
  mode : Nat
  output : List Char
  written : Nat
  level : Int
  indent : Nat
  last : Position
  pos : Position
  tag : htmlTag
  lastTaggedLine : Int
  buffer : List whiteSpace
  buflen : Int
  comment : List CommentGroup
  deriving Repr

/-- A zero-valued printer after `init(output, mode)`. -/
def printer.init (mode : Nat) : printer where
  mode := mode
  output := []
  written := 0
  level := 0
  indent := 0
  last := ⟨0, 0, 0⟩
  pos := ⟨0, 0, 0⟩
  tag := ⟨[], []⟩
  lastTaggedLine := 0
  buffer := List.replicate 8 whiteSpace.blank
  buflen := 0
  comment := []

namespace printer

/-- Slice `data[lo : hi]`. -/
def slice (data : List Char) (lo hi : Nat) : List Char := (data.take hi).drop lo

/-- Method `write0`: hand `data` to the sink and count it. -/
def write0 (p : printer) (data : List Char) : printer :=
  { p with output := p.output ++ data, written := p.written + data.length }

/-- The indentation loop of `write`:
`for ; j > len(tabs); j -= len(tabs) { write0(&tabs) }; write0(tabs[0 : j])`.
The first argument bounds the number of iterations; `j` is enough. -/
def writeTabs : Nat → Nat → printer → printer
  | 0, j, p => p.write0 (tabs.take j)
  | fuel + 1, j, p =>
    if j > tabs.length then writeTabs fuel (j - tabs.length) (p.write0 tabs)
    else p.write0 (tabs.take j)

/-- The `for i, b := range data` loop of `write`; `rest` is `data[i:]`, the
result is the final `i0` and printer. -/
def writeLoop (data : List Char) : List Char → Nat → Nat → printer → Nat × printer
  | [], _, i0, p => (i0, p)
  | b :: rest, i, i0, p =>
    if b = '\n' ∨ b = '\x0c' then
      let p1 :=
        if p.mode &&& RawFormat ≠ 0 ∧ b = '\x0c' then
          (p.write0 (slice data i0 i)).write0 (newlines.take 1)
        else p.write0 (slice data i0 (i + 1))
      let p2 := writeTabs p1.indent p1.indent p1
      let p3 := { p2 with pos :=
        { Offset := p2.pos.Offset + ((i + 1 - i0 : Nat) + (p2.indent : Int)),
          Line := p2.pos.Line + 1,
          Column := (p2.indent : Int) + 1 } }
      writeLoop data rest (i + 1) (i + 1) p3
    else if b = '&' ∨ b = '<' ∨ b = '>' then
      if p.mode &&& GenHTML ≠ 0 then
        let p1 := p.write0 (slice data i0 i)
        let esc := if b = '&' then ampersand else if b = '<' then lessthan else greaterthan
        let p2 := p1.write0 esc
        let p3 := { p2 with pos :=
          { Offset := p2.pos.Offset + ((i + 1 - i0 : Nat) : Int),
            Line := p2.pos.Line,
            Column := p2.pos.Column + ((i + 1 - i0 : Nat) : Int) } }
        writeLoop data rest (i + 1) (i + 1) p3
      else writeLoop data rest (i + 1) i0 p
    else writeLoop data rest (i + 1) i0 p

/-- Method `write`. -/
def write (p : printer) (data : List Char) : printer :=
  let r := writeLoop data data 0 0 p
  let i0 := r.1
  let p1 := r.2.write0 (slice data i0 data.length)
  let n : Nat := data.length - i0
  { p1 with pos :=
    { Offset := p1.pos.Offset + (n : Int), Line := p1.pos.Line,
      Column := p1.pos.Column + (n : Int) } }

/-- Method `writeNewlines`. -/
def writeNewlines (p : printer) (n : Int) : printer :=
  if n > 0 then
    let n := if n > (maxNewlines : Int) then (maxNewlines : Int) else n
    p.write (newlines.take n.toNat)
  else p

/-- The line anchor `fmt.Sprintf("<a id=\"L%d\"></a>", line)`. -/
def lineAnchor (line : Int) : List Char :=
  "<a id=\"L".toList ++ (toString line).toList ++ "\"></a>".toList

/-- Method `writeItem` (`debug` is the constant `false`). -/
def writeItem (p : printer) (pos : Position) (data : List Char) (setLineTag : Bool) : printer :=
  let p : printer := { p with pos := pos }
  let p : printer :=
    if p.mode &&& GenHTML ≠ 0 then
      let p : printer :=
        if setLineTag ∧ pos.Line > p.lastTaggedLine then
          { p with tag := { p.tag with start := lineAnchor pos.Line }, lastTaggedLine := pos.Line }
        else p
      let p : printer :=
        if p.tag.start ≠ [] then
          { p.write0 p.tag.start with tag := { p.tag with start := [] } }
        else p
      let p : printer := p.write data
      if p.tag.«end» ≠ [] then
        { p.write0 p.tag.«end» with tag := { p.tag with «end» := [] } }
      else p
    else p.write data
  { p with last := p.pos }

/-- Method `writeComment`. -/
def writeComment (p : printer) (comment : Comment) : printer :=
  let p :=
    if p.last.IsValid then
      let n := comment.pos.Line - p.last.Line
      if n = 0 then p.write (tabs.take 1) else p.writeNewlines n
    else p
  p.writeItem comment.pos comment.Text false

/-- The inner loop `for _, c := range p.comment.List` of `intersperseComments`,
carrying `firstLine` and `needsNewline`; `c.Text[1]` needs two bytes. -/
def intersperseGroup : List Comment → Int → Bool → printer → Except String (Int × Bool × printer)
  | [], firstLine, needsNewline, p => .ok (firstLine, needsNewline, p)
  | c :: rest, firstLine, needsNewline, p =>
    let firstLine := if firstLine = 0 then c.pos.Line else firstLine
    let p := p.writeComment c
    match c.Text with
    | _ :: t1 :: _ => intersperseGroup rest firstLine (decide (t1 = '/')) p
    | _ => .error "index out of range"

/-- The outer loop of `intersperseComments` over the comment groups from
`p.comment` on; `p.comment.List[0]` needs a non-empty group. -/
def intersperseLoop (next : Position) : List CommentGroup → Int → Bool → printer →
    Except String (Int × Bool × printer)
  | [], firstLine, needsNewline, p => .ok (firstLine, needsNewline, { p with comment := [] })
  | g :: gs, firstLine, needsNewline, p =>
    match g.list with
    | [] => .error "index out of range"
    | c0 :: _ =>
      if c0.pos.Offset < next.Offset then
        match intersperseGroup g.list firstLine needsNewline { p with comment := g :: gs } with
        | .error e => .error e
        | .ok (firstLine, needsNewline, p) => intersperseLoop next gs firstLine needsNewline p
      else .ok (firstLine, needsNewline, { p with comment := g :: gs })

/-- The loop of `intersperseComments` that keeps only the newlines and formfeeds
of `buffer[0 : buflen]`, moving them to the front; the first argument is the
number of iterations left, the result is the buffer and `j`. -/
def compactLoop : Nat → Nat → Nat → List whiteSpace → List whiteSpace × Nat
  | 0, _, j, buffer => (buffer, j)
  | n + 1, i, j, buffer =>
    let ch := buffer.getD i whiteSpace.blank
    if ch = whiteSpace.newline ∨ ch = whiteSpace.formfeed then
      compactLoop n (i + 1) (j + 1) (buffer.set j ch)
    else compactLoop n (i + 1) j buffer

/-- Method `intersperseComments`. -/
def intersperseComments (p : printer) (next : Position) : Except String printer :=
  match intersperseLoop next p.comment 0 false p with
  | .error e => .error e
  | .ok (firstLine, needsNewline, p) =>
    let r := compactLoop p.buflen.toNat 0 0 p.buffer
    let p := { p with buffer := r.1, buflen := (r.2 : Int) }
    let p :=
      if p.last.IsValid then
        let n := next.Line - p.last.Line
        if n < p.buflen then { p with buflen := n } else p
      else p
    if needsNewline then
      let ch := p.buffer.getD 0 whiteSpace.blank
      let r : printer × whiteSpace :=
        if p.buflen = 0 then ({ p with buflen := 1 }, whiteSpace.newline) else (p, ch)
      let p := r.1
      let ch := if p.last.Line > firstLine then whiteSpace.formfeed else r.2
      .ok { p with buffer := p.buffer.set 0 ch }
    else .ok p

/-- Method `writeWhitespace`; the slice `b[0 : p.buflen]` of the 8-byte array
needs `0 <= buflen <= 8`. -/
def writeWhitespace (p : printer) : Except String printer :=
  if p.buflen < 0 ∨ p.buflen > 8 then .error "slice bounds out of range"
  else
    let b := (p.buffer.take p.buflen.toNat).map whiteSpace.toByte
    .ok ({ p with buflen := 0 }.write b)

/-- Method `flush`. -/
def flush (p : printer) (next : Position) : Except String printer :=
  match p.comment with
  | [] => p.writeWhitespace
  | g :: _ =>
    match g.list with
    | [] => .error "index out of range"
    | c0 :: _ =>
      if c0.pos.Offset < next.Offset then
        match p.intersperseComments next with
        | .error e => .error e
        | .ok p => p.writeWhitespace
      else p.writeWhitespace

/-- The body of the loop of `print` for one argument `f`; the result carries
the local variable `setLineTag`. -/
def printItem (p : printer) (setLineTag : Bool) (f : Item) : Except String (Bool × printer) :=
  let next := p.pos
  let step : Except String (Option (List Char) × Position × Bool × printer) :=
    match f with
    | .int x =>
      if (p.indent : Int) + x < 0 then .error "print: negative indentation"
      else .ok (none, next, setLineTag, { p with indent := ((p.indent : Int) + x).toNat })
    | .whiteSpace x =>
      let flushed : Except String printer :=
        if p.buflen ≥ 8 then p.writeWhitespace else .ok p
      match flushed with
      | .error e => .error e
      | .ok p =>
        if p.buflen < 0 ∨ p.buflen ≥ 8 then .error "index out of range"
        else .ok (none, next, setLineTag,
          { p with buffer := p.buffer.set p.buflen.toNat x, buflen := p.buflen + 1 })
    | .bytes x => .ok (some x, next, setLineTag, p)
    | .nilBytes => .ok (none, next, setLineTag, p)
    | .string x => .ok (some x, next, setLineTag, p)
    | .token x => .ok (some x.String, next, setLineTag, p)
    | .position x =>
      if x.IsValid then .ok (none, x, setLineTag, p) else .ok (none, next, setLineTag, p)
    | .lineTag x =>
      if x.IsValid then .ok (none, x, true, p) else .ok (none, next, setLineTag, p)
    | .htmlTag x => .ok (none, next, setLineTag, { p with tag := x })
  match step with
  | .error e => .error e
  | .ok (data, next, setLineTag, p) =>
    let p := { p with pos := next }
    match data with
    | none => .ok (setLineTag, p)
    | some data =>
      match p.flush next with
      | .error e => .error e
      | .ok p =>
        let p := p.writeNewlines (next.Line - p.pos.Line)
        let p := p.writeItem next data setLineTag
        .ok (false, p)

/-- The loop of `print` over the arguments. -/
def printLoop : List Item → Bool → printer → Except String printer
  | [], _, p => .ok p
  | f :: rest, setLineTag, p =>
    match p.printItem setLineTag f with
    | .error e => .error e
    | .ok (setLineTag, p) => printLoop rest setLineTag p

/-- Method `print`. -/
def print (p : printer) (args : List Item) : Except String printer :=
  printLoop args false p

/-- Method `commentList`; the index `i` of the source is `n - len(rest) - 1`,
so `i+1 < len(list)` is `rest != []`. -/
def commentList : List Comment → printer → Except String printer
  | [], p => .ok p
  | c :: rest, p =>
    let t := c.Text
    match p.print [.position c.pos, .bytes t] with
    | .error e => .error e
    | .ok p =>
      match t with
      | _ :: t1 :: _ =>
        if t1 = '/' ∧ rest ≠ [] then
          match p.print [.whiteSpace .newline] with
          | .error e => .error e
          | .ok p => commentList rest p
        else commentList rest p
      | _ => .error "index out of range"

/-- Method `leadComment`. -/
def leadComment (p : printer) (d : Option CommentGroup) : Except String printer :=
  match p.comment, d with
  | [], some d =>
    match commentList d.list p with
    | .error e => .error e
    | .ok p => p.print [.whiteSpace .newline]
  | _, _ => .ok p

/-- Method `lineComment`. -/
def lineComment (p : printer) (d : Option CommentGroup) : Except String printer :=
  match p.comment, d with
  | [], some d =>
    match p.print [.whiteSpace .tab] with
    | .error e => .error e
    | .ok p => commentList d.list p
  | _, _ => .ok p

end printer

/-! ## The AST -/

namespace ast

/-- Modelled from the spec: an `ast.Ident`. -/
structure Ident where
  pos : Position
  Value : List Char
  deriving DecidableEq, Repr, Inhabited

/-- Modelled from the spec: an `ast.BasicLit`. -/
structure BasicLit where
  pos : Position
  Kind : Token
  Value : List Char
  deriving DecidableEq, Repr, Inhabited

/-- Channel direction `SEND`. -/
def SEND : Nat := 1
/-- Channel direction `RECV`. -/
def RECV : Nat := 2

mutual
/-- Modelled from the spec: the expression and type nodes of package `ast`
("the AST node definitions themselves (assumed given)"), with the fields the
printer reads. A field that the printer tests against `nil` is an `Option`. -/
inductive Expr
  | BadExpr (pos : Position)
  | Ident (x : Ident)
  | Ellipsis (pos : Position)
  | BasicLit (x : BasicLit)
  | StringList (Strings : List BasicLit)
  | FuncLit (Typ : FuncType) (Body : BlockStmt)
  | CompositeLit (Typ : Expr) (Lbrace : Position) (Elts : List Expr) (Rbrace : Position)
  | ParenExpr (pos : Position) (X : Expr) (Rparen : Position)
  | SelectorExpr (X : Expr) (Sel : Ident)
  | IndexExpr (X : Expr) (Index : Expr) (End : Option Expr)
  | TypeAssertExpr (X : Expr) (Typ : Option Expr)
  | CallExpr (x : CallExpr)
  | StarExpr (pos : Position) (X : Expr)
  | UnaryExpr (pos : Position) (Op : Token) (X : Expr)
  | BinaryExpr (X : Expr) (OpPos : Position) (Op : Token) (Y : Expr)
  | KeyValueExpr (Key : Expr) (Colon : Position) (Value : Expr)
  | ArrayType (pos : Position) (Len : Option Expr) (Elt : Expr)
  | StructType (pos : Position) (Lbrace : Position) (Fields : List Field) (Rbrace : Position)
      (Incomplete : Bool)
  | FuncType (x : FuncType)
  | InterfaceType (pos : Position) (Lbrace : Position) (Methods : List Field)
      (Rbrace : Position) (Incomplete : Bool)
  | MapType (pos : Position) (Key : Expr) (Value : Expr)
  | ChanType (pos : Position) (Dir : Nat) (Value : Expr)
/-- Node `ast.CallExpr`. -/
inductive CallExpr
  | mk (Fun : Expr) (Lparen : Position) (Args : List Expr) (Rparen : Position)
/-- Node `ast.FuncType`. -/
inductive FuncType
  | mk (pos : Position) (Params : List Field) (Results : Option (List Field))
/-- Node `ast.Field`. -/
inductive Field
  | mk (Doc : Option CommentGroup) (Names : Option (List Ident)) (Typ : Expr)
      (Tag : Option (List BasicLit)) (Comment : Option CommentGroup)
/-- Node `ast.BlockStmt`. -/
inductive BlockStmt
  | mk (pos : Position) (List_ : List Stmt) (Rbrace : Position)
/-- Modelled from the spec: the statement nodes of package `ast`. -/
inductive Stmt
  | BadStmt (pos : Position)
  | DeclStmt (Decl_ : Decl)
  | EmptyStmt (pos : Position)
  | LabeledStmt (Label : Ident) (Stmt_ : Stmt)
  | ExprStmt (X : Expr)
  | IncDecStmt (X : Expr) (Tok : Token)
  | AssignStmt (Lhs : List Expr) (TokPos : Position) (Tok : Token) (Rhs : List Expr)
  | GoStmt (pos : Position) (Call : CallExpr)
  | DeferStmt (pos : Position) (Call : CallExpr)
  | ReturnStmt (pos : Position) (Results : Option (List Expr))
  | BranchStmt (pos : Position) (Tok : Token) (Label : Option Ident)
  | BlockStmt (x : BlockStmt)
  | IfStmt (pos : Position) (Init : Option Stmt) (Cond : Option Expr) (Body : BlockStmt)
      (Else : Option Stmt)
  | CaseClause (pos : Position) (Values : Option (List Expr)) (Colon : Position)
      (Body : List Stmt)
  | SwitchStmt (pos : Position) (Init : Option Stmt) (Tag : Option Expr) (Body : BlockStmt)
  | TypeCaseClause (pos : Position) (Types : Option (List Expr)) (Colon : Position)
      (Body : List Stmt)
  | TypeSwitchStmt (pos : Position) (Init : Option Stmt) (Assign : Stmt) (Body : BlockStmt)
  | CommClause (pos : Position) (Tok : Token) (Lhs : Option Expr) (Rhs : Option Expr)
      (Colon : Position) (Body : List Stmt)
  | SelectStmt (pos : Position) (Body : BlockStmt)
  | ForStmt (pos : Position) (Init : Option Stmt) (Cond : Option Expr) (Post : Option Stmt)
      (Body : BlockStmt)
  | RangeStmt (pos : Position) (Key : Expr) (Value : Option Expr) (TokPos : Position)
      (Tok : Token) (X : Expr) (Body : BlockStmt)
/-- Modelled from the spec: the spec nodes of package `ast`. -/
inductive Spec
  | ImportSpec (Doc : Option CommentGroup) (Name : Option Ident) (Path : List BasicLit)
      (Comment : Option CommentGroup)
  | ValueSpec (Doc : Option CommentGroup) (Names : List Ident) (Typ : Option Expr)
      (Values : Option (List Expr)) (Comment : Option CommentGroup)
  | TypeSpec (Doc : Option CommentGroup) (Name : Ident) (Typ : Expr)
      (Comment : Option CommentGroup)
/-- Modelled from the spec: the declaration nodes of package `ast`. -/
inductive Decl
  | BadDecl (pos : Position)
  | GenDecl (Doc : Option CommentGroup) (pos : Position) (Tok : Token) (Lparen : Position)
      (Specs : List Spec) (Rparen : Position)
  | FuncDecl (Doc : Option CommentGroup) (Recv : Option Field) (Name : Ident)
      (Typ : FuncType) (Body : Option BlockStmt)
end

/-- Modelled from the spec: an `ast.File`; `Comments` is the list of all comment
groups of the file in source order. -/
structure File where
  Doc : Option CommentGroup
  pos : Position
  Name : Ident
  Decls : List Decl
  Comments : List CommentGroup

/-- The node handed to `Fprint`; `other` is a value of any other type. -/
inductive Node
  | Expr (n : Expr)
  | Stmt (n : Stmt)
  | Decl (n : Decl)
  | File (n : File)
  | other

end ast

open ast (Ident BasicLit Expr CallExpr FuncType BlockStmt Stmt Spec Decl File Node)

/-- Field `Pos` of a `FuncType`. -/
def ast.FuncType.Pos : FuncType → Position
  | .mk pos _ _ => pos

/-- Field `Pos` of a `BlockStmt`. -/
def ast.BlockStmt.Pos : BlockStmt → Position
  | .mk pos _ _ => pos

mutual
/-- Modelled from the spec: method `Pos()` of an expression node. A node without
a position field of its own has the position of its leftmost sub-node;
`none` is the index panic of `x.Strings[0]` on an empty `StringList`. -/
def ast.Expr.Pos : Expr → Option Position
  | .BadExpr pos => some pos
  | .Ident x => some x.pos
  | .Ellipsis pos => some pos
  | .BasicLit x => some x.pos
  | .StringList [] => none
  | .StringList (x :: _) => some x.pos
  | .FuncLit t _ => some t.Pos
  | .CompositeLit t _ _ _ => Expr.Pos t
  | .ParenExpr pos _ _ => some pos
  | .SelectorExpr X _ => Expr.Pos X
  | .IndexExpr X _ _ => Expr.Pos X
  | .TypeAssertExpr X _ => Expr.Pos X
  | .CallExpr x => CallExpr.Pos x
  | .StarExpr pos _ => some pos
  | .UnaryExpr pos _ _ => some pos
  | .BinaryExpr X _ _ _ => Expr.Pos X
  | .KeyValueExpr Key _ _ => Expr.Pos Key
  | .ArrayType pos _ _ => some pos
  | .StructType pos _ _ _ _ => some pos
  | .FuncType t => some t.Pos
  | .InterfaceType pos _ _ _ _ => some pos
  | .MapType pos _ _ => some pos
  | .ChanType pos _ _ => some pos
/-- Method `Pos()` of a call expression: the position of `Fun`. -/
def ast.CallExpr.Pos : CallExpr → Option Position
  | .mk f _ _ _ => Expr.Pos f
end

/-- Modelled from the spec: method `Pos()` of a declaration node. -/
def ast.Decl.Pos : Decl → Position
  | .BadDecl pos => pos
  | .GenDecl _ pos _ _ _ _ => pos
  | .FuncDecl _ _ _ t _ => t.Pos

/-- Modelled from the spec: method `Pos()` of a statement node; `none` is the
index panic of `s.Lhs[0]` on an assignment without left-hand side, or of the
expression the statement starts with. -/
def ast.Stmt.Pos : Stmt → Option Position
  | .BadStmt pos => some pos
  | .DeclStmt d => some d.Pos
  | .EmptyStmt pos => some pos
  | .LabeledStmt l _ => some l.pos
  | .ExprStmt X => X.Pos
  | .IncDecStmt X _ => X.Pos
  | .AssignStmt [] _ _ _ => none
  | .AssignStmt (x :: _) _ _ _ => x.Pos
  | .GoStmt pos _ => some pos
  | .DeferStmt pos _ => some pos
  | .ReturnStmt pos _ => some pos
  | .BranchStmt pos _ _ => some pos
  | .BlockStmt b => some b.Pos
  | .IfStmt pos _ _ _ _ => some pos
  | .CaseClause pos _ _ _ => some pos
  | .SwitchStmt pos _ _ _ => some pos
  | .TypeCaseClause pos _ _ _ => some pos
  | .TypeSwitchStmt pos _ _ _ => some pos
  | .CommClause pos _ _ _ _ _ => some pos
  | .SelectStmt pos _ => some pos
  | .ForStmt pos _ _ _ _ => some pos
  | .RangeStmt pos _ _ _ _ _ _ => some pos

mutual
/-- Function `needsBlanks`. -/
def needsBlanks : Expr → Bool
  | .Ident x => decide (x.Value.length > 12)
  | .BasicLit x => decide (x.Value.length > 6)
  | .ParenExpr _ _ _ => false
  | .CallExpr x => needsBlanksCall x
  | _ => true
/-- The `*ast.CallExpr` case of `needsBlanks`. -/
def needsBlanksCall : CallExpr → Bool
  | .mk f _ [] _ => needsBlanks f
  | .mk f _ [a] _ => needsBlanks f || needsBlanks a
  | .mk _ _ (_ :: _ :: _) _ => true
end

/-! ## The walk over the AST -/

/-- One call made by the AST walk on the printer. -/
inductive Op
  | print (args : List Item)
  | leadComment (d : Option CommentGroup)
  | lineComment (d : Option CommentGroup)
  | levelInc
  | levelDec
  | crash (msg : String)
  deriving DecidableEq, Repr

/-- A walk: its result and the calls it makes on the printer, in order. -/
structure Walk (α : Type) where
  val : α
  ops : List Op

instance : Monad Walk where
  pure a := ⟨a, []⟩
  bind m f := match f m.val with
    | ⟨b, ops⟩ => ⟨b, m.ops ++ ops⟩

namespace Walk

/-- Call `p.print(args...)`. -/
def print (args : List Item) : Walk Unit := ⟨(), [Op.print args]⟩
/-- Call `p.leadComment(d)`. -/
def leadComment (d : Option CommentGroup) : Walk Unit := ⟨(), [Op.leadComment d]⟩
/-- Call `p.lineComment(d)`. -/
def lineComment (d : Option CommentGroup) : Walk Unit := ⟨(), [Op.lineComment d]⟩
/-- Statement `p.level++`. -/
def levelInc : Walk Unit := ⟨(), [Op.levelInc]⟩
/-- Statement `p.level--`. -/
def levelDec : Walk Unit := ⟨(), [Op.levelDec]⟩
/-- A run-time panic of the walk. -/
def crash (msg : String) : Walk Unit := ⟨(), [Op.crash msg]⟩
/-- Call `p.print(x.Pos())`; `none` is a `Pos()` that panics. -/
def printPos (pos : Option Position) : Walk Unit :=
  match pos with
  | some pos => print [.position pos]
  | none => crash "index out of range"

end Walk

namespace printer

/-- Execute one call of the walk. -/
def runOp (p : printer) : Op → Except String printer
  | .print args => p.print args
  | .leadComment d => p.leadComment d
  | .lineComment d => p.lineComment d
  | .levelInc => .ok { p with level := p.level + 1 }
  | .levelDec => .ok { p with level := p.level - 1 }
  | .crash msg => .error msg

/-- Execute the calls of a walk in order. -/
def run (p : printer) : List Op → Except String printer
  | [] => .ok p
  | op :: rest =>
    match p.runOp op with
    | .error e => .error e
    | .ok p => run p rest

end printer

open Walk

/-- An expression as `exprList` sees it: its `Pos()` and the walk `p.expr(x)`. -/
structure ExprW where
  Pos : Option Position
  expr : Walk Bool

/-- A field as `parameters`, `signature` and `fieldList` see it; `Typ` is the
walk `p.expr(f.Type)`, `Ftyp` is the walk `p.signature(ftyp.Params, ftyp.Results)`
when `f.Type` is a `*ast.FuncType`. -/
structure FieldW where
  Doc : Option CommentGroup
  Names : Option (List Ident)
  Typ : Walk Bool
  Ftyp : Option (Walk Bool)
  Tag : Option (List BasicLit)
  Comment : Option CommentGroup

/-- A block as `block` and `switchBlock` see it; `List` holds the walks
`p.stmt(s)` of its statements. -/
structure BlockW where
  Pos : Position
  List : List (Walk Bool)
  Rbrace : Position

/-- Mode flag `blankStart` of `exprList`. -/
def blankStart : Nat := 1
/-- Mode flag `commaSep` of `exprList`. -/
def commaSep : Nat := 2
/-- Mode flag `commaTerm` of `exprList`. -/
def commaTerm : Nat := 4

/-- The loop of `exprList` for a list on a single line. -/
def exprListLine (mode : Nat) : Nat → List ExprW → Walk Unit
  | _, [] => pure ()
  | i, x :: rest => do
    if i > 0 then
      if mode &&& commaSep ≠ 0 then
        print [.token .COMMA]
      print [.whiteSpace .blank]
    let _ ← x.expr
    exprListLine mode (i + 1) rest

/-- The loop of `exprList` for a list that spans several lines. -/
def exprListLines (mode : Nat) : Nat → Int → List ExprW → Walk Unit
  | _, _, [] => pure ()
  | i, line, x :: rest =>
    match x.Pos with
    | none => crash "index out of range"
    | some pos => do
      let prev := line
      let line := pos.Line
      if i > 0 then
        if mode &&& commaSep ≠ 0 then
          print [.token .COMMA]
        if prev < line then
          print [.whiteSpace .newline]
        else
          print [.whiteSpace .blank]
      let _ ← x.expr
      exprListLines mode (i + 1) line rest

/-- Method `exprList`. -/
def exprList (list : List ExprW) (mode : Nat) : Walk Unit :=
  match list.head?, list.getLast? with
  | some first, some last =>
    match first.Pos, last.Pos with
    | some pos0, some posn =>
      if pos0.Line = posn.Line then do
        if mode &&& blankStart ≠ 0 then
          print [.whiteSpace .blank]
        exprListLine mode 0 list
      else do
        print [.int 1, .whiteSpace .formfeed]
        exprListLines mode 0 pos0.Line list
        if mode &&& commaTerm ≠ 0 then
          print [.token .COMMA]
        print [.int (-1), .whiteSpace .formfeed]
    | _, _ => crash "index out of range"
  | _, _ => pure ()

/-- The walk `p.expr(x)` for an `*ast.Ident`. -/
def exprIdent (x : Ident) : Walk Bool := do
  print [.position x.pos]
  print [.string x.Value]
  return false

/-- The walk `p.expr(x)` for an `*ast.BasicLit`. -/
def exprBasicLit (x : BasicLit) : Walk Bool := do
  print [.position x.pos]
  print [.bytes x.Value]
  return false

/-- Method `identList`. -/
def identList (list : List Ident) : Walk Unit :=
  exprList (list.map fun x => ⟨some x.pos, exprIdent x⟩) commaSep

/-- Method `stringList`. -/
def stringList (list : List BasicLit) : Walk Unit :=
  exprList (list.map fun x => ⟨some x.pos, exprBasicLit x⟩) 0

/-- The walk `p.expr(&ast.StringList{list})`. -/
def exprStringList (list : List BasicLit) : Walk Bool := do
  printPos (Expr.StringList list).Pos
  stringList list
  return false

/-- The names of a field; a nil slice has no element. -/
def namesOf (names : Option (List Ident)) : List Ident := names.getD []

/-- The loop of `parameters`. -/
def parametersLoop : Nat → List FieldW → Walk Unit
  | _, [] => pure ()
  | i, par :: rest => do
    if i > 0 then
      print [.token .COMMA, .whiteSpace .blank]
    identList (namesOf par.Names)
    if (namesOf par.Names).length > 0 then
      print [.whiteSpace .blank]
    let _ ← par.Typ
    parametersLoop (i + 1) rest

/-- Method `parameters`. -/
def parameters (list : List FieldW) : Walk Unit := do
  print [.token .LPAREN]
  if list.length > 0 then
    levelInc
    parametersLoop 0 list
    levelDec
  print [.token .RPAREN]

/-- Method `signature`. -/
def signature (params : List FieldW) (result : Option (List FieldW)) : Walk Bool := do
  parameters params
  match result with
  | none => return false
  | some result =>
    print [.whiteSpace .blank]
    match result with
    | [f] =>
      if f.Names.isNone ∧ f.Ftyp.isNone then
        let optSemi ← f.Typ
        return optSemi
      else
        parameters result
        return false
    | _ =>
      parameters result
      return false

/-- Function `separator`. -/
def separator (useTab : Bool) : whiteSpace :=
  if useTab then whiteSpace.tab else whiteSpace.blank

/-- The loop of `fieldList` over the fields of a struct; `n` is `len(list)`. -/
def fieldListStruct (sep : whiteSpace) (n : Nat) (isIncomplete : Bool) :
    Nat → List FieldW → Walk Unit
  | _, [] => pure ()
  | i, f :: rest => do
    leadComment f.Doc
    if (namesOf f.Names).length > 0 then
      identList (namesOf f.Names)
      print [.whiteSpace sep]
    let _ ← f.Typ
    match f.Tag with
    | some tag =>
      print [.whiteSpace sep]
      let _ ← exprStringList tag
    | none => pure ()
    print [.token .SEMICOLON]
    lineComment f.Comment
    if i + 1 < n ∨ isIncomplete then
      print [.whiteSpace .newline]
    fieldListStruct sep n isIncomplete (i + 1) rest

/-- The loop of `fieldList` over the methods of an interface. -/
def fieldListInterface (n : Nat) (isIncomplete : Bool) : Nat → List FieldW → Walk Unit
  | _, [] => pure ()
  | i, f :: rest => do
    leadComment f.Doc
    identList (namesOf f.Names)
    if (namesOf f.Names).length > 1 then
      print [.whiteSpace .blank]
    match f.Ftyp with
    | some sig => let _ ← sig
    | none => let _ ← f.Typ
    print [.token .SEMICOLON]
    lineComment f.Comment
    if i + 1 < n ∨ isIncomplete then
      print [.whiteSpace .newline]
    fieldListInterface n isIncomplete (i + 1) rest

/-- Method `fieldList`. -/
def fieldList (lbrace : Position) (list : List FieldW) (rbrace : Position)
    (isIncomplete isStruct : Bool) : Walk Unit :=
  if list.length = 0 ∧ ¬ isIncomplete then
    print [.position lbrace, .token .LBRACE, .position rbrace, .token .RBRACE]
  else do
    print [.whiteSpace .blank, .position lbrace, .token .LBRACE, .int 1, .whiteSpace .formfeed]
    if isStruct then
      let sep := separator (decide (list.length > 1))
      fieldListStruct sep list.length isIncomplete 0 list
      if isIncomplete then
        print [.string "// contains unexported fields".toList]
    else
      fieldListInterface list.length isIncomplete 0 list
      if isIncomplete then
        print [.string "// contains unexported methods".toList]
    print [.int (-1), .whiteSpace .formfeed, .position rbrace, .token .RBRACE]

/-- The loop of `binaryExpr` that walks the left spine: the argument is `x.X`,
`list` is the vector of the nodes pushed so far (the last pushed first, each
with its `OpPos`, `Op` and `Y`), the result is the vector, the leftmost operand
and `printBlanks`. -/
def binaryExprCollect (prec : Nat) :
    Expr → List (Position × Token × Expr) → Bool → List (Position × Token × Expr) × Expr × Bool
  | .BinaryExpr X OpPos Op Y, list, printBlanks =>
    if Op.Precedence = prec then
      binaryExprCollect prec X ((OpPos, Op, Y) :: list) (printBlanks || needsBlanks Y)
    else (list, .BinaryExpr X OpPos Op Y, printBlanks)
  | x, list, printBlanks => (list, x, printBlanks)

/-- The value of `printBlanks` of `binaryExpr` for the node `x` of precedence
`prec`, after the loop and the test of the leftmost operand. -/
def binaryExprBlanks (prec : Nat) (X : Expr) (OpPos : Position) (Op : Token) (Y : Expr) : Bool :=
  let r := binaryExprCollect prec X [(OpPos, Op, Y)]
    (decide (prec ≤ Token.EQL.Precedence) || needsBlanks Y)
  r.2.2 || needsBlanks r.2.1

/-- The operator of `binaryExpr`, with or without blanks. -/
def binaryExprOp (printBlanks : Bool) (OpPos : Position) (Op : Token) : Walk Unit :=
  if printBlanks then
    print [.whiteSpace .blank, .position OpPos, .token Op, .whiteSpace .blank]
  else
    print [.position OpPos, .token Op]

/-- The loop of `stmtList`; the result is the last `optSemi`. -/
def stmtListLoop : Nat → Bool → List (Walk Bool) → Walk Bool
  | _, optSemi, [] => pure optSemi
  | i, optSemi, s :: rest => do
    if i > 0 then
      if !optSemi then
        print [.token .SEMICOLON]
      print [.whiteSpace .newline]
    let optSemi ← s
    stmtListLoop (i + 1) optSemi rest

/-- Method `stmtList`. -/
def stmtList (list : List (Walk Bool)) : Walk Unit := do
  if list.length > 0 then
    print [.int 1, .whiteSpace .formfeed]
    let optSemi ← stmtListLoop 0 false list
    if !optSemi then
      print [.token .SEMICOLON]
    print [.int (-1)]

/-- Method `block`. -/
def block (s : BlockW) : Walk Unit := do
  print [.position s.Pos, .token .LBRACE]
  if s.List.length > 0 then
    stmtList s.List
    print [.whiteSpace .formfeed]
  print [.position s.Rbrace, .token .RBRACE]

/-- The loop of `switchBlock`. -/
def switchBlockLoop : List (Walk Bool) → Walk Unit
  | [] => pure ()
  | s :: rest => do
    print [.whiteSpace .formfeed]
    let _ ← s
    switchBlockLoop rest

/-- Method `switchBlock`. -/
def switchBlock (s : BlockW) : Walk Unit := do
  print [.position s.Pos, .token .LBRACE]
  if s.List.length > 0 then
    switchBlockLoop s.List
    print [.whiteSpace .formfeed]
  print [.position s.Rbrace, .token .RBRACE]

/-- The walk `p.stmt(s)` for a `*ast.BlockStmt`. -/
def stmtBlock (s : BlockW) : Walk Bool := do
  print [.position s.Pos]
  block s
  return true

/-- Method `controlClause`; `init`, `expr` and `post` are the walks `p.stmt(init)`,
`p.expr(expr)` and `p.stmt(post)`, `none` for `nil`. -/
def controlClause (isForStmt : Bool) (init : Option (Walk Bool)) (expr : Option (Walk Bool))
    (post : Option (Walk Bool)) : Walk Unit :=
  if init.isNone ∧ post.isNone then
    match expr with
    | some expr => do
      print [.whiteSpace .blank]
      let _ ← expr
    | none => pure ()
  else do
    print [.whiteSpace .blank]
    match init with
    | some init => let _ ← init
    | none => pure ()
    print [.token .SEMICOLON, .whiteSpace .blank]
    match expr with
    | some expr => let _ ← expr
    | none => pure ()
    if isForStmt then
      print [.token .SEMICOLON, .whiteSpace .blank]
      match post with
      | some post => let _ ← post
      | none => pure ()

/-- Function `countImportRenames`; `none` is the panic of the type assertion
`s.(*ast.ImportSpec)`. -/
def countImportRenames : List Spec → Option Nat
  | [] => some 0
  | .ImportSpec _ Name _ _ :: rest =>
    match countImportRenames rest with
    | some n => some (if Name.isSome then n + 1 else n)
    | none => none
  | _ :: _ => none

/-- Function `countValueTypes`; `none` is the panic of the type assertion
`s.(*ast.ValueSpec)`. -/
def countValueTypes : List Spec → Option Nat
  | [] => some 0
  | .ValueSpec _ _ Typ _ _ :: rest =>
    match countValueTypes rest with
    | some n => some (if Typ.isSome then n + 1 else n)
    | none => none
  | _ :: _ => none

/-- The loop of `decl` over the specs of a parenthesized group; each element is
the walk `p.spec(s, m, len(d.Specs))`, the result is the last `comment`. -/
def declSpecs : Nat → Option CommentGroup → List (Walk (Option CommentGroup × Bool)) →
    Walk (Option CommentGroup)
  | _, comment, [] => pure comment
  | i, comment, s :: rest => do
    if i > 0 then
      print [.token .SEMICOLON]
      lineComment comment
      print [.whiteSpace .newline]
    let r ← s
    declSpecs (i + 1) r.1 rest

mutual

/-- Method `expr1`, after `p.print(expr.Pos())`: the type switch.

`binaryExpr` is written recursively: the source pushes the nodes of the left
spine on a vector and pops them, which visits them leftmost first; here
`binaryExprSpine` descends the spine and prints each operator and right operand
on the way back. A call `p.expr(x)` on the node being printed (the
parenthesized cases of `binaryExpr` and `UnaryExpr`) is `p.print(x.Pos())`
followed by the unparenthesized case, since no precedence is below
`LowestPrec`. -/
def expr1 (expr : Expr) (prec1 : Nat) : Walk Bool :=
  match expr with
  | .BadExpr pos => do
    printPos (some pos)
    print [.string "BadExpr".toList]
    return false
  | .Ident x => do
    printPos (some x.pos)
    print [.string x.Value]
    return false
  | .BinaryExpr X OpPos Op Y => do
    printPos X.Pos
    let prec := Op.Precedence
    let printBlanks := binaryExprBlanks prec X OpPos Op Y
    let chain : Walk Unit := do
      match X with
      | .BinaryExpr _ _ Op1 _ =>
        if Op1.Precedence = prec then binaryExprSpine printBlanks prec X
        else let _ ← expr1 X prec
      | _ => let _ ← expr1 X prec
      binaryExprOp printBlanks OpPos Op
      let _ ← expr1 Y prec
    if prec < prec1 then
      print [.token .LPAREN]
      printPos X.Pos
      chain
      print [.token .RPAREN]
    else
      chain
    return false
  | .KeyValueExpr Key Colon Value => do
    printPos Key.Pos
    let _ ← expr1 Key LowestPrec
    print [.position Colon, .token .COLON, .whiteSpace .blank]
    let _ ← expr1 Value LowestPrec
    return false
  | .StarExpr pos X => do
    printPos (some pos)
    print [.token .MUL]
    let optSemi ← expr1 X LowestPrec
    return optSemi
  | .UnaryExpr pos Op X => do
    printPos (some pos)
    let body : Walk Unit := do
      print [.token Op]
      if Op = .RANGE then
        print [.whiteSpace .blank]
      let _ ← expr1 X UnaryPrec
    if UnaryPrec < prec1 then
      print [.token .LPAREN]
      printPos (some pos)
      body
      print [.token .RPAREN]
    else
      body
    return false
  | .BasicLit x => do
    printPos (some x.pos)
    print [.bytes x.Value]
    return false
  | .StringList Strings => do
    printPos (Expr.StringList Strings).Pos
    stringList Strings
    return false
  | .FuncLit Typ Body => do
    printPos (some Typ.Pos)
    printPos (some Typ.Pos)
    let _ ← funcType Typ
    print [.whiteSpace .blank]
    levelInc
    let _ ← stmtBlock (blockW Body)
    levelDec
    return false
  | .ParenExpr pos X Rparen => do
    printPos (some pos)
    print [.token .LPAREN]
    let _ ← expr1 X LowestPrec
    print [.position Rparen, .token .RPAREN]
    return false
  | .SelectorExpr X Sel => do
    printPos X.Pos
    let _ ← expr1 X HighestPrec
    print [.token .PERIOD]
    let _ ← exprIdent Sel
    return false
  | .TypeAssertExpr X Typ => do
    printPos X.Pos
    let _ ← expr1 X HighestPrec
    print [.token .PERIOD, .token .LPAREN]
    match Typ with
    | some t => let _ ← expr1 t LowestPrec
    | none => print [.token .TYPE]
    print [.token .RPAREN]
    return false
  | .IndexExpr X Index End => do
    printPos X.Pos
    let _ ← expr1 X HighestPrec
    print [.token .LBRACK]
    let _ ← expr1 Index LowestPrec
    match End with
    | some e =>
      if needsBlanks Index || needsBlanks e then
        print [.whiteSpace .blank, .token .COLON, .whiteSpace .blank]
      else
        print [.token .COLON]
      let _ ← expr1 e LowestPrec
    | none => pure ()
    print [.token .RBRACK]
    return false
  | .CallExpr x => do
    printPos x.Pos
    callExpr x
    return false
  | .CompositeLit Typ Lbrace Elts Rbrace => do
    printPos Typ.Pos
    let _ ← expr1 Typ HighestPrec
    print [.position Lbrace, .token .LBRACE]
    exprList (exprs Elts) (commaSep ||| commaTerm)
    print [.position Rbrace, .token .RBRACE]
    return false
  | .Ellipsis pos => do
    printPos (some pos)
    print [.token .ELLIPSIS]
    return false
  | .ArrayType pos Len Elt => do
    printPos (some pos)
    print [.token .LBRACK]
    match Len with
    | some l => let _ ← expr1 l LowestPrec
    | none => pure ()
    print [.token .RBRACK]
    let optSemi ← expr1 Elt LowestPrec
    return optSemi
  | .StructType pos Lbrace Fields Rbrace Incomplete => do
    printPos (some pos)
    print [.token .STRUCT]
    fieldList Lbrace (fields Fields) Rbrace Incomplete true
    return true
  | .FuncType x => do
    printPos (some x.Pos)
    let optSemi ← funcType x
    return optSemi
  | .InterfaceType pos Lbrace Methods Rbrace Incomplete => do
    printPos (some pos)
    print [.token .INTERFACE]
    fieldList Lbrace (fields Methods) Rbrace Incomplete false
    return true
  | .MapType pos Key Value => do
    printPos (some pos)
    print [.token .MAP, .token .LBRACK]
    let _ ← expr1 Key LowestPrec
    print [.token .RBRACK]
    let optSemi ← expr1 Value LowestPrec
    return optSemi
  | .ChanType pos Dir Value => do
    printPos (some pos)
    if Dir = ast.SEND ||| ast.RECV then
      print [.token .CHAN]
    else if Dir = ast.RECV then
      print [.token .ARROW, .token .CHAN]
    else if Dir = ast.SEND then
      print [.token .CHAN, .token .ARROW]
    print [.whiteSpace .blank]
    let optSemi ← expr1 Value LowestPrec
    return optSemi

/-- The second loop of `binaryExpr` for the node `x` of the left spine: the
operands and operators up to and including `x.Y`. -/
def binaryExprSpine (printBlanks : Bool) (prec : Nat) : Expr → Walk Unit
  | .BinaryExpr X OpPos Op Y => do
    match X with
    | .BinaryExpr _ _ Op1 _ =>
      if Op1.Precedence = prec then binaryExprSpine printBlanks prec X
      else let _ ← expr1 X prec
    | _ => let _ ← expr1 X prec
    binaryExprOp printBlanks OpPos Op
    let _ ← expr1 Y prec
  | _ => pure ()

/-- The elements of an expression list as `exprList` sees them. -/
def exprs : List Expr → List ExprW
  | [] => []
  | x :: rest => ⟨x.Pos, expr1 x LowestPrec⟩ :: exprs rest

/-- The case `*ast.CallExpr` of `expr1`. -/
def callExpr : CallExpr → Walk Unit
  | .mk Fun Lparen Args Rparen => do
    let _ ← expr1 Fun HighestPrec
    print [.position Lparen, .token .LPAREN]
    exprList (exprs Args) commaSep
    print [.position Rparen, .token .RPAREN]

/-- The case `*ast.FuncType` of `expr1`. -/
def funcType : FuncType → Walk Bool
  | .mk _ Params Results => do
    print [.token .FUNC]
    let optSemi ← signature (fields Params)
      (match Results with
       | some l => some (fields l)
       | none => none)
    return optSemi

/-- A field as the printer sees it. -/
def fieldW : ast.Field → FieldW
  | .mk Doc Names Typ Tag Comment =>
    { Doc := Doc, Names := Names, Typ := expr1 Typ LowestPrec,
      Ftyp :=
        match Typ with
        | .FuncType (.mk _ Params Results) =>
          some (signature (fields Params)
            (match Results with
             | some l => some (fields l)
             | none => none))
        | _ => none,
      Tag := Tag, Comment := Comment }

/-- The fields of a field list as the printer sees them. -/
def fields : List ast.Field → List FieldW
  | [] => []
  | f :: rest => fieldW f :: fields rest

/-- A block as the printer sees it. -/
def blockW : BlockStmt → BlockW
  | .mk pos list Rbrace => { Pos := pos, List := stmts list, Rbrace := Rbrace }

/-- The walks `p.stmt(s)` of the statements of a list. -/
def stmts : List Stmt → List (Walk Bool)
  | [] => []
  | s :: rest => stmt s :: stmts rest

/-- Method `stmt`. -/
def stmt (stmt_ : Stmt) : Walk Bool :=
  match stmt_ with
  | .BadStmt pos => do
    printPos (some pos)
    print [.string "BadStmt".toList]
    return false
  | .DeclStmt d => do
    printPos (some d.Pos)
    let r ← decl d
    match r.1 with
    | some comment =>
      lineComment (some comment)
      print [.whiteSpace .newline]
    | none => pure ()
    return r.2
  | .EmptyStmt pos => do
    printPos (some pos)
    return false
  | .LabeledStmt Label s => do
    printPos (some Label.pos)
    print [.int (-1), .whiteSpace .formfeed]
    let _ ← exprIdent Label
    print [.token .COLON, .whiteSpace .tab, .int 1, .whiteSpace .formfeed]
    let optSemi ← stmt s
    return optSemi
  | .ExprStmt X => do
    printPos X.Pos
    let _ ← expr1 X LowestPrec
    return false
  | .IncDecStmt X Tok => do
    printPos X.Pos
    let _ ← expr1 X LowestPrec
    print [.token Tok]
    return false
  | .AssignStmt Lhs TokPos Tok Rhs => do
    printPos (Stmt.AssignStmt Lhs TokPos Tok Rhs).Pos
    exprList (exprs Lhs) commaSep
    print [.whiteSpace .blank, .position TokPos, .token Tok]
    exprList (exprs Rhs) (blankStart ||| commaSep)
    return false
  | .GoStmt pos Call => do
    printPos (some pos)
    print [.token .GO, .whiteSpace .blank]
    printPos Call.Pos
    callExpr Call
    return false
  | .DeferStmt pos Call => do
    printPos (some pos)
    print [.token .DEFER, .whiteSpace .blank]
    printPos Call.Pos
    callExpr Call
    return false
  | .ReturnStmt pos Results => do
    printPos (some pos)
    print [.token .RETURN]
    match Results with
    | some l => exprList (exprs l) (blankStart ||| commaSep)
    | none => pure ()
    return false
  | .BranchStmt pos Tok Label => do
    printPos (some pos)
    print [.token Tok]
    match Label with
    | some l =>
      print [.whiteSpace .blank]
      let _ ← exprIdent l
    | none => pure ()
    return false
  | .BlockStmt b => do
    printPos (some b.Pos)
    block (blockW b)
    return true
  | .IfStmt pos Init Cond Body Else => do
    printPos (some pos)
    print [.token .IF]
    controlClause false
      (match Init with
       | some s => some (stmt s)
       | none => none)
      (match Cond with
       | some x => some (expr1 x LowestPrec)
       | none => none)
      none
    print [.whiteSpace .blank]
    block (blockW Body)
    match Else with
    | some s =>
      print [.whiteSpace .blank, .token .ELSE, .whiteSpace .blank]
      let optSemi ← stmt s
      return optSemi
    | none => return true
  | .CaseClause pos Values Colon Body => do
    printPos (some pos)
    match Values with
    | some l =>
      print [.token .CASE]
      exprList (exprs l) (blankStart ||| commaSep)
    | none => print [.token .DEFAULT]
    print [.position Colon, .token .COLON]
    stmtList (stmts Body)
    return false
  | .SwitchStmt pos Init Tag Body => do
    printPos (some pos)
    print [.token .SWITCH]
    controlClause false
      (match Init with
       | some s => some (stmt s)
       | none => none)
      (match Tag with
       | some x => some (expr1 x LowestPrec)
       | none => none)
      none
    print [.whiteSpace .blank]
    switchBlock (blockW Body)
    return true
  | .TypeCaseClause pos Types Colon Body => do
    printPos (some pos)
    match Types with
    | some l =>
      print [.token .CASE]
      exprList (exprs l) (blankStart ||| commaSep)
    | none => print [.token .DEFAULT]
    print [.position Colon, .token .COLON]
    stmtList (stmts Body)
    return false
  | .TypeSwitchStmt pos Init Assign Body => do
    printPos (some pos)
    print [.token .SWITCH]
    match Init with
    | some s =>
      print [.whiteSpace .blank]
      let _ ← stmt s
      print [.token .SEMICOLON]
    | none => pure ()
    print [.whiteSpace .blank]
    let _ ← stmt Assign
    print [.whiteSpace .blank]
    switchBlock (blockW Body)
    return true
  | .CommClause pos Tok Lhs Rhs Colon Body => do
    printPos (some pos)
    match Rhs with
    | some rhs =>
      print [.token .CASE, .whiteSpace .blank]
      match Lhs with
      | some lhs =>
        let _ ← expr1 lhs LowestPrec
        print [.whiteSpace .blank, .token Tok, .whiteSpace .blank]
      | none => pure ()
      let _ ← expr1 rhs LowestPrec
    | none => print [.token .DEFAULT]
    print [.position Colon, .token .COLON]
    stmtList (stmts Body)
    return false
  | .SelectStmt pos Body => do
    printPos (some pos)
    print [.token .SELECT, .whiteSpace .blank]
    switchBlock (blockW Body)
    return true
  | .ForStmt pos Init Cond Post Body => do
    printPos (some pos)
    print [.token .FOR]
    controlClause true
      (match Init with
       | some s => some (stmt s)
       | none => none)
      (match Cond with
       | some x => some (expr1 x LowestPrec)
       | none => none)
      (match Post with
       | some s => some (stmt s)
       | none => none)
    print [.whiteSpace .blank]
    block (blockW Body)
    return true
  | .RangeStmt pos Key Value TokPos Tok X Body => do
    printPos (some pos)
    print [.token .FOR, .whiteSpace .blank]
    let _ ← expr1 Key LowestPrec
    match Value with
    | some v =>
      print [.token .COMMA, .whiteSpace .blank]
      let _ ← expr1 v LowestPrec
    | none => pure ()
    print [.whiteSpace .blank, .position TokPos, .token Tok, .whiteSpace .blank,
      .token .RANGE, .whiteSpace .blank]
    let _ ← expr1 X LowestPrec
    print [.whiteSpace .blank]
    block (blockW Body)
    return true

/-- Method `spec`; the result is `(comment, optSemi)`. -/
def spec (spec_ : Spec) (m n : Nat) : Walk (Option CommentGroup × Bool) :=
  let sep := separator (decide (n > 1))
  match spec_ with
  | .ImportSpec Doc Name Path Comment => do
    leadComment Doc
    if m > 0 then
      match Name with
      | some name => let _ ← exprIdent name
      | none => pure ()
      print [.whiteSpace sep]
    let _ ← exprStringList Path
    return (Comment, false)
  | .ValueSpec Doc Names Typ Values Comment => do
    leadComment Doc
    identList Names
    let mut optSemi := false
    if m > 0 then
      match Typ with
      | some t =>
        print [.whiteSpace sep]
        optSemi ← expr1 t LowestPrec
      | none =>
        if Values.isSome then
          print [.whiteSpace sep]
    match Values with
    | some l =>
      print [.whiteSpace sep, .token .ASSIGN]
      exprList (exprs l) (blankStart ||| commaSep)
      optSemi := false
    | none => pure ()
    return (Comment, optSemi)
  | .TypeSpec Doc Name Typ Comment => do
    leadComment Doc
    let _ ← exprIdent Name
    print [.whiteSpace sep]
    let optSemi ← expr1 Typ LowestPrec
    return (Comment, optSemi)

/-- The walks `p.spec(s, m, n)` of the specs of a group. -/
def specs (m n : Nat) : List Spec → List (Walk (Option CommentGroup × Bool))
  | [] => []
  | s :: rest => spec s m n :: specs m n rest

/-- Method `decl`; the result is `(comment, optSemi)`. -/
def decl (decl_ : Decl) : Walk (Option CommentGroup × Bool) :=
  match decl_ with
  | .BadDecl pos => do
    print [.position pos, .string "BadDecl".toList]
    return (none, false)
  | .GenDecl Doc pos Tok Lparen Specs Rparen => do
    leadComment Doc
    print [.lineTag pos, .token Tok, .whiteSpace .blank]
    let m : Option Nat :=
      match Tok with
      | .IMPORT => countImportRenames Specs
      | .CONST => countValueTypes Specs
      | .VAR => countValueTypes Specs
      | _ => some 0
    match m with
    | none =>
      crash "interface conversion"
      return (none, false)
    | some m =>
      if Lparen.IsValid then
        print [.position Lparen, .token .LPAREN]
        if Specs.length > 0 then
          print [.int 1, .whiteSpace .formfeed]
          let comment ← declSpecs 0 none (specs m Specs.length Specs)
          print [.token .SEMICOLON]
          lineComment comment
          print [.int (-1), .whiteSpace .formfeed]
        print [.position Rparen, .token .RPAREN]
        return (none, true)
      else
        match Specs with
        | s :: _ =>
          let r ← spec s m 1
          return r
        | [] =>
          crash "index out of range"
          return (none, false)
  | .FuncDecl Doc Recv Name Typ Body => do
    leadComment Doc
    print [.lineTag Typ.Pos, .token .FUNC, .whiteSpace .blank]
    match Recv with
    | some (.mk _ Names RecvTyp _ _) =>
      print [.token .LPAREN]
      match namesOf Names with
      | name :: _ =>
        let _ ← exprIdent name
        print [.whiteSpace .blank]
      | [] => pure ()
      let _ ← expr1 RecvTyp LowestPrec
      print [.token .RPAREN, .whiteSpace .blank]
    | none => pure ()
    let _ ← exprIdent Name
    let _ ← funcSignature Typ
    match Body with
    | some b =>
      print [.whiteSpace .blank]
      levelInc
      let _ ← stmtBlock (blockW b)
      levelDec
    | none => pure ()
    return (none, false)

/-- The call `p.signature(t.Params, t.Results)` for a `*ast.FuncType`. -/
def funcSignature : FuncType → Walk Bool
  | .mk _ Params Results =>
    signature (fields Params)
      (match Results with
       | some l => some (fields l)
       | none => none)

end

/-- Method `expr`. -/
def expr (x : Expr) : Walk Bool := expr1 x LowestPrec

/-- The loop of `file` over the declarations. -/
def fileDecls : List Decl → Walk Unit
  | [] => pure ()
  | d :: rest => do
    print [.whiteSpace .newline, .whiteSpace .newline]
    let r ← decl d
    lineComment r.1
    fileDecls rest

/-- Method `file`. -/
def file (src : File) : Walk Unit := do
  leadComment src.Doc
  print [.position src.pos, .token .PACKAGE, .whiteSpace .blank]
  let _ ← exprIdent src.Name
  fileDecls src.Decls
  print [.whiteSpace .newline]

/-- Variable `inf`. -/
def inf : Position := { Offset := 2 ^ 30, Line := 2 ^ 30, Column := 0 }

/-- What `Fprint` returns, together with the bytes written to `p.output`
(the sink in `RawFormat` mode, the tabwriter in front of it otherwise). -/
structure FprintResult where
  written : Nat
  err : Option String
  output : List Char
  deriving DecidableEq, Repr

/-- The calls the goroutine of `Fprint` makes for a node; `none` for a node of
unsupported type. -/
def nodeOps : Node → Option (List Op)
  | .Expr n => some (expr n).ops
  | .Stmt n => some (stmt n).ops
  | .Decl n => some (do let r ← decl n; lineComment r.1 : Walk Unit).ops
  | .File n => some (file n).ops
  | .other => none

/-- The comment list the goroutine of `Fprint` installs (`p.comment = n.Comments`
for a file). -/
def nodeComments : Node → List CommentGroup
  | .File n => n.Comments
  | _ => []

/-- The printer state when the goroutine of `Fprint` has printed the node and
called `p.flush(inf)`. -/
def Fprint.final (node : Node) (mode : Nat) : Except String printer :=
  match nodeOps node with
  | none => .ok (printer.init mode)
  | some ops =>
    match ({ printer.init mode with comment := nodeComments node }).run ops with
    | .error e => .error e
    | .ok p => p.flush inf

/-- Function `Fprint`: `.error` is a run-time panic, otherwise the count
`p.written`, the error received from `p.errors` and the bytes written. -/
def Fprint (node : Node) (mode : Nat) : Except String FprintResult :=
  match nodeOps node with
  | none => .ok { written := 0, err := some "unsupported node type", output := [] }
  | some _ =>
    match Fprint.final node mode with
    | .error e => .error e
    | .ok p => .ok { written := p.written, err := none, output := p.output }

/-! ## What `write` does, byte by byte -/

/-- The bytes `write` sends to the sink for one byte `b` of its data: a line
break (a newline instead of a formfeed in `RawFormat` mode) followed by `indent`
tabs, the entity of `&`, `<`, `>` in `GenHTML` mode, the byte itself otherwise. -/
def encByte (mode indent : Nat) (b : Char) : List Char :=
  if b = '\n' ∨ b = '\x0c' then
    (if mode &&& RawFormat ≠ 0 ∧ b = '\x0c' then '\n' else b) :: List.replicate indent '\t'
  else if mode &&& GenHTML ≠ 0 ∧ b = '&' then ampersand
  else if mode &&& GenHTML ≠ 0 ∧ b = '<' then lessthan
  else if mode &&& GenHTML ≠ 0 ∧ b = '>' then greaterthan
  else [b]

/-- The bytes `write` sends to the sink for `data`. -/
def enc (mode indent : Nat) (data : List Char) : List Char :=
  data.flatMap (encByte mode indent)

/-- The position after one byte `b` of data. -/
def advanceByte (indent : Nat) (pos : Position) (b : Char) : Position :=
  if b = '\n' ∨ b = '\x0c' then
    { Offset := pos.Offset + 1 + (indent : Int), Line := pos.Line + 1,
      Column := (indent : Int) + 1 }
  else { Offset := pos.Offset + 1, Line := pos.Line, Column := pos.Column + 1 }

/-- The position after `data`. -/
def advance (indent : Nat) (pos : Position) (data : List Char) : Position :=
  data.foldl (advanceByte indent) pos

/-- The printer after `out` has gone to the sink and `p.pos` has become `pos`. -/
def printer.emit (p : printer) (out : List Char) (pos : Position) : printer :=
  { p with output := p.output ++ out, written := p.written + out.length, pos := pos }

/-- The printer after `write` has handled `rest`. -/
def printer.emitData (q : printer) (rest : List Char) : printer :=
  q.emit (enc q.mode q.indent rest) (advance q.indent q.pos rest)

/-- The part of `write` after its loop, for a last segment `data[i0 : e]`. -/
def printer.fin (data : List Char) (i0 e : Nat) (p : printer) : printer :=
  let p1 := p.write0 (printer.slice data i0 e)
  { p1 with pos :=
    { Offset := p1.pos.Offset + ((e - i0 : Nat) : Int), Line := p1.pos.Line,
      Column := p1.pos.Column + ((e - i0 : Nat) : Int) } }

/-! ## The printer without interspersed comments

While `p.comment` is nil, `flush` only writes the whitespace buffer, and what
reaches the sink depends on the indentation, the buffered whitespace and the
items alone. `Abs` keeps these three; `absRun` is `printer.run` on them. -/

/-- The bytes of a run of whitespace atoms. -/
def wsBytes (w : List whiteSpace) : List Char := w.map whiteSpace.toByte

/-- Indentation, buffered whitespace `buffer[0 : buflen]` and sink of a printer. -/
structure Abs where
  indent : Nat
  pending : List whiteSpace
  out : List Char
  deriving DecidableEq, Repr

/-- The indentation, buffered whitespace and sink of `p`. -/
def printer.abs (p : printer) : Abs :=
  { indent := p.indent, pending := p.buffer.take p.buflen.toNat, out := p.output }

/-- Data reaches the sink after the buffered whitespace. -/
def Abs.data (mode : Nat) (a : Abs) (d : List Char) : Abs :=
  { a with pending := [], out := a.out ++ enc mode a.indent (wsBytes a.pending ++ d) }

/-- One argument of `print`, with `p.comment` nil. -/
def absItem (mode : Nat) (a : Abs) : Item → Except String Abs
  | .int x =>
    if (a.indent : Int) + x < 0 then .error "print: negative indentation"
    else .ok { a with indent := ((a.indent : Int) + x).toNat }
  | .whiteSpace x =>
    if a.pending.length ≥ 8 then
      .ok { a with pending := [x], out := a.out ++ enc mode a.indent (wsBytes a.pending) }
    else .ok { a with pending := a.pending ++ [x] }
  | .bytes d => .ok (a.data mode d)
  | .nilBytes => .ok a
  | .string d => .ok (a.data mode d)
  | .token t => .ok (a.data mode t.String)
  | .position _ => .ok a
  | .lineTag _ => .ok a
  | .htmlTag _ => .ok a

/-- Method `print`, with `p.comment` nil. -/
def absPrint (mode : Nat) : List Item → Abs → Except String Abs
  | [], a => .ok a
  | f :: rest, a =>
    match absItem mode a f with
    | .error e => .error e
    | .ok a => absPrint mode rest a

/-- Method `commentList`, with `p.comment` nil. -/
def absCommentList (mode : Nat) : List Comment → Abs → Except String Abs
  | [], a => .ok a
  | c :: rest, a =>
    match absPrint mode [.position c.pos, .bytes c.Text] a with
    | .error e => .error e
    | .ok a =>
      match c.Text with
      | _ :: t1 :: _ =>
        if t1 = '/' ∧ rest ≠ [] then
          match absPrint mode [.whiteSpace .newline] a with
          | .error e => .error e
          | .ok a => absCommentList mode rest a
        else absCommentList mode rest a
      | _ => .error "index out of range"

/-- One call of the walk, with `p.comment` nil. -/
def absOp (mode : Nat) (a : Abs) : Op → Except String Abs
  | .print args => absPrint mode args a
  | .leadComment none => .ok a
  | .leadComment (some d) =>
    match absCommentList mode d.list a with
    | .error e => .error e
    | .ok a => absPrint mode [.whiteSpace .newline] a
  | .lineComment none => .ok a
  | .lineComment (some d) =>
    match absPrint mode [.whiteSpace .tab] a with
    | .error e => .error e
    | .ok a => absCommentList mode d.list a
  | .levelInc => .ok a
  | .levelDec => .ok a
  | .crash msg => .error msg

/-- The calls of a walk, with `p.comment` nil. -/
def absRun (mode : Nat) : List Op → Abs → Except String Abs
  | [], a => .ok a
  | op :: rest, a =>
    match absOp mode a op with
    | .error e => .error e
    | .ok a => absRun mode rest a

/-- The final `p.flush(inf)` of `Fprint`, with `p.comment` nil: the sink after
the buffered whitespace has been written. -/
def Abs.flush (mode : Nat) (a : Abs) : List Char :=
  a.out ++ enc mode a.indent (wsBytes a.pending)

/-- An argument of `print` other than a line tag or an HTML tag. -/
def Item.plain : Item → Bool
  | .lineTag _ => false
  | .htmlTag _ => false
  | _ => true

/-- A call of the walk that passes no line tag and no HTML tag to `print`. -/
def Op.plain : Op → Bool
  | .print args => args.all Item.plain
  | _ => true

/-- The whitespace buffer is the 8-entry array with `0 <= buflen <= 8`, and no
comment is left to intersperse. -/
def printer.Plain (p : printer) : Prop :=
  p.comment = [] ∧ p.buffer.length = 8 ∧ 0 ≤ p.buflen ∧ p.buflen ≤ 8

/-- No tag waits for the next item: the mode is not `GenHTML`, or the stored
tag is empty and no line tag was requested. -/
def printer.NoTag (p : printer) (setLineTag : Bool) : Prop :=
  p.mode &&& GenHTML = 0 ∨ (p.tag = ⟨[], []⟩ ∧ setLineTag = false)

/-- The mode is not `GenHTML`, or the stored tag is empty. -/
def printer.TagFree (p : printer) : Prop :=
  p.mode &&& GenHTML = 0 ∨ p.tag = ⟨[], []⟩

/-- The result `r` of a printer function and the result `a` of its reading
without comments agree: both panic with the same message, or `a` is the
indentation, buffered whitespace and sink of `r`. -/
def Sim (mode : Nat) (r : Except String printer) (a : Except String Abs) : Prop :=
  (∀ q, r = .ok q → a = .ok q.abs ∧ q.Plain ∧ q.mode = mode ∧ q.TagFree) ∧
  (∀ e, r = .error e → a = .error e)

/-- The rule for `needsBlanks` in the words of the specification: identifier
longer than 12, literal longer than 6, never for a parenthesized expression,
for a call more than one argument or a callee or sole argument that needs
blanks, always for every other kind. -/
def needsBlanksSpec : Expr → Bool
  | .Ident x => decide (x.Value.length > 12)
  | .BasicLit x => decide (x.Value.length > 6)
  | .ParenExpr _ _ _ => false
  | .CallExpr (.mk f _ args _) =>
    decide (args.length > 1) || needsBlanks f ||
      (decide (args.length = 1) &&
        (match args with
         | a :: _ => needsBlanks a
         | [] => false))
  | _ => true

/-- The bytes `write` sends to the sink for a byte `b` in `GenHTML` mode, in
the words of the specification: the entity for `&`, `<`, `>`; a line break (a
newline for a formfeed when `raw`) with the indentation after it; the byte
itself otherwise. -/
def htmlByte (raw : Bool) (indent : Nat) (b : Char) : List Char :=
  if b = '&' then "&amp;".toList
  else if b = '<' then "&lt;".toList
  else if b = '>' then "&gt;".toList
  else if b = '\n' then '\n' :: List.replicate indent '\t'
  else if b = '\x0c' then (if raw then '\n' else '\x0c') :: List.replicate indent '\t'
  else [b]

/-- The expression tree of `a*b + c*d`, with the positions of its identifiers
and operators. -/
def C5_tree (pa pb pc pd pmul1 padd pmul2 : Position) : Expr :=
  .BinaryExpr
    (.BinaryExpr (.Ident ⟨pa, ['a']⟩) pmul1 .MUL (.Ident ⟨pb, ['b']⟩))
    padd .ADD
    (.BinaryExpr (.Ident ⟨pc, ['c']⟩) pmul2 .MUL (.Ident ⟨pd, ['d']⟩))

/-- The separator `exprList` writes between two elements of a list on one
line: a comma and a blank, or a blank when `commaSep` is not set. -/
def lineSep (mode : Nat) : List Char :=
  if mode &&& commaSep ≠ 0 then ", ".toList else " ".toList

/-- The blank `exprList` writes before the list when `blankStart` is set. -/
def lineStart (mode : Nat) : List Char :=
  if mode &&& blankStart ≠ 0 then " ".toList else []

/-- The source line of an expression, taken from `Pos()`. -/
def ast.Expr.Line (x : Expr) : Int :=
  match x.Pos with
  | some pos => pos.Line
  | none => 0

/-- What the specification lets `exprList` write between two elements of a list
that spans several lines: a comma if requested, then a newline when the source
line advanced and a blank otherwise. -/
def multiSep (mode : Nat) (prev line : Int) : List Op :=
  (if mode &&& commaSep ≠ 0 then [Op.print [.token .COMMA]] else []) ++
    [Op.print [.whiteSpace (if prev < line then whiteSpace.newline else whiteSpace.blank)]]

/-- The elements of a list that spans several lines, each given by its source
line and the calls that print it, with `multiSep` between consecutive elements;
`prev` is the line of the element before, `none` at the start. -/
def multiLineOps (mode : Nat) : Option Int → List (Int × List Op) → List Op
  | _, [] => []
  | none, (l, o) :: rest => o ++ multiLineOps mode (some l) rest
  | some prev, (l, o) :: rest => multiSep mode prev l ++ o ++ multiLineOps mode (some l) rest

/-- The call `f(a, b)` with the given positions of `f`, `(`, `a`, `b` and `)`. -/
def C9_call (pf pl pa pb pr : Position) : Expr :=
  .CallExpr (.mk (.Ident ⟨pf, ['f']⟩) pl [.Ident ⟨pa, ['a']⟩, .Ident ⟨pb, ['b']⟩] pr)

/-- The maximal left spine of binary expressions of precedence `prec` that ends
in `x`: its nodes from left to right, each with its `OpPos`, `Op` and right
operand `Y`, and the leftmost operand. -/
def leftSpine (prec : Nat) : Expr → List (Position × Token × Expr) × Expr
  | .BinaryExpr X OpPos Op Y =>
    if Op.Precedence = prec then
      ((leftSpine prec X).1 ++ [(OpPos, Op, Y)], (leftSpine prec X).2)
    else ([], .BinaryExpr X OpPos Op Y)
  | x => ([], x)

/-- Whether the operators of a chain get blanks, in the words of the
specification: the precedence is at most that of `==`, or some operand of the
chain (a right operand or the leftmost operand) needs blanks. -/
def chainBlanks (prec : Nat) (chain : List (Position × Token × Expr)) (leftmost : Expr) : Bool :=
  decide (prec ≤ Token.EQL.Precedence) || chain.any (fun n => needsBlanks n.2.2) ||
    needsBlanks leftmost

/-- An operator of a chain as the specification has it written: with one blank
on each side, or with none. -/
def chainOp (blanks : Bool) (opPos : Position) (op : Token) : List Op :=
  if blanks then
    [Op.print [.whiteSpace .blank, .position opPos, .token op, .whiteSpace .blank]]
  else [Op.print [.position opPos, .token op]]

/-- The bytes `writeComment` hands to `write` before the comment: nothing when
there was no item before, a tab when the comment is on the line of the last
item, otherwise as many newlines as the line difference, at most
`maxNewlines`. -/
def commentSep (p : printer) (c : Comment) : List Char :=
  if p.last.IsValid then
    if c.pos.Line - p.last.Line = 0 then ['\t']
    else List.replicate (min (c.pos.Line - p.last.Line).toNat maxNewlines) '\n'
  else []

/-- The first comment of a group lies before `next`. -/
def CommentGroup.before (next : Position) (g : CommentGroup) : Bool :=
  match g.list with
  | c0 :: _ => decide (c0.pos.Offset < next.Offset)
  | [] => false

/-- The comments `flush(next)` writes: those of the leading groups whose first
comment lies before `next`. -/
def emitted (next : Position) (gs : List CommentGroup) : List Comment :=
  (gs.takeWhile (CommentGroup.before next)).flatMap (fun g => g.list)

/-- The number of line breaks in a byte string. -/
def lineBreaks (data : List Char) : Nat :=
  data.countP (fun b => b = '\n' ∨ b = '\x0c')

/-- The printer after `writeItem` has written `data` at `pos` without any tag:
`pos` is set, the data goes through `write`, `last` becomes the position
after it. -/
def printer.item (p : printer) (pos : Position) (data : List Char) : printer :=
  { (({ p with pos := pos } : printer).emitData data) with
    last := (({ p with pos := pos } : printer).emitData data).pos }

/-- The variable `firstLine` of `intersperseComments` after the comments `cs`. -/
def firstLineOf (firstLine : Int) (cs : List Comment) : Int :=
  cs.foldl (fun fl c => if fl = 0 then c.pos.Line else fl) firstLine

/-- The variable `needsNewline` of `intersperseComments` after the comments
`cs`: whether the last one is a `//` comment. -/
def needsNewlineOf (needsNewline : Bool) (cs : List Comment) : Bool :=
  cs.foldl (fun _ c => decide (c.Text.getD 1 ' ' = '/')) needsNewline

/-- The printer with its comment cursor `p.comment` set to `x`. -/
def printer.setComment (p : printer) (x : List CommentGroup) : printer :=
  { p with comment := x }

/-- The part of `intersperseComments` after its loop over the comments: the
whitespace buffer keeps its newlines and formfeeds, at most as many as the
line difference to `next`, and at least one after a `//` comment. -/
def printer.adjust (p : printer) (next : Position) (firstLine : Int) (needsNewline : Bool) :
    printer :=
  let r := printer.compactLoop p.buflen.toNat 0 0 p.buffer
  let p : printer := { p with buffer := r.1, buflen := (r.2 : Int) }
  let p : printer :=
    if p.last.IsValid then
      let n := next.Line - p.last.Line
      if n < p.buflen then { p with buflen := n } else p
    else p
  if needsNewline then
    let ch := p.buffer.getD 0 whiteSpace.blank
    let r : printer × whiteSpace :=
      if p.buflen = 0 then ({ p with buflen := 1 }, whiteSpace.newline) else (p, ch)
    let p := r.1
    let ch := if p.last.Line > firstLine then whiteSpace.formfeed else r.2
    { p with buffer := p.buffer.set 0 ch }
  else p

/-- A printer in `RawFormat` that has written an item ending at line 1 and
holds two buffered newlines and two pending comment groups: `// a` on line 2
and `// b` on line 5. -/
def C3_printer : printer :=
  { printer.init RawFormat with
    last := ⟨10, 1, 10⟩
    pos := ⟨10, 1, 10⟩
    buffer := [whiteSpace.newline, whiteSpace.newline] ++ List.replicate 6 whiteSpace.blank
    buflen := 2
    comment := [⟨[⟨⟨12, 2, 1⟩, ['/', '/', ' ', 'a']⟩]⟩, ⟨[⟨⟨40, 5, 1⟩, ['/', '/', ' ', 'b']⟩]⟩] }

/-- The position of a token on line 3, between the two comments of
`C3_printer`. -/
def C3_next : Position := ⟨20, 3, 1⟩

/-- A printer in `RawFormat` that has written an item ending at line 1 and
holds three buffered newlines and the pending comment `//doc` on line 3. -/
def C2_printer : printer :=
  { printer.init RawFormat with
    last := ⟨10, 1, 10⟩
    pos := ⟨10, 1, 10⟩
    buffer := [whiteSpace.newline, whiteSpace.newline, whiteSpace.newline] ++
      List.replicate 5 whiteSpace.blank
    buflen := 3
    comment := [⟨[⟨⟨12, 3, 1⟩, ['/', '/', 'd', 'o', 'c']⟩]⟩] }

/-- The file of the source text `\npackage p\n// c\n\n\n\n\n\nvar x int\n`: the
package clause on line 2, the comment `// c` on line 3 and the declaration
`var x int` on line 9. -/
def C4_file : File :=
  { Doc := none
    pos := ⟨1, 2, 1⟩
    Name := ⟨⟨9, 2, 9⟩, ['p']⟩
    Decls := [.GenDecl none ⟨21, 9, 1⟩ .VAR ⟨0, 0, 0⟩
      [.ValueSpec none [⟨⟨25, 9, 5⟩, ['x']⟩] (some (.Ident ⟨⟨27, 9, 7⟩, ['i', 'n', 't']⟩))
        none none] ⟨0, 0, 0⟩]
    Comments := [⟨[⟨⟨11, 3, 1⟩, ['/', '/', ' ', 'c']⟩]⟩] }

/-! ## Indentation balance of the walk -/

/-- The change of `p.indent` an argument of `print` asks for. -/
def Item.delta : Item → Int
  | .int x => x
  | _ => 0

/-- The sum of the indentation changes of the arguments of one `print`. -/
def itemsDelta (args : List Item) : Int := (args.map Item.delta).sum

/-- The change of `p.indent` one call of the walk asks for. -/
def Op.delta : Op → Int
  | .print args => itemsDelta args
  | _ => 0

/-- The sum of the indentation changes of the calls `ops`. -/
def opsDelta (ops : List Op) : Int := (ops.map Op.delta).sum

/-- The walks of a field change the indentation by zero in total. -/
def FieldW.Bal (f : FieldW) : Prop :=
  opsDelta f.Typ.ops = 0 ∧ ∀ s, f.Ftyp = some s → opsDelta s.ops = 0

/-- The state `a` with the bytes `x` in front of its sink. -/
def Abs.pre (x : List Char) (a : Abs) : Abs := { a with out := x ++ a.out }

/-- Field `Doc` of a declaration; a `BadDecl` has none. -/
def ast.Decl.Doc : Decl → Option CommentGroup
  | .BadDecl _ => none
  | .GenDecl Doc _ _ _ _ _ => Doc
  | .FuncDecl Doc _ _ _ _ => Doc

/-- The calls `Fprint` makes for a declaration: `p.decl(n)` and the line
comment it returns. -/
def declOps (d : Decl) : List Op := (do let r ← decl d; lineComment r.1 : Walk Unit).ops

/-- The file `package p` without declarations. -/
def C1_empty : File :=
  { Doc := none, pos := ⟨1, 1, 1⟩, Name := ⟨⟨9, 1, 9⟩, ['p']⟩, Decls := [], Comments := [] }

/-- The declaration `import "x"`. -/
def C1_importDecl : Decl :=
  .GenDecl none ⟨12, 3, 1⟩ .IMPORT ⟨0, 0, 0⟩
    [.ImportSpec none none [⟨⟨19, 3, 8⟩, .STRING, ['"', 'x', '"']⟩] none] ⟨0, 0, 0⟩

/-- The file `package p` with the single declaration `import "x"`. -/
def C1_import : File :=
  { Doc := none, pos := ⟨1, 1, 1⟩, Name := ⟨⟨9, 1, 9⟩, ['p']⟩, Decls := [C1_importDecl],
    Comments := [] }

/-! ## Definitions for the claims on `write`, `Fprint` and the layout -/

/-- The bytes the specification gives for one byte `b` of data in a mode
without `GenHTML`: a line break (a newline for a formfeed when `RawFormat` is
set) followed by `k` tabs, any other byte unchanged. -/
def plainByte (raw : Bool) (k : Nat) (b : Char) : List Char :=
  if b = '\n' ∨ b = '\x0c' then
    (if raw ∧ b = '\x0c' then '\n' else b) :: List.replicate k '\t'
  else [b]

/-- The number of bytes of `data` after its last line break (all of `data`
when it holds none). -/
def afterLastBreak (data : List Char) : Nat :=
  (data.reverse.takeWhile (fun b => ¬ (b = '\n' ∨ b = '\x0c'))).length

/-- The count `p.written` is the number of bytes handed to the sink. -/
def printer.Counted (p : printer) : Prop := p.written = p.output.length

/-- From `p` to `q` the count stays the number of bytes handed to the sink and
no line anchor was created. -/
def printer.Keeps (p q : printer) : Prop :=
  (p.Counted → q.Counted) ∧ q.lastTaggedLine = p.lastTaggedLine

/-- From `p` to `q` the count stays the number of bytes handed to the sink and
`lastTaggedLine` did not decrease. -/
def printer.Steps (p q : printer) : Prop :=
  (p.Counted → q.Counted) ∧ p.lastTaggedLine ≤ q.lastTaggedLine

/-- The bytes `write` adds in `GenHTML` mode beyond one per byte of data: 4 for
every `&` and 3 for every `<` or `>`. -/
def htmlExtra (mode : Nat) (data : List Char) : Nat :=
  if mode &&& GenHTML ≠ 0 then
    4 * data.count '&' + 3 * (data.count '<' + data.count '>')
  else 0

/-- The lines of the anchors created while `print` handles the arguments
`items`: `writeItem` is the only place that changes `lastTaggedLine`, and it
does so exactly when it creates and writes the anchor of that line. -/
def printer.itemsLog : List Item → Bool → printer → List Int
  | [], _, _ => []
  | f :: rest, setLineTag, p =>
    match p.printItem setLineTag f with
    | .error _ => []
    | .ok (setLineTag1, q) =>
      (if q.lastTaggedLine ≠ p.lastTaggedLine then [q.lastTaggedLine] else []) ++
        itemsLog rest setLineTag1 q

/-- A sequence of calls of `print`. -/
def printer.prints : List (List Item) → printer → Except String printer
  | [], p => .ok p
  | args :: rest, p =>
    match p.print args with
    | .error e => .error e
    | .ok q => prints rest q

/-- The lines of the anchors created during a sequence of calls of `print`. -/
def printer.callsLog : List (List Item) → printer → List Int
  | [], _ => []
  | args :: rest, p =>
    p.itemsLog args false ++
      match p.print args with
      | .error _ => []
      | .ok q => callsLog rest q

/-- The printer after `print(2, "a&\nb")` on a fresh printer in `GenHTML` mode. -/
def C13_after : printer :=
  { printer.init GenHTML with
    indent := 2
    output := "a&amp;\n\t\tb".toList
    written := 10
    pos := ⟨6, 1, 4⟩
    last := ⟨6, 1, 4⟩ }

/-- The printer of `Fprint` before the walk: fresh, with the comments of the
node. -/
def printer.fresh (mode : Nat) (cs : List CommentGroup) : printer :=
  { printer.init mode with comment := cs }

/-- Three calls of `print` with line tags on lines 3, 3 and 4. -/
def C11_calls : List (List Item) :=
  [[.lineTag ⟨1, 3, 1⟩, .token .VAR], [.lineTag ⟨5, 3, 5⟩, .token .VAR],
   [.lineTag ⟨9, 4, 1⟩, .token .FUNC]]

/-- The calls for one statement of a statement list: the statement, and a
semicolon when printing it returned `optSemi = false`. -/
def stmtSemi (s : Walk Bool) : List Op :=
  s.ops ++ if s.val then [] else [Op.print [.token .SEMICOLON]]

/-- The interface type `interface { A(); B() }`, all on line 1. -/
def C16_iface : Expr :=
  .InterfaceType ⟨1, 1, 1⟩ ⟨11, 1, 11⟩
    [.mk none (some [⟨⟨13, 1, 13⟩, ['A']⟩]) (.FuncType (.mk ⟨14, 1, 14⟩ [] none)) none none,
     .mk none (some [⟨⟨18, 1, 18⟩, ['B']⟩]) (.FuncType (.mk ⟨19, 1, 19⟩ [] none)) none none]
    ⟨23, 1, 23⟩ false

/-- The file `package p` with the grouped import of `"x"` and of `"z"` renamed
`y`, without comments, at the given positions. -/
def C17_file (ppos pname pimport lparen px py pz rparen : Position) : File :=
  { Doc := none, pos := ppos, Name := ⟨pname, ['p']⟩,
    Decls := [.GenDecl none pimport .IMPORT lparen
      [.ImportSpec none none [⟨px, .STRING, ['"', 'x', '"']⟩] none,
       .ImportSpec none (some ⟨py, ['y']⟩) [⟨pz, .STRING, ['"', 'z', '"']⟩] none]
      rparen],
    Comments := [] }

/-- The file of the source text `\npackage p\nfunc f\n// c\n() (int, int) {}\n`:
the comment `// c` stands between the name of the function and its parameter
list. -/
def C19_file : File :=
  { Doc := none, pos := ⟨1, 2, 1⟩, Name := ⟨⟨9, 2, 9⟩, ['p']⟩,
    Decls := [.FuncDecl none none ⟨⟨16, 3, 6⟩, ['f']⟩
      (.mk ⟨11, 3, 1⟩ []
        (some [.mk none none (.Ident ⟨⟨27, 5, 5⟩, ['i', 'n', 't']⟩) none none,
               .mk none none (.Ident ⟨⟨32, 5, 10⟩, ['i', 'n', 't']⟩) none none]))
      (some (.mk ⟨37, 5, 15⟩ [] ⟨38, 5, 16⟩))],
    Comments := [⟨[⟨⟨18, 4, 1⟩, ['/', '/', ' ', 'c']⟩]⟩] }

/-- The printer of `C19_file` in `RawFormat` mode when `print` is about to
write the `(` of the result list: `func f()` is written, a blank is buffered,
the comment on line 4 is pending, and the estimated position is on line 3. -/
def C19_printer : printer :=
  { printer.init RawFormat with
    output := "package p\n\nfunc f()".toList
    written := 19
    last := ⟨19, 3, 9⟩
    pos := ⟨19, 3, 9⟩
    buffer := [whiteSpace.blank, whiteSpace.newline] ++ List.replicate 6 whiteSpace.blank
    buflen := 1
    comment := [⟨[⟨⟨18, 4, 1⟩, ['/', '/', ' ', 'c']⟩]⟩] }

/-- A printer in `GenHTML` mode with the tag `<b>`, `</b>` stored for the next
item. -/
def C21_printer : printer :=
  { printer.init GenHTML with tag := ⟨"<b>".toList, "</b>".toList⟩ }

/-- The composite literal `T{}` on line 1. -/
def C23_lit : Expr :=
  .CompositeLit (.Ident ⟨⟨1, 1, 1⟩, ['T']⟩) ⟨2, 1, 2⟩ [] ⟨3, 1, 3⟩

/-- The function literal `func() {}` on line 1. -/
def C23_func : Expr :=
  .FuncLit (.mk ⟨1, 1, 1⟩ [] none) (.mk ⟨8, 1, 8⟩ [] ⟨9, 1, 9⟩)

/-- The calls of an optional part of a control clause; `none` is `nil`. -/
def optOps (w : Option (Walk Bool)) : List Op :=
  match w with
  | some w => w.ops
  | none => []

/-- The tree of `a - (b - c)` without the `ParenExpr` node: the right operand
of the outer `-` is the binary expression `b - c`. -/
def C26_sub : Expr :=
  .BinaryExpr (.Ident ⟨⟨1, 1, 1⟩, ['a']⟩) ⟨3, 1, 3⟩ .SUB
    (.BinaryExpr (.Ident ⟨⟨6, 1, 6⟩, ['b']⟩) ⟨8, 1, 8⟩ .SUB (.Ident ⟨⟨10, 1, 10⟩, ['c']⟩))

/-- The tree of `(a + b) * c` without the `ParenExpr` node: the left operand
of `*` is the binary expression `a + b`. -/
def C26_mul : Expr :=
  .BinaryExpr
    (.BinaryExpr (.Ident ⟨⟨2, 1, 2⟩, ['a']⟩) ⟨4, 1, 4⟩ .ADD (.Ident ⟨⟨6, 1, 6⟩, ['b']⟩))
    ⟨9, 1, 9⟩ .MUL (.Ident ⟨⟨11, 1, 11⟩, ['c']⟩)

/-- A printer in `RawFormat` mode at indentation 1: `x` is written, a newline
is buffered, the next token is estimated at line 9, eight lines below the
last item, and the first pending comment lies behind it. -/
def C25_printer : printer :=
  { printer.init RawFormat with
    output := ['x']
    written := 1
    indent := 1
    last := ⟨2, 1, 2⟩
    pos := ⟨20, 9, 1⟩
    buffer := whiteSpace.newline :: List.replicate 7 whiteSpace.blank
    buflen := 1
    comment := [⟨[⟨⟨30, 10, 1⟩, ['/', '/', ' ', 'c']⟩]⟩] }

/-- The change of `p.level` one call of the walk asks for. -/
def Op.lvl : Op → Int
  | .levelInc => 1
  | .levelDec => -1
  | _ => 0

/-- The sum of the changes of the nesting level of the calls `ops`. -/
def opsLvl (ops : List Op) : Int := (ops.map Op.lvl).sum

/-- The walks of a field change the nesting level by zero in total. -/
def FieldW.BalLvl (f : FieldW) : Prop :=
  opsLvl f.Typ.ops = 0 ∧ ∀ s, f.Ftyp = some s → opsLvl s.ops = 0

/-- From `p` to `q` the indentation and the nesting level are the same. -/
def printer.Nest (p q : printer) : Prop := q.indent = p.indent ∧ q.level = p.level

/-- A call of one of the formatter methods on a part of the syntax tree. -/
inductive Formatter
  | exprList (list : List Expr) (mode : Nat)
  | fieldList (lbrace : Position) (list : List ast.Field) (rbrace : Position)
      (isIncomplete isStruct : Bool)
  | expr (x : Expr)
  | stmtList (list : List Stmt)
  | stmt (s : Stmt)
  | decl (d : Decl)
  | file (src : File)

/-- The calls a formatter method makes. -/
def formatterOps : Formatter → List Op
  | .exprList list mode => (exprList (exprs list) mode).ops
  | .fieldList lbrace list rbrace isIncomplete isStruct =>
    (fieldList lbrace (fields list) rbrace isIncomplete isStruct).ops
  | .expr x => (expr x).ops
  | .stmtList list => (stmtList (stmts list)).ops
  | .stmt s => (stmt s).ops
  | .decl d => (decl d).ops
  | .file src => (file src).ops

/-- The call `p.expr(x)` for the function literal `func(x T) { a }`. -/
def C27_formatter : Formatter :=
  .expr (.FuncLit
    (.mk ⟨1, 1, 1⟩ [.mk none (some [⟨⟨6, 1, 6⟩, ['x']⟩]) (.Ident ⟨⟨8, 1, 8⟩, ['T']⟩) none none]
      none)
    (.mk ⟨11, 1, 11⟩ [.ExprStmt (.Ident ⟨⟨13, 1, 13⟩, ['a']⟩)] ⟨15, 1, 15⟩))

/-- A fresh printer in `RawFormat` mode at indentation 2 and nesting level 1. -/
def C27_start : printer :=
  { printer.init RawFormat with indent := 2, level := 1 }

/-- The printer `C27_start` after the calls of `C27_formatter`. -/
def C27_end : printer :=
  { printer.init RawFormat with
    output := "func(x T) \x7b\n\t\t\ta;\n\t\t\x7d".toList
    written := 21
    level := 1
    indent := 2
    last := ⟨16, 1, 16⟩
    pos := ⟨16, 1, 16⟩
    buffer := whiteSpace.formfeed :: List.replicate 7 whiteSpace.blank
    buflen := 0 }

namespace websocket

/-- Modelled from the spec: the fields of an `http.Request`, declared outside
the sources, that `ServeHTTP` reads; `Header` is the map from header keys to
values, `Path` is `req.URL.Path`. -/
structure Request where
  Method : String
  Proto : String
  Header : List (String × String)
  Host : String
  Path : String

/-- Modelled from the spec: the index expression `v, found := m[k]` of a Go
map, `none` when the key is absent. -/
def lookup (m : List (String × String)) (k : String) : Option String :=
  (m.find? fun e => e.1 = k).map fun e => e.2

/-- Modelled from the spec: the index expression `m[k]` of a Go map, the empty
string when the key is absent. -/
def index (m : List (String × String)) (k : String) : String :=
  (lookup m k).getD ""

/-- Modelled from the spec: the connection `newConn(origin, location, protocol,
buf, rwc)` creates, declared outside the sources, as the record of its string
arguments. -/
structure Conn where
  Origin : String
  Location : String
  Protocol : String
  deriving DecidableEq, Repr

/-- What a call of `ServeHTTP` does: it answers with a status and a text, it
panics, it returns after a failed `buf.Flush()`, or it has written the
response and calls the handler `f` with the connection `ws`. -/
inductive Outcome
  | refused (status : Nat) (text : String)
  | panicked (msg : String)
  | flushFailed (response : String)
  | served (response : String) (ws : Conn)
  deriving DecidableEq, Repr

/-- Constant `http.StatusNotFound`. -/
def StatusNotFound : Nat := 404

/-- Method `Handler.ServeHTTP`; `hijackErr` and `flushErr` are the errors
`c.Hijack()` and `buf.Flush()` return, `none` for `nil`. The variable
`protocol` bound by the `if` statement is local to that statement: the call of
`newConn` reads the outer `protocol`. -/
def ServeHTTP (req : Request) (hijackErr flushErr : Option String) : Outcome :=
  if req.Method ≠ "GET" ∨ req.Proto ≠ "HTTP/1.1" ∨
      index req.Header "Upgrade" ≠ "WebSocket" ∨
      index req.Header "Connection" ≠ "Upgrade" then
    .refused StatusNotFound "must use websocket to connect here"
  else
    match hijackErr with
    | some err => .panicked ("Hijack failed: " ++ err)
    | none =>
      let origin := index req.Header "Origin"
      let location := "ws://" ++ req.Host ++ req.Path
      let buf := "HTTP/1.1 101 Web Socket Protocol Handshake\r\n"
      let buf := buf ++ "Upgrade: WebSocket\r\n"
      let buf := buf ++ "Connection: Upgrade\r\n"
      let buf := buf ++ ("WebSocket-Origin: " ++ origin ++ "\r\n")
      let buf := buf ++ ("WebSocket-Location: " ++ location ++ "\r\n")
      let protocol := ""
      let buf :=
        match lookup req.Header "Websocket-Protocol" with
        | some protocol => buf ++ ("WebSocket-Protocol: " ++ protocol ++ "\r\n")
        | none => buf
      let buf := buf ++ "\r\n"
      match flushErr with
      | some _ => .flushFailed buf
      | none => .served buf { Origin := origin, Location := location, Protocol := protocol }

/-- A handshake request for `/echo` that asks for the protocol `chat`. -/
def C28_request : Request :=
  { Method := "GET", Proto := "HTTP/1.1",
    Header := [("Upgrade", "WebSocket"), ("Connection", "Upgrade"),
      ("Origin", "http://example.com"), ("Websocket-Protocol", "chat")],
    Host := "example.com", Path := "/echo" }

end websocket

/-- The binary expression `averyveryverylongname + b` of the source text
`averyveryverylongname + /* c */ b` on line 3. -/
def C6_sum : Expr :=
  .BinaryExpr (.Ident ⟨⟨19, 3, 9⟩, "averyveryverylongname".toList⟩) ⟨41, 3, 31⟩ .ADD
    (.Ident ⟨⟨51, 3, 41⟩, ['b']⟩)

/-- The file of the source text
`\npackage p\nvar x = averyveryverylongname + /* c */ b\n`, with the comments
`comments`. -/
def C6_file (comments : List CommentGroup) : File :=
  { Doc := none, pos := ⟨1, 2, 1⟩, Name := ⟨⟨9, 2, 9⟩, ['p']⟩,
    Decls := [.GenDecl none ⟨11, 3, 1⟩ .VAR ⟨0, 0, 0⟩
      [.ValueSpec none [⟨⟨15, 3, 5⟩, ['x']⟩] none (some [C6_sum]) none] ⟨0, 0, 0⟩],
    Comments := comments }

/-- The comment `/* c */` of `C6_file`, between the `+` and `b`. -/
def C6_comment : CommentGroup := ⟨[⟨⟨43, 3, 33⟩, "/* c */".toList⟩]⟩

/-- The file of the source text `\npackage p\nfunc f() { a; /* c */ b }\n`,
with the comments `comments`. -/
def C15_file (comments : List CommentGroup) : File :=
  { Doc := none, pos := ⟨1, 2, 1⟩, Name := ⟨⟨9, 2, 9⟩, ['p']⟩,
    Decls := [.FuncDecl none none ⟨⟨16, 3, 6⟩, ['f']⟩ (.mk ⟨11, 3, 1⟩ [] none)
      (some (.mk ⟨20, 3, 10⟩
        [.ExprStmt (.Ident ⟨⟨22, 3, 12⟩, ['a']⟩), .ExprStmt (.Ident ⟨⟨33, 3, 23⟩, ['b']⟩)]
        ⟨35, 3, 25⟩))],
    Comments := comments }

/-- The comment `/* c */` of `C15_file`, between `a;` and `b`. -/
def C15_comment : CommentGroup := ⟨[⟨⟨25, 3, 15⟩, "/* c */".toList⟩]⟩

/-- The block of the source text `{ L: a; b }`. -/
def C15_labeled : Stmt :=
  .BlockStmt (.mk ⟨1, 1, 1⟩
    [.LabeledStmt ⟨⟨3, 1, 3⟩, ['L']⟩ (.ExprStmt (.Ident ⟨⟨6, 1, 6⟩, ['a']⟩)),
     .ExprStmt (.Ident ⟨⟨9, 1, 9⟩, ['b']⟩)]
    ⟨11, 1, 11⟩)

/-- The statement `for a; b; c {}` of the source text
`for a; /* c */ b; c {}` on line 3. -/
def C24_for : Stmt :=
  .ForStmt ⟨22, 3, 12⟩ (some (.ExprStmt (.Ident ⟨⟨26, 3, 16⟩, ['a']⟩)))
    (some (.Ident ⟨⟨37, 3, 27⟩, ['b']⟩)) (some (.ExprStmt (.Ident ⟨⟨40, 3, 30⟩, ['c']⟩)))
    (.mk ⟨42, 3, 32⟩ [] ⟨43, 3, 33⟩)

/-- The file of the source text
`\npackage p\nfunc f() { for a; /* c */ b; c {} }\n`, with the comments
`comments`. -/
def C24_file (comments : List CommentGroup) : File :=
  { Doc := none, pos := ⟨1, 2, 1⟩, Name := ⟨⟨9, 2, 9⟩, ['p']⟩,
    Decls := [.FuncDecl none none ⟨⟨16, 3, 6⟩, ['f']⟩ (.mk ⟨11, 3, 1⟩ [] none)
      (some (.mk ⟨20, 3, 10⟩ [C24_for] ⟨45, 3, 35⟩))],
    Comments := comments }

/-- The comment `/* c */` of `C24_file`, between `a;` and `b`. -/
def C24_comment : CommentGroup := ⟨[⟨⟨29, 3, 19⟩, "/* c */".toList⟩]⟩

/-- The bytes of the whitespace atoms buffered in `p.buffer[0 : p.buflen]`. -/
def printer.pending (p : printer) : List Char := wsBytes (p.buffer.take p.buflen.toNat)

/-- A printer at indentation `n` in mode `mode` with the 8-entry whitespace
buffer, no comment left to intersperse and no stored tag. -/
def printer.At (mode n : Nat) (p : printer) : Prop :=
  p.Plain ∧ p.TagFree ∧ p.mode = mode ∧ p.indent = n

/-- The calls `ops`, made at indentation `n` in mode `mode` with no comment
left to intersperse, return, write the buffered whitespace and then the bytes
`d`, and leave the whitespace buffer empty. -/
def Renders (mode n : Nat) (ops : List Op) (d : List Char) : Prop :=
  ∀ p : printer, p.At mode n →
    ∃ q, p.run ops = .ok q ∧ q.At mode n ∧ q.buflen = 0 ∧
      q.output = p.output ++ enc mode n p.pending ++ d

/-- The calls `ops`, made at indentation `n` in mode `mode` with no comment
left to intersperse, return and add the bytes `d` to what is written or
buffered: the output followed by the buffered whitespace is afterwards what
it was before, followed by `d`. -/
def Emits (mode n : Nat) (ops : List Op) (d : List Char) : Prop :=
  ∀ p : printer, p.At mode n →
    ∃ q, p.run ops = .ok q ∧ q.At mode n ∧
      q.output ++ enc mode n q.pending = p.output ++ enc mode n p.pending ++ d

/-- The bytes of an operator of a chain: the token, with one blank on each
side if `blanks` is set. -/
def opBytes (blanks : Bool) (tok : Token) : List Char :=
  if blanks then ' ' :: tok.String ++ [' '] else tok.String

/-- The semicolon after a statement of a list, written if and only if
printing the statement returned `optSemi = false`. -/
def semiBytes (optSemi : Bool) : List Char := if optSemi then [] else [';']

/-- The bytes of a control clause with the bytes `init`, `cond` and `post` of
its parts, `none` for an absent part: with `init` and `post` both absent a
blank and the condition, or nothing; otherwise a blank, `init`, a semicolon and
a blank, the condition, and for a `for` clause a second semicolon and a blank
and `post`. -/
def controlClauseBytes (isForStmt : Bool) (init cond post : Option (List Char)) : List Char :=
  if init.isNone ∧ post.isNone then
    match cond with
    | some c => ' ' :: c
    | none => []
  else
    ' ' :: (init.getD [] ++ [';', ' '] ++ cond.getD [] ++
      if isForStmt then [';', ' '] ++ post.getD [] else [])

/-- The bytes an argument of `print` hands to `write`: the byte of a
whitespace atom, the data of a byte slice, a string or a token, nothing for
the other arguments. -/
def Item.data : Item → List Char
  | .whiteSpace x => [x.toByte]
  | .bytes d => d
  | .string d => d
  | .token t => t.String
  | _ => []

/-- An argument of `print` that changes neither the indentation nor the tag:
whitespace, data or a position. -/
def Item.simple : Item → Bool
  | .int _ => false
  | .lineTag _ => false
  | .htmlTag _ => false
  | _ => true

/-- An argument of `print` that is data: a byte slice that is not nil, a
string or a token. -/
def Item.isData : Item → Bool
  | .bytes _ => true
  | .string _ => true
  | .token _ => true
  | _ => false

/-! ## `write` -/

namespace printer

theorem write0_write0 (p : printer) (a b : List Char) :
    (p.write0 a).write0 b = p.write0 (a ++ b) := by
  simp [write0, List.append_assoc, Nat.add_assoc]

theorem take_tabs (j : Nat) (h : j ≤ 8) : tabs.take j = List.replicate j '\t' := by
  unfold tabs
  rw [List.take_replicate, Nat.min_eq_left h]

theorem writeTabs_eq : ∀ (fuel j : Nat) (p : printer), j ≤ 8 * (fuel + 1) →
    writeTabs fuel j p = p.write0 (List.replicate j '\t')
  | 0, j, p, h => by
    have : j ≤ 8 := by omega
    rw [writeTabs, take_tabs j this]
  | fuel + 1, j, p, h => by
    unfold writeTabs
    by_cases hj : j > tabs.length
    · rw [if_pos hj]
      have h8 : tabs.length = 8 := by simp [tabs]
      rw [writeTabs_eq fuel (j - tabs.length) _ (by omega), write0_write0]
      congr 1
      rw [h8] at hj ⊢
      simp only [tabs]
      rw [← List.replicate_add]
      congr 1
      omega
    · rw [if_neg hj]
      have h8 : tabs.length = 8 := by simp [tabs]
      have : j ≤ 8 := by omega
      rw [take_tabs j this]

theorem slice_succ (data : List Char) (i0 i : Nat) (b : Char) (rest : List Char)
    (h0 : i0 ≤ i) (hd : data.drop i = b :: rest) :
    slice data i0 (i + 1) = slice data i0 i ++ [b] := by
  unfold slice
  have hlt : i < data.length := by
    by_contra hc
    have : data.drop i = [] := List.drop_eq_nil_of_le (by omega)
    rw [this] at hd; cases hd
  have hb : data[i] = b := by
    have := List.getElem_drop (L := data) (i := i) (j := 0) (h := by
      simp; omega)
    simp [hd] at this
    simpa using this.symm
  rw [List.take_succ, List.getElem?_eq_getElem hlt, hb]
  simp only [Option.toList]
  rw [List.drop_append_of_le_length (by simp; omega)]

theorem slice_self (data : List Char) (i : Nat) : slice data i i = [] := by
  unfold slice
  apply List.drop_eq_nil_of_le
  simp

end printer

namespace printer

theorem emitData_nil (q : printer) : emitData q [] = q := by
  cases q; simp [emitData, emit, enc, advance]

theorem emitData_cons (q : printer) (b : Char) (rest : List Char) :
    emitData q (b :: rest) = emitData (emitData q [b]) rest := by
  cases q
  simp [emitData, emit, enc, advance, List.append_assoc, Nat.add_assoc]

theorem writeLoop_spec (data : List Char) : ∀ (rest : List Char) (i i0 : Nat) (p : printer),
    i0 ≤ i → data.drop i = rest → i ≤ data.length →
    fin data (writeLoop data rest i i0 p).1 data.length (writeLoop data rest i i0 p).2
      = emitData (fin data i0 i p) rest
  | [], i, i0, p, h0, hd, hl => by
    have : i = data.length := by
      have := congrArg List.length hd
      simp at this; omega
    subst this
    simp [writeLoop, emitData_nil]
  | b :: rest, i, i0, p, h0, hd, hl => by
    have hlt : i < data.length := by
      by_contra hc
      have : data.drop i = [] := List.drop_eq_nil_of_le (by omega)
      rw [this] at hd; cases hd
    have hd' : data.drop (i + 1) = rest := by
      have := congrArg List.tail hd
      simpa using this
    have hs := slice_succ data i0 i b rest h0 hd
    rw [emitData_cons]
    unfold writeLoop
    by_cases hnl : b = '\n' ∨ b = '\x0c'
    · rw [if_pos hnl]
      simp only []
      rw [writeLoop_spec data rest (i + 1) (i + 1) _ (Nat.le_refl _) hd' hlt]
      congr 1
      have hw0 : ∀ (q : printer) (a : List Char), (q.write0 a).indent = q.indent := fun q a => rfl
      rw [writeTabs_eq _ _ _ (by omega)]
      cases p with
      | mk mode output written level indent last pos tag lastTaggedLine buffer buflen comment =>
      by_cases hraw : mode &&& RawFormat ≠ 0 ∧ b = '\x0c'
      · simp only [if_pos hraw, fin, slice_self, write0, emitData, emit, enc, encByte, advance,
          advanceByte, List.flatMap_cons, List.flatMap_nil, List.foldl_cons, List.foldl_nil,
          if_pos hnl, newlines]
        simp [List.append_assoc, hraw.2]
        refine ⟨?_, ?_⟩ <;> omega
      · simp only [if_neg hraw, fin, slice_self, write0, emitData, emit, enc, encByte, advance,
          advanceByte, List.flatMap_cons, List.flatMap_nil, List.foldl_cons, List.foldl_nil,
          if_pos hnl, hs]
        simp [List.append_assoc]
        refine ⟨?_, ?_⟩ <;> omega
    · rw [if_neg hnl]
      have hord : ∀ q : printer, ¬ (q.mode &&& GenHTML ≠ 0 ∧ (b = '&' ∨ b = '<' ∨ b = '>')) →
          emitData (fin data i0 i q) [b] = fin data i0 (i + 1) q := by
        intro q hq
        cases q with
        | mk mode output written level indent last pos tag lastTaggedLine buffer buflen comment =>
        have h1 : ¬ (mode &&& GenHTML ≠ 0 ∧ b = '&') := fun h => hq ⟨h.1, Or.inl h.2⟩
        have h2 : ¬ (mode &&& GenHTML ≠ 0 ∧ b = '<') := fun h => hq ⟨h.1, Or.inr (Or.inl h.2)⟩
        have h3 : ¬ (mode &&& GenHTML ≠ 0 ∧ b = '>') := fun h => hq ⟨h.1, Or.inr (Or.inr h.2)⟩
        simp only [fin, write0, emitData, emit, enc, encByte, advance,
          advanceByte, List.flatMap_cons, List.flatMap_nil, List.foldl_cons, List.foldl_nil,
          if_neg hnl, if_neg h1, if_neg h2, if_neg h3, hs]
        simp [List.append_assoc]
        omega
      by_cases hesc : b = '&' ∨ b = '<' ∨ b = '>'
      · rw [if_pos hesc]
        by_cases hhtml : p.mode &&& GenHTML ≠ 0
        · rw [if_pos hhtml]
          simp only []
          rw [writeLoop_spec data rest (i + 1) (i + 1) _ (Nat.le_refl _) hd' hlt]
          congr 1
          cases p with
          | mk mode output written level indent last pos tag lastTaggedLine buffer buflen comment =>
          simp only at hhtml
          have hamp : ampersand.length = 5 := rfl
          have hlt' : lessthan.length = 4 := rfl
          have hgt : greaterthan.length = 4 := rfl
          rcases hesc with h | h | h
          · subst h
            simp only [fin, slice_self, write0, emitData, emit, enc, encByte, advance,
              advanceByte, List.flatMap_cons, List.flatMap_nil, List.foldl_cons, List.foldl_nil,
              if_neg hnl]
            simp [List.append_assoc, hhtml, hamp]
            omega
          · subst h
            simp only [fin, slice_self, write0, emitData, emit, enc, encByte, advance,
              advanceByte, List.flatMap_cons, List.flatMap_nil, List.foldl_cons, List.foldl_nil,
              if_neg hnl]
            simp [List.append_assoc, hhtml, hlt']
            omega
          · subst h
            simp only [fin, slice_self, write0, emitData, emit, enc, encByte, advance,
              advanceByte, List.flatMap_cons, List.flatMap_nil, List.foldl_cons, List.foldl_nil,
              if_neg hnl]
            simp [List.append_assoc, hhtml, hgt]
            omega
        · rw [if_neg hhtml]
          rw [writeLoop_spec data rest (i + 1) i0 p (by omega) hd' hlt]
          rw [hord p (fun h => hhtml h.1)]
      · rw [if_neg hesc]
        rw [writeLoop_spec data rest (i + 1) i0 p (by omega) hd' hlt]
        rw [hord p (fun h => hesc h.2)]

end printer

namespace printer

theorem write_eq (p : printer) (data : List Char) :
    p.write data = p.emit (enc p.mode p.indent data) (advance p.indent p.pos data) := by
  have h := writeLoop_spec data data 0 0 p (Nat.le_refl _) rfl (Nat.zero_le _)
  have h0 : fin data 0 0 p = p := by
    cases p; simp [fin, slice_self, write0]
  rw [h0] at h
  unfold write
  exact h

end printer

/-! ## The printer without interspersed comments -/

theorem enc_append (mode indent : Nat) (a b : List Char) :
    enc mode indent (a ++ b) = enc mode indent a ++ enc mode indent b := by
  simp [enc, List.flatMap_append]

theorem enc_nil (mode indent : Nat) : enc mode indent [] = [] := rfl

theorem advance_line_ge (indent : Nat) : ∀ (data : List Char) (pos : Position),
    pos.Line ≤ (advance indent pos data).Line
  | [], pos => by simp [advance]
  | b :: rest, pos => by
    have h := advance_line_ge indent rest (advanceByte indent pos b)
    have h1 : pos.Line ≤ (advanceByte indent pos b).Line := by
      unfold advanceByte
      split <;> simp
    simp only [advance, List.foldl_cons] at h ⊢
    omega

theorem take_succ_set {α : Type} : ∀ (l : List α) (n : Nat) (a : α), n < l.length →
    (l.set n a).take (n + 1) = l.take n ++ [a]
  | [], n, a, h => by simp at h
  | x :: l, 0, a, h => by simp
  | x :: l, n + 1, a, h => by
    simp only [List.set_cons_succ, List.take_succ_cons, List.cons_append, List.cons.injEq, true_and]
    exact take_succ_set l n a (by simpa using h)

namespace printer

theorem writeNewlines_nonpos (p : printer) (n : Int) (h : n ≤ 0) : p.writeNewlines n = p := by
  unfold writeNewlines
  rw [if_neg (by omega)]

theorem writeWhitespace_plain (p : printer) (h0 : 0 ≤ p.buflen) (h8 : p.buflen ≤ 8) :
    p.writeWhitespace =
      .ok (({ p with buflen := 0 } : printer).write (wsBytes (p.buffer.take p.buflen.toNat))) := by
  unfold writeWhitespace
  rw [if_neg (by omega)]
  rfl

theorem flush_plain (p : printer) (next : Position) (hc : p.comment = []) :
    p.flush next = p.writeWhitespace := by
  unfold flush
  rw [hc]

theorem writeItem_noTag (p : printer) (pos : Position) (data : List Char) (slt : Bool)
    (h : NoTag p slt) :
    p.writeItem pos data slt =
      { ({ p with pos := pos } : printer).write data with
        last := (({ p with pos := pos } : printer).write data).pos } := by
  unfold writeItem
  rcases h with h | ⟨ht, hs⟩
  · simp [h]
  · by_cases hm : p.mode &&& GenHTML = 0
    · simp [hm]
    · subst hs
      simp [hm, ht, write_eq, emit]

end printer

namespace printer

theorem eta_pos (p : printer) : ({ p with pos := p.pos } : printer) = p := by cases p; rfl

/-- An argument of `print` that is data: a byte slice, a string or a token. -/
theorem printData_abs (p : printer) (slt : Bool) (f : Item) (d : List Char)
    (hf : f = .bytes d ∨ f = .string d ∨ ∃ t, f = .token t ∧ d = t.String)
    (hp : p.Plain) (hc : NoTag p slt) :
    ∃ q, p.printItem slt f = .ok (false, q) ∧
      q.abs = p.abs.data p.mode d ∧ q.Plain ∧ q.mode = p.mode ∧ NoTag q false := by
  obtain ⟨hcm, hlen, h0, h8⟩ := hp
  have hline : p.pos.Line - (({ p with buflen := 0 } : printer).write
      (wsBytes (p.buffer.take p.buflen.toNat))).pos.Line ≤ 0 := by
    rw [write_eq]
    simp only [emit]
    have := advance_line_ge p.indent (wsBytes (p.buffer.take p.buflen.toNat)) p.pos
    omega
  have hc' : NoTag (({ p with buflen := 0 } : printer).write
      (wsBytes (p.buffer.take p.buflen.toNat))) slt := by
    rw [write_eq]
    exact hc
  have key : p.printItem slt f = .ok (false,
      { (({ (({ p with buflen := 0 } : printer).write
          (wsBytes (p.buffer.take p.buflen.toNat))) with pos := p.pos } : printer).write d) with
        last := (({ (({ p with buflen := 0 } : printer).write
          (wsBytes (p.buffer.take p.buflen.toNat))) with pos := p.pos } : printer).write d).pos }) := by
    rcases hf with h | h | ⟨t, h, ht⟩
    all_goals
      subst h
      try subst ht
      unfold printItem
      simp only [eta_pos]
      rw [flush_plain p _ hcm, writeWhitespace_plain p h0 h8]
      simp only []
      rw [writeNewlines_nonpos _ _ hline, writeItem_noTag _ _ _ _ hc']
  refine ⟨_, key, ?_, ?_, ?_, ?_⟩
  · simp only [write_eq, emit, abs, Abs.data, enc_append]
    simp
  · simp only [write_eq, emit, Plain]
    simp [hcm, hlen]
  · simp only [write_eq, emit]
  · rcases hc with h | ⟨ht, _⟩
    · left; simp only [write_eq, emit]; exact h
    · right; simp only [write_eq, emit]; exact ⟨ht, trivial⟩

theorem printItem_abs (p : printer) (slt : Bool) (f : Item) (hp : p.Plain)
    (hc : NoTag p slt) (hf : p.mode &&& GenHTML = 0 ∨ f.plain = true) :
    (∀ slt' q, p.printItem slt f = .ok (slt', q) →
      absItem p.mode p.abs f = .ok q.abs ∧ q.Plain ∧ q.mode = p.mode ∧ NoTag q slt') ∧
    (∀ e, p.printItem slt f = .error e → absItem p.mode p.abs f = .error e) := by
  have hp' := hp
  obtain ⟨hcm, hlen, h0, h8⟩ := hp
  have hdata : ∀ d, (f = .bytes d ∨ f = .string d ∨ ∃ t, f = .token t ∧ d = t.String) →
      absItem p.mode p.abs f = .ok (p.abs.data p.mode d) →
      (∀ slt' q, p.printItem slt f = .ok (slt', q) →
        absItem p.mode p.abs f = .ok q.abs ∧ q.Plain ∧ q.mode = p.mode ∧ NoTag q slt') ∧
      (∀ e, p.printItem slt f = .error e → absItem p.mode p.abs f = .error e) := by
    intro d hd ha
    obtain ⟨q, hq, h1, h2, h3, h4⟩ := printData_abs p slt f d hd hp' hc
    rw [hq, ha]
    constructor
    · intro slt' q' h
      cases h
      exact ⟨by rw [h1], h2, h3, h4⟩
    · intro e h; cases h
  cases f with
  | int x =>
    have key : p.printItem slt (.int x) =
        if (p.indent : Int) + x < 0 then .error "print: negative indentation"
        else .ok (slt, { p with indent := ((p.indent : Int) + x).toNat }) := by
      unfold printItem
      by_cases hx : (p.indent : Int) + x < 0 <;> simp [hx]
    rw [key]
    simp only [absItem, abs]
    by_cases hx : (p.indent : Int) + x < 0
    · simp only [hx, if_true]
      constructor
      · intro _ _ h; cases h
      · intro e h; cases h; rfl
    · simp only [hx, if_false]
      constructor
      · intro _ _ h; cases h
        exact ⟨rfl, ⟨hcm, hlen, h0, h8⟩, rfl, hc⟩
      · intro e h; cases h
  | whiteSpace x =>
    have hlt : (p.buffer.take p.buflen.toNat).length = p.buflen.toNat := by
      rw [List.length_take]; omega
    by_cases hb : p.buflen ≥ 8
    · have hb8 : p.buflen = 8 := by omega
      have key : p.printItem slt (.whiteSpace x) = .ok (slt,
          { (({ p with buflen := 0 } : printer).write (wsBytes (p.buffer.take p.buflen.toNat)))
            with buffer := p.buffer.set 0 x, buflen := 1, pos := p.pos }) := by
        unfold printItem
        simp only [hb, if_true, writeWhitespace_plain p h0 h8, write_eq, emit]
        simp
      rw [key]
      constructor
      · intro _ _ h; cases h
        refine ⟨?_, ?_, ?_, ?_⟩
        · simp only [absItem, abs, hlt, hb8, write_eq, emit]
          simp
          cases hbuf : p.buffer with
          | nil => simp [hbuf] at hlen
          | cons a l =>
            simp [hbuf] at hlen
            simp
            omega
        · simp only [write_eq, emit, Plain]
          simp [hcm, hlen]
        · simp only [write_eq, emit]
        · rcases hc with h | h
          · left; simp only [write_eq, emit]; exact h
          · right; simp only [write_eq, emit]; exact h
      · intro e h; cases h
    · have hb' : ¬ (p.buflen < 0 ∨ p.buflen ≥ 8) := by omega
      have key : p.printItem slt (.whiteSpace x) = .ok (slt,
          { p with buffer := p.buffer.set p.buflen.toNat x, buflen := p.buflen + 1 }) := by
        have hneg : ¬ p.buflen < 0 := by omega
        unfold printItem
        simp [hb, hneg]
      rw [key]
      have hl2 : ¬ (p.buflen.toNat ≥ 8) := by omega
      constructor
      · intro _ _ h; cases h
        refine ⟨?_, ?_, rfl, hc⟩
        · simp only [absItem, abs, hlt, hl2, if_false]
          have e1 : (p.buflen + 1).toNat = p.buflen.toNat + 1 := by omega
          rw [e1, take_succ_set _ _ _ (by omega)]
        · refine ⟨hcm, ?_, ?_, ?_⟩
          · simp [hlen]
          · show 0 ≤ p.buflen + 1; omega
          · show p.buflen + 1 ≤ 8; omega
      · intro e h; cases h
  | bytes d => exact hdata d (Or.inl rfl) rfl
  | nilBytes =>
    have key : p.printItem slt .nilBytes = .ok (slt, p) := by
      unfold printItem
      simp only [eta_pos]
    rw [key]
    constructor
    · intro _ _ h; cases h
      exact ⟨rfl, ⟨hcm, hlen, h0, h8⟩, rfl, hc⟩
    · intro e h; cases h
  | string d => exact hdata d (Or.inr (Or.inl rfl)) rfl
  | token t => exact hdata t.String (Or.inr (Or.inr ⟨t, rfl, rfl⟩)) rfl
  | position x =>
    have key : p.printItem slt (.position x) =
        .ok (slt, { p with pos := if x.IsValid then x else p.pos }) := by
      unfold printItem
      by_cases hx : x.IsValid = true <;> simp [hx]
    rw [key]
    constructor
    · intro _ _ h; cases h
      exact ⟨rfl, ⟨hcm, hlen, h0, h8⟩, rfl, hc⟩
    · intro e h; cases h
  | lineTag x =>
    have hm : p.mode &&& GenHTML = 0 := by
      rcases hf with h | h
      · exact h
      · simp [Item.plain] at h
    have key : p.printItem slt (.lineTag x) =
        .ok (if x.IsValid then true else slt, { p with pos := if x.IsValid then x else p.pos }) := by
      unfold printItem
      by_cases hx : x.IsValid = true <;> simp [hx]
    rw [key]
    constructor
    · intro _ _ h; cases h
      exact ⟨rfl, ⟨hcm, hlen, h0, h8⟩, rfl, Or.inl hm⟩
    · intro e h; cases h
  | htmlTag x =>
    have hm : p.mode &&& GenHTML = 0 := by
      rcases hf with h | h
      · exact h
      · simp [Item.plain] at h
    have key : p.printItem slt (.htmlTag x) = .ok (slt, { p with tag := x }) := by
      unfold printItem
      rfl
    rw [key]
    constructor
    · intro _ _ h; cases h
      exact ⟨rfl, ⟨hcm, hlen, h0, h8⟩, rfl, Or.inl hm⟩
    · intro e h; cases h

end printer

theorem Sim_ok (p : printer) (hp : p.Plain) (ht : p.TagFree) :
    Sim p.mode (.ok p) (.ok p.abs) :=
  ⟨fun q hq => by cases hq; exact ⟨rfl, hp, rfl, ht⟩, fun e he => by cases he⟩

theorem Sim_error (mode : Nat) (e : String) : Sim mode (.error e) (.error e) :=
  ⟨(fun q hq => by cases hq), (fun e' he => by cases he; rfl)⟩

namespace printer

theorem NoTag.tagFree {p : printer} {slt : Bool} (h : NoTag p slt) : TagFree p := by
  rcases h with h | ⟨h, _⟩
  · exact Or.inl h
  · exact Or.inr h

theorem TagFree.noTag {p : printer} (h : TagFree p) : NoTag p false := by
  rcases h with h | h
  · exact Or.inl h
  · exact Or.inr ⟨h, rfl⟩

theorem printLoop_abs : ∀ (items : List Item) (slt : Bool) (p : printer), p.Plain → NoTag p slt →
    (p.mode &&& GenHTML = 0 ∨ items.all Item.plain = true) →
    Sim p.mode (printLoop items slt p) (absPrint p.mode items p.abs)
  | [], slt, p, hp, hc, _ => by
    simp only [printLoop, absPrint]
    exact Sim_ok p hp hc.tagFree
  | f :: rest, slt, p, hp, hc, hf => by
    have hf1 : p.mode &&& GenHTML = 0 ∨ f.plain = true := by
      rcases hf with h | h
      · exact Or.inl h
      · right; simp at h; exact h.1
    obtain ⟨h1, h2⟩ := printItem_abs p slt f hp hc hf1
    simp only [printLoop, absPrint]
    cases hr : p.printItem slt f with
    | error e =>
      rw [h2 e hr]
      exact Sim_error _ _
    | ok r =>
      obtain ⟨slt', q⟩ := r
      obtain ⟨ha, hq, hm, hn⟩ := h1 slt' q hr
      rw [ha]
      simp only []
      rw [← hm]
      apply printLoop_abs rest slt' q hq hn
      rcases hf with h | h
      · left; rw [hm]; exact h
      · right; simp at h; simpa using h.2

theorem print_abs (p : printer) (items : List Item) (hp : p.Plain) (ht : p.TagFree)
    (hf : p.mode &&& GenHTML = 0 ∨ items.all Item.plain = true) :
    Sim p.mode (p.print items) (absPrint p.mode items p.abs) :=
  printLoop_abs items false p hp ht.noTag hf

theorem commentList_abs : ∀ (l : List Comment) (p : printer), p.Plain → p.TagFree →
    Sim p.mode (commentList l p) (absCommentList p.mode l p.abs)
  | [], p, hp, ht => by
    simp only [commentList, absCommentList]
    exact Sim_ok p hp ht
  | c :: rest, p, hp, ht => by
    simp only [commentList, absCommentList]
    have h := print_abs p [.position c.pos, .bytes c.Text] hp ht (Or.inr rfl)
    cases hr : p.print [.position c.pos, .bytes c.Text] with
    | error e =>
      rw [h.2 e hr]
      exact Sim_error _ _
    | ok q =>
      obtain ⟨ha, hq, hm, htq⟩ := h.1 q hr
      rw [ha]
      simp only []
      rcases hT : c.Text with _ | ⟨t0, _ | ⟨t1, tl⟩⟩
      · exact Sim_error _ _
      · exact Sim_error _ _
      · simp only []
        by_cases hsl : t1 = '/' ∧ rest ≠ []
        · rw [if_pos hsl, if_pos hsl]
          have h2 := print_abs q [.whiteSpace .newline] hq htq (Or.inr rfl)
          rw [hm] at h2
          cases hr2 : q.print [.whiteSpace .newline] with
          | error e =>
            rw [h2.2 e hr2]
            exact Sim_error _ _
          | ok q2 =>
            obtain ⟨ha2, hq2, hm2, htq2⟩ := h2.1 q2 hr2
            rw [ha2]
            simp only []
            rw [← hm2]
            exact commentList_abs rest q2 hq2 htq2
        · rw [if_neg hsl, if_neg hsl]
          rw [← hm]
          exact commentList_abs rest q hq htq

theorem runOp_abs (p : printer) (op : Op) (hp : p.Plain) (ht : p.TagFree)
    (hf : p.mode &&& GenHTML = 0 ∨ op.plain = true) :
    Sim p.mode (p.runOp op) (absOp p.mode p.abs op) := by
  have hcm := hp.1
  cases op with
  | print args => exact print_abs p args hp ht hf
  | leadComment d =>
    cases d with
    | none =>
      simp only [runOp, leadComment, absOp, hcm]
      exact Sim_ok p hp ht
    | some d =>
      simp only [runOp, leadComment, absOp, hcm]
      have h := commentList_abs d.list p hp ht
      cases hr : commentList d.list p with
      | error e =>
        rw [h.2 e hr]
        exact Sim_error _ _
      | ok q =>
        obtain ⟨ha, hq, hm, htq⟩ := h.1 q hr
        rw [ha]
        simp only []
        rw [← hm]
        exact print_abs q [.whiteSpace .newline] hq htq (Or.inr rfl)
  | lineComment d =>
    cases d with
    | none =>
      simp only [runOp, lineComment, absOp, hcm]
      exact Sim_ok p hp ht
    | some d =>
      simp only [runOp, lineComment, absOp, hcm]
      have h := print_abs p [.whiteSpace .tab] hp ht (Or.inr rfl)
      cases hr : p.print [.whiteSpace .tab] with
      | error e =>
        rw [h.2 e hr]
        exact Sim_error _ _
      | ok q =>
        obtain ⟨ha, hq, hm, htq⟩ := h.1 q hr
        rw [ha]
        simp only []
        rw [← hm]
        exact commentList_abs d.list q hq htq
  | levelInc =>
    simp only [runOp, absOp]
    exact Sim_ok _ hp ht
  | levelDec =>
    simp only [runOp, absOp]
    exact Sim_ok _ hp ht
  | crash msg =>
    simp only [runOp, absOp]
    exact Sim_error _ _

theorem run_abs : ∀ (ops : List Op) (p : printer), p.Plain → p.TagFree →
    (p.mode &&& GenHTML = 0 ∨ ops.all Op.plain = true) →
    Sim p.mode (p.run ops) (absRun p.mode ops p.abs)
  | [], p, hp, ht, _ => by
    simp only [run, absRun]
    exact Sim_ok p hp ht
  | op :: rest, p, hp, ht, hf => by
    simp only [run, absRun]
    have hf1 : p.mode &&& GenHTML = 0 ∨ op.plain = true := by
      rcases hf with h | h
      · exact Or.inl h
      · right; simp at h; exact h.1
    have h := runOp_abs p op hp ht hf1
    cases hr : p.runOp op with
    | error e =>
      rw [h.2 e hr]
      exact Sim_error _ _
    | ok q =>
      obtain ⟨ha, hq, hm, htq⟩ := h.1 q hr
      rw [ha]
      simp only []
      rw [← hm]
      apply run_abs rest q hq htq
      rcases hf with h | h
      · left; rw [hm]; exact h
      · right; simp at h; simpa using h.2

end printer

theorem init_plain (mode : Nat) : (printer.init mode).Plain := by
  refine ⟨rfl, ?_, ?_, ?_⟩
  · simp [printer.init]
  · simp [printer.init]
  · simp [printer.init]

theorem init_abs (mode : Nat) : (printer.init mode).abs = ⟨0, [], []⟩ := by
  simp [printer.abs, printer.init]

/-- `Fprint` of a node without interspersed comments writes what the reading
without comments gives, followed by the whitespace left in the buffer. -/
theorem Fprint_abs (node : Node) (mode : Nat) (ops : List Op) (hops : nodeOps node = some ops)
    (hc : nodeComments node = [])
    (hf : mode &&& GenHTML = 0 ∨ ops.all Op.plain = true) :
    (Fprint node mode).map (fun r => r.output) =
      (absRun mode ops ⟨0, [], []⟩).map (Abs.flush mode) := by
  unfold Fprint Fprint.final
  rw [hops, hc]
  simp only []
  have heta : ({ printer.init mode with comment := [] } : printer) = printer.init mode := rfl
  rw [heta]
  have h := printer.run_abs ops (printer.init mode) (init_plain mode) (Or.inr rfl) hf
  rw [init_abs] at h
  have hm : (printer.init mode).mode = mode := rfl
  rw [hm] at h
  cases hr : (printer.init mode).run ops with
  | error e =>
    rw [h.2 e hr]
    rfl
  | ok q =>
    obtain ⟨ha, hq, hqm, _⟩ := h.1 q hr
    rw [ha]
    simp only []
    rw [printer.flush_plain q _ hq.1, printer.writeWhitespace_plain q hq.2.2.1 hq.2.2.2]
    simp only [Except.map, printer.write_eq, printer.emit, Abs.flush, printer.abs, hqm]

theorem abcd_ops (pa pb pc pd pmul1 padd pmul2 : Position) :
    (expr (C5_tree pa pb pc pd pmul1 padd pmul2)).ops =
      [.print [.position pa], .print [.position pa], .print [.position pa], .print [.string ['a']],
       .print [.position pmul1, .token .MUL],
       .print [.position pb], .print [.string ['b']],
       .print [.whiteSpace .blank, .position padd, .token .ADD, .whiteSpace .blank],
       .print [.position pc], .print [.position pc], .print [.string ['c']],
       .print [.position pmul2, .token .MUL],
       .print [.position pd], .print [.string ['d']]] := rfl

/-- C5 (amended): in every mode and at all positions, printing the expression
tree of `a*b + c*d` writes exactly `a*b + c*d`: no blanks around the `*`
operators and one blank on each side of the `+`, because the operands of `+`
are binary expressions, for which `needsBlanks` is true. -/
theorem C5_binaryExpr_abcd (mode : Nat) (pa pb pc pd pmul1 padd pmul2 : Position) :
    (Fprint (.Expr (C5_tree pa pb pc pd pmul1 padd pmul2)) mode).map (fun r => r.output)
      = .ok "a*b + c*d".toList := by
  rw [Fprint_abs (.Expr (C5_tree pa pb pc pd pmul1 padd pmul2)) mode
    (expr (C5_tree pa pb pc pd pmul1 padd pmul2)).ops rfl rfl (Or.inr (by rw [abcd_ops]; rfl)),
    abcd_ops]
  simp [absRun, absOp, absPrint, absItem, Abs.data, Abs.flush, enc, encByte, wsBytes,
    whiteSpace.toByte, Token.String, Except.map]

/-- C5 (as stated) fails: printing the tree of `a*b + c*d` in `RawFormat`
mode does not write `a*b+c*d`. -/
theorem C5_counterexample :
    (Fprint (.Expr (C5_tree ⟨1, 1, 1⟩ ⟨3, 1, 3⟩ ⟨7, 1, 7⟩ ⟨9, 1, 9⟩ ⟨2, 1, 2⟩ ⟨5, 1, 5⟩ ⟨8, 1, 8⟩))
      RawFormat).map (fun r => r.output) ≠ .ok "a*b+c*d".toList := by
  intro h
  have h2 : (Fprint (.Expr (C5_tree ⟨1, 1, 1⟩ ⟨3, 1, 3⟩ ⟨7, 1, 7⟩ ⟨9, 1, 9⟩ ⟨2, 1, 2⟩ ⟨5, 1, 5⟩
      ⟨8, 1, 8⟩)) RawFormat).map (fun r => r.output) = .ok "a*b + c*d".toList := rfl
  rw [h2] at h
  exact absurd (Except.ok.inj h) (by decide)

/-- C7: `needsBlanks` follows the rule of the specification for every
expression: length of the name above 12 for an identifier, length of the text
above 6 for a basic literal, false for a parenthesized expression, for a call
more than one argument or a callee or sole argument that needs blanks, true
for every other kind of expression. -/
theorem C7_needsBlanks (e : Expr) : needsBlanks e = needsBlanksSpec e := by
  cases e with
  | CallExpr x =>
    cases x with
    | mk f lp args rp =>
      rcases args with _ | ⟨a, _ | ⟨b, l⟩⟩
      · simp [needsBlanks, needsBlanksCall, needsBlanksSpec]
      · simp [needsBlanks, needsBlanksCall, needsBlanksSpec]
      · simp [needsBlanks, needsBlanksCall, needsBlanksSpec]
  | _ => simp [needsBlanks, needsBlanksSpec]

theorem encByte_html (mode indent : Nat) (b : Char) (h : mode &&& GenHTML ≠ 0) :
    encByte mode indent b = htmlByte (decide (mode &&& RawFormat ≠ 0)) indent b := by
  unfold encByte htmlByte
  by_cases h1 : b = '&'
  · subst h1; simp [h, ampersand]
  by_cases h2 : b = '<'
  · subst h2; simp [h, lessthan]
  by_cases h3 : b = '>'
  · subst h3; simp [h, greaterthan]
  by_cases h4 : b = '\n'
  · subst h4; simp
  by_cases h5 : b = '\x0c'
  · subst h5
    by_cases hr : mode &&& RawFormat = 0 <;> simp [hr]
  simp [h1, h2, h3, h4, h5]

theorem htmlByte_no_angle (raw : Bool) (indent : Nat) (b : Char) :
    '<' ∉ htmlByte raw indent b ∧ '>' ∉ htmlByte raw indent b := by
  unfold htmlByte
  by_cases h1 : b = '&'
  · subst h1; simp
  by_cases h2 : b = '<'
  · subst h2; simp
  by_cases h3 : b = '>'
  · subst h3; simp
  by_cases h4 : b = '\n'
  · subst h4; simp [List.mem_replicate]
  by_cases h5 : b = '\x0c'
  · subst h5
    cases raw <;> simp [List.mem_replicate]
  simp [h1, h2, h3, h4, h5]
  exact ⟨fun h => h2 h.symm, fun h => h3 h.symm⟩

/-- An ampersand inside the bytes of one input byte starts them, and they are
an entity. -/
theorem htmlByte_amp (raw : Bool) (indent : Nat) (b : Char) (pre post : List Char)
    (h : htmlByte raw indent b = pre ++ '&' :: post) :
    pre = [] ∧ ('&' :: post = "&amp;".toList ∨ '&' :: post = "&lt;".toList ∨
      '&' :: post = "&gt;".toList) := by
  unfold htmlByte at h
  have hent : ∀ (e : List Char), (e = "&amp;".toList ∨ e = "&lt;".toList ∨ e = "&gt;".toList) →
      e = pre ++ '&' :: post → pre = [] ∧ ('&' :: post = "&amp;".toList ∨
        '&' :: post = "&lt;".toList ∨ '&' :: post = "&gt;".toList) := by
    intro e he h
    have hpre : pre = [] := by
      rcases pre with _ | ⟨c, pre⟩
      · rfl
      · exfalso
        have hm : '&' ∈ e.tail := by
          rw [h]; simp
        rcases he with he | he | he <;> subst he <;> simp at hm
    subst hpre
    simp only [List.nil_append] at h
    rw [← h]
    exact ⟨rfl, he⟩
  have hno : ∀ (l : List Char), '&' ∉ l → l = pre ++ '&' :: post → False := by
    intro l hl h
    apply hl
    rw [h]; simp
  by_cases h1 : b = '&'
  · rw [if_pos h1] at h; exact hent _ (Or.inl rfl) h
  rw [if_neg h1] at h
  by_cases h2 : b = '<'
  · rw [if_pos h2] at h; exact hent _ (Or.inr (Or.inl rfl)) h
  rw [if_neg h2] at h
  by_cases h3 : b = '>'
  · rw [if_pos h3] at h; exact hent _ (Or.inr (Or.inr rfl)) h
  rw [if_neg h3] at h
  exfalso
  by_cases h4 : b = '\n'
  · rw [if_pos h4] at h
    exact hno _ (by simp [List.mem_replicate]) h
  rw [if_neg h4] at h
  by_cases h5 : b = '\x0c'
  · rw [if_pos h5] at h
    refine hno _ ?_ h
    cases raw <;> simp [List.mem_replicate]
  rw [if_neg h5] at h
  exact hno _ (by simp; exact fun h => h1 h.symm) h

theorem flatMap_amp (raw : Bool) (indent : Nat) : ∀ (data pre post : List Char),
    data.flatMap (htmlByte raw indent) = pre ++ '&' :: post →
    "&amp;".toList <+: '&' :: post ∨ "&lt;".toList <+: '&' :: post ∨
      "&gt;".toList <+: '&' :: post
  | [], pre, post, h => by
    simp at h
  | b :: rest, pre, post, h => by
    rw [List.flatMap_cons, List.append_eq_append_iff] at h
    rcases h with ⟨a', h1, h2⟩ | ⟨c', h1, h2⟩
    · exact flatMap_amp raw indent rest a' post h2
    · rcases c' with _ | ⟨c, c'⟩
      · simp only [List.nil_append] at h2
        exact flatMap_amp raw indent rest [] post (by simpa using h2.symm)
      · simp only [List.cons_append, List.cons.injEq] at h2
        obtain ⟨hc, h2⟩ := h2
        subst hc
        obtain ⟨_, hent⟩ := htmlByte_amp raw indent b pre c' h1
        rw [h2]
        rcases hent with he | he | he
        · left; exact ⟨rest.flatMap (htmlByte raw indent), by
            have : '&' :: (c' ++ rest.flatMap (htmlByte raw indent))
              = ('&' :: c') ++ rest.flatMap (htmlByte raw indent) := rfl
            rw [this, he]⟩
        · right; left; exact ⟨rest.flatMap (htmlByte raw indent), by
            have : '&' :: (c' ++ rest.flatMap (htmlByte raw indent))
              = ('&' :: c') ++ rest.flatMap (htmlByte raw indent) := rfl
            rw [this, he]⟩
        · right; right; exact ⟨rest.flatMap (htmlByte raw indent), by
            have : '&' :: (c' ++ rest.flatMap (htmlByte raw indent))
              = ('&' :: c') ++ rest.flatMap (htmlByte raw indent) := rfl
            rw [this, he]⟩

/-- C10: in `GenHTML` mode `write(data)` sends to the sink, for every byte of
`data` in order, its entity if it is `&`, `<` or `>`, the byte itself
otherwise (a line break with the indentation after it); the bytes sent hold no
`<` and no `>`, and every `&` in them starts `&amp;`, `&lt;` or `&gt;`. -/
theorem C10_write_html (p : printer) (data : List Char) (h : p.mode &&& GenHTML ≠ 0) :
    ∃ out, (p.write data).output = p.output ++ out ∧
      out = data.flatMap (htmlByte (decide (p.mode &&& RawFormat ≠ 0)) p.indent) ∧
      '<' ∉ out ∧ '>' ∉ out ∧
      ∀ pre post, out = pre ++ '&' :: post →
        "&amp;".toList <+: '&' :: post ∨ "&lt;".toList <+: '&' :: post ∨
          "&gt;".toList <+: '&' :: post := by
  refine ⟨data.flatMap (htmlByte (decide (p.mode &&& RawFormat ≠ 0)) p.indent), ?_, rfl, ?_, ?_, ?_⟩
  · rw [printer.write_eq]
    simp only [printer.emit, enc]
    congr 1
    apply List.flatMap_congr
    intro b _
    exact encByte_html _ _ b h
  · intro hm
    rw [List.mem_flatMap] at hm
    obtain ⟨b, _, hb⟩ := hm
    exact (htmlByte_no_angle _ _ b).1 hb
  · intro hm
    rw [List.mem_flatMap] at hm
    obtain ⟨b, _, hb⟩ := hm
    exact (htmlByte_no_angle _ _ b).2 hb
  · intro pre post hpp
    exact flatMap_amp _ _ data pre post hpp

theorem C10_write_html_witness :
    ∃ out, (({ printer.init GenHTML with indent := 1 } : printer).write "a<b&c>\n".toList).output
        = [] ++ out ∧
      out = "a<b&c>\n".toList.flatMap (htmlByte false 1) ∧
      '<' ∉ out ∧ '>' ∉ out ∧
      ∀ pre post, out = pre ++ '&' :: post →
        "&amp;".toList <+: '&' :: post ∨ "&lt;".toList <+: '&' :: post ∨
          "&gt;".toList <+: '&' :: post :=
  C10_write_html ({ printer.init GenHTML with indent := 1 } : printer) "a<b&c>\n".toList
    (by decide)

/-! ## The calls of a walk -/

@[simp] theorem Walk.bind_ops {α β : Type} (m : Walk α) (f : α → Walk β) :
    (m >>= f).ops = m.ops ++ (f m.val).ops := by
  show (match f m.val with | ⟨b, ops⟩ => (⟨b, m.ops ++ ops⟩ : Walk β)).ops = _
  cases f m.val; rfl

@[simp] theorem Walk.bind_val {α β : Type} (m : Walk α) (f : α → Walk β) :
    (m >>= f).val = (f m.val).val := by
  show (match f m.val with | ⟨b, ops⟩ => (⟨b, m.ops ++ ops⟩ : Walk β)).val = _
  cases f m.val; rfl

@[simp] theorem Walk.pure_ops {α : Type} (a : α) : (pure a : Walk α).ops = [] := rfl

@[simp] theorem Walk.pure_val {α : Type} (a : α) : (pure a : Walk α).val = a := rfl

@[simp] theorem Walk.print_ops (args : List Item) : (Walk.print args).ops = [Op.print args] := rfl

@[simp] theorem Walk.ite_ops {α : Type} (c : Prop) [Decidable c] (a b : Walk α) :
    (if c then a else b).ops = if c then a.ops else b.ops := by
  split <;> rfl

theorem absRun_append (mode : Nat) : ∀ (a b : List Op) (s : Abs),
    absRun mode (a ++ b) s =
      match absRun mode a s with
      | .error e => .error e
      | .ok s1 => absRun mode b s1
  | [], b, s => rfl
  | op :: a, b, s => by
    simp only [List.cons_append, absRun]
    cases absOp mode s op with
    | error e => rfl
    | ok s1 => exact absRun_append mode a b s1

theorem Sim_ok_inv {mode : Nat} {r : Except String printer} {a : Abs}
    (h : Sim mode r (.ok a)) :
    ∃ q, r = .ok q ∧ q.abs = a ∧ q.Plain ∧ q.mode = mode ∧ q.TagFree := by
  cases r with
  | error e =>
    have := h.2 e rfl
    cases this
  | ok q =>
    obtain ⟨ha, hp, hm, ht⟩ := h.1 q rfl
    cases ha
    exact ⟨q, rfl, rfl, hp, hm, ht⟩

theorem Plain.buflen_zero {q : printer} (hq : q.Plain) (h : q.abs.pending = []) :
    q.buflen = 0 := by
  obtain ⟨_, hlen, h0, h8⟩ := hq
  have := congrArg List.length h
  simp only [printer.abs, List.length_take, List.length_nil, hlen] at this
  omega

theorem abs_of_buflen_zero (p : printer) (h : p.buflen = 0) :
    p.abs = ⟨p.indent, [], p.output⟩ := by
  simp [printer.abs, h]

/-! ## Lists of identifiers on one line -/

theorem exprs_ident (x : Ident) (names : List Ident) :
    exprs ((x :: names).map Expr.Ident) =
      ⟨some x.pos, ⟨false, [.print [.position x.pos], .print [.string x.Value]]⟩⟩ ::
        exprs (names.map Expr.Ident) := by
  simp only [List.map_cons, exprs]
  rfl

theorem exprs_ident_pos : ∀ (names : List Ident) (line : Int),
    (∀ x ∈ names, x.pos.Line = line) →
    ∀ e ∈ exprs (names.map Expr.Ident), ∃ pos, e.Pos = some pos ∧ pos.Line = line
  | [], _, _, e, he => by simp [exprs] at he
  | x :: names, line, h, e, he => by
    rw [exprs_ident] at he
    rcases List.mem_cons.1 he with he | he
    · subst he
      exact ⟨x.pos, rfl, h x (List.mem_cons_self _ _)⟩
    · exact exprs_ident_pos names line (fun y hy => h y (List.mem_cons_of_mem _ hy)) e he

theorem exprListLine_ident (mode m : Nat) : ∀ (names : List Ident) (k i : Nat) (o : List Char),
    absRun mode (exprListLine m (k + 1) (exprs (names.map Expr.Ident))).ops ⟨i, [], o⟩ =
        .ok ⟨i, [], o ++ enc mode i ((names.map (fun x => lineSep m ++ x.Value)).flatten)⟩ ∧
      (exprListLine m (k + 1) (exprs (names.map Expr.Ident))).ops.all Op.plain = true
  | [], k, i, o => by
    simp [exprs, exprListLine, absRun, enc]
  | x :: names, k, i, o => by
    rw [exprs_ident]
    obtain ⟨ih1, ih2⟩ := exprListLine_ident mode m names (k + 1) i
      (o ++ enc mode i (lineSep m ++ x.Value))
    by_cases hc : m &&& commaSep = 0
    · simp only [exprListLine, Walk.bind_ops, Walk.ite_ops, Walk.print_ops, Walk.pure_ops,
        Nat.succ_pos, if_true, hc, ne_eq, not_true_eq_false, if_false, List.nil_append,
        List.singleton_append, List.cons_append, List.map_cons, List.flatten_cons]
      constructor
      · simp only [absRun, absOp, absPrint, absItem, Abs.data, List.length_nil,
          List.nil_append, ge_iff_le, Nat.le_zero_eq, OfNat.ofNat_ne_zero, if_false]
        rw [show o ++ enc mode i (wsBytes [whiteSpace.blank] ++ x.Value)
          = o ++ enc mode i (lineSep m ++ x.Value) from by
            simp [lineSep, hc, wsBytes, whiteSpace.toByte]]
        rw [ih1]
        simp [enc_append, List.append_assoc]
      · simpa [Op.plain, Item.plain] using ih2
    · simp only [exprListLine, Walk.bind_ops, Walk.ite_ops, Walk.print_ops, Walk.pure_ops,
        Nat.succ_pos, if_true, hc, ne_eq, not_false_eq_true, List.nil_append,
        List.singleton_append, List.cons_append, List.map_cons, List.flatten_cons]
      constructor
      · simp only [absRun, absOp, absPrint, absItem, Abs.data, List.length_nil,
          List.nil_append, ge_iff_le, Nat.le_zero_eq, OfNat.ofNat_ne_zero, if_false]
        rw [show o ++ enc mode i (wsBytes [] ++ Token.COMMA.String) ++
            enc mode i (wsBytes [whiteSpace.blank] ++ x.Value)
          = o ++ enc mode i (lineSep m ++ x.Value) from by
            rw [List.append_assoc, ← enc_append]
            simp [lineSep, hc, wsBytes, whiteSpace.toByte, Token.String]]
        rw [ih1]
        simp [enc_append, List.append_assoc]
      · simpa [Op.plain, Item.plain] using ih2

theorem flatten_sep_eq (sep : List Char) : ∀ (v : List Char) (vs : List (List Char)),
    v ++ (vs.map (fun x => sep ++ x)).flatten = sep.intercalate (v :: vs)
  | v, [] => by simp [List.intercalate]
  | v, w :: vs => by
    have ih := flatten_sep_eq sep w vs
    simp only [List.intercalate, List.intersperse_cons₂, List.flatten_cons, List.map_cons] at ih ⊢
    rw [← ih, List.append_assoc]

theorem exprList_ident_line (mode m : Nat) (names : List Ident) (line : Int) (i : Nat)
    (o : List Char) (hne : names ≠ []) (hline : ∀ x ∈ names, x.pos.Line = line) :
    absRun mode (exprList (exprs (names.map Expr.Ident)) m).ops ⟨i, [], o⟩ =
        .ok ⟨i, [], o ++ enc mode i
          (lineStart m ++ (lineSep m).intercalate (names.map (fun x => x.Value)))⟩ ∧
      (exprList (exprs (names.map Expr.Ident)) m).ops.all Op.plain = true := by
  obtain ⟨x, rest, rfl⟩ := List.exists_cons_of_ne_nil hne
  have hpos := exprs_ident_pos (x :: rest) line hline
  have hl : ∃ last, (exprs ((x :: rest).map Expr.Ident)).getLast? = some last := by
    rw [exprs_ident]
    exact ⟨_, List.getLast?_eq_getLast _ (by simp)⟩
  obtain ⟨last, hlast⟩ := hl
  obtain ⟨posn, hposn, hln⟩ := hpos last (List.mem_of_getLast?_eq_some hlast)
  have hx := hline x (List.mem_cons_self _ _)
  obtain ⟨ih1, ih2⟩ := exprListLine_ident mode m rest 0 i
    (o ++ enc mode i (lineStart m ++ x.Value))
  unfold exprList
  rw [hlast]
  rw [exprs_ident] at hlast ⊢
  simp only [List.head?_cons, hposn, hx, hln, if_true]
  by_cases hb : m &&& blankStart = 0
  · simp only [exprListLine, Walk.bind_ops, Walk.ite_ops, Walk.print_ops, Walk.pure_ops,
      hb, ne_eq, not_true_eq_false, if_false, List.nil_append, Nat.lt_irrefl,
      List.singleton_append, List.cons_append]
    constructor
    · simp only [absRun, absOp, absPrint, absItem, Abs.data, wsBytes, List.map_nil,
        List.nil_append]
      simp only [absRun, absOp, absPrint, absItem, Abs.data, lineStart, hb, ne_eq,
        not_true_eq_false, if_false, List.nil_append, zero_add] at ih1
      rw [ih1]
      simp only [List.map_cons, ← flatten_sep_eq, List.map_map, enc_append, List.append_assoc,
        lineStart, hb, ne_eq, not_true_eq_false, if_false, List.nil_append]
      rfl
    · simpa [Op.plain, Item.plain] using ih2
  · simp only [exprListLine, Walk.bind_ops, Walk.ite_ops, Walk.print_ops, Walk.pure_ops,
      hb, ne_eq, not_false_eq_true, if_true, List.nil_append, Nat.lt_irrefl, if_false,
      List.singleton_append, List.cons_append]
    constructor
    · simp only [absRun, absOp, absPrint, absItem, Abs.data, List.length_nil,
        List.nil_append, ge_iff_le, Nat.le_zero_eq, OfNat.ofNat_ne_zero, if_false]
      have e1 : wsBytes [whiteSpace.blank] ++ x.Value = lineStart m ++ x.Value := by
        simp [lineStart, hb, wsBytes, whiteSpace.toByte]
      rw [e1]
      simp only [zero_add] at ih1
      rw [ih1]
      simp only [List.map_cons, ← flatten_sep_eq, List.map_map, enc_append, List.append_assoc]
      rfl
    · simpa [Op.plain, Item.plain] using ih2

/-! ## Binary expressions -/

theorem leftSpine_not_binary (prec : Nat) (x : Expr)
    (h : ∀ X OpPos Op Y, x = .BinaryExpr X OpPos Op Y → Op.Precedence ≠ prec) :
    leftSpine prec x = ([], x) := by
  cases x with
  | BinaryExpr X OpPos Op Y =>
    simp [leftSpine, h X OpPos Op Y rfl]
  | _ => simp [leftSpine]

theorem collect_eq (prec : Nat) (x : Expr) :
    ∀ (list : List (Position × Token × Expr)) (pb : Bool),
    binaryExprCollect prec x list pb =
      ((leftSpine prec x).1 ++ list, (leftSpine prec x).2,
        pb || (leftSpine prec x).1.any (fun n => needsBlanks n.2.2)) := by
  intro list pb
  cases x with
  | BinaryExpr X OpPos Op Y =>
    by_cases hp : Op.Precedence = prec
    · simp only [binaryExprCollect, leftSpine, hp, if_true]
      rw [collect_eq prec X]
      simp [Bool.or_assoc, Bool.or_comm]
    · simp [binaryExprCollect, leftSpine, hp]
  | _ => simp [binaryExprCollect, leftSpine]
termination_by sizeOf x

theorem binaryExprBlanks_eq (prec : Nat) (X : Expr) (OpPos : Position) (Op : Token) (Y : Expr) :
    binaryExprBlanks prec X OpPos Op Y =
      chainBlanks prec ((leftSpine prec X).1 ++ [(OpPos, Op, Y)]) (leftSpine prec X).2 := by
  unfold binaryExprBlanks chainBlanks
  rw [collect_eq]
  simp only [List.any_append, List.any_cons, List.any_nil, Bool.or_false]
  cases decide (prec ≤ Token.EQL.Precedence) <;> cases needsBlanks Y <;>
    cases (leftSpine prec X).1.any (fun n => needsBlanks n.2.2) <;> simp

theorem binaryExprOp_ops (pb : Bool) (OpPos : Position) (op : Token) :
    (binaryExprOp pb OpPos op).ops = chainOp pb OpPos op := by
  unfold binaryExprOp chainOp
  cases pb <;> rfl

theorem binaryExprSpine_eq (pb : Bool) (prec : Nat) (X : Expr) (OpPos : Position) (Op : Token)
    (Y : Expr) :
    binaryExprSpine pb prec (.BinaryExpr X OpPos Op Y) = (do
      match X with
      | .BinaryExpr _ _ Op1 _ =>
        if Op1.Precedence = prec then binaryExprSpine pb prec X
        else let _ ← expr1 X prec
      | _ => let _ ← expr1 X prec
      binaryExprOp pb OpPos Op
      let _ ← expr1 Y prec) := rfl

/-- The calls that print a chain: the leftmost operand, then every operator
and right operand from left to right. -/
theorem binaryExprSpine_ops (pb : Bool) (prec : Nat) (X : Expr) (OpPos : Position) (Op : Token)
    (Y : Expr) (hp : Op.Precedence = prec) :
    (binaryExprSpine pb prec (.BinaryExpr X OpPos Op Y)).ops =
      (expr1 (leftSpine prec (.BinaryExpr X OpPos Op Y)).2 prec).ops ++
        (leftSpine prec (.BinaryExpr X OpPos Op Y)).1.flatMap
          (fun n => chainOp pb n.1 n.2.1 ++ (expr1 n.2.2 prec).ops) := by
  rw [binaryExprSpine_eq]
  cases X with
  | BinaryExpr X1 OpPos1 Op1 Y1 =>
    by_cases hp1 : Op1.Precedence = prec
    · have ih := binaryExprSpine_ops pb prec X1 OpPos1 Op1 Y1 hp1
      simp only [hp1, if_true, Walk.bind_ops, Walk.pure_ops, List.append_nil, binaryExprOp_ops]
      rw [ih]
      simp only [leftSpine, hp, hp1, if_true, List.flatMap_append, List.flatMap_cons,
        List.flatMap_nil, List.append_nil, List.append_assoc]
    · simp only [hp1, if_false, Walk.bind_ops, Walk.pure_ops, List.append_nil, binaryExprOp_ops,
        leftSpine, hp, if_true, List.flatMap_append, List.flatMap_cons,
        List.flatMap_nil, List.append_nil, List.append_assoc, List.nil_append]
  | _ =>
    simp only [Walk.bind_ops, Walk.pure_ops, List.append_nil, binaryExprOp_ops,
        leftSpine, hp, if_true, List.flatMap_append, List.flatMap_cons,
        List.flatMap_nil, List.append_nil, List.append_assoc, List.nil_append]
termination_by sizeOf X

theorem expr1_binary_eq (X : Expr) (OpPos : Position) (Op : Token) (Y : Expr) (prec1 : Nat) :
    expr1 (.BinaryExpr X OpPos Op Y) prec1 = (do
      printPos X.Pos
      let prec := Op.Precedence
      let chain := binaryExprSpine (binaryExprBlanks prec X OpPos Op Y) prec
        (.BinaryExpr X OpPos Op Y)
      if prec < prec1 then
        print [.token .LPAREN]
        printPos X.Pos
        chain
        print [.token .RPAREN]
      else
        chain
      return false) := rfl

theorem binaryExpr_chain_ops (X : Expr) (OpPos : Position) (Op : Token) (Y : Expr) (prec1 : Nat)
    (h : prec1 ≤ Op.Precedence) :
    (expr1 (.BinaryExpr X OpPos Op Y) prec1).ops =
      (printPos X.Pos).ops ++
        ((expr1 (leftSpine Op.Precedence (.BinaryExpr X OpPos Op Y)).2 Op.Precedence).ops ++
          (leftSpine Op.Precedence (.BinaryExpr X OpPos Op Y)).1.flatMap (fun n =>
            chainOp (chainBlanks Op.Precedence (leftSpine Op.Precedence (.BinaryExpr X OpPos Op Y)).1
                (leftSpine Op.Precedence (.BinaryExpr X OpPos Op Y)).2) n.1 n.2.1 ++
              (expr1 n.2.2 Op.Precedence).ops)) := by
  rw [expr1_binary_eq]
  have hlt : ¬ Op.Precedence < prec1 := by omega
  simp only [hlt, if_false, Walk.bind_ops, Walk.pure_ops, List.append_nil]
  rw [binaryExprSpine_ops _ _ X OpPos Op Y rfl, binaryExprBlanks_eq]
  simp only [leftSpine, if_true]

theorem binaryExpr_chain_example :
    LowestPrec ≤ Token.ADD.Precedence ∧
    (expr1 (.BinaryExpr
        (.BinaryExpr (.Ident ⟨⟨1, 1, 1⟩, ['a']⟩) ⟨3, 1, 3⟩ .SUB (.Ident ⟨⟨5, 1, 5⟩, ['b']⟩))
        ⟨7, 1, 7⟩ .ADD (.Ident ⟨⟨9, 1, 9⟩, "averyveryverylongname".toList⟩)) LowestPrec).ops =
      [.print [.position ⟨1, 1, 1⟩], .print [.position ⟨1, 1, 1⟩], .print [.string ['a']],
       .print [.whiteSpace .blank, .position ⟨3, 1, 3⟩, .token .SUB, .whiteSpace .blank],
       .print [.position ⟨5, 1, 5⟩], .print [.string ['b']],
       .print [.whiteSpace .blank, .position ⟨7, 1, 7⟩, .token .ADD, .whiteSpace .blank],
       .print [.position ⟨9, 1, 9⟩], .print [.string "averyveryverylongname".toList]] :=
  ⟨by decide, (binaryExpr_chain_ops
      (.BinaryExpr (.Ident ⟨⟨1, 1, 1⟩, ['a']⟩) ⟨3, 1, 3⟩ .SUB (.Ident ⟨⟨5, 1, 5⟩, ['b']⟩))
      ⟨7, 1, 7⟩ .ADD (.Ident ⟨⟨9, 1, 9⟩, "averyveryverylongname".toList⟩) LowestPrec
      (by decide)).trans (by decide)⟩

theorem enc_eq_self (mode indent : Nat) : ∀ (l : List Char),
    (∀ b ∈ l, encByte mode indent b = [b]) → enc mode indent l = l
  | [], _ => rfl
  | b :: l, h => by
    have ih := enc_eq_self mode indent l (fun c hc => h c (List.mem_cons_of_mem _ hc))
    simp only [enc, List.flatMap_cons] at ih ⊢
    rw [ih, h b (List.mem_cons_self _ _)]
    rfl

theorem mem_intersperse_cases {α : Type} (sep : α) : ∀ (l : List α) (a : α),
    a ∈ l.intersperse sep → a ∈ l ∨ a = sep
  | [], a, h => by simp at h
  | [x], a, h => by
    simp at h
    exact Or.inl (by simp [h])
  | x :: y :: l, a, h => by
    simp only [List.intersperse_cons₂, List.mem_cons] at h
    rcases h with h | h | h
    · exact Or.inl (h ▸ List.mem_cons_self _ _)
    · exact Or.inr h
    · rcases mem_intersperse_cases sep (y :: l) a h with h | h
      · exact Or.inl (List.mem_cons_of_mem _ h)
      · exact Or.inr h

theorem exprList_ident_run (p : printer) (names : List Ident) (m : Nat) (line : Int)
    (hne : names ≠ []) (hline : ∀ x ∈ names, x.pos.Line = line)
    (hp : p.Plain) (hb : p.buflen = 0) (ht : p.TagFree) :
    ∃ q, p.run (exprList (exprs (names.map Expr.Ident)) m).ops = .ok q ∧
      q.output = p.output ++ enc p.mode p.indent
        (lineStart m ++ (lineSep m).intercalate (names.map (fun x => x.Value))) ∧
      q.buflen = 0 ∧ q.indent = p.indent := by
  obtain ⟨h1, h2⟩ := exprList_ident_line p.mode m names line p.indent p.output hne hline
  have hs := printer.run_abs (exprList (exprs (names.map Expr.Ident)) m).ops p hp ht (Or.inr h2)
  rw [abs_of_buflen_zero p hb, h1] at hs
  obtain ⟨q, hq, ha, hqp, _, _⟩ := Sim_ok_inv hs
  refine ⟨q, hq, ?_, ?_, ?_⟩
  · exact congrArg Abs.out ha
  · exact Plain.buflen_zero hqp (congrArg Abs.pending ha)
  · exact congrArg Abs.indent ha

/-- C8: for a non-empty list of identifiers that share one source line, printed
with an empty whitespace buffer, no comment left to intersperse and no stored
HTML tag, `exprList` writes the names joined by a comma and a blank when
`commaSep` is set and by a single blank when it is not, preceded by one blank
if and only if `blankStart` is set; the bytes go through `write`, which leaves
them as they are when they hold no line break and nothing to escape. -/
theorem C8_exprList_line (p : printer) (names : List Ident) (m : Nat) (line : Int)
    (hne : names ≠ []) (hline : ∀ x ∈ names, x.pos.Line = line)
    (hp : p.Plain) (hb : p.buflen = 0) (ht : p.TagFree) :
    ∃ q, p.run (exprList (exprs (names.map Expr.Ident)) m).ops = .ok q ∧
      q.output = p.output ++ enc p.mode p.indent
        ((if m &&& blankStart ≠ 0 then [' '] else []) ++
          (if m &&& commaSep ≠ 0 then [',', ' '] else [' ']).intercalate
            (names.map (fun x => x.Value))) ∧
      ((∀ x ∈ names, ∀ b ∈ x.Value, encByte p.mode p.indent b = [b]) →
        q.output = p.output ++
          ((if m &&& blankStart ≠ 0 then [' '] else []) ++
            (if m &&& commaSep ≠ 0 then [',', ' '] else [' ']).intercalate
              (names.map (fun x => x.Value)))) ∧
      q.buflen = 0 ∧ q.indent = p.indent := by
  obtain ⟨q, hq, hout, hbuf, hind⟩ := exprList_ident_run p names m line hne hline hp hb ht
  have hstart : lineStart m = (if m &&& blankStart ≠ 0 then [' '] else []) := by
    unfold lineStart; split <;> rfl
  have hsep : lineSep m = (if m &&& commaSep ≠ 0 then [',', ' '] else [' ']) := by
    unfold lineSep; split <;> rfl
  rw [hstart, hsep] at hout
  refine ⟨q, hq, hout, ?_, hbuf, hind⟩
  intro hplain
  rw [hout, enc_eq_self]
  intro b hb
  have hblank : encByte p.mode p.indent ' ' = [' '] := by
    simp [encByte]
  have hcomma : encByte p.mode p.indent ',' = [','] := by
    simp [encByte]
  rcases List.mem_append.1 hb with hb | hb
  · split at hb
    · simp at hb; subst hb; exact hblank
    · simp at hb
  · simp only [List.intercalate, List.mem_flatten] at hb
    obtain ⟨l, hl, hbl⟩ := hb
    rcases mem_intersperse_cases _ _ _ hl with hl | hl
    · simp only [List.mem_map] at hl
      obtain ⟨x, hx, rfl⟩ := hl
      exact hplain x hx b hbl
    · rw [hl] at hbl
      split at hbl
      · simp at hbl
        rcases hbl with rfl | rfl
        · exact hcomma
        · exact hblank
      · simp at hbl; subst hbl; exact hblank

theorem C8_exprList_line_witness :
    [(⟨⟨5, 1, 5⟩, ['x']⟩ : Ident), ⟨⟨8, 1, 8⟩, ['y']⟩] ≠ [] ∧
    ∃ q, (printer.init RawFormat).run (exprList (exprs
        ([(⟨⟨5, 1, 5⟩, ['x']⟩ : Ident), ⟨⟨8, 1, 8⟩, ['y']⟩].map Expr.Ident))
        (blankStart ||| commaSep)).ops = .ok q ∧
      q.output = (printer.init RawFormat).output ++ enc (printer.init RawFormat).mode
        (printer.init RawFormat).indent
        ((if (blankStart ||| commaSep) &&& blankStart ≠ 0 then [' '] else []) ++
          (if (blankStart ||| commaSep) &&& commaSep ≠ 0 then [',', ' '] else [' ']).intercalate
            ([(⟨⟨5, 1, 5⟩, ['x']⟩ : Ident), ⟨⟨8, 1, 8⟩, ['y']⟩].map (fun x => x.Value))) ∧
      ((∀ x ∈ [(⟨⟨5, 1, 5⟩, ['x']⟩ : Ident), ⟨⟨8, 1, 8⟩, ['y']⟩], ∀ b ∈ x.Value,
          encByte (printer.init RawFormat).mode (printer.init RawFormat).indent b = [b]) →
        q.output = (printer.init RawFormat).output ++
          ((if (blankStart ||| commaSep) &&& blankStart ≠ 0 then [' '] else []) ++
            (if (blankStart ||| commaSep) &&& commaSep ≠ 0 then [',', ' '] else [' ']).intercalate
              ([(⟨⟨5, 1, 5⟩, ['x']⟩ : Ident), ⟨⟨8, 1, 8⟩, ['y']⟩].map (fun x => x.Value)))) ∧
      q.buflen = 0 ∧ q.indent = (printer.init RawFormat).indent :=
  ⟨by decide, C8_exprList_line (printer.init RawFormat)
    [⟨⟨5, 1, 5⟩, ['x']⟩, ⟨⟨8, 1, 8⟩, ['y']⟩] (blankStart ||| commaSep) 1 (by decide)
    (by decide) (init_plain RawFormat) rfl (Or.inl (by decide))⟩

/-! ## Lists that span several lines -/

theorem exprs_cons (x : Expr) (xs : List Expr) :
    exprs (x :: xs) = ⟨x.Pos, expr1 x LowestPrec⟩ :: exprs xs := rfl

theorem exprs_nil : exprs [] = [] := rfl

theorem exprs_getLast? : ∀ (xs : List Expr),
    (exprs xs).getLast? = xs.getLast?.map (fun x => ⟨x.Pos, expr1 x LowestPrec⟩)
  | [] => rfl
  | [x] => rfl
  | x :: y :: xs => by
    have ih := exprs_getLast? (y :: xs)
    rw [exprs_cons, exprs_cons] at *
    simpa [List.getLast?_cons_cons] using ih

theorem exprListLines_ops (mode : Nat) : ∀ (xs : List Expr) (k : Nat) (prev : Int),
    (∀ x ∈ xs, x.Pos ≠ none) →
    (exprListLines mode (k + 1) prev (exprs xs)).ops =
      multiLineOps mode (some prev) (xs.map (fun x => (x.Line, (expr x).ops)))
  | [], k, prev, _ => rfl
  | x :: xs, k, prev, h => by
    have ih := exprListLines_ops mode xs (k + 1)
    have hx := h x (List.mem_cons_self _ _)
    rw [exprs_cons]
    cases hpos : x.Pos with
    | none => exact absurd hpos hx
    | some pos =>
      have hl : x.Line = pos.Line := by simp [Expr.Line, hpos]
      simp only [exprListLines, List.map_cons, multiLineOps, multiSep, hl]
      rw [← ih pos.Line (fun y hy => h y (List.mem_cons_of_mem _ hy))]
      by_cases hc : mode &&& commaSep = 0 <;> by_cases hlt : prev < pos.Line <;>
        simp [hc, hlt, expr]

theorem exprList_multi_ops (list : List Expr) (mode : Nat)
    (hpos : ∀ x ∈ list, x.Pos ≠ none)
    (hlines : list.head?.map Expr.Line ≠ list.getLast?.map Expr.Line) :
    (exprList (exprs list) mode).ops =
      Op.print [.int 1, .whiteSpace .formfeed] ::
        (multiLineOps mode none (list.map (fun x => (x.Line, (expr x).ops))) ++
          (if mode &&& commaTerm ≠ 0 then [Op.print [.token .COMMA]] else []) ++
          [Op.print [.int (-1), .whiteSpace .formfeed]]) := by
  rcases list with _ | ⟨x, xs⟩
  · simp at hlines
  · have hx := hpos x (List.mem_cons_self _ _)
    obtain ⟨last, hlast⟩ : ∃ last, (x :: xs).getLast? = some last :=
      ⟨_, List.getLast?_eq_getLast _ (by simp)⟩
    have hlm := hpos last (List.mem_of_getLast?_eq_some hlast)
    unfold exprList
    rw [exprs_getLast?, hlast, exprs_cons]
    cases hpx : x.Pos with
    | none => exact absurd hpx hx
    | some pos0 =>
      cases hpl : last.Pos with
      | none => exact absurd hpl hlm
      | some posn =>
        have hne : ¬ pos0.Line = posn.Line := by
          intro he
          apply hlines
          simp [hlast, Expr.Line, hpx, hpl, he]
        have hl : x.Line = pos0.Line := by simp [Expr.Line, hpx]
        simp only [List.head?_cons, Option.map_some', hpl, hne, if_false, exprListLines,
          List.map_cons, multiLineOps, hl]
        rw [← exprListLines_ops mode xs 0 pos0.Line
          (fun y hy => hpos y (List.mem_cons_of_mem _ hy))]
        by_cases hc : mode &&& commaTerm = 0 <;> simp [hc, expr]

theorem C9_call_ops (pf pl pr : Position) (oa ca ob cb : Int) :
    (expr (C9_call pf pl ⟨oa, 2, ca⟩ ⟨ob, 3, cb⟩ pr)).ops =
      [.print [.position pf], .print [.position pf], .print [.string ['f']],
       .print [.position pl, .token .LPAREN],
       .print [.int 1, .whiteSpace .formfeed],
       .print [.position ⟨oa, 2, ca⟩], .print [.string ['a']],
       .print [.token .COMMA], .print [.whiteSpace .newline],
       .print [.position ⟨ob, 3, cb⟩], .print [.string ['b']],
       .print [.int (-1), .whiteSpace .formfeed],
       .print [.position pr, .token .RPAREN]] := rfl

theorem C9_call_output (pf pl pa pb pr : Position) (ha : pa.Line = 2) (hb : pb.Line = 3) :
    (Fprint (.Expr (C9_call pf pl pa pb pr)) RawFormat).map (fun r => r.output) =
      .ok "f(\n\ta,\n\tb\n)".toList := by
  obtain ⟨oa, la, ca⟩ := pa
  obtain ⟨ob, lb, cb⟩ := pb
  simp only at ha hb
  subst ha hb
  rw [Fprint_abs (.Expr (C9_call pf pl ⟨oa, 2, ca⟩ ⟨ob, 3, cb⟩ pr)) RawFormat
    (expr (C9_call pf pl ⟨oa, 2, ca⟩ ⟨ob, 3, cb⟩ pr)).ops rfl rfl (Or.inl (by decide)),
    C9_call_ops]
  rfl

/-- C9: for an expression list whose first and last elements are on different
source lines, `exprList` raises the indentation by one and starts a new line
(formfeed), prints the elements in order, writes between consecutive elements
a comma (if `commaSep`) followed by a newline when the later element is on a
greater source line than the one before and by a blank otherwise, writes a
final comma if and only if `commaTerm`, then lowers the indentation by one and
starts a new line. For the call `f(a, b)` with `(` on line 1, `a` on line 2 and
`b` on line 3 the output in `RawFormat` mode is `f(\n\ta,\n\tb\n)`. -/
theorem C9_exprList_multiline (list : List Expr) (mode : Nat)
    (hpos : ∀ x ∈ list, x.Pos ≠ none)
    (hlines : list.head?.map Expr.Line ≠ list.getLast?.map Expr.Line)
    (pf pl pa pb pr : Position) (hl : pl.Line = 1) (ha : pa.Line = 2) (hb : pb.Line = 3) :
    (exprList (exprs list) mode).ops =
      Op.print [.int 1, .whiteSpace .formfeed] ::
        (multiLineOps mode none (list.map (fun x => (x.Line, (expr x).ops))) ++
          (if mode &&& commaTerm ≠ 0 then [Op.print [.token .COMMA]] else []) ++
          [Op.print [.int (-1), .whiteSpace .formfeed]]) ∧
    (Fprint (.Expr (C9_call pf pl pa pb pr)) RawFormat).map (fun r => r.output) =
      .ok "f(\n\ta,\n\tb\n)".toList :=
  ⟨exprList_multi_ops list mode hpos hlines, C9_call_output pf pl pa pb pr ha hb⟩

theorem C9_exprList_multiline_witness :
    (exprList (exprs [.Ident ⟨⟨4, 2, 2⟩, ['a']⟩, .Ident ⟨⟨7, 2, 5⟩, ['b']⟩,
        .Ident ⟨⟨10, 3, 2⟩, ['c']⟩]) (commaSep ||| commaTerm)).ops =
      [.print [.int 1, .whiteSpace .formfeed],
       .print [.position ⟨4, 2, 2⟩], .print [.string ['a']],
       .print [.token .COMMA], .print [.whiteSpace .blank],
       .print [.position ⟨7, 2, 5⟩], .print [.string ['b']],
       .print [.token .COMMA], .print [.whiteSpace .newline],
       .print [.position ⟨10, 3, 2⟩], .print [.string ['c']],
       .print [.token .COMMA],
       .print [.int (-1), .whiteSpace .formfeed]] ∧
    (Fprint (.Expr (C9_call ⟨1, 1, 1⟩ ⟨2, 1, 2⟩ ⟨5, 2, 2⟩ ⟨9, 3, 2⟩ ⟨11, 4, 1⟩)) RawFormat).map
        (fun r => r.output) = .ok "f(\n\ta,\n\tb\n)".toList :=
  ⟨(C9_exprList_multiline [.Ident ⟨⟨4, 2, 2⟩, ['a']⟩, .Ident ⟨⟨7, 2, 5⟩, ['b']⟩,
      .Ident ⟨⟨10, 3, 2⟩, ['c']⟩] (commaSep ||| commaTerm) (by decide) (by decide)
      ⟨1, 1, 1⟩ ⟨2, 1, 2⟩ ⟨5, 2, 2⟩ ⟨9, 3, 2⟩ ⟨11, 4, 1⟩ rfl rfl rfl).1.trans (by decide),
   (C9_exprList_multiline [.Ident ⟨⟨4, 2, 2⟩, ['a']⟩, .Ident ⟨⟨7, 2, 5⟩, ['b']⟩,
      .Ident ⟨⟨10, 3, 2⟩, ['c']⟩] (commaSep ||| commaTerm) (by decide) (by decide)
      ⟨1, 1, 1⟩ ⟨2, 1, 2⟩ ⟨5, 2, 2⟩ ⟨9, 3, 2⟩ ⟨11, 4, 1⟩ rfl rfl rfl).2⟩

/-! ## Comments -/

namespace printer

theorem write_emitData (p : printer) (data : List Char) : p.write data = p.emitData data :=
  write_eq p data

theorem take_newlines (j : Nat) (h : j ≤ 8) : newlines.take j = List.replicate j '\n' := by
  unfold newlines
  rw [List.take_replicate, Nat.min_eq_left h]

theorem writeNewlines_eq (p : printer) (n : Int) :
    p.writeNewlines n = p.emitData (List.replicate (min n.toNat maxNewlines) '\n') := by
  unfold writeNewlines
  by_cases hn : n > 0
  · rw [if_pos hn]
    simp only [maxNewlines]
    by_cases h3 : n > ((3 : Nat) : Int)
    · rw [if_pos h3, write_emitData, take_newlines _ (by simp)]
      congr 2
      simp
      omega
    · rw [if_neg h3, write_emitData, take_newlines _ (by omega)]
      congr 2
      omega
  · rw [if_neg hn]
    have : n.toNat = 0 := by omega
    rw [this]
    simp [emitData_nil]

theorem writeItem_item (p : printer) (pos : Position) (data : List Char) (slt : Bool)
    (h : NoTag p slt) : p.writeItem pos data slt = p.item pos data := by
  rw [writeItem_noTag p pos data slt h, write_emitData]
  rfl

@[simp] theorem emitData_mode (p : printer) (d : List Char) : (p.emitData d).mode = p.mode := rfl
@[simp] theorem emitData_indent (p : printer) (d : List Char) :
    (p.emitData d).indent = p.indent := rfl
@[simp] theorem emitData_buffer (p : printer) (d : List Char) :
    (p.emitData d).buffer = p.buffer := rfl
@[simp] theorem emitData_buflen (p : printer) (d : List Char) :
    (p.emitData d).buflen = p.buflen := rfl
@[simp] theorem emitData_comment (p : printer) (d : List Char) :
    (p.emitData d).comment = p.comment := rfl
@[simp] theorem emitData_tag (p : printer) (d : List Char) : (p.emitData d).tag = p.tag := rfl
@[simp] theorem emitData_last (p : printer) (d : List Char) : (p.emitData d).last = p.last := rfl
@[simp] theorem emitData_output (p : printer) (d : List Char) :
    (p.emitData d).output = p.output ++ enc p.mode p.indent d := rfl
@[simp] theorem emitData_pos (p : printer) (d : List Char) :
    (p.emitData d).pos = advance p.indent p.pos d := rfl

@[simp] theorem item_mode (p : printer) (pos : Position) (d : List Char) :
    (p.item pos d).mode = p.mode := rfl
@[simp] theorem item_indent (p : printer) (pos : Position) (d : List Char) :
    (p.item pos d).indent = p.indent := rfl
@[simp] theorem item_buffer (p : printer) (pos : Position) (d : List Char) :
    (p.item pos d).buffer = p.buffer := rfl
@[simp] theorem item_buflen (p : printer) (pos : Position) (d : List Char) :
    (p.item pos d).buflen = p.buflen := rfl
@[simp] theorem item_comment (p : printer) (pos : Position) (d : List Char) :
    (p.item pos d).comment = p.comment := rfl
@[simp] theorem item_tag (p : printer) (pos : Position) (d : List Char) :
    (p.item pos d).tag = p.tag := rfl
@[simp] theorem item_last (p : printer) (pos : Position) (d : List Char) :
    (p.item pos d).last = advance p.indent pos d := rfl
@[simp] theorem item_pos (p : printer) (pos : Position) (d : List Char) :
    (p.item pos d).pos = advance p.indent pos d := rfl
@[simp] theorem item_output (p : printer) (pos : Position) (d : List Char) :
    (p.item pos d).output = p.output ++ enc p.mode p.indent d := rfl

theorem TagFree.of_eq {p q : printer} (h : p.TagFree) (hm : q.mode = p.mode)
    (ht : q.tag = p.tag) : q.TagFree := by
  rcases h with h | h
  · exact Or.inl (hm ▸ h)
  · exact Or.inr (ht ▸ h)

theorem writeComment_eq (p : printer) (c : Comment) (ht : p.TagFree) :
    p.writeComment c = (p.emitData (commentSep p c)).item c.pos c.Text := by
  unfold writeComment commentSep
  by_cases hv : p.last.IsValid = true
  · simp only [hv, if_true]
    by_cases hn : c.pos.Line - p.last.Line = 0
    · simp only [hn, if_true]
      rw [write_emitData, take_tabs 1 (by omega)]
      exact writeItem_item _ _ _ _ (TagFree.noTag (ht.of_eq rfl rfl))
    · simp only [hn, if_false]
      rw [writeNewlines_eq]
      exact writeItem_item _ _ _ _ (TagFree.noTag (ht.of_eq rfl rfl))
  · have hv' : p.last.IsValid = false := by simpa using hv
    simp only [hv', Bool.false_eq_true, if_false, emitData_nil]
    exact writeItem_item _ _ _ _ (TagFree.noTag ht)

end printer

namespace printer

theorem writeComment_tagFree (p : printer) (c : Comment) (ht : p.TagFree) :
    (p.writeComment c).TagFree := by
  rw [writeComment_eq p c ht]
  exact ht.of_eq rfl rfl

theorem foldl_writeComment_tagFree : ∀ (cs : List Comment) (p : printer), p.TagFree →
    (cs.foldl writeComment p).TagFree
  | [], p, ht => ht
  | c :: cs, p, ht => foldl_writeComment_tagFree cs _ (writeComment_tagFree p c ht)

theorem setComment_eq (p : printer) (x : List CommentGroup) :
    ({ p with comment := x } : printer) = p.setComment x := rfl

theorem writeComment_setComment (p : printer) (c : Comment) (x : List CommentGroup)
    (ht : p.TagFree) :
    (p.setComment x).writeComment c = (p.writeComment c).setComment x := by
  rw [writeComment_eq p c ht, writeComment_eq (p.setComment x) c (ht.of_eq rfl rfl)]
  rfl

theorem foldl_writeComment_setComment : ∀ (cs : List Comment) (p : printer)
    (x : List CommentGroup), p.TagFree →
    cs.foldl writeComment (p.setComment x) = (cs.foldl writeComment p).setComment x
  | [], p, x, _ => rfl
  | c :: cs, p, x, ht => by
    simp only [List.foldl_cons]
    rw [writeComment_setComment p c x ht]
    exact foldl_writeComment_setComment cs _ x (writeComment_tagFree p c ht)

theorem setComment_setComment (p : printer) (x y : List CommentGroup) :
    (p.setComment x).setComment y = p.setComment y := rfl

theorem intersperseGroup_eq : ∀ (cs : List Comment) (fl : Int) (nn : Bool) (p : printer),
    (∀ c ∈ cs, 2 ≤ c.Text.length) →
    intersperseGroup cs fl nn p =
      .ok (firstLineOf fl cs, needsNewlineOf nn cs, cs.foldl writeComment p)
  | [], fl, nn, p, _ => rfl
  | c :: cs, fl, nn, p, h => by
    have hc := h c (List.mem_cons_self _ _)
    rcases hT : c.Text with _ | ⟨t0, _ | ⟨t1, tl⟩⟩
    · rw [hT] at hc; simp at hc
    · rw [hT] at hc; simp at hc
    · simp only [intersperseGroup, hT]
      rw [intersperseGroup_eq cs _ _ _ (fun d hd => h d (List.mem_cons_of_mem _ hd))]
      simp [firstLineOf, needsNewlineOf, hT]

theorem before_cons (next : Position) (g : CommentGroup) (c0 : Comment) (l : List Comment)
    (h : g.list = c0 :: l) :
    CommentGroup.before next g = decide (c0.pos.Offset < next.Offset) := by
  simp [CommentGroup.before, h]

theorem firstLineOf_append (fl : Int) (a b : List Comment) :
    firstLineOf fl (a ++ b) = firstLineOf (firstLineOf fl a) b := by
  simp [firstLineOf, List.foldl_append]

theorem needsNewlineOf_append (nn : Bool) (a b : List Comment) :
    needsNewlineOf nn (a ++ b) = needsNewlineOf (needsNewlineOf nn a) b := by
  simp [needsNewlineOf, List.foldl_append]

theorem intersperseLoop_eq (next : Position) : ∀ (gs : List CommentGroup) (fl : Int) (nn : Bool)
    (p : printer), p.TagFree → (∀ g ∈ gs, g.list ≠ []) →
    (∀ c ∈ emitted next gs, 2 ≤ c.Text.length) →
    intersperseLoop next gs fl nn p =
      .ok (firstLineOf fl (emitted next gs), needsNewlineOf nn (emitted next gs),
        ((emitted next gs).foldl writeComment p).setComment
          (gs.dropWhile (CommentGroup.before next)))
  | [], fl, nn, p, _, _, _ => rfl
  | g :: gs, fl, nn, p, ht, hne, htext => by
    have hg := hne g (List.mem_cons_self _ _)
    rcases hgl : g.list with _ | ⟨c0, l⟩
    · exact absurd hgl hg
    · have hb := before_cons next g c0 l hgl
      by_cases hlt : c0.pos.Offset < next.Offset
      · have hbt : CommentGroup.before next g = true := by rw [hb]; simpa using hlt
        have hem : emitted next (g :: gs) = g.list ++ emitted next gs := by
          simp [emitted, List.takeWhile_cons, hbt]
        have htg : ∀ c ∈ g.list, 2 ≤ c.Text.length := fun c hc =>
          htext c (by rw [hem]; exact List.mem_append_left _ hc)
        simp only [intersperseLoop, hgl, hlt, if_true, setComment_eq]
        rw [← hgl, intersperseGroup_eq g.list fl nn _ htg]
        simp only []
        rw [foldl_writeComment_setComment _ _ _ ht]
        rw [intersperseLoop_eq next gs _ _ ((List.foldl writeComment p g.list).setComment (g :: gs))
          ((foldl_writeComment_tagFree g.list p ht).of_eq rfl rfl)
          (fun h hh => hne h (List.mem_cons_of_mem _ hh))
          (fun c hc => htext c (by rw [hem]; exact List.mem_append_right _ hc))]
        rw [hem, firstLineOf_append, needsNewlineOf_append, List.foldl_append,
          List.dropWhile_cons, if_pos hbt]
        rw [foldl_writeComment_setComment _ _ _ (foldl_writeComment_tagFree _ _ ht),
          setComment_setComment]
      · have hbf : CommentGroup.before next g = false := by rw [hb]; simpa using hlt
        have hem : emitted next (g :: gs) = [] := by
          simp [emitted, List.takeWhile_cons, hbf]
        simp only [intersperseLoop, hgl, hlt, if_false, setComment_eq]
        rw [hem, List.dropWhile_cons]
        simp [hbf, firstLineOf, needsNewlineOf]

end printer

theorem advance_line (indent : Nat) : ∀ (data : List Char) (pos : Position),
    (advance indent pos data).Line = pos.Line + lineBreaks data
  | [], pos => by simp [advance, lineBreaks]
  | b :: rest, pos => by
    have ih := advance_line indent rest (advanceByte indent pos b)
    simp only [advance, List.foldl_cons] at ih ⊢
    rw [ih]
    unfold advanceByte lineBreaks
    by_cases hb : b = '\n' ∨ b = '\x0c'
    · simp only [hb, if_true, List.countP_cons, decide_True]
      push_cast
      omega
    · simp only [hb, if_false, List.countP_cons, decide_False]
      simp

namespace printer

theorem compactLoop_bound : ∀ (n i j : Nat) (buf : List whiteSpace),
    j ≤ (compactLoop n i j buf).2 ∧ (compactLoop n i j buf).2 ≤ j + n ∧
      (compactLoop n i j buf).1.length = buf.length
  | 0, i, j, buf => by simp [compactLoop]
  | n + 1, i, j, buf => by
    unfold compactLoop
    simp only []
    split
    · obtain ⟨h1, h2, h3⟩ := compactLoop_bound n (i + 1) (j + 1) (buf.set j (buf.getD i .blank))
      refine ⟨by omega, by omega, ?_⟩
      rw [h3]; simp
    · obtain ⟨h1, h2, h3⟩ := compactLoop_bound n (i + 1) j buf
      exact ⟨h1, by omega, h3⟩

theorem foldl_writeComment_fields : ∀ (cs : List Comment) (p : printer), p.TagFree →
    (cs.foldl writeComment p).mode = p.mode ∧ (cs.foldl writeComment p).indent = p.indent ∧
    (cs.foldl writeComment p).buffer = p.buffer ∧ (cs.foldl writeComment p).buflen = p.buflen ∧
    (cs.foldl writeComment p).comment = p.comment ∧ (cs.foldl writeComment p).tag = p.tag
  | [], p, _ => ⟨rfl, rfl, rfl, rfl, rfl, rfl⟩
  | c :: cs, p, ht => by
    obtain ⟨h1, h2, h3, h4, h5, h6⟩ :=
      foldl_writeComment_fields cs (p.writeComment c) (writeComment_tagFree p c ht)
    simp only [List.foldl_cons]
    rw [h1, h2, h3, h4, h5, h6, writeComment_eq p c ht]
    exact ⟨rfl, rfl, rfl, rfl, rfl, rfl⟩

theorem foldl_writeComment_last (cs : List Comment) (c : Comment) (p : printer)
    (ht : p.TagFree) :
    ((cs ++ [c]).foldl writeComment p).last = advance p.indent c.pos c.Text := by
  rw [List.foldl_append]
  simp only [List.foldl_cons, List.foldl_nil]
  rw [writeComment_eq _ c (foldl_writeComment_tagFree cs p ht)]
  simp only [item_last, emitData_indent]
  rw [(foldl_writeComment_fields cs p ht).2.1]

theorem enc_commentSep (p q : printer) (c : Comment) :
    ∀ b ∈ enc p.mode p.indent (commentSep q c), b = '\t' ∨ b = '\n' := by
  intro b hb
  unfold commentSep at hb
  simp only [enc, List.mem_flatMap] at hb
  obtain ⟨a, ha, hba⟩ := hb
  have ha' : a = '\t' ∨ a = '\n' := by
    split at ha
    · split at ha
      · simp at ha; exact Or.inl ha
      · exact Or.inr (List.eq_of_mem_replicate ha)
    · simp at ha
  rcases ha' with rfl | rfl
  · simp [encByte] at hba
    exact Or.inl hba
  · simp [encByte, List.mem_replicate] at hba
    rcases hba with h | h
    · exact Or.inr h
    · exact Or.inl h.2

theorem foldl_writeComment_output : ∀ (cs : List Comment) (p : printer), p.TagFree →
    ∃ seps : List (List Char), seps.length = cs.length ∧
      (∀ s ∈ seps, ∀ b ∈ s, b = '\t' ∨ b = '\n') ∧
      (cs.foldl writeComment p).output = p.output ++
        (List.zipWith (fun s c => s ++ enc p.mode p.indent c.Text) seps cs).flatten
  | [], p, _ => ⟨[], rfl, by simp, by simp⟩
  | c :: cs, p, ht => by
    obtain ⟨seps, hl, hs, ho⟩ :=
      foldl_writeComment_output cs (p.writeComment c) (writeComment_tagFree p c ht)
    refine ⟨enc p.mode p.indent (commentSep p c) :: seps, by simp [hl], ?_, ?_⟩
    · intro s hs'
      rcases List.mem_cons.1 hs' with rfl | h
      · exact enc_commentSep p p c
      · exact hs s h
    · simp only [List.foldl_cons]
      rw [ho, writeComment_eq p c ht]
      simp [List.append_assoc]

end printer

namespace printer

theorem intersperseComments_eq (p : printer) (next : Position) (ht : p.TagFree)
    (hne : ∀ g ∈ p.comment, g.list ≠ [])
    (htext : ∀ c ∈ emitted next p.comment, 2 ≤ c.Text.length) :
    p.intersperseComments next =
      .ok ((((emitted next p.comment).foldl writeComment p).setComment
          (p.comment.dropWhile (CommentGroup.before next))).adjust next
        (firstLineOf 0 (emitted next p.comment)) (needsNewlineOf false (emitted next p.comment)))
      := by
  unfold intersperseComments
  rw [intersperseLoop_eq next p.comment 0 false p ht hne htext]
  cases needsNewlineOf false (emitted next p.comment) <;> rfl

theorem adjust_fields (q : printer) (next : Position) (fl : Int) (nn : Bool) :
    (q.adjust next fl nn).output = q.output ∧ (q.adjust next fl nn).mode = q.mode ∧
    (q.adjust next fl nn).indent = q.indent ∧ (q.adjust next fl nn).comment = q.comment ∧
    (q.adjust next fl nn).tag = q.tag ∧ (q.adjust next fl nn).last = q.last := by
  unfold adjust
  simp only []
  repeat' split
  all_goals exact ⟨rfl, rfl, rfl, rfl, rfl, rfl⟩

theorem adjust_buflen (q : printer) (next : Position) (fl : Int) (nn : Bool)
    (h0 : 0 ≤ q.buflen) (h8 : q.buflen ≤ 8)
    (hn : q.last.IsValid = true → 0 ≤ next.Line - q.last.Line) :
    0 ≤ (q.adjust next fl nn).buflen ∧ (q.adjust next fl nn).buflen ≤ 8 := by
  obtain ⟨_, hb, _⟩ := compactLoop_bound q.buflen.toNat 0 0 q.buffer
  unfold adjust
  simp only []
  by_cases hv : q.last.IsValid = true
  · have := hn hv
    simp only [hv, if_true]
    repeat' split
    all_goals simp only []
    all_goals omega
  · have hv' : q.last.IsValid = false := by simpa using hv
    simp only [hv', Bool.false_eq_true, if_false]
    repeat' split
    all_goals simp only []
    all_goals omega

end printer

namespace printer

theorem writeWhitespace_output (q : printer) (h0 : 0 ≤ q.buflen) (h8 : q.buflen ≤ 8) :
    ∃ r, q.writeWhitespace = .ok r ∧ r.comment = q.comment ∧ r.buflen = 0 ∧
      r.output = q.output ++ enc q.mode q.indent (wsBytes (q.buffer.take q.buflen.toNat)) := by
  rw [writeWhitespace_plain q h0 h8, write_emitData]
  exact ⟨_, rfl, rfl, rfl, rfl⟩

theorem emitted_of_not_before (next : Position) (g : CommentGroup) (gs : List CommentGroup)
    (h : CommentGroup.before next g = false) :
    emitted next (g :: gs) = [] ∧ (g :: gs).dropWhile (CommentGroup.before next) = g :: gs := by
  simp [emitted, List.takeWhile_cons, List.dropWhile_cons, h]

/-- `flush(next)` writes the comments of the leading groups that lie before
`next`, each once and in order, then the whitespace buffer, and leaves the
cursor at the first group that does not lie before `next`. -/
theorem flush_comments (p : printer) (next : Position) (ht : p.TagFree)
    (h0 : 0 ≤ p.buflen) (h8 : p.buflen ≤ 8)
    (hne : ∀ g ∈ p.comment, g.list ≠ [])
    (htext : ∀ c ∈ emitted next p.comment, 2 ≤ c.Text.length)
    (hend : ∀ c ∈ (emitted next p.comment).getLast?,
      c.pos.Line + lineBreaks c.Text ≤ next.Line) :
    ∃ q, p.flush next = .ok q ∧
      q.comment = p.comment.dropWhile (CommentGroup.before next) ∧
      ∃ (seps : List (List Char)) (ws : List whiteSpace),
        seps.length = (emitted next p.comment).length ∧
        (∀ s ∈ seps, ∀ b ∈ s, b = '\t' ∨ b = '\n') ∧
        q.output = p.output ++
          (List.zipWith (fun s c => s ++ enc p.mode p.indent c.Text) seps
            (emitted next p.comment)).flatten ++
          enc p.mode p.indent (wsBytes ws) := by
  have plain : ∀ gs, p.comment = gs → emitted next gs = [] →
      gs.dropWhile (CommentGroup.before next) = gs → p.writeWhitespace = p.flush next →
      ∃ q, p.flush next = .ok q ∧
      q.comment = p.comment.dropWhile (CommentGroup.before next) ∧
      ∃ (seps : List (List Char)) (ws : List whiteSpace),
        seps.length = (emitted next p.comment).length ∧
        (∀ s ∈ seps, ∀ b ∈ s, b = '\t' ∨ b = '\n') ∧
        q.output = p.output ++
          (List.zipWith (fun s c => s ++ enc p.mode p.indent c.Text) seps
            (emitted next p.comment)).flatten ++
          enc p.mode p.indent (wsBytes ws) := by
    intro gs hgs hem hdrop hfl
    obtain ⟨r, hr, hrc, _, hro⟩ := writeWhitespace_output p h0 h8
    rw [← hfl, hgs, hem, hdrop]
    refine ⟨r, hr, by rw [hrc, hgs], [], p.buffer.take p.buflen.toNat, rfl, by simp, ?_⟩
    rw [hro]; simp
  have hcases : p.comment = [] ∨ ∃ g gs, p.comment = g :: gs := by
    cases p.comment <;> simp
  rcases hcases with hcm | ⟨g, gs, hcm⟩
  · exact plain [] hcm rfl rfl (by unfold flush; rw [hcm])
  · have hg := hne g (by rw [hcm]; exact List.mem_cons_self _ _)
    have hcases2 : g.list = [] ∨ ∃ c0 l, g.list = c0 :: l := by
      cases g.list <;> simp
    rcases hcases2 with hgl | ⟨c0, l, hgl⟩
    · exact absurd hgl hg
    · by_cases hlt : c0.pos.Offset < next.Offset
      · have hfl : p.flush next =
            match p.intersperseComments next with
            | .error e => .error e
            | .ok q => q.writeWhitespace := by
          unfold flush
          simp only [hcm, hgl, hlt, if_true]
          try (cases p.intersperseComments next <;> rfl)
        rw [hfl, intersperseComments_eq p next ht hne htext]
        simp only []
        have hbt : CommentGroup.before next g = true := by
          rw [before_cons next g c0 l hgl]; simpa using hlt
        have hemne : emitted next p.comment ≠ [] := by
          rw [hcm]
          simp [emitted, List.takeWhile_cons, hbt, hgl]
        obtain ⟨f1, f2, f3, f4, f5, f6⟩ :=
          foldl_writeComment_fields (emitted next p.comment) p ht
        obtain ⟨a1, a2, a3, a4, a5, a6⟩ := adjust_fields
          (((emitted next p.comment).foldl writeComment p).setComment
            (p.comment.dropWhile (CommentGroup.before next))) next
          (firstLineOf 0 (emitted next p.comment)) (needsNewlineOf false (emitted next p.comment))
        have hlast : 0 ≤ next.Line -
            (((emitted next p.comment).foldl writeComment p).setComment
              (p.comment.dropWhile (CommentGroup.before next))).last.Line := by
          obtain ⟨init, cl, hcl⟩ : ∃ init cl, emitted next p.comment = init ++ [cl] :=
            ⟨_, _, (List.dropLast_append_getLast hemne).symm⟩
          have hmem : cl ∈ (emitted next p.comment).getLast? := by rw [hcl]; simp
          have := hend cl hmem
          show 0 ≤ next.Line - ((emitted next p.comment).foldl writeComment p).last.Line
          rw [hcl, foldl_writeComment_last init cl p ht, advance_line]
          omega
        obtain ⟨b0, b8⟩ := adjust_buflen
          (((emitted next p.comment).foldl writeComment p).setComment
            (p.comment.dropWhile (CommentGroup.before next))) next
          (firstLineOf 0 (emitted next p.comment)) (needsNewlineOf false (emitted next p.comment))
          (by show 0 ≤ ((emitted next p.comment).foldl writeComment p).buflen; rw [f4]; exact h0)
          (by show ((emitted next p.comment).foldl writeComment p).buflen ≤ 8; rw [f4]; exact h8)
          (fun _ => hlast)
        obtain ⟨r, hr, hrc, _, hro⟩ := writeWhitespace_output _ b0 b8
        obtain ⟨seps, hsl, hsb, hso⟩ := foldl_writeComment_output (emitted next p.comment) p ht
        refine ⟨r, hr, ?c, seps, ?w, hsl, hsb, ?o⟩
        case o =>
          rw [hro, a1, a2, a3]
          show ((emitted next p.comment).foldl writeComment p).output ++
            enc ((emitted next p.comment).foldl writeComment p).mode
              ((emitted next p.comment).foldl writeComment p).indent _ = _
          rw [hso, f1, f2]
          exact rfl
        case c => rw [hrc, a4]; rfl
      · have hbf : CommentGroup.before next g = false := by
          rw [before_cons next g c0 l hgl]; simpa using hlt
        obtain ⟨e1, e2⟩ := emitted_of_not_before next g gs hbf
        exact plain (g :: gs) hcm e1 e2 (by unfold flush; simp only [hcm, hgl, hlt, if_false])

end printer

theorem takeWhile_dropWhile_of_pairwise {α : Type} (P : α → Bool) : ∀ (l : List α),
    l.Pairwise (fun a b => P b = true → P a = true) →
    l.takeWhile P = l.filter P ∧ l.dropWhile P = l.filter (fun a => !P a)
  | [], _ => ⟨rfl, rfl⟩
  | a :: l, h => by
    rw [List.pairwise_cons] at h
    obtain ⟨ih1, ih2⟩ := takeWhile_dropWhile_of_pairwise P l h.2
    cases hP : P a
    · have hall : ∀ b ∈ l, P b = false := by
        intro b hb
        cases hb' : P b
        · rfl
        · have := h.1 b hb hb'; rw [hP] at this; exact absurd this (by simp)
      have e1 : l.filter P = [] := by
        rw [List.filter_eq_nil_iff]; intro b hb; rw [hall b hb]; simp
      have e2 : l.filter (fun a => !P a) = l := by
        rw [List.filter_eq_self]; intro b hb; rw [hall b hb]; rfl
      simp [List.takeWhile_cons, List.dropWhile_cons, List.filter_cons, hP, e1, e2]
    · simp [List.takeWhile_cons, List.dropWhile_cons, List.filter_cons, hP, ih1, ih2]

theorem sublist_flatMap {α β : Type} (f : α → List β) {l₁ l₂ : List α} (h : l₁.Sublist l₂) :
    (l₁.flatMap f).Sublist (l₂.flatMap f) := by
  induction h with
  | slnil => exact List.Sublist.refl _
  | cons a _ ih =>
    rw [List.flatMap_cons]
    exact ih.trans (List.sublist_append_right _ _)
  | cons₂ a _ ih =>
    rw [List.flatMap_cons, List.flatMap_cons]
    exact List.Sublist.append (List.Sublist.refl _) ih

/-- In a comment list sorted by offset whose groups are non-empty, a comment
before `next` belongs to a group whose first comment is before `next`. -/
theorem before_of_mem (next : Position) (gs : List CommentGroup)
    (hs : (gs.flatMap (fun g => g.list)).Pairwise (fun a b => a.pos.Offset ≤ b.pos.Offset))
    (g : CommentGroup) (hg : g ∈ gs) (c : Comment) (hc : c ∈ g.list)
    (hlt : c.pos.Offset < next.Offset) : CommentGroup.before next g = true := by
  have hsub : g.list.Sublist (gs.flatMap (fun g => g.list)) := by
    rw [List.flatMap_def]
    exact List.sublist_flatten_of_mem (List.mem_map_of_mem _ hg)
  have hp := hs.sublist hsub
  rcases hgl : g.list with _ | ⟨c0, l⟩
  · rw [hgl] at hc; cases hc
  · rw [printer.before_cons next g c0 l hgl]
    rw [hgl] at hc hp
    rw [List.pairwise_cons] at hp
    rcases List.mem_cons.1 hc with rfl | hc'
    · simpa using hlt
    · have := hp.1 c hc'
      simp only [decide_eq_true_eq]; omega

theorem groups_pairwise (next : Position) : ∀ (gs : List CommentGroup),
    (∀ g ∈ gs, g.list ≠ []) →
    (gs.flatMap (fun g => g.list)).Pairwise (fun a b => a.pos.Offset ≤ b.pos.Offset) →
    gs.Pairwise (fun g h => CommentGroup.before next h = true → CommentGroup.before next g = true)
  | [], _, _ => List.Pairwise.nil
  | g :: gs, hne, hs => by
    rw [List.pairwise_cons]
    have hs' := hs
    rw [List.flatMap_cons, List.pairwise_append] at hs'
    refine ⟨?_, groups_pairwise next gs (fun x hx => hne x (List.mem_cons_of_mem _ hx)) hs'.2.1⟩
    intro h hh hb
    rcases hgl : g.list with _ | ⟨a0, l⟩
    · exact absurd hgl (hne g (List.mem_cons_self _ _))
    · rcases hhl : h.list with _ | ⟨c0, l2⟩
      · simp [CommentGroup.before, hhl] at hb
      · rw [printer.before_cons next h c0 l2 hhl] at hb
        rw [printer.before_cons next g a0 l hgl]
        have := hs'.2.2 a0 (by rw [hgl]; exact List.mem_cons_self _ _) c0
          (List.mem_flatMap.2 ⟨h, hh, by rw [hhl]; exact List.mem_cons_self _ _⟩)
        simp only [decide_eq_true_eq] at hb ⊢; omega

/-- For a comment list sorted by source offset (groups non-empty, every
comment text at least two bytes), when the last comment before `next` ends on
a line not after the line of `next`, `flush(next)` returns and has appended to
the output, in list order and each exactly once, the text of every comment of
every group whose first comment has an offset below `next.Offset`, each
preceded only by tabs or newlines, and then the buffered whitespace; the
comment cursor is left at the groups whose first comment is not below
`next.Offset`, so it is nil or points at such a group; every comment with an
offset below `next.Offset` is among those written, and the written comments
are in offset order. -/
theorem flush_sorted (p : printer) (next : Position)
    (ht : p.TagFree) (h0 : 0 ≤ p.buflen) (h8 : p.buflen ≤ 8)
    (hne : ∀ g ∈ p.comment, g.list ≠ [])
    (hs : (p.comment.flatMap (fun g => g.list)).Pairwise
      (fun a b => a.pos.Offset ≤ b.pos.Offset))
    (htext : ∀ c ∈ (p.comment.filter (CommentGroup.before next)).flatMap (fun g => g.list),
      2 ≤ c.Text.length)
    (hend : ∀ c ∈ ((p.comment.filter (CommentGroup.before next)).flatMap
      (fun g => g.list)).getLast?, c.pos.Line + lineBreaks c.Text ≤ next.Line) :
    ∃ q, p.flush next = .ok q ∧
      q.comment = p.comment.filter (fun g => !CommentGroup.before next g) ∧
      (∀ g ∈ q.comment.head?, ∀ c ∈ g.list.head?, next.Offset ≤ c.pos.Offset) ∧
      (∀ g ∈ p.comment, ∀ c ∈ g.list, c.pos.Offset < next.Offset →
        c ∈ (p.comment.filter (CommentGroup.before next)).flatMap (fun g => g.list)) ∧
      ((p.comment.filter (CommentGroup.before next)).flatMap (fun g => g.list)).Pairwise
        (fun a b => a.pos.Offset ≤ b.pos.Offset) ∧
      ∃ (seps : List (List Char)) (ws : List whiteSpace),
        seps.length =
          ((p.comment.filter (CommentGroup.before next)).flatMap (fun g => g.list)).length ∧
        (∀ s ∈ seps, ∀ b ∈ s, b = '\t' ∨ b = '\n') ∧
        q.output = p.output ++
          (List.zipWith (fun s c => s ++ enc p.mode p.indent c.Text) seps
            ((p.comment.filter (CommentGroup.before next)).flatMap (fun g => g.list))).flatten ++
          enc p.mode p.indent (wsBytes ws) := by
  obtain ⟨e1, e2⟩ := takeWhile_dropWhile_of_pairwise (CommentGroup.before next) p.comment
    (groups_pairwise next p.comment hne hs)
  have hem : emitted next p.comment =
      (p.comment.filter (CommentGroup.before next)).flatMap (fun g => g.list) := by
    unfold emitted; rw [e1]
  obtain ⟨q, hq, hqc, seps, ws, h1, h2, h3⟩ := printer.flush_comments p next ht h0 h8 hne
    (by rw [hem]; exact htext) (by rw [hem]; exact hend)
  rw [hem] at h1 h3
  refine ⟨q, hq, by rw [hqc, e2], ?_, ?_, ?_, seps, ws, h1, h2, h3⟩
  · intro g hg c hc
    have hnb : CommentGroup.before next g = false := by
      have := List.head?_dropWhile_not (CommentGroup.before next) p.comment
      rw [← hqc] at this
      cases hh : q.comment.head? with
      | none => rw [hh] at hg; cases hg
      | some g0 =>
        rw [hh] at hg this
        cases hg
        simpa using this
    rcases hgl : g.list with _ | ⟨c0, l⟩
    · rw [hgl] at hc; cases hc
    · rw [hgl] at hc
      cases hc
      rw [printer.before_cons next g c l hgl] at hnb
      simpa using hnb
  · intro g hg c hc hlt
    exact List.mem_flatMap.2
      ⟨g, List.mem_filter.2 ⟨hg, before_of_mem next p.comment hs g hg c hc hlt⟩, hc⟩
  · exact hs.sublist (sublist_flatMap _ (List.filter_sublist _))

theorem flush_sorted_example :
    ∃ q, C3_printer.flush C3_next = .ok q ∧
      q.comment = C3_printer.comment.filter (fun g => !CommentGroup.before C3_next g) ∧
      (∀ g ∈ q.comment.head?, ∀ c ∈ g.list.head?, C3_next.Offset ≤ c.pos.Offset) ∧
      (∀ g ∈ C3_printer.comment, ∀ c ∈ g.list, c.pos.Offset < C3_next.Offset →
        c ∈ (C3_printer.comment.filter (CommentGroup.before C3_next)).flatMap
          (fun g => g.list)) ∧
      ((C3_printer.comment.filter (CommentGroup.before C3_next)).flatMap
        (fun g => g.list)).Pairwise (fun a b => a.pos.Offset ≤ b.pos.Offset) ∧
      ∃ (seps : List (List Char)) (ws : List whiteSpace),
        seps.length = ((C3_printer.comment.filter (CommentGroup.before C3_next)).flatMap
          (fun g => g.list)).length ∧
        (∀ s ∈ seps, ∀ b ∈ s, b = '\t' ∨ b = '\n') ∧
        q.output = C3_printer.output ++
          (List.zipWith (fun s c => s ++ enc C3_printer.mode C3_printer.indent c.Text) seps
            ((C3_printer.comment.filter (CommentGroup.before C3_next)).flatMap
              (fun g => g.list))).flatten ++
          enc C3_printer.mode C3_printer.indent (wsBytes ws) :=
  flush_sorted C3_printer C3_next (Or.inl (by decide)) (by decide) (by decide) (by decide)
    (by decide) (by decide) (by decide)

theorem C3_example :
    (C3_printer.flush C3_next).map (fun q => (q.output, q.comment)) =
      .ok ("\n// a\n".toList, [⟨[⟨⟨40, 5, 1⟩, ['/', '/', ' ', 'b']⟩]⟩]) := by
  rfl

namespace printer

/-- After the compaction loop of `intersperseComments`, the entries below `j`
are newlines or formfeeds. -/
theorem compactLoop_lb : ∀ (n i j : Nat) (buf : List whiteSpace), j ≤ i →
    (∀ k, k < j → buf.getD k .blank = .newline ∨ buf.getD k .blank = .formfeed) →
    ∀ k, k < (compactLoop n i j buf).2 →
      (compactLoop n i j buf).1.getD k .blank = .newline ∨
      (compactLoop n i j buf).1.getD k .blank = .formfeed
  | 0, i, j, buf, _, h => by simpa [compactLoop] using h
  | n + 1, i, j, buf, hji, h => by
    unfold compactLoop
    simp only []
    split
    · rename_i hch
      apply compactLoop_lb n (i + 1) (j + 1) _ (by omega)
      intro k hk
      have hi : i < buf.length := by
        by_contra hcon
        have : buf.getD i .blank = .blank := by
          rw [List.getD_eq_getElem?_getD, List.getElem?_eq_none (by omega)]; rfl
        rw [this] at hch
        rcases hch with h1 | h1 <;> cases h1
      by_cases hkj : k = j
      · subst hkj
        rw [List.getD_eq_getElem?_getD, List.getElem?_set_self (by omega)]
        exact hch
      · have := h k (by omega)
        rw [List.getD_eq_getElem?_getD, List.getElem?_set_ne (by omega)]
        rw [List.getD_eq_getElem?_getD] at this
        exact this
    · exact compactLoop_lb n (i + 1) j buf (by omega) h

theorem take_one_set {α : Type} (l : List α) (a : α) (h : 0 < l.length) :
    (l.set 0 a).take 1 = [a] := by
  cases l with
  | nil => simp at h
  | cons b l => simp

theorem take_one_getD {α : Type} (l : List α) (d : α) (h : 0 < l.length) :
    l.take 1 = [l.getD 0 d] := by
  cases l with
  | nil => simp at h
  | cons b l => simp

/-- The whitespace buffer after a `//` comment that ends on the line before
`next` holds exactly one line break. -/
theorem adjust_line_comment (q : printer) (next : Position) (fl : Int)
    (hv : q.last.IsValid = true) (hn : next.Line - q.last.Line = 1)
    (hfl : ¬ q.last.Line > fl) (hlen : q.buffer.length = 8) :
    (q.adjust next fl true).buflen = 1 ∧
    ∃ ch, (ch = whiteSpace.newline ∨ ch = whiteSpace.formfeed) ∧
      (q.adjust next fl true).buffer.take 1 = [ch] := by
  obtain ⟨_, _, hl⟩ := compactLoop_bound q.buflen.toNat 0 0 q.buffer
  have hlb := compactLoop_lb q.buflen.toNat 0 0 q.buffer (Nat.le_refl 0)
    (fun k hk => absurd hk (Nat.not_lt_zero k))
  rw [hlen] at hl
  unfold adjust
  simp only [hv, if_true, hn, hfl, if_false]
  generalize compactLoop q.buflen.toNat 0 0 q.buffer = r at hl hlb
  obtain ⟨b, j⟩ := r
  simp only [] at hl hlb ⊢
  rcases Nat.lt_or_ge 1 j with h1 | h1
  · have hc : (1 : Int) < (j : Int) := by omega
    simp only [hc, if_true]
    rw [if_neg (by decide)]
    simp only []
    refine ⟨trivial, b.getD 0 .blank, hlb 0 (by omega), ?_⟩
    rw [if_neg hfl, take_one_set _ _ (by omega)]
  · have hc : ¬ (1 : Int) < (j : Int) := by omega
    simp only [hc, if_false]
    rcases Nat.eq_zero_or_pos j with h0 | h0
    · subst h0
      simp only [Nat.cast_zero, if_true]
      refine ⟨trivial, .newline, Or.inl rfl, ?_⟩
      rw [if_neg hfl, take_one_set _ _ (by omega)]
    · have hj : j = 1 := by omega
      subst hj
      rw [if_neg (by decide)]
      simp only []
      refine ⟨rfl, b.getD 0 .blank, hlb 0 (by omega), ?_⟩
      rw [if_neg hfl, take_one_set _ _ (by omega)]

end printer

theorem advance_offset_ge (indent : Nat) : ∀ (data : List Char) (pos : Position),
    pos.Offset ≤ (advance indent pos data).Offset
  | [], pos => by simp [advance]
  | b :: rest, pos => by
    have h := advance_offset_ge indent rest (advanceByte indent pos b)
    have h1 : pos.Offset ≤ (advanceByte indent pos b).Offset := by
      unfold advanceByte
      split <;> simp <;> omega
    simp only [advance, List.foldl_cons] at h ⊢
    omega

theorem enc_newlines (mode n : Nat) : enc mode 0 (List.replicate n '\n') = List.replicate n '\n' := by
  apply enc_eq_self
  intro b hb
  rw [List.eq_of_mem_replicate hb]
  simp [encByte]

theorem enc_lb (mode : Nat) (ch : whiteSpace) (h : ch = .newline ∨ ch = .formfeed) :
    ∃ lb, enc mode 0 (wsBytes [ch]) = [lb] ∧ (lb = '\n' ∨ lb = '\x0c') ∧
      (mode &&& RawFormat ≠ 0 → lb = '\n') := by
  rcases h with rfl | rfl
  · exact ⟨'\n', by simp [enc, wsBytes, whiteSpace.toByte, encByte], Or.inl rfl, fun _ => rfl⟩
  · by_cases hm : mode &&& RawFormat ≠ 0
    · exact ⟨'\n', by simp [enc, wsBytes, whiteSpace.toByte, encByte, hm], Or.inl rfl,
        fun _ => rfl⟩
    · refine ⟨'\x0c', ?_, Or.inr rfl, fun h => absurd h hm⟩
      have hm' : mode &&& RawFormat = 0 := by simpa using hm
      simp [enc, wsBytes, whiteSpace.toByte, encByte, hm']

namespace printer

theorem adjust_pos (q : printer) (next : Position) (fl : Int) (nn : Bool) :
    (q.adjust next fl nn).pos = q.pos := by
  unfold adjust
  simp only []
  repeat' split
  all_goals rfl

theorem flush_before (p : printer) (next : Position) (g : CommentGroup)
    (gs : List CommentGroup) (c0 : Comment) (l : List Comment)
    (hcm : p.comment = g :: gs) (hgl : g.list = c0 :: l) (hlt : c0.pos.Offset < next.Offset) :
    p.flush next =
      match p.intersperseComments next with
      | .error e => .error e
      | .ok q => q.writeWhitespace := by
  unfold flush
  simp only [hcm, hgl, hlt, if_true]
  try (cases p.intersperseComments next <;> rfl)

/-- With a single `//` comment pending on a line of its own after the last
item and the next token on the following line, `flush` writes the newlines
that separate the comment from the last item, the comment, and exactly one
line break. -/
theorem flush_line_comment (p : printer) (next : Position) (c : Comment)
    (rest : List CommentGroup) (t : List Char)
    (ht : p.TagFree) (h0 : 0 ≤ p.buflen) (h8 : p.buflen ≤ 8) (hlen : p.buffer.length = 8)
    (hi : p.indent = 0)
    (hc : p.comment = ⟨[c]⟩ :: rest) (hne : ∀ g ∈ rest, g.list ≠ [])
    (hrest : ∀ g ∈ rest.head?, CommentGroup.before next g = false)
    (htxt : c.Text = '/' :: '/' :: t) (hnl : lineBreaks c.Text = 0)
    (hcv : c.pos.IsValid = true) (hlv : p.last.IsValid = true)
    (hK : p.last.Line < c.pos.Line)
    (hnL : next.Line = c.pos.Line + 1) (hoff : c.pos.Offset < next.Offset) :
    ∃ q lb, p.flush next = .ok q ∧ (lb = '\n' ∨ lb = '\x0c') ∧
      (p.mode &&& RawFormat ≠ 0 → lb = '\n') ∧
      q.output = p.output ++
        List.replicate (min (c.pos.Line - p.last.Line).toNat maxNewlines) '\n' ++
        enc p.mode 0 c.Text ++ [lb] ∧
      q.comment = rest ∧ q.pos.Line = next.Line ∧ q.mode = p.mode ∧ q.indent = 0 ∧
      q.tag = p.tag := by
  have hbt : CommentGroup.before next ⟨[c]⟩ = true := by
    simp [CommentGroup.before, hoff]
  have htk : rest.takeWhile (CommentGroup.before next) = [] ∧
      rest.dropWhile (CommentGroup.before next) = rest := by
    cases rest with
    | nil => exact ⟨rfl, rfl⟩
    | cons g gs =>
      have := hrest g (by simp)
      simp [List.takeWhile_cons, List.dropWhile_cons, this]
  have hem : emitted next p.comment = [c] := by
    rw [hc]; simp [emitted, List.takeWhile_cons, hbt, htk.1]
  have hdr : p.comment.dropWhile (CommentGroup.before next) = rest := by
    rw [hc]; simp [List.dropWhile_cons, hbt, htk.2]
  have hne' : ∀ g ∈ p.comment, g.list ≠ [] := by
    rw [hc]; intro g hg
    rcases List.mem_cons.1 hg with rfl | hg
    · simp
    · exact hne g hg
  have hfl := flush_before p next ⟨[c]⟩ rest c [] hc rfl hoff
  rw [hfl, intersperseComments_eq p next ht hne' (by rw [hem]; intro x hx; simp at hx; subst hx; rw [htxt]; simp)]
  simp only [hem, hdr, List.foldl_cons, List.foldl_nil]
  have hfirst : firstLineOf 0 [c] = c.pos.Line := by simp [firstLineOf]
  have hnn : needsNewlineOf false [c] = true := by simp [needsNewlineOf, htxt]
  rw [hfirst, hnn, writeComment_eq p c ht]
  have hsep : commentSep p c =
      List.replicate (min (c.pos.Line - p.last.Line).toNat maxNewlines) '\n' := by
    unfold commentSep
    rw [if_pos hlv, if_neg (by omega)]
  have hlast : (((p.emitData (commentSep p c)).item c.pos c.Text).setComment rest).last =
      advance p.indent c.pos c.Text := rfl
  have hlastL : (advance p.indent c.pos c.Text).Line = c.pos.Line := by
    rw [advance_line, hnl]; simp
  have hlastV : (advance p.indent c.pos c.Text).IsValid = true := by
    have := advance_offset_ge p.indent c.Text c.pos
    simp only [Position.IsValid, decide_eq_true_eq] at hcv ⊢
    omega
  obtain ⟨hb1, ch, hch, hbuf⟩ := adjust_line_comment
    (((p.emitData (commentSep p c)).item c.pos c.Text).setComment rest) next c.pos.Line
    (by rw [hlast]; exact hlastV) (by rw [hlast, hlastL]; omega)
    (by rw [hlast, hlastL]; omega) hlen
  obtain ⟨a1, a2, a3, a4, a5, a6⟩ := adjust_fields
    (((p.emitData (commentSep p c)).item c.pos c.Text).setComment rest) next c.pos.Line true
  have apos := adjust_pos
    (((p.emitData (commentSep p c)).item c.pos c.Text).setComment rest) next c.pos.Line true
  rw [writeWhitespace_plain _ (by rw [hb1]; decide) (by rw [hb1]; decide), write_emitData, hb1]
  have h1 : (1 : Int).toNat = 1 := rfl
  rw [h1, hbuf]
  obtain ⟨lb, hlb, hlb1, hlb2⟩ := enc_lb p.mode ch hch
  refine ⟨_, lb, rfl, hlb1, hlb2, ?_, ?_, ?_, ?_, ?_, ?_⟩
  · show _ ++ enc _ _ (wsBytes [ch]) = _
    rw [a1, a2, a3]
    show (p.output ++ enc p.mode p.indent (commentSep p c)) ++ enc p.mode p.indent c.Text ++
      enc p.mode p.indent (wsBytes [ch]) = _
    rw [hi, hsep, enc_newlines, hlb]
  · show (_ : printer).comment = rest
    rw [a4]; rfl
  · show (advance _ _ (wsBytes [ch])).Line = _
    rw [advance_line, apos]
    show (advance p.indent c.pos c.Text).Line + _ = _
    rw [hlastL, hnL]
    rcases hch with rfl | rfl <;> simp [lineBreaks, wsBytes, whiteSpace.toByte]
  · show (_ : printer).mode = p.mode
    rw [a2]; rfl
  · show (_ : printer).indent = 0
    rw [a3]; exact hi
  · show (_ : printer).tag = p.tag
    rw [a5]; rfl

end printer

/-- C2: in a printer whose last item ended on line K, with the whitespace
buffer in any state and indent 0, a single `//` comment pending alone on line
L > K (any later pending group starting at or after `next`) and the next token
at a valid position on line L+1 with a larger offset, printing the token
returns and appends to the output the newlines separating the comment from
the last item (at most `maxNewlines`), the comment text, exactly one line
break (a newline in `RawFormat` mode), and the token. -/
theorem C2_line_comment (p : printer) (next : Position) (tok : Token) (c : Comment)
    (rest : List CommentGroup) (t : List Char)
    (ht : p.TagFree) (h0 : 0 ≤ p.buflen) (h8 : p.buflen ≤ 8) (hlen : p.buffer.length = 8)
    (hi : p.indent = 0)
    (hc : p.comment = ⟨[c]⟩ :: rest) (hne : ∀ g ∈ rest, g.list ≠ [])
    (hrest : ∀ g ∈ rest.head?, CommentGroup.before next g = false)
    (htxt : c.Text = '/' :: '/' :: t) (hnl : lineBreaks c.Text = 0)
    (hcv : c.pos.IsValid = true) (hlv : p.last.IsValid = true)
    (hK : p.last.Line < c.pos.Line) (hnv : next.IsValid = true)
    (hnL : next.Line = c.pos.Line + 1) (hoff : c.pos.Offset < next.Offset) :
    ∃ q lb, p.print [.position next, .token tok] = .ok q ∧ (lb = '\n' ∨ lb = '\x0c') ∧
      (p.mode &&& RawFormat ≠ 0 → lb = '\n') ∧
      q.output = p.output ++
        List.replicate (min (c.pos.Line - p.last.Line).toNat maxNewlines) '\n' ++
        enc p.mode 0 c.Text ++ [lb] ++ enc p.mode 0 tok.String ∧
      q.comment = rest := by
  have e1 : p.printItem false (.position next) = .ok (false, { p with pos := next }) := by
    unfold printer.printItem
    simp only [hnv, if_true]
  have e2 : ({ p with pos := next } : printer).printItem false (.token tok) =
      match ({ p with pos := next } : printer).flush next with
      | .error e => .error e
      | .ok q => .ok (false, (q.writeNewlines (next.Line - q.pos.Line)).writeItem next
          tok.String false) := by
    unfold printer.printItem
    simp only []
    try (cases ({ p with pos := next } : printer).flush next <;> rfl)
  obtain ⟨q, lb, hq, hlb1, hlb2, ho, hcm, hpl, hm, hin, htg⟩ :=
    printer.flush_line_comment ({ p with pos := next } : printer) next c rest t
      (ht.of_eq rfl rfl) h0 h8 hlen hi hc hne hrest htxt hnl hcv hlv hK hnL hoff
  have hqt : q.TagFree := ht.of_eq hm htg
  refine ⟨(q.writeNewlines (next.Line - q.pos.Line)).writeItem next tok.String false,
    lb, ?_, hlb1, hlb2, ?_, ?_⟩
  · unfold printer.print printer.printLoop
    simp only [e1]
    unfold printer.printLoop
    simp only [e2, hq]
    rfl
  · rw [printer.writeNewlines_nonpos q _ (by omega),
      printer.writeItem_item q next tok.String false hqt.noTag]
    show q.output ++ enc q.mode q.indent tok.String = _
    rw [ho, hm, hin]
  · rw [printer.writeNewlines_nonpos q _ (by omega),
      printer.writeItem_item q next tok.String false hqt.noTag]
    exact hcm

theorem C2_line_comment_witness :
    ∃ q lb, C2_printer.print [.position ⟨18, 4, 1⟩, .token Token.VAR] = .ok q ∧
      (lb = '\n' ∨ lb = '\x0c') ∧
      (C2_printer.mode &&& RawFormat ≠ 0 → lb = '\n') ∧
      q.output = C2_printer.output ++
        List.replicate (min ((⟨⟨12, 3, 1⟩, ['/', '/', 'd', 'o', 'c']⟩ : Comment).pos.Line -
          C2_printer.last.Line).toNat maxNewlines) '\n' ++
        enc C2_printer.mode 0 (⟨⟨12, 3, 1⟩, ['/', '/', 'd', 'o', 'c']⟩ : Comment).Text ++ [lb] ++
        enc C2_printer.mode 0 Token.VAR.String ∧
      q.comment = [] :=
  C2_line_comment C2_printer ⟨18, 4, 1⟩ Token.VAR ⟨⟨12, 3, 1⟩, ['/', '/', 'd', 'o', 'c']⟩ []
    ['d', 'o', 'c'] (Or.inl (by decide)) (by decide) (by decide) (by decide) rfl rfl
    (by decide) (by decide) rfl (by decide) (by decide) (by decide) (by decide) (by decide)
    (by decide) (by decide)

theorem C2_example :
    (C2_printer.print [.position ⟨18, 4, 1⟩, .token Token.VAR]).map (fun q => q.output) =
      .ok "\n\n//doc\nvar".toList := by
  rfl

/-- C4: `Fprint` of `C4_file` in `RawFormat` mode writes five consecutive
newline bytes between the comment `// c` and the token `var`: the two
newlines buffered by `file`, written by `flush`, and three more from
`writeNewlines`, which caps its own argument only. -/
theorem C4_five_newlines :
    (Fprint (.File C4_file) RawFormat).map (fun r => r.output) =
      .ok "package p\n// c\n\n\n\n\nvar x int\n".toList := by
  rfl

/-! ## Indentation balance

Every walk asks for indentation changes that sum to zero. -/

@[simp] theorem opsDelta_nil : opsDelta [] = 0 := rfl

@[simp] theorem opsDelta_cons (op : Op) (ops : List Op) :
    opsDelta (op :: ops) = op.delta + opsDelta ops := by
  simp [opsDelta]

@[simp] theorem opsDelta_append (a b : List Op) : opsDelta (a ++ b) = opsDelta a + opsDelta b := by
  simp [opsDelta]

@[simp] theorem Walk.leadComment_ops (d : Option CommentGroup) :
    (Walk.leadComment d).ops = [Op.leadComment d] := rfl

@[simp] theorem Walk.lineComment_ops (d : Option CommentGroup) :
    (Walk.lineComment d).ops = [Op.lineComment d] := rfl

@[simp] theorem Walk.levelInc_ops : Walk.levelInc.ops = [Op.levelInc] := rfl

@[simp] theorem Walk.levelDec_ops : Walk.levelDec.ops = [Op.levelDec] := rfl

@[simp] theorem Walk.crash_ops (msg : String) : (Walk.crash msg).ops = [Op.crash msg] := rfl

@[simp] theorem opsDelta_printPos (pos : Option Position) : opsDelta (printPos pos).ops = 0 := by
  cases pos <;> simp [printPos, Op.delta, itemsDelta, Item.delta]

@[simp] theorem opsDelta_ite (c : Prop) [Decidable c] (a b : List Op) :
    opsDelta (if c then a else b) = if c then opsDelta a else opsDelta b := by
  split <;> rfl

theorem exprListLine_delta (mode : Nat) : ∀ (list : List ExprW) (i : Nat),
    (∀ x ∈ list, opsDelta x.expr.ops = 0) → opsDelta (exprListLine mode i list).ops = 0
  | [], _, _ => rfl
  | x :: rest, i, h => by
    have ih := exprListLine_delta mode rest (i + 1) (fun y hy => h y (List.mem_cons_of_mem _ hy))
    have hx := h x (List.mem_cons_self _ _)
    simp only [exprListLine]
    repeat' split
    all_goals simp [Op.delta, itemsDelta, Item.delta, ih, hx]

theorem exprListLines_delta (mode : Nat) : ∀ (list : List ExprW) (i : Nat) (line : Int),
    (∀ x ∈ list, opsDelta x.expr.ops = 0) → opsDelta (exprListLines mode i line list).ops = 0
  | [], _, _, _ => rfl
  | x :: rest, i, line, h => by
    have hx := h x (List.mem_cons_self _ _)
    have ih := fun l => exprListLines_delta mode rest (i + 1) l
      (fun y hy => h y (List.mem_cons_of_mem _ hy))
    simp only [exprListLines]
    repeat' split
    all_goals simp [Op.delta, itemsDelta, Item.delta, ih, hx]

theorem exprList_delta (list : List ExprW) (mode : Nat)
    (h : ∀ x ∈ list, opsDelta x.expr.ops = 0) : opsDelta (exprList list mode).ops = 0 := by
  have h1 := exprListLine_delta mode list 0 h
  have h2 := fun l => exprListLines_delta mode list 0 l h
  unfold exprList
  repeat' split
  all_goals simp [Op.delta, itemsDelta, Item.delta, h1, h2]

@[simp] theorem exprIdent_delta (x : Ident) : opsDelta (exprIdent x).ops = 0 := by
  simp [exprIdent, Op.delta, itemsDelta, Item.delta]

@[simp] theorem exprBasicLit_delta (x : BasicLit) : opsDelta (exprBasicLit x).ops = 0 := by
  simp [exprBasicLit, Op.delta, itemsDelta, Item.delta]

@[simp] theorem identList_delta (list : List Ident) : opsDelta (identList list).ops = 0 := by
  unfold identList
  apply exprList_delta
  intro x hx
  obtain ⟨y, _, rfl⟩ := List.mem_map.1 hx
  exact exprIdent_delta y

@[simp] theorem stringList_delta (list : List BasicLit) : opsDelta (stringList list).ops = 0 := by
  unfold stringList
  apply exprList_delta
  intro x hx
  obtain ⟨y, _, rfl⟩ := List.mem_map.1 hx
  exact exprBasicLit_delta y

@[simp] theorem exprStringList_delta (list : List BasicLit) :
    opsDelta (exprStringList list).ops = 0 := by
  simp [exprStringList]

theorem parametersLoop_delta : ∀ (list : List FieldW) (i : Nat),
    (∀ f ∈ list, f.Bal) → opsDelta (parametersLoop i list).ops = 0
  | [], _, _ => rfl
  | par :: rest, i, h => by
    have ih := parametersLoop_delta rest (i + 1) (fun y hy => h y (List.mem_cons_of_mem _ hy))
    have hx := (h par (List.mem_cons_self _ _)).1
    simp only [parametersLoop]
    repeat' split
    all_goals simp [Op.delta, itemsDelta, Item.delta, ih, hx]

theorem parameters_delta (list : List FieldW) (h : ∀ f ∈ list, f.Bal) :
    opsDelta (parameters list).ops = 0 := by
  have h1 := parametersLoop_delta list 0 h
  unfold parameters
  repeat' split
  all_goals simp [Op.delta, itemsDelta, Item.delta, h1]

theorem signature_delta (params : List FieldW) (result : Option (List FieldW))
    (hp : ∀ f ∈ params, f.Bal) (hr : ∀ l, result = some l → ∀ f ∈ l, f.Bal) :
    opsDelta (signature params result).ops = 0 := by
  have h1 := parameters_delta params hp
  unfold signature
  cases result with
  | none => simp [h1]
  | some l =>
    have h2 := parameters_delta l (hr l rfl)
    have h3 : ∀ f ∈ l, opsDelta f.Typ.ops = 0 := fun f hf => (hr l rfl f hf).1
    simp only []
    repeat' split
    all_goals simp [Op.delta, itemsDelta, Item.delta, h1, h2, h3]

theorem fieldListStruct_delta (sep : whiteSpace) (n : Nat) (isIncomplete : Bool) :
    ∀ (list : List FieldW) (i : Nat),
    (∀ f ∈ list, f.Bal) → opsDelta (fieldListStruct sep n isIncomplete i list).ops = 0
  | [], _, _ => rfl
  | f :: rest, i, h => by
    have ih := fieldListStruct_delta sep n isIncomplete rest (i + 1)
      (fun y hy => h y (List.mem_cons_of_mem _ hy))
    have hx := (h f (List.mem_cons_self _ _)).1
    simp only [fieldListStruct]
    repeat' split
    all_goals simp [Op.delta, itemsDelta, Item.delta, ih, hx]

theorem fieldListInterface_delta (n : Nat) (isIncomplete : Bool) :
    ∀ (list : List FieldW) (i : Nat),
    (∀ f ∈ list, f.Bal) → opsDelta (fieldListInterface n isIncomplete i list).ops = 0
  | [], _, _ => rfl
  | f :: rest, i, h => by
    have ih := fieldListInterface_delta n isIncomplete rest (i + 1)
      (fun y hy => h y (List.mem_cons_of_mem _ hy))
    have hx := (h f (List.mem_cons_self _ _)).1
    have hy := (h f (List.mem_cons_self _ _)).2
    simp only [fieldListInterface]
    repeat' split
    all_goals simp [Op.delta, itemsDelta, Item.delta, ih, hx]
    all_goals exact hy _ (by assumption)

theorem fieldList_delta (lbrace : Position) (list : List FieldW) (rbrace : Position)
    (isIncomplete isStruct : Bool) (h : ∀ f ∈ list, f.Bal) :
    opsDelta (fieldList lbrace list rbrace isIncomplete isStruct).ops = 0 := by
  have h1 := fun sep => fieldListStruct_delta sep list.length isIncomplete list 0 h
  have h2 := fieldListInterface_delta list.length isIncomplete list 0 h
  unfold fieldList
  repeat' split
  all_goals simp [Op.delta, itemsDelta, Item.delta, h1, h2]

@[simp] theorem binaryExprOp_delta (printBlanks : Bool) (OpPos : Position) (tok : Token) :
    opsDelta (binaryExprOp printBlanks OpPos tok).ops = 0 := by
  unfold binaryExprOp
  split <;> simp [Op.delta, itemsDelta, Item.delta]

theorem stmtListLoop_delta : ∀ (list : List (Walk Bool)) (i : Nat) (optSemi : Bool),
    (∀ s ∈ list, opsDelta s.ops = 0) → opsDelta (stmtListLoop i optSemi list).ops = 0
  | [], _, _, _ => rfl
  | s :: rest, i, optSemi, h => by
    have ih := fun o => stmtListLoop_delta rest (i + 1) o
      (fun y hy => h y (List.mem_cons_of_mem _ hy))
    have hx := h s (List.mem_cons_self _ _)
    simp only [stmtListLoop]
    repeat' split
    all_goals simp [Op.delta, itemsDelta, Item.delta, ih, hx]

theorem stmtList_delta (list : List (Walk Bool)) (h : ∀ s ∈ list, opsDelta s.ops = 0) :
    opsDelta (stmtList list).ops = 0 := by
  have h1 := stmtListLoop_delta list 0 false h
  unfold stmtList
  repeat' split
  all_goals simp [Op.delta, itemsDelta, Item.delta, h1]

theorem block_delta (s : BlockW) (h : ∀ w ∈ s.List, opsDelta w.ops = 0) :
    opsDelta (block s).ops = 0 := by
  have h1 := stmtList_delta s.List h
  unfold block
  repeat' split
  all_goals simp [Op.delta, itemsDelta, Item.delta, h1]

theorem switchBlockLoop_delta : ∀ (list : List (Walk Bool)),
    (∀ s ∈ list, opsDelta s.ops = 0) → opsDelta (switchBlockLoop list).ops = 0
  | [], _ => rfl
  | s :: rest, h => by
    have ih := switchBlockLoop_delta rest (fun y hy => h y (List.mem_cons_of_mem _ hy))
    have hx := h s (List.mem_cons_self _ _)
    simp [switchBlockLoop, Op.delta, itemsDelta, Item.delta, ih, hx]

theorem switchBlock_delta (s : BlockW) (h : ∀ w ∈ s.List, opsDelta w.ops = 0) :
    opsDelta (switchBlock s).ops = 0 := by
  have h1 := switchBlockLoop_delta s.List h
  unfold switchBlock
  repeat' split
  all_goals simp [Op.delta, itemsDelta, Item.delta, h1]

theorem stmtBlock_delta (s : BlockW) (h : ∀ w ∈ s.List, opsDelta w.ops = 0) :
    opsDelta (stmtBlock s).ops = 0 := by
  have h1 := block_delta s h
  simp [stmtBlock, Op.delta, itemsDelta, Item.delta, h1]

theorem controlClause_delta (isForStmt : Bool) (init expr post : Option (Walk Bool))
    (hi : ∀ w, init = some w → opsDelta w.ops = 0)
    (he : ∀ w, expr = some w → opsDelta w.ops = 0)
    (hp : ∀ w, post = some w → opsDelta w.ops = 0) :
    opsDelta (controlClause isForStmt init expr post).ops = 0 := by
  unfold controlClause
  cases init <;> cases expr <;> cases post <;>
    simp_all [Op.delta, itemsDelta, Item.delta]

theorem declSpecs_delta : ∀ (list : List (Walk (Option CommentGroup × Bool))) (i : Nat)
    (comment : Option CommentGroup),
    (∀ s ∈ list, opsDelta s.ops = 0) → opsDelta (declSpecs i comment list).ops = 0
  | [], _, _, _ => rfl
  | s :: rest, i, comment, h => by
    have ih := fun c => declSpecs_delta rest (i + 1) c
      (fun y hy => h y (List.mem_cons_of_mem _ hy))
    have hx := h s (List.mem_cons_self _ _)
    simp only [declSpecs]
    repeat' split
    all_goals simp [Op.delta, itemsDelta, Item.delta, ih, hx]

/-! ## The cases of the walk

Each equation is the case of the walk for one kind of node, as it is written
in the definition. -/

theorem expr1_BadExpr_eq : ∀ pos prec1, expr1 (.BadExpr pos) prec1 =
  (
    do
    printPos (some pos)
    print [.string "BadExpr".toList]
    return false) :=
  fun _ _ => rfl

theorem expr1_Ident_eq : ∀ x prec1, expr1 (.Ident x) prec1 =
  (
    do
    printPos (some x.pos)
    print [.string x.Value]
    return false) :=
  fun _ _ => rfl

theorem expr1_BinaryExpr_eq : ∀ X OpPos Op Y prec1, expr1 (.BinaryExpr X OpPos Op Y) prec1 =
  (
    do
    printPos X.Pos
    let prec := Op.Precedence
    let printBlanks := binaryExprBlanks prec X OpPos Op Y
    let chain : Walk Unit := do
      match X with
      | .BinaryExpr _ _ Op1 _ =>
        if Op1.Precedence = prec then binaryExprSpine printBlanks prec X
        else let _ ← expr1 X prec
      | _ => let _ ← expr1 X prec
      binaryExprOp printBlanks OpPos Op
      let _ ← expr1 Y prec
    if prec < prec1 then
      print [.token .LPAREN]
      printPos X.Pos
      chain
      print [.token .RPAREN]
    else
      chain
    return false) :=
  by
  intro X OpPos Op Y prec1
  cases X <;> rfl

theorem expr1_KeyValueExpr_eq : ∀ Key Colon Value prec1, expr1 (.KeyValueExpr Key Colon Value) prec1 =
  (
    do
    printPos Key.Pos
    let _ ← expr1 Key LowestPrec
    print [.position Colon, .token .COLON, .whiteSpace .blank]
    let _ ← expr1 Value LowestPrec
    return false) :=
  fun _ _ _ _ => rfl

theorem expr1_StarExpr_eq : ∀ pos X prec1, expr1 (.StarExpr pos X) prec1 =
  (
    do
    printPos (some pos)
    print [.token .MUL]
    let optSemi ← expr1 X LowestPrec
    return optSemi) :=
  fun _ _ _ => rfl

theorem expr1_UnaryExpr_eq : ∀ pos Op X prec1, expr1 (.UnaryExpr pos Op X) prec1 =
  (
    do
    printPos (some pos)
    let body : Walk Unit := do
      print [.token Op]
      if Op = .RANGE then
        print [.whiteSpace .blank]
      let _ ← expr1 X UnaryPrec
    if UnaryPrec < prec1 then
      print [.token .LPAREN]
      printPos (some pos)
      body
      print [.token .RPAREN]
    else
      body
    return false) :=
  fun _ _ _ _ => rfl

theorem expr1_BasicLit_eq : ∀ x prec1, expr1 (.BasicLit x) prec1 =
  (
    do
    printPos (some x.pos)
    print [.bytes x.Value]
    return false) :=
  fun _ _ => rfl

theorem expr1_StringList_eq : ∀ Strings prec1, expr1 (.StringList Strings) prec1 =
  (
    do
    printPos (Expr.StringList Strings).Pos
    stringList Strings
    return false) :=
  fun _ _ => rfl

theorem expr1_FuncLit_eq : ∀ Typ Body prec1, expr1 (.FuncLit Typ Body) prec1 =
  (
    do
    printPos (some Typ.Pos)
    printPos (some Typ.Pos)
    let _ ← funcType Typ
    print [.whiteSpace .blank]
    levelInc
    let _ ← stmtBlock (blockW Body)
    levelDec
    return false) :=
  fun _ _ _ => rfl

theorem expr1_ParenExpr_eq : ∀ pos X Rparen prec1, expr1 (.ParenExpr pos X Rparen) prec1 =
  (
    do
    printPos (some pos)
    print [.token .LPAREN]
    let _ ← expr1 X LowestPrec
    print [.position Rparen, .token .RPAREN]
    return false) :=
  fun _ _ _ _ => rfl

theorem expr1_SelectorExpr_eq : ∀ X Sel prec1, expr1 (.SelectorExpr X Sel) prec1 =
  (
    do
    printPos X.Pos
    let _ ← expr1 X HighestPrec
    print [.token .PERIOD]
    let _ ← exprIdent Sel
    return false) :=
  fun _ _ _ => rfl

theorem expr1_TypeAssertExpr_eq : ∀ X Typ prec1, expr1 (.TypeAssertExpr X Typ) prec1 =
  (
    do
    printPos X.Pos
    let _ ← expr1 X HighestPrec
    print [.token .PERIOD, .token .LPAREN]
    match Typ with
    | some t => let _ ← expr1 t LowestPrec
    | none => print [.token .TYPE]
    print [.token .RPAREN]
    return false) :=
  by
  intro X Typ prec1
  cases Typ <;> rfl

theorem expr1_IndexExpr_eq : ∀ X Index End prec1, expr1 (.IndexExpr X Index End) prec1 =
  (
    do
    printPos X.Pos
    let _ ← expr1 X HighestPrec
    print [.token .LBRACK]
    let _ ← expr1 Index LowestPrec
    match End with
    | some e =>
      if needsBlanks Index || needsBlanks e then
        print [.whiteSpace .blank, .token .COLON, .whiteSpace .blank]
      else
        print [.token .COLON]
      let _ ← expr1 e LowestPrec
    | none => pure ()
    print [.token .RBRACK]
    return false) :=
  by
  intro X Index End prec1
  cases End <;> rfl

theorem expr1_CallExpr_eq : ∀ x prec1, expr1 (.CallExpr x) prec1 =
  (
    do
    printPos x.Pos
    callExpr x
    return false) :=
  fun _ _ => rfl

theorem expr1_CompositeLit_eq : ∀ Typ Lbrace Elts Rbrace prec1, expr1 (.CompositeLit Typ Lbrace Elts Rbrace) prec1 =
  (
    do
    printPos Typ.Pos
    let _ ← expr1 Typ HighestPrec
    print [.position Lbrace, .token .LBRACE]
    exprList (exprs Elts) (commaSep ||| commaTerm)
    print [.position Rbrace, .token .RBRACE]
    return false) :=
  fun _ _ _ _ _ => rfl

theorem expr1_Ellipsis_eq : ∀ pos prec1, expr1 (.Ellipsis pos) prec1 =
  (
    do
    printPos (some pos)
    print [.token .ELLIPSIS]
    return false) :=
  fun _ _ => rfl

theorem expr1_ArrayType_eq : ∀ pos Len Elt prec1, expr1 (.ArrayType pos Len Elt) prec1 =
  (
    do
    printPos (some pos)
    print [.token .LBRACK]
    match Len with
    | some l => let _ ← expr1 l LowestPrec
    | none => pure ()
    print [.token .RBRACK]
    let optSemi ← expr1 Elt LowestPrec
    return optSemi) :=
  by
  intro pos Len Elt prec1
  cases Len <;> rfl

theorem expr1_StructType_eq : ∀ pos Lbrace Fields Rbrace Incomplete prec1, expr1 (.StructType pos Lbrace Fields Rbrace Incomplete) prec1 =
  (
    do
    printPos (some pos)
    print [.token .STRUCT]
    fieldList Lbrace (fields Fields) Rbrace Incomplete true
    return true) :=
  fun _ _ _ _ _ _ => rfl

theorem expr1_FuncType_eq : ∀ x prec1, expr1 (.FuncType x) prec1 =
  (
    do
    printPos (some x.Pos)
    let optSemi ← funcType x
    return optSemi) :=
  fun _ _ => rfl

theorem expr1_InterfaceType_eq : ∀ pos Lbrace Methods Rbrace Incomplete prec1, expr1 (.InterfaceType pos Lbrace Methods Rbrace Incomplete) prec1 =
  (
    do
    printPos (some pos)
    print [.token .INTERFACE]
    fieldList Lbrace (fields Methods) Rbrace Incomplete false
    return true) :=
  fun _ _ _ _ _ _ => rfl

theorem expr1_MapType_eq : ∀ pos Key Value prec1, expr1 (.MapType pos Key Value) prec1 =
  (
    do
    printPos (some pos)
    print [.token .MAP, .token .LBRACK]
    let _ ← expr1 Key LowestPrec
    print [.token .RBRACK]
    let optSemi ← expr1 Value LowestPrec
    return optSemi) :=
  fun _ _ _ _ => rfl

theorem expr1_ChanType_eq : ∀ pos Dir Value prec1, expr1 (.ChanType pos Dir Value) prec1 =
  (
    do
    printPos (some pos)
    if Dir = ast.SEND ||| ast.RECV then
      print [.token .CHAN]
    else if Dir = ast.RECV then
      print [.token .ARROW, .token .CHAN]
    else if Dir = ast.SEND then
      print [.token .CHAN, .token .ARROW]
    print [.whiteSpace .blank]
    let optSemi ← expr1 Value LowestPrec
    return optSemi) :=
  fun _ _ _ _ => rfl

theorem binaryExprSpine_BinaryExpr_eq : ∀ X OpPos Op Y printBlanks prec, binaryExprSpine printBlanks prec (.BinaryExpr X OpPos Op Y) =
  (
    do
    match X with
    | .BinaryExpr _ _ Op1 _ =>
      if Op1.Precedence = prec then binaryExprSpine printBlanks prec X
      else let _ ← expr1 X prec
    | _ => let _ ← expr1 X prec
    binaryExprOp printBlanks OpPos Op
    let _ ← expr1 Y prec) :=
  by
  intro X OpPos Op Y printBlanks prec
  cases X <;> rfl

theorem exprs_nil_eq : exprs ([]) =
  (
    []) :=
  rfl

theorem exprs_cons_eq : ∀ x rest, exprs (x :: rest) =
  (
    ⟨x.Pos, expr1 x LowestPrec⟩ :: exprs rest) :=
  fun _ _ => rfl

theorem callExpr_mk_eq : ∀ Fun Lparen Args Rparen, callExpr (.mk Fun Lparen Args Rparen) =
  (
    do
    let _ ← expr1 Fun HighestPrec
    print [.position Lparen, .token .LPAREN]
    exprList (exprs Args) commaSep
    print [.position Rparen, .token .RPAREN]) :=
  fun _ _ _ _ => rfl

theorem funcType_mk_eq : ∀ w1 Params Results, funcType (.mk w1 Params Results) =
  (
    do
    print [.token .FUNC]
    let optSemi ← signature (fields Params)
      (match Results with
       | some l => some (fields l)
       | none => none)
    return optSemi) :=
  by
  intro w1 Params Results
  cases Results <;> rfl

theorem fieldW_mk_eq : ∀ Doc Names Typ Tag Comment, fieldW (.mk Doc Names Typ Tag Comment) =
  (
    { Doc := Doc, Names := Names, Typ := expr1 Typ LowestPrec,
      Ftyp :=
        match Typ with
        | .FuncType (.mk _ Params Results) =>
          some (signature (fields Params)
            (match Results with
             | some l => some (fields l)
             | none => none))
        | _ => none,
      Tag := Tag, Comment := Comment }) :=
  by
  intro Doc Names Typ Tag Comment
  cases Typ with
  | FuncType x =>
    cases x with
    | mk p P R => cases R <;> rfl
  | _ => rfl

theorem fields_nil_eq : fields ([]) =
  (
    []) :=
  rfl

theorem fields_cons_eq : ∀ f rest, fields (f :: rest) =
  (
    fieldW f :: fields rest) :=
  fun _ _ => rfl

theorem blockW_mk_eq : ∀ pos list Rbrace, blockW (.mk pos list Rbrace) =
  (
    { Pos := pos, List := stmts list, Rbrace := Rbrace }) :=
  fun _ _ _ => rfl

theorem stmts_nil_eq : stmts ([]) =
  (
    []) :=
  rfl

theorem stmts_cons_eq : ∀ s rest, stmts (s :: rest) =
  (
    stmt s :: stmts rest) :=
  fun _ _ => rfl

theorem stmt_BadStmt_eq : ∀ pos, stmt (.BadStmt pos) =
  (
    do
    printPos (some pos)
    print [.string "BadStmt".toList]
    return false) :=
  fun _ => rfl

theorem stmt_DeclStmt_eq : ∀ d, stmt (.DeclStmt d) =
  (
    do
    printPos (some d.Pos)
    let r ← decl d
    match r.1 with
    | some comment =>
      lineComment (some comment)
      print [.whiteSpace .newline]
    | none => pure ()
    return r.2) :=
  fun _ => rfl

theorem stmt_EmptyStmt_eq : ∀ pos, stmt (.EmptyStmt pos) =
  (
    do
    printPos (some pos)
    return false) :=
  fun _ => rfl

theorem stmt_LabeledStmt_eq : ∀ Label s, stmt (.LabeledStmt Label s) =
  (
    do
    printPos (some Label.pos)
    print [.int (-1), .whiteSpace .formfeed]
    let _ ← exprIdent Label
    print [.token .COLON, .whiteSpace .tab, .int 1, .whiteSpace .formfeed]
    let optSemi ← stmt s
    return optSemi) :=
  fun _ _ => rfl

theorem stmt_ExprStmt_eq : ∀ X, stmt (.ExprStmt X) =
  (
    do
    printPos X.Pos
    let _ ← expr1 X LowestPrec
    return false) :=
  fun _ => rfl

theorem stmt_IncDecStmt_eq : ∀ X Tok, stmt (.IncDecStmt X Tok) =
  (
    do
    printPos X.Pos
    let _ ← expr1 X LowestPrec
    print [.token Tok]
    return false) :=
  fun _ _ => rfl

theorem stmt_AssignStmt_eq : ∀ Lhs TokPos Tok Rhs, stmt (.AssignStmt Lhs TokPos Tok Rhs) =
  (
    do
    printPos (Stmt.AssignStmt Lhs TokPos Tok Rhs).Pos
    exprList (exprs Lhs) commaSep
    print [.whiteSpace .blank, .position TokPos, .token Tok]
    exprList (exprs Rhs) (blankStart ||| commaSep)
    return false) :=
  fun _ _ _ _ => rfl

theorem stmt_GoStmt_eq : ∀ pos Call, stmt (.GoStmt pos Call) =
  (
    do
    printPos (some pos)
    print [.token .GO, .whiteSpace .blank]
    printPos Call.Pos
    callExpr Call
    return false) :=
  fun _ _ => rfl

theorem stmt_DeferStmt_eq : ∀ pos Call, stmt (.DeferStmt pos Call) =
  (
    do
    printPos (some pos)
    print [.token .DEFER, .whiteSpace .blank]
    printPos Call.Pos
    callExpr Call
    return false) :=
  fun _ _ => rfl

theorem stmt_ReturnStmt_eq : ∀ pos Results, stmt (.ReturnStmt pos Results) =
  (
    do
    printPos (some pos)
    print [.token .RETURN]
    match Results with
    | some l => exprList (exprs l) (blankStart ||| commaSep)
    | none => pure ()
    return false) :=
  by
  intro pos Results
  cases Results <;> rfl

theorem stmt_BranchStmt_eq : ∀ pos Tok Label, stmt (.BranchStmt pos Tok Label) =
  (
    do
    printPos (some pos)
    print [.token Tok]
    match Label with
    | some l =>
      print [.whiteSpace .blank]
      let _ ← exprIdent l
    | none => pure ()
    return false) :=
  by
  intro pos Tok Label
  cases Label <;> rfl

theorem stmt_BlockStmt_eq : ∀ b, stmt (.BlockStmt b) =
  (
    do
    printPos (some b.Pos)
    block (blockW b)
    return true) :=
  fun _ => rfl

theorem stmt_IfStmt_eq : ∀ pos Init Cond Body Else, stmt (.IfStmt pos Init Cond Body Else) =
  (
    do
    printPos (some pos)
    print [.token .IF]
    controlClause false
      (match Init with
       | some s => some (stmt s)
       | none => none)
      (match Cond with
       | some x => some (expr1 x LowestPrec)
       | none => none)
      none
    print [.whiteSpace .blank]
    block (blockW Body)
    match Else with
    | some s =>
      print [.whiteSpace .blank, .token .ELSE, .whiteSpace .blank]
      let optSemi ← stmt s
      return optSemi
    | none => return true) :=
  by
  intro pos Init Cond Body Else
  cases Init <;> cases Cond <;> cases Else <;> rfl

theorem stmt_CaseClause_eq : ∀ pos Values Colon Body, stmt (.CaseClause pos Values Colon Body) =
  (
    do
    printPos (some pos)
    match Values with
    | some l =>
      print [.token .CASE]
      exprList (exprs l) (blankStart ||| commaSep)
    | none => print [.token .DEFAULT]
    print [.position Colon, .token .COLON]
    stmtList (stmts Body)
    return false) :=
  by
  intro pos Values Colon Body
  cases Values <;> rfl

theorem stmt_SwitchStmt_eq : ∀ pos Init Tag Body, stmt (.SwitchStmt pos Init Tag Body) =
  (
    do
    printPos (some pos)
    print [.token .SWITCH]
    controlClause false
      (match Init with
       | some s => some (stmt s)
       | none => none)
      (match Tag with
       | some x => some (expr1 x LowestPrec)
       | none => none)
      none
    print [.whiteSpace .blank]
    switchBlock (blockW Body)
    return true) :=
  by
  intro pos Init Tag Body
  cases Init <;> cases Tag <;> rfl

theorem stmt_TypeCaseClause_eq : ∀ pos Types Colon Body, stmt (.TypeCaseClause pos Types Colon Body) =
  (
    do
    printPos (some pos)
    match Types with
    | some l =>
      print [.token .CASE]
      exprList (exprs l) (blankStart ||| commaSep)
    | none => print [.token .DEFAULT]
    print [.position Colon, .token .COLON]
    stmtList (stmts Body)
    return false) :=
  by
  intro pos Types Colon Body
  cases Types <;> rfl

theorem stmt_TypeSwitchStmt_eq : ∀ pos Init Assign Body, stmt (.TypeSwitchStmt pos Init Assign Body) =
  (
    do
    printPos (some pos)
    print [.token .SWITCH]
    match Init with
    | some s =>
      print [.whiteSpace .blank]
      let _ ← stmt s
      print [.token .SEMICOLON]
    | none => pure ()
    print [.whiteSpace .blank]
    let _ ← stmt Assign
    print [.whiteSpace .blank]
    switchBlock (blockW Body)
    return true) :=
  by
  intro pos Init Assign Body
  cases Init <;> rfl

theorem stmt_CommClause_eq : ∀ pos Tok Lhs Rhs Colon Body, stmt (.CommClause pos Tok Lhs Rhs Colon Body) =
  (
    do
    printPos (some pos)
    match Rhs with
    | some rhs =>
      print [.token .CASE, .whiteSpace .blank]
      match Lhs with
      | some lhs =>
        let _ ← expr1 lhs LowestPrec
        print [.whiteSpace .blank, .token Tok, .whiteSpace .blank]
      | none => pure ()
      let _ ← expr1 rhs LowestPrec
    | none => print [.token .DEFAULT]
    print [.position Colon, .token .COLON]
    stmtList (stmts Body)
    return false) :=
  by
  intro pos Tok Lhs Rhs Colon Body
  cases Rhs <;> cases Lhs <;> rfl

theorem stmt_SelectStmt_eq : ∀ pos Body, stmt (.SelectStmt pos Body) =
  (
    do
    printPos (some pos)
    print [.token .SELECT, .whiteSpace .blank]
    switchBlock (blockW Body)
    return true) :=
  fun _ _ => rfl

theorem stmt_ForStmt_eq : ∀ pos Init Cond Post Body, stmt (.ForStmt pos Init Cond Post Body) =
  (
    do
    printPos (some pos)
    print [.token .FOR]
    controlClause true
      (match Init with
       | some s => some (stmt s)
       | none => none)
      (match Cond with
       | some x => some (expr1 x LowestPrec)
       | none => none)
      (match Post with
       | some s => some (stmt s)
       | none => none)
    print [.whiteSpace .blank]
    block (blockW Body)
    return true) :=
  by
  intro pos Init Cond Post Body
  cases Init <;> cases Cond <;> cases Post <;> rfl

theorem stmt_RangeStmt_eq : ∀ pos Key Value TokPos Tok X Body, stmt (.RangeStmt pos Key Value TokPos Tok X Body) =
  (
    do
    printPos (some pos)
    print [.token .FOR, .whiteSpace .blank]
    let _ ← expr1 Key LowestPrec
    match Value with
    | some v =>
      print [.token .COMMA, .whiteSpace .blank]
      let _ ← expr1 v LowestPrec
    | none => pure ()
    print [.whiteSpace .blank, .position TokPos, .token Tok, .whiteSpace .blank,
      .token .RANGE, .whiteSpace .blank]
    let _ ← expr1 X LowestPrec
    print [.whiteSpace .blank]
    block (blockW Body)
    return true) :=
  by
  intro pos Key Value TokPos Tok X Body
  cases Value <;> rfl

theorem spec_ImportSpec_eq : ∀ Doc Name Path Comment m n, spec (.ImportSpec Doc Name Path Comment) m n =
  (
  let sep := separator (decide (n > 1))
  do
    leadComment Doc
    if m > 0 then
      match Name with
      | some name => let _ ← exprIdent name
      | none => pure ()
      print [.whiteSpace sep]
    let _ ← exprStringList Path
    return (Comment, false)) :=
  by
  intro Doc Name Path Comment m n
  cases Name <;> rfl

theorem spec_ValueSpec_eq : ∀ Doc Names Typ Values Comment m n, spec (.ValueSpec Doc Names Typ Values Comment) m n =
  (
  let sep := separator (decide (n > 1))
  do
    leadComment Doc
    identList Names
    let mut optSemi := false
    if m > 0 then
      match Typ with
      | some t =>
        print [.whiteSpace sep]
        optSemi ← expr1 t LowestPrec
      | none =>
        if Values.isSome then
          print [.whiteSpace sep]
    match Values with
    | some l =>
      print [.whiteSpace sep, .token .ASSIGN]
      exprList (exprs l) (blankStart ||| commaSep)
      optSemi := false
    | none => pure ()
    return (Comment, optSemi)) :=
  by
  intro Doc Names Typ Values Comment m n
  cases Typ <;> cases Values <;> rfl

theorem spec_TypeSpec_eq : ∀ Doc Name Typ Comment m n, spec (.TypeSpec Doc Name Typ Comment) m n =
  (
  let sep := separator (decide (n > 1))
  do
    leadComment Doc
    let _ ← exprIdent Name
    print [.whiteSpace sep]
    let optSemi ← expr1 Typ LowestPrec
    return (Comment, optSemi)) :=
  fun _ _ _ _ _ _ => rfl

theorem specs_nil_eq : ∀ m n, specs m n ([]) =
  (
    []) :=
  fun _ _ => rfl

theorem specs_cons_eq : ∀ s rest m n, specs m n (s :: rest) =
  (
    spec s m n :: specs m n rest) :=
  fun _ _ _ _ => rfl

theorem decl_BadDecl_eq : ∀ pos, decl (.BadDecl pos) =
  (
    do
    print [.position pos, .string "BadDecl".toList]
    return (none, false)) :=
  fun _ => rfl

theorem decl_GenDecl_eq : ∀ Doc pos Tok Lparen Specs Rparen, decl (.GenDecl Doc pos Tok Lparen Specs Rparen) =
  (
    do
    leadComment Doc
    print [.lineTag pos, .token Tok, .whiteSpace .blank]
    let m : Option Nat :=
      match Tok with
      | .IMPORT => countImportRenames Specs
      | .CONST => countValueTypes Specs
      | .VAR => countValueTypes Specs
      | _ => some 0
    match m with
    | none =>
      crash "interface conversion"
      return (none, false)
    | some m =>
      if Lparen.IsValid then
        print [.position Lparen, .token .LPAREN]
        if Specs.length > 0 then
          print [.int 1, .whiteSpace .formfeed]
          let comment ← declSpecs 0 none (specs m Specs.length Specs)
          print [.token .SEMICOLON]
          lineComment comment
          print [.int (-1), .whiteSpace .formfeed]
        print [.position Rparen, .token .RPAREN]
        return (none, true)
      else
        match Specs with
        | s :: _ =>
          let r ← spec s m 1
          return r
        | [] =>
          crash "index out of range"
          return (none, false)) :=
  by
  intro Doc pos Tok Lparen Specs Rparen
  cases Tok <;> cases Specs <;> rfl

theorem decl_FuncDecl_eq : ∀ Doc Recv Name Typ Body, decl (.FuncDecl Doc Recv Name Typ Body) =
  (
    do
    leadComment Doc
    print [.lineTag Typ.Pos, .token .FUNC, .whiteSpace .blank]
    match Recv with
    | some (.mk _ Names RecvTyp _ _) =>
      print [.token .LPAREN]
      match namesOf Names with
      | name :: _ =>
        let _ ← exprIdent name
        print [.whiteSpace .blank]
      | [] => pure ()
      let _ ← expr1 RecvTyp LowestPrec
      print [.token .RPAREN, .whiteSpace .blank]
    | none => pure ()
    let _ ← exprIdent Name
    let _ ← funcSignature Typ
    match Body with
    | some b =>
      print [.whiteSpace .blank]
      levelInc
      let _ ← stmtBlock (blockW b)
      levelDec
    | none => pure ()
    return (none, false)) :=
  by
  intro Doc Recv Name Typ Body
  cases Recv with
  | none => cases Body <;> rfl
  | some f =>
    cases f with
    | mk a b c d e => cases Body <;> rfl

theorem funcSignature_mk_eq : ∀ w1 Params Results, funcSignature (.mk w1 Params Results) =
  (
    signature (fields Params)
      (match Results with
       | some l => some (fields l)
       | none => none)) :=
  by
  intro w1 Params Results
  cases Results <;> rfl

set_option maxHeartbeats 1600000

mutual

theorem expr1_delta (e : Expr) (prec1 : Nat) : opsDelta (expr1 e prec1).ops = 0 := by
  cases e with
  | BadExpr pos => rw [expr1_BadExpr_eq]; simp [Op.delta, itemsDelta, Item.delta]
  | Ident x => rw [expr1_Ident_eq]; simp [Op.delta, itemsDelta, Item.delta]
  | Ellipsis pos => rw [expr1_Ellipsis_eq]; simp [Op.delta, itemsDelta, Item.delta]
  | BasicLit x => rw [expr1_BasicLit_eq]; simp [Op.delta, itemsDelta, Item.delta]
  | StringList Strings => rw [expr1_StringList_eq]; simp [Op.delta, itemsDelta, Item.delta]
  | FuncLit Typ Body =>
    have h1 := funcType_delta Typ
    have h2 := stmtBlock_delta (blockW Body) (blockW_delta Body)
    rw [expr1_FuncLit_eq]; simp [Op.delta, itemsDelta, Item.delta, h1, h2]
  | CompositeLit Typ Lbrace Elts Rbrace =>
    have h1 := fun p => expr1_delta Typ p
    have h2 := fun m => exprList_delta (exprs Elts) m (exprs_delta Elts)
    rw [expr1_CompositeLit_eq]; simp [Op.delta, itemsDelta, Item.delta, h1, h2]
  | ParenExpr pos X Rparen =>
    have h1 := fun p => expr1_delta X p
    rw [expr1_ParenExpr_eq]; simp [Op.delta, itemsDelta, Item.delta, h1]
  | SelectorExpr X Sel =>
    have h1 := fun p => expr1_delta X p
    rw [expr1_SelectorExpr_eq]; simp [Op.delta, itemsDelta, Item.delta, h1]
  | IndexExpr X Index End =>
    have h1 := fun p => expr1_delta X p
    have h2 := fun p => expr1_delta Index p
    cases End with
    | none => rw [expr1_IndexExpr_eq]; simp [Op.delta, itemsDelta, Item.delta, h1, h2]
    | some e =>
      have h3 := fun p => expr1_delta e p
      rw [expr1_IndexExpr_eq]
      simp only []
      split <;> simp [Op.delta, itemsDelta, Item.delta, h1, h2, h3]
  | TypeAssertExpr X Typ =>
    have h1 := fun p => expr1_delta X p
    cases Typ with
    | none => rw [expr1_TypeAssertExpr_eq]; simp [Op.delta, itemsDelta, Item.delta, h1]
    | some t =>
      have h3 := fun p => expr1_delta t p
      rw [expr1_TypeAssertExpr_eq]; simp [Op.delta, itemsDelta, Item.delta, h1, h3]
  | CallExpr x =>
    have h1 := callExpr_delta x
    rw [expr1_CallExpr_eq]; simp [Op.delta, itemsDelta, Item.delta, h1]
  | StarExpr pos X =>
    have h1 := fun p => expr1_delta X p
    rw [expr1_StarExpr_eq]; simp [Op.delta, itemsDelta, Item.delta, h1]
  | UnaryExpr pos tok X =>
    have h1 := fun p => expr1_delta X p
    rw [expr1_UnaryExpr_eq]
    simp only []
    repeat' split
    all_goals simp [Op.delta, itemsDelta, Item.delta, h1]
  | BinaryExpr X OpPos tok Y =>
    have h1 := fun p => expr1_delta X p
    have h2 := fun p => expr1_delta Y p
    have h3 := fun b p => binaryExprSpine_delta b p X
    rw [expr1_BinaryExpr_eq]
    simp only []
    repeat' split
    all_goals simp [Op.delta, itemsDelta, Item.delta, h1, h2, h3]
  | KeyValueExpr Key Colon Value =>
    have h1 := fun p => expr1_delta Key p
    have h2 := fun p => expr1_delta Value p
    rw [expr1_KeyValueExpr_eq]; simp [Op.delta, itemsDelta, Item.delta, h1, h2]
  | ArrayType pos Len Elt =>
    have h1 := fun p => expr1_delta Elt p
    cases Len with
    | none => rw [expr1_ArrayType_eq]; simp [Op.delta, itemsDelta, Item.delta, h1]
    | some l =>
      have h3 := fun p => expr1_delta l p
      rw [expr1_ArrayType_eq]; simp [Op.delta, itemsDelta, Item.delta, h1, h3]
  | StructType pos Lbrace Fields Rbrace Incomplete =>
    have h1 := fun a b c d => fieldList_delta a (fields Fields) b c d (fields_delta Fields)
    rw [expr1_StructType_eq]; simp [Op.delta, itemsDelta, Item.delta, h1]
  | FuncType x =>
    have h1 := funcType_delta x
    rw [expr1_FuncType_eq]; simp [Op.delta, itemsDelta, Item.delta, h1]
  | InterfaceType pos Lbrace Methods Rbrace Incomplete =>
    have h1 := fun a b c d => fieldList_delta a (fields Methods) b c d (fields_delta Methods)
    rw [expr1_InterfaceType_eq]; simp [Op.delta, itemsDelta, Item.delta, h1]
  | MapType pos Key Value =>
    have h1 := fun p => expr1_delta Key p
    have h2 := fun p => expr1_delta Value p
    rw [expr1_MapType_eq]; simp [Op.delta, itemsDelta, Item.delta, h1, h2]
  | ChanType pos Dir Value =>
    have h1 := fun p => expr1_delta Value p
    rw [expr1_ChanType_eq]
    simp only []
    repeat' split
    all_goals simp [Op.delta, itemsDelta, Item.delta, h1]
termination_by sizeOf e

theorem binaryExprSpine_delta (printBlanks : Bool) (prec : Nat) (e : Expr) :
    opsDelta (binaryExprSpine printBlanks prec e).ops = 0 := by
  cases e with
  | BinaryExpr X OpPos tok Y =>
    have h1 := fun p => expr1_delta X p
    have h2 := fun p => expr1_delta Y p
    have h3 := fun b p => binaryExprSpine_delta b p X
    rw [binaryExprSpine_BinaryExpr_eq]
    simp only []
    repeat' split
    all_goals simp [Op.delta, itemsDelta, Item.delta, h1, h2, h3]
  | _ => rfl
termination_by sizeOf e

theorem exprs_delta (l : List Expr) : ∀ w ∈ exprs l, opsDelta w.expr.ops = 0 := by
  cases l with
  | nil => rw [exprs_nil_eq]; intro w hw; cases hw
  | cons x rest =>
    have h1 := fun p => expr1_delta x p
    have h2 := exprs_delta rest
    rw [exprs_cons_eq]
    intro w hw
    rcases List.mem_cons.1 hw with rfl | hw
    · exact h1 _
    · exact h2 w hw
termination_by sizeOf l

theorem callExpr_delta (c : CallExpr) : opsDelta (callExpr c).ops = 0 := by
  cases c with
  | mk Fun Lparen Args Rparen =>
    have h1 := fun p => expr1_delta Fun p
    have h2 := fun m => exprList_delta (exprs Args) m (exprs_delta Args)
    rw [callExpr_mk_eq]; simp [Op.delta, itemsDelta, Item.delta, h1, h2]
termination_by sizeOf c

theorem funcSignature_delta (t : FuncType) : opsDelta (funcSignature t).ops = 0 := by
  cases t with
  | mk pos Params Results =>
    have h1 := fields_delta Params
    cases Results with
    | none =>
      rw [funcSignature_mk_eq]
      exact signature_delta _ _ h1 (fun l hl => by cases hl)
    | some r =>
      have h2 := fields_delta r
      rw [funcSignature_mk_eq]
      exact signature_delta _ _ h1 (fun l hl => by cases hl; exact h2)
termination_by sizeOf t

theorem funcType_delta (t : FuncType) : opsDelta (funcType t).ops = 0 := by
  cases t with
  | mk pos Params Results =>
    have h1 := fields_delta Params
    cases Results with
    | none =>
      have h3 := signature_delta (fields Params) none h1 (fun l hl => by cases hl)
      rw [funcType_mk_eq]; simp [Op.delta, itemsDelta, Item.delta, h3]
    | some r =>
      have h2 := fields_delta r
      have h3 := signature_delta (fields Params) (some (fields r)) h1
        (fun l hl => by cases hl; exact h2)
      rw [funcType_mk_eq]; simp [Op.delta, itemsDelta, Item.delta, h3]
termination_by sizeOf t

theorem fieldW_delta (f : ast.Field) : (fieldW f).Bal := by
  cases f with
  | mk Doc Names Typ Tag Comment =>
    have h1 := fun p => expr1_delta Typ p
    rw [fieldW_mk_eq]
    refine ⟨h1 _, ?_⟩
    cases Typ with
    | FuncType x =>
      cases x with
      | mk pos Params Results =>
        have h2 := fields_delta Params
        cases Results with
        | none =>
          intro s hs
          simp only [Option.some.injEq] at hs
          subst hs
          exact signature_delta _ _ h2 (fun l hl => by cases hl)
        | some r =>
          have h3 := fields_delta r
          intro s hs
          simp only [Option.some.injEq] at hs
          subst hs
          exact signature_delta _ _ h2 (fun l hl => by cases hl; exact h3)
    | _ => intro s hs; cases hs
termination_by sizeOf f

theorem fields_delta (l : List ast.Field) : ∀ f ∈ fields l, f.Bal := by
  cases l with
  | nil => rw [fields_nil_eq]; intro w hw; cases hw
  | cons x rest =>
    have h1 := fieldW_delta x
    have h2 := fields_delta rest
    rw [fields_cons_eq]
    intro w hw
    rcases List.mem_cons.1 hw with rfl | hw
    · exact h1
    · exact h2 w hw
termination_by sizeOf l

theorem blockW_delta (b : BlockStmt) : ∀ w ∈ (blockW b).List, opsDelta w.ops = 0 := by
  cases b with
  | mk pos list Rbrace =>
    have h1 := stmts_delta list
    rw [blockW_mk_eq]
    exact h1
termination_by sizeOf b

theorem stmts_delta (l : List Stmt) : ∀ w ∈ stmts l, opsDelta w.ops = 0 := by
  cases l with
  | nil => rw [stmts_nil_eq]; intro w hw; cases hw
  | cons x rest =>
    have h1 := stmt_delta x
    have h2 := stmts_delta rest
    rw [stmts_cons_eq]
    intro w hw
    rcases List.mem_cons.1 hw with rfl | hw
    · exact h1
    · exact h2 w hw
termination_by sizeOf l

theorem stmt_delta (s : Stmt) : opsDelta (stmt s).ops = 0 := by
  cases s with
  | BadStmt pos => rw [stmt_BadStmt_eq]; simp [Op.delta, itemsDelta, Item.delta]
  | DeclStmt d =>
    have h1 := decl_delta d
    rw [stmt_DeclStmt_eq]
    simp only [Walk.bind_ops, opsDelta_append, opsDelta_printPos, h1]
    cases (decl d).val.1 <;> simp [Op.delta, itemsDelta, Item.delta]
  | EmptyStmt pos => rw [stmt_EmptyStmt_eq]; simp [Op.delta, itemsDelta, Item.delta]
  | LabeledStmt Label s1 =>
    have h1 := stmt_delta s1
    rw [stmt_LabeledStmt_eq]; simp [Op.delta, itemsDelta, Item.delta, h1]
  | ExprStmt X =>
    have h1 := fun p => expr1_delta X p
    rw [stmt_ExprStmt_eq]; simp [Op.delta, itemsDelta, Item.delta, h1]
  | IncDecStmt X Tok =>
    have h1 := fun p => expr1_delta X p
    rw [stmt_IncDecStmt_eq]; simp [Op.delta, itemsDelta, Item.delta, h1]
  | AssignStmt Lhs TokPos Tok Rhs =>
    have h1 := fun m => exprList_delta (exprs Lhs) m (exprs_delta Lhs)
    have h2 := fun m => exprList_delta (exprs Rhs) m (exprs_delta Rhs)
    rw [stmt_AssignStmt_eq]; simp [Op.delta, itemsDelta, Item.delta, h1, h2]
  | GoStmt pos Call =>
    have h1 := callExpr_delta Call
    rw [stmt_GoStmt_eq]; simp [Op.delta, itemsDelta, Item.delta, h1]
  | DeferStmt pos Call =>
    have h1 := callExpr_delta Call
    rw [stmt_DeferStmt_eq]; simp [Op.delta, itemsDelta, Item.delta, h1]
  | ReturnStmt pos Results =>
    cases Results with
    | none => rw [stmt_ReturnStmt_eq]; simp [Op.delta, itemsDelta, Item.delta]
    | some l =>
      have h1 := fun m => exprList_delta (exprs l) m (exprs_delta l)
      rw [stmt_ReturnStmt_eq]; simp [Op.delta, itemsDelta, Item.delta, h1]
  | BranchStmt pos Tok Label =>
    rw [stmt_BranchStmt_eq]
    cases Label <;> simp [Op.delta, itemsDelta, Item.delta]
  | BlockStmt b =>
    have h1 := block_delta (blockW b) (blockW_delta b)
    rw [stmt_BlockStmt_eq]; simp [Op.delta, itemsDelta, Item.delta, h1]
  | IfStmt pos Init Cond Body Else =>
    have h1 := block_delta (blockW Body) (blockW_delta Body)
    have hI : ∀ s, Init = some s → opsDelta (stmt s).ops = 0 :=
      fun s hs => by subst hs; exact stmt_delta s
    have hC : ∀ x, Cond = some x → ∀ p, opsDelta (expr1 x p).ops = 0 :=
      fun x hx p => by subst hx; exact expr1_delta x p
    have hE : ∀ s, Else = some s → opsDelta (stmt s).ops = 0 :=
      fun s hs => by subst hs; exact stmt_delta s
    rw [stmt_IfStmt_eq]
    cases Init <;> cases Cond <;> cases Else <;>
      simp [controlClause, Op.delta, itemsDelta, Item.delta, h1, hI, hC, hE]
  | CaseClause pos Values Colon Body =>
    have h1 := stmtList_delta (stmts Body) (stmts_delta Body)
    cases Values with
    | none => rw [stmt_CaseClause_eq]; simp [Op.delta, itemsDelta, Item.delta, h1]
    | some l =>
      have h2 := fun m => exprList_delta (exprs l) m (exprs_delta l)
      rw [stmt_CaseClause_eq]; simp [Op.delta, itemsDelta, Item.delta, h1, h2]
  | SwitchStmt pos Init Tag Body =>
    have h1 := switchBlock_delta (blockW Body) (blockW_delta Body)
    have hI : ∀ s, Init = some s → opsDelta (stmt s).ops = 0 :=
      fun s hs => by subst hs; exact stmt_delta s
    have hC : ∀ x, Tag = some x → ∀ p, opsDelta (expr1 x p).ops = 0 :=
      fun x hx p => by subst hx; exact expr1_delta x p
    rw [stmt_SwitchStmt_eq]
    cases Init <;> cases Tag <;>
      simp [controlClause, Op.delta, itemsDelta, Item.delta, h1, hI, hC]
  | TypeCaseClause pos Types Colon Body =>
    have h1 := stmtList_delta (stmts Body) (stmts_delta Body)
    cases Types with
    | none => rw [stmt_TypeCaseClause_eq]; simp [Op.delta, itemsDelta, Item.delta, h1]
    | some l =>
      have h2 := fun m => exprList_delta (exprs l) m (exprs_delta l)
      rw [stmt_TypeCaseClause_eq]; simp [Op.delta, itemsDelta, Item.delta, h1, h2]
  | TypeSwitchStmt pos Init Assign Body =>
    have h1 := switchBlock_delta (blockW Body) (blockW_delta Body)
    have h2 := stmt_delta Assign
    cases Init with
    | none => rw [stmt_TypeSwitchStmt_eq]; simp [Op.delta, itemsDelta, Item.delta, h1, h2]
    | some s =>
      have h3 := stmt_delta s
      rw [stmt_TypeSwitchStmt_eq]; simp [Op.delta, itemsDelta, Item.delta, h1, h2, h3]
  | CommClause pos Tok Lhs Rhs Colon Body =>
    have h1 := stmtList_delta (stmts Body) (stmts_delta Body)
    cases Rhs with
    | none => rw [stmt_CommClause_eq]; simp [Op.delta, itemsDelta, Item.delta, h1]
    | some rhs =>
      have h2 := fun p => expr1_delta rhs p
      cases Lhs with
      | none => rw [stmt_CommClause_eq]; simp [Op.delta, itemsDelta, Item.delta, h1, h2]
      | some lhs =>
        have h3 := fun p => expr1_delta lhs p
        rw [stmt_CommClause_eq]; simp [Op.delta, itemsDelta, Item.delta, h1, h2, h3]
  | SelectStmt pos Body =>
    have h1 := switchBlock_delta (blockW Body) (blockW_delta Body)
    rw [stmt_SelectStmt_eq]; simp [Op.delta, itemsDelta, Item.delta, h1]
  | ForStmt pos Init Cond Post Body =>
    have h1 := block_delta (blockW Body) (blockW_delta Body)
    have hI : ∀ s, Init = some s → opsDelta (stmt s).ops = 0 :=
      fun s hs => by subst hs; exact stmt_delta s
    have hC : ∀ x, Cond = some x → ∀ p, opsDelta (expr1 x p).ops = 0 :=
      fun x hx p => by subst hx; exact expr1_delta x p
    have hP : ∀ s, Post = some s → opsDelta (stmt s).ops = 0 :=
      fun s hs => by subst hs; exact stmt_delta s
    rw [stmt_ForStmt_eq]
    cases Init <;> cases Cond <;> cases Post <;>
      simp [controlClause, Op.delta, itemsDelta, Item.delta, h1, hI, hC, hP]
  | RangeStmt pos Key Value TokPos Tok X Body =>
    have h1 := block_delta (blockW Body) (blockW_delta Body)
    have h2 := fun p => expr1_delta Key p
    have h3 := fun p => expr1_delta X p
    cases Value with
    | none => rw [stmt_RangeStmt_eq]; simp [Op.delta, itemsDelta, Item.delta, h1, h2, h3]
    | some v =>
      have h4 := fun p => expr1_delta v p
      rw [stmt_RangeStmt_eq]; simp [Op.delta, itemsDelta, Item.delta, h1, h2, h3, h4]
termination_by sizeOf s

theorem spec_delta (s : Spec) (m n : Nat) : opsDelta (spec s m n).ops = 0 := by
  cases s with
  | ImportSpec Doc Name Path Comment =>
    rw [spec_ImportSpec_eq]
    simp only []
    repeat' split
    all_goals simp [Op.delta, itemsDelta, Item.delta]
  | ValueSpec Doc Names Typ Values Comment =>
    cases Typ with
    | none =>
      cases Values with
      | none =>
        rw [spec_ValueSpec_eq]
        simp only []
        repeat' split
        all_goals simp [Op.delta, itemsDelta, Item.delta]
      | some l =>
        have h2 := fun m => exprList_delta (exprs l) m (exprs_delta l)
        rw [spec_ValueSpec_eq]
        simp only []
        repeat' split
        all_goals simp [Op.delta, itemsDelta, Item.delta, h2]
    | some t =>
      have h1 := fun p => expr1_delta t p
      cases Values with
      | none =>
        rw [spec_ValueSpec_eq]
        simp only []
        repeat' split
        all_goals simp [Op.delta, itemsDelta, Item.delta, h1]
      | some l =>
        have h2 := fun m => exprList_delta (exprs l) m (exprs_delta l)
        rw [spec_ValueSpec_eq]
        simp only []
        repeat' split
        all_goals simp [Op.delta, itemsDelta, Item.delta, h1, h2]
  | TypeSpec Doc Name Typ Comment =>
    have h1 := fun p => expr1_delta Typ p
    rw [spec_TypeSpec_eq]; simp [Op.delta, itemsDelta, Item.delta, h1]
termination_by sizeOf s

theorem specs_delta (m n : Nat) (l : List Spec) : ∀ w ∈ specs m n l, opsDelta w.ops = 0 := by
  cases l with
  | nil => rw [specs_nil_eq]; intro w hw; cases hw
  | cons x rest =>
    have h1 := spec_delta x m n
    have h2 := specs_delta m n rest
    rw [specs_cons_eq]
    intro w hw
    rcases List.mem_cons.1 hw with rfl | hw
    · exact h1
    · exact h2 w hw
termination_by sizeOf l

theorem decl_delta (d : Decl) : opsDelta (decl d).ops = 0 := by
  cases d with
  | BadDecl pos => rw [decl_BadDecl_eq]; simp [Op.delta, itemsDelta, Item.delta]
  | GenDecl Doc pos Tok Lparen Specs Rparen =>
    have h1 := fun m n => declSpecs_delta (specs m n Specs) 0 none (specs_delta m n Specs)
    cases Specs with
    | nil =>
      rw [decl_GenDecl_eq]
      simp only []
      repeat' split
      all_goals simp [Op.delta, itemsDelta, Item.delta, h1]
    | cons s rest =>
      have h2 := fun m n => spec_delta s m n
      rw [decl_GenDecl_eq]
      simp only []
      repeat' split
      all_goals simp [Op.delta, itemsDelta, Item.delta, h1, h2]
  | FuncDecl Doc Recv Name Typ Body =>
    have h1 := funcSignature_delta Typ
    cases Recv with
    | none =>
      cases Body with
      | none => rw [decl_FuncDecl_eq]; simp [Op.delta, itemsDelta, Item.delta, h1]
      | some b =>
        have h2 := stmtBlock_delta (blockW b) (blockW_delta b)
        rw [decl_FuncDecl_eq]; simp [Op.delta, itemsDelta, Item.delta, h1, h2]
    | some f =>
      cases f with
      | mk a Names RecvTyp c e =>
        have h3 := fun p => expr1_delta RecvTyp p
        cases Body with
        | none =>
          rw [decl_FuncDecl_eq]
          simp only []
          repeat' split
          all_goals simp [Op.delta, itemsDelta, Item.delta, h1, h3]
        | some b =>
          have h2 := stmtBlock_delta (blockW b) (blockW_delta b)
          rw [decl_FuncDecl_eq]
          simp only []
          repeat' split
          all_goals simp [Op.delta, itemsDelta, Item.delta, h1, h2, h3]
termination_by sizeOf d

end

/-! ## The indentation after a run -/

theorem absItem_indent (mode : Nat) (a b : Abs) (f : Item) (h : absItem mode a f = .ok b) :
    (b.indent : Int) = a.indent + f.delta := by
  cases f <;> simp only [absItem] at h
  case int x =>
    split at h
    · cases h
    · cases h
      simp only [Item.delta]
      omega
  case whiteSpace x =>
    split at h <;> cases h <;> simp [Item.delta]
  all_goals cases h; simp [Item.delta, Abs.data]

theorem absPrint_indent (mode : Nat) : ∀ (items : List Item) (a b : Abs),
    absPrint mode items a = .ok b → (b.indent : Int) = a.indent + itemsDelta items
  | [], a, b, h => by cases h; simp [itemsDelta]
  | f :: rest, a, b, h => by
    simp only [absPrint] at h
    cases h1 : absItem mode a f with
    | error e => rw [h1] at h; cases h
    | ok a1 =>
      rw [h1] at h
      have := absItem_indent mode a a1 f h1
      have := absPrint_indent mode rest a1 b h
      simp only [itemsDelta, List.map_cons, List.sum_cons] at this ⊢
      omega

theorem absCommentList_indent (mode : Nat) : ∀ (cs : List Comment) (a b : Abs),
    absCommentList mode cs a = .ok b → b.indent = a.indent
  | [], a, b, h => by cases h; rfl
  | c :: rest, a, b, h => by
    simp only [absCommentList] at h
    cases h1 : absPrint mode [.position c.pos, .bytes c.Text] a with
    | error e => rw [h1] at h; cases h
    | ok a1 =>
      rw [h1] at h
      have e1 := absPrint_indent mode _ a a1 h1
      simp only [itemsDelta, List.map_cons, List.sum_cons, Item.delta, List.map_nil,
        List.sum_nil] at e1
      simp only [] at h
      split at h
      · split at h
        · cases h2 : absPrint mode [.whiteSpace .newline] a1 with
          | error e => rw [h2] at h; cases h
          | ok a2 =>
            rw [h2] at h
            have e2 := absPrint_indent mode _ a1 a2 h2
            simp only [itemsDelta, List.map_cons, List.sum_cons, Item.delta, List.map_nil,
              List.sum_nil] at e2
            have := absCommentList_indent mode rest a2 b h
            omega
        · have := absCommentList_indent mode rest a1 b h
          omega
      · cases h

theorem absOp_indent (mode : Nat) (a b : Abs) (op : Op) (h : absOp mode a op = .ok b) :
    (b.indent : Int) = a.indent + op.delta := by
  cases op with
  | print args => exact absPrint_indent mode args a b h
  | leadComment d =>
    cases d with
    | none => cases h; simp [Op.delta]
    | some g =>
      simp only [absOp] at h
      cases h1 : absCommentList mode g.list a with
      | error e => rw [h1] at h; cases h
      | ok a1 =>
        rw [h1] at h
        have e1 := absCommentList_indent mode _ a a1 h1
        have e2 := absPrint_indent mode _ a1 b h
        simp only [itemsDelta, List.map_cons, List.sum_cons, Item.delta, List.map_nil,
          List.sum_nil] at e2
        simp only [Op.delta]
        omega
  | lineComment d =>
    cases d with
    | none => cases h; simp [Op.delta]
    | some g =>
      simp only [absOp] at h
      cases h1 : absPrint mode [.whiteSpace .tab] a with
      | error e => rw [h1] at h; cases h
      | ok a1 =>
        rw [h1] at h
        have e1 := absPrint_indent mode _ a a1 h1
        simp only [itemsDelta, List.map_cons, List.sum_cons, Item.delta, List.map_nil,
          List.sum_nil] at e1
        have e2 := absCommentList_indent mode _ a1 b h
        simp only [Op.delta]
        omega
  | levelInc => cases h; simp [Op.delta]
  | levelDec => cases h; simp [Op.delta]
  | crash msg => cases h

theorem absRun_indent (mode : Nat) : ∀ (ops : List Op) (a b : Abs),
    absRun mode ops a = .ok b → (b.indent : Int) = a.indent + opsDelta ops
  | [], a, b, h => by cases h; simp
  | op :: rest, a, b, h => by
    simp only [absRun] at h
    cases h1 : absOp mode a op with
    | error e => rw [h1] at h; cases h
    | ok a1 =>
      rw [h1] at h
      have := absOp_indent mode a a1 op h1
      have := absRun_indent mode rest a1 b h
      simp only [opsDelta_cons]
      omega

/-! ## Bytes in front of the sink -/

theorem absItem_pre (mode : Nat) (x : List Char) (a : Abs) (f : Item) :
    absItem mode (a.pre x) f = (absItem mode a f).map (Abs.pre x) := by
  cases f <;> simp only [absItem, Abs.pre, Abs.data, Except.map]
  case int n => split <;> rfl
  case whiteSpace w => split <;> simp [List.append_assoc]
  all_goals simp [List.append_assoc]

theorem absPrint_pre (mode : Nat) (x : List Char) : ∀ (items : List Item) (a : Abs),
    absPrint mode items (a.pre x) = (absPrint mode items a).map (Abs.pre x)
  | [], a => rfl
  | f :: rest, a => by
    simp only [absPrint, absItem_pre]
    cases absItem mode a f with
    | error e => rfl
    | ok a1 => exact absPrint_pre mode x rest a1

theorem absCommentList_pre (mode : Nat) (x : List Char) : ∀ (cs : List Comment) (a : Abs),
    absCommentList mode cs (a.pre x) = (absCommentList mode cs a).map (Abs.pre x)
  | [], a => rfl
  | c :: rest, a => by
    simp only [absCommentList, absPrint_pre]
    cases absPrint mode [.position c.pos, .bytes c.Text] a with
    | error e => rfl
    | ok a1 =>
      simp only [Except.map]
      split
      · split
        · rw [absPrint_pre]
          cases absPrint mode [.whiteSpace .newline] a1 with
          | error e => rfl
          | ok a2 => exact absCommentList_pre mode x rest a2
        · exact absCommentList_pre mode x rest a1
      · rfl

theorem absOp_pre (mode : Nat) (x : List Char) (a : Abs) (op : Op) :
    absOp mode (a.pre x) op = (absOp mode a op).map (Abs.pre x) := by
  cases op with
  | print args => exact absPrint_pre mode x args a
  | leadComment d =>
    cases d with
    | none => rfl
    | some g =>
      simp only [absOp, absCommentList_pre]
      cases absCommentList mode g.list a with
      | error e => rfl
      | ok a1 => exact absPrint_pre mode x _ a1
  | lineComment d =>
    cases d with
    | none => rfl
    | some g =>
      simp only [absOp, absPrint_pre]
      cases absPrint mode [.whiteSpace .tab] a with
      | error e => rfl
      | ok a1 => exact absCommentList_pre mode x _ a1
  | levelInc => rfl
  | levelDec => rfl
  | crash msg => rfl

theorem absRun_pre (mode : Nat) (x : List Char) : ∀ (ops : List Op) (a : Abs),
    absRun mode ops (a.pre x) = (absRun mode ops a).map (Abs.pre x)
  | [], a => rfl
  | op :: rest, a => by
    simp only [absRun, absOp_pre]
    cases absOp mode a op with
    | error e => rfl
    | ok a1 => exact absRun_pre mode x rest a1

/-! ## A file without comments -/

theorem declOps_delta (d : Decl) : opsDelta (declOps d) = 0 := by
  simp [declOps, decl_delta d, Op.delta]

/-- A `print` that writes data before any other change of the state absorbs the
buffered whitespace: the rest of the run is the run from the empty state with
the earlier bytes in front. -/
theorem absRun_head (mode : Nat) (items : List Item) (tail : List Op) (w : List whiteSpace)
    (out : List Char) (b0 : Abs) (h0 : absPrint mode items ⟨0, [], []⟩ = .ok b0)
    (h1 : absPrint mode items ⟨0, w, out⟩ = .ok (b0.pre (out ++ enc mode 0 (wsBytes w)))) :
    absRun mode (Op.print items :: tail) ⟨0, w, out⟩ =
      (absRun mode (Op.print items :: tail) ⟨0, [], []⟩).map
        (Abs.pre (out ++ enc mode 0 (wsBytes w))) := by
  simp only [absRun, absOp, h0, h1]
  exact absRun_pre mode _ tail b0

theorem head_items (mode : Nat) (i0 : Item) (hi : ∀ a, absItem mode a i0 = .ok a) (t : Token)
    (w : List whiteSpace) (out : List Char) :
    absPrint mode [i0, .token t, .whiteSpace .blank] ⟨0, w, out⟩ =
      .ok ((⟨0, [.blank], enc mode 0 t.String⟩ : Abs).pre (out ++ enc mode 0 (wsBytes w))) := by
  simp only [absPrint, hi]
  simp [absItem, Abs.data, Abs.pre, enc_append, List.append_assoc]

theorem declOps_ctx (mode : Nat) (d : Decl) (hd : d.Doc = none) (w : List whiteSpace)
    (out : List Char) :
    absRun mode (declOps d) ⟨0, w, out⟩ =
      (absRun mode (declOps d) ⟨0, [], []⟩).map (Abs.pre (out ++ enc mode 0 (wsBytes w))) := by
  cases d with
  | BadDecl pos =>
    have e : declOps (.BadDecl pos) =
        [Op.print [.position pos, .string "BadDecl".toList], Op.lineComment none] := rfl
    rw [e]
    apply absRun_head mode _ _ w out ⟨0, [], enc mode 0 "BadDecl".toList⟩
    · simp [absPrint, absItem, Abs.data, wsBytes]
    · simp [absPrint, absItem, Abs.data, Abs.pre, enc_append, List.append_assoc]
  | GenDecl Doc pos Tok Lparen Specs Rparen =>
    simp only [ast.Decl.Doc] at hd
    subst hd
    obtain ⟨tail, e⟩ : ∃ tail, declOps (.GenDecl none pos Tok Lparen Specs Rparen) =
        Op.leadComment none :: Op.print [.lineTag pos, .token Tok, .whiteSpace .blank] :: tail := by
      simp only [declOps, decl_GenDecl_eq, Walk.bind_ops, Walk.leadComment_ops, Walk.print_ops,
        List.singleton_append, List.cons_append]
      exact ⟨_, rfl⟩
    rw [e]
    have hh := absRun_head mode _ tail w out _
      (by rw [head_items mode (.lineTag pos) (fun a => rfl) Tok [] []]; rfl)
      (head_items mode (.lineTag pos) (fun a => rfl) Tok w out)
    simpa only [absRun, absOp] using hh
  | FuncDecl Doc Recv Name Typ Body =>
    simp only [ast.Decl.Doc] at hd
    subst hd
    obtain ⟨tail, e⟩ : ∃ tail, declOps (.FuncDecl none Recv Name Typ Body) =
        Op.leadComment none ::
          Op.print [.lineTag Typ.Pos, .token .FUNC, .whiteSpace .blank] :: tail := by
      simp only [declOps, decl_FuncDecl_eq, Walk.bind_ops, Walk.leadComment_ops, Walk.print_ops,
        List.singleton_append, List.cons_append]
      exact ⟨_, rfl⟩
    rw [e]
    have hh := absRun_head mode _ tail w out _
      (by rw [head_items mode (.lineTag Typ.Pos) (fun a => rfl) .FUNC [] []]; rfl)
      (head_items mode (.lineTag Typ.Pos) (fun a => rfl) .FUNC w out)
    simpa only [absRun, absOp] using hh

theorem fileDecls_ops (d : Decl) (rest : List Decl) :
    (fileDecls (d :: rest)).ops =
      Op.print [.whiteSpace .newline, .whiteSpace .newline] ::
        (declOps d ++ (fileDecls rest).ops) := by
  simp [fileDecls, declOps, List.append_assoc]

theorem absItem_ws (mode : Nat) (a : Abs) (x : whiteSpace) :
    ∃ b, absItem mode a (.whiteSpace x) = .ok b ∧ b.indent = a.indent ∧
      Abs.flush mode b = Abs.flush mode a ++ enc mode a.indent [x.toByte] := by
  simp only [absItem]
  split
  · exact ⟨_, rfl, rfl, by simp [Abs.flush, wsBytes]⟩
  · exact ⟨_, rfl, rfl, by simp [Abs.flush, wsBytes, enc_append]⟩

theorem enc_newline (mode : Nat) : enc mode 0 ['\n'] = ['\n'] := by
  simp [enc, encByte]

/-- The loop of `file` over declarations without a `Doc` comment, started with
indentation 0: each declaration appends two newlines and what `Fprint` writes
for the declaration alone. -/
theorem fileDecls_run (mode : Nat) (render : Decl → List Char) : ∀ (decls : List Decl) (a : Abs),
    a.indent = 0 → (∀ d ∈ decls, d.Doc = none) →
    (∀ d ∈ decls, (absRun mode (declOps d) ⟨0, [], []⟩).map (Abs.flush mode) = .ok (render d)) →
    ∃ b, absRun mode (fileDecls decls).ops a = .ok b ∧ b.indent = 0 ∧
      Abs.flush mode b =
        Abs.flush mode a ++ (decls.map (fun d => '\n' :: '\n' :: render d)).flatten
  | [], a, ha, _, _ => ⟨a, rfl, ha, by simp⟩
  | d :: rest, a, ha, hdoc, hr => by
    obtain ⟨a1, e1, i1, f1⟩ := absItem_ws mode a .newline
    obtain ⟨a2, e2, i2, f2⟩ := absItem_ws mode a1 .newline
    simp only [whiteSpace.toByte] at f1 f2
    rw [i1, ha] at i2
    rw [i1, ha, enc_newline] at f2
    rw [ha, enc_newline] at f1
    have hd := hr d (List.mem_cons_self _ _)
    cases hb : absRun mode (declOps d) ⟨0, [], []⟩ with
    | error e => rw [hb] at hd; cases hd
    | ok bd =>
      rw [hb] at hd
      have hfl : Abs.flush mode bd = render d := by
        simpa [Except.map] using hd
      have hbi : bd.indent = 0 := by
        have := absRun_indent mode _ _ _ hb
        rw [declOps_delta] at this
        simp only [Int.add_zero] at this
        exact_mod_cast this
      have hctx := declOps_ctx mode d (hdoc d (List.mem_cons_self _ _)) a2.pending a2.out
      have ha2 : (⟨0, a2.pending, a2.out⟩ : Abs) = a2 := by
        cases a2; simp only at i2; subst i2; rfl
      rw [ha2, hb] at hctx
      obtain ⟨b, hbr, hbi2, hbf⟩ := fileDecls_run mode render rest
        (bd.pre (a2.out ++ enc mode 0 (wsBytes a2.pending))) hbi
        (fun x hx => hdoc x (List.mem_cons_of_mem _ hx))
        (fun x hx => hr x (List.mem_cons_of_mem _ hx))
      refine ⟨b, ?_, hbi2, ?_⟩
      · rw [fileDecls_ops]
        simp only [absRun, absOp, absPrint, e1, e2]
        rw [absRun_append, hctx]
        exact hbr
      · rw [hbf]
        have : Abs.flush mode (bd.pre (a2.out ++ enc mode 0 (wsBytes a2.pending))) =
            Abs.flush mode a2 ++ Abs.flush mode bd := by
          simp [Abs.flush, Abs.pre, i2, hbi, List.append_assoc]
        rw [this, f2, f1, hfl]
        simp [List.append_assoc]

theorem file_ops (src : File) :
    (file src).ops =
      Op.leadComment src.Doc ::
        Op.print [.position src.pos, .token .PACKAGE, .whiteSpace .blank] ::
        Op.print [.position src.Name.pos] :: Op.print [.string src.Name.Value] ::
        ((fileDecls src.Decls).ops ++ [Op.print [.whiteSpace .newline]]) := by
  simp [file, exprIdent]

theorem enc_name (mode : Nat) (hhtml : mode &&& GenHTML = 0) (name : List Char)
    (hname : ∀ b ∈ name, b ≠ '\x0c') : enc mode 0 name = name := by
  apply enc_eq_self
  intro b hb
  have := hname b hb
  unfold encByte
  by_cases hn : b = '\n'
  · subst hn; simp
  · simp [hn, this, hhtml]

/-- C1: a file without comments (`Comments` nil, no `Doc` on the file or on
its declarations), printed in `RawFormat` mode without `GenHTML` (or any other
mode without `GenHTML`), every declaration of which `Fprint` prints alone as
`render d`: the bytes written are `package `, the package name, for each
declaration in order two newlines and `render d`, and one final newline. -/
theorem C1_file_no_comments (src : File) (mode : Nat) (render : Decl → List Char)
    (hhtml : mode &&& GenHTML = 0)
    (hc : src.Comments = []) (hdoc : src.Doc = none)
    (hdd : ∀ d ∈ src.Decls, d.Doc = none)
    (hname : ∀ b ∈ src.Name.Value, b ≠ '\x0c')
    (hr : ∀ d ∈ src.Decls, (Fprint (.Decl d) mode).map (fun r => r.output) = .ok (render d)) :
    (Fprint (.File src) mode).map (fun r => r.output) =
      .ok ("package ".toList ++ src.Name.Value ++
        (src.Decls.map (fun d => '\n' :: '\n' :: render d)).flatten ++ ['\n']) := by
  rw [Fprint_abs (.File src) mode (file src).ops rfl hc (Or.inl hhtml), file_ops, hdoc]
  have hr2 : ∀ d ∈ src.Decls,
      (absRun mode (declOps d) ⟨0, [], []⟩).map (Abs.flush mode) = .ok (render d) := by
    intro d hd
    rw [← Fprint_abs (.Decl d) mode (declOps d) rfl rfl (Or.inl hhtml)]
    exact hr d hd
  obtain ⟨b, hb, hbi, hbf⟩ := fileDecls_run mode render src.Decls
    ⟨0, [], enc mode 0 Token.PACKAGE.String ++ enc mode 0 (' ' :: src.Name.Value)⟩ rfl hdd hr2
  obtain ⟨b1, e1, _, f1⟩ := absItem_ws mode b .newline
  have hrun : absRun mode
      (Op.leadComment none ::
        Op.print [.position src.pos, .token .PACKAGE, .whiteSpace .blank] ::
        Op.print [.position src.Name.pos] :: Op.print [.string src.Name.Value] ::
        ((fileDecls src.Decls).ops ++ [Op.print [.whiteSpace .newline]])) ⟨0, [], []⟩ =
      .ok b1 := by
    have h8 : ¬ (8 ≤ 0) := by decide
    simp only [absRun, absOp, absPrint, absItem, Abs.data, List.length_nil, ge_iff_le,
      h8, if_false, List.nil_append, wsBytes, List.map_nil, List.map_cons,
      whiteSpace.toByte, enc_nil, List.singleton_append]
    rw [absRun_append, hb]
    simp only [absRun, absOp, absPrint, e1]
  rw [hrun]
  simp only [Except.map, Except.ok.injEq]
  simp only [whiteSpace.toByte] at f1
  rw [f1, hbi, enc_newline, hbf]
  have hp : enc mode 0 Token.PACKAGE.String = "package".toList := by
    simp [Token.String, enc, encByte]
  have hn : enc mode 0 (' ' :: src.Name.Value) = ' ' :: src.Name.Value := by
    have := enc_name mode hhtml src.Name.Value hname
    simp only [enc, List.flatMap_cons] at this ⊢
    rw [this]
    simp [encByte]
  simp [Abs.flush, hp, hn, wsBytes, enc_nil, List.append_assoc]

theorem C1_file_no_comments_witness :
    (Fprint (.File C1_empty) RawFormat).map (fun r => r.output) = .ok "package p\n".toList ∧
    (Fprint (.File C1_import) RawFormat).map (fun r => r.output) =
      .ok ("package p\n\nimport ".toList ++ ['"', 'x', '"', '\n']) :=
  ⟨(C1_file_no_comments C1_empty RawFormat (fun _ => []) (by decide) rfl rfl
      (fun d hd => by cases hd) (by decide) (fun d hd => by cases hd)).trans rfl,
   (C1_file_no_comments C1_import RawFormat (fun _ => "import ".toList ++ ['"', 'x', '"'])
      (by decide) rfl rfl
      (fun d hd => by
        simp only [C1_import, List.mem_singleton] at hd
        subst hd
        rfl)
      (by decide)
      (fun d hd => by
        simp only [C1_import, List.mem_singleton] at hd
        subst hd
        rfl)).trans rfl⟩

/-! ## The bytes and the position of `write` -/

theorem encByte_plain (mode k : Nat) (h : mode &&& GenHTML = 0) (b : Char) :
    encByte mode k b = plainByte (decide (mode &&& RawFormat ≠ 0)) k b := by
  unfold encByte plainByte
  simp [h]

theorem plainByte_no_formfeed (k : Nat) (b : Char) : '\x0c' ∉ plainByte true k b := by
  unfold plainByte
  by_cases hb : b = '\n' ∨ b = '\x0c'
  · rw [if_pos hb]
    intro hm
    rcases List.mem_cons.1 hm with h | h
    · by_cases hf : b = '\x0c'
      · simp [hf] at h
      · rcases hb with hb | hb
        · subst hb; simp at h
        · exact hf hb
    · have := List.eq_of_mem_replicate h
      exact absurd this (by decide)
  · rw [if_neg hb]
    intro hm
    simp only [List.mem_singleton] at hm
    exact hb (Or.inr hm.symm)

/-- C12: in a mode without `GenHTML`, for every data and every indentation
`p.indent` (above 8 too), `write(data)` appends to the output the bytes of
data with `p.indent` tabs after every newline and formfeed; with `RawFormat`
every formfeed is written as a newline and no formfeed is written, without
`RawFormat` both line breaks are written unchanged. -/
theorem C12_write_plain (p : printer) (data : List Char) (h : p.mode &&& GenHTML = 0) :
    (p.write data).output =
      p.output ++ data.flatMap (plainByte (decide (p.mode &&& RawFormat ≠ 0)) p.indent) ∧
    (p.mode &&& RawFormat ≠ 0 →
      '\x0c' ∉ data.flatMap (plainByte (decide (p.mode &&& RawFormat ≠ 0)) p.indent)) ∧
    (p.mode &&& RawFormat = 0 → ∀ b, b = '\n' ∨ b = '\x0c' →
      plainByte (decide (p.mode &&& RawFormat ≠ 0)) p.indent b =
        b :: List.replicate p.indent '\t') := by
  refine ⟨?_, ?_, ?_⟩
  · rw [printer.write_eq]
    show p.output ++ enc p.mode p.indent data = _
    unfold enc
    congr 1
    apply List.flatMap_congr
    intro b _
    exact encByte_plain p.mode p.indent h b
  · intro hr hm
    simp only [hr, ne_eq, not_false_eq_true, decide_True] at hm
    obtain ⟨b, _, hb⟩ := List.mem_flatMap.1 hm
    exact plainByte_no_formfeed p.indent b hb
  · intro hr b hb
    unfold plainByte
    simp [hb, hr]

theorem C12_write_plain_witness :
    (({ printer.init RawFormat with indent := 9 } : printer).write ['a', '\x0c', 'b', '\n']).output =
      ({ printer.init RawFormat with indent := 9 } : printer).output ++
        ['a', '\x0c', 'b', '\n'].flatMap (plainByte
          (decide (({ printer.init RawFormat with indent := 9 } : printer).mode &&& RawFormat ≠ 0))
          ({ printer.init RawFormat with indent := 9 } : printer).indent) ∧
    (({ printer.init RawFormat with indent := 9 } : printer).mode &&& RawFormat ≠ 0 →
      '\x0c' ∉ ['a', '\x0c', 'b', '\n'].flatMap (plainByte
        (decide (({ printer.init RawFormat with indent := 9 } : printer).mode &&& RawFormat ≠ 0))
        ({ printer.init RawFormat with indent := 9 } : printer).indent)) ∧
    (({ printer.init RawFormat with indent := 9 } : printer).mode &&& RawFormat = 0 →
      ∀ b, b = '\n' ∨ b = '\x0c' →
      plainByte
        (decide (({ printer.init RawFormat with indent := 9 } : printer).mode &&& RawFormat ≠ 0))
        ({ printer.init RawFormat with indent := 9 } : printer).indent b =
        b :: List.replicate ({ printer.init RawFormat with indent := 9 } : printer).indent '\t') :=
  C12_write_plain { printer.init RawFormat with indent := 9 } ['a', '\x0c', 'b', '\n']
    (by decide)

theorem C12_example :
    (({ printer.init RawFormat with indent := 9 } : printer).write ['a', '\x0c', 'b', '\n']).output =
      "a\n\t\t\t\t\t\t\t\t\tb\n\t\t\t\t\t\t\t\t\t".toList := by
  rfl

theorem advance_snoc (indent : Nat) (pos : Position) (data : List Char) (c : Char) :
    advance indent pos (data ++ [c]) = advanceByte indent (advance indent pos data) c := by
  simp [advance, List.foldl_append]

theorem lineBreaks_snoc (data : List Char) (c : Char) :
    lineBreaks (data ++ [c]) = lineBreaks data + (if c = '\n' ∨ c = '\x0c' then 1 else 0) := by
  unfold lineBreaks
  rw [List.countP_append]
  by_cases hc : c = '\n' ∨ c = '\x0c' <;> simp [List.countP_cons, hc]

theorem afterLastBreak_snoc (data : List Char) (c : Char) :
    afterLastBreak (data ++ [c]) =
      if c = '\n' ∨ c = '\x0c' then 0 else afterLastBreak data + 1 := by
  unfold afterLastBreak
  rw [List.reverse_append]
  by_cases hc : c = '\n' ∨ c = '\x0c'
  · have hd : decide (¬ (c = '\n' ∨ c = '\x0c')) = false := by simp [hc]
    simp only [List.reverse_singleton, List.singleton_append, List.takeWhile_cons, hd, hc,
      if_true]
    rfl
  · have hd : decide (¬ (c = '\n' ∨ c = '\x0c')) = true := by simp [hc]
    simp only [List.reverse_singleton, List.singleton_append, List.takeWhile_cons, hd,
      if_true, List.length_cons]
    rw [if_neg hc]

/-- The position after `data`: the line grows by the number of line breaks,
the offset by the length and the indentation of each line break, the column
by the length when there is no line break and is otherwise the indentation
plus one plus the bytes after the last line break. -/
theorem advance_spec (indent : Nat) (pos : Position) (data : List Char) :
    (advance indent pos data).Line = pos.Line + lineBreaks data ∧
    (advance indent pos data).Offset =
      pos.Offset + data.length + (indent : Int) * lineBreaks data ∧
    (advance indent pos data).Column =
      if lineBreaks data = 0 then pos.Column + data.length
      else (indent : Int) + 1 + afterLastBreak data := by
  induction data using List.reverseRecOn with
  | nil => simp [advance, lineBreaks, afterLastBreak]
  | append_singleton l c ih =>
    obtain ⟨h1, h2, h3⟩ := ih
    rw [advance_snoc, lineBreaks_snoc, afterLastBreak_snoc]
    unfold advanceByte
    by_cases hc : c = '\n' ∨ c = '\x0c'
    · simp only [hc, if_true, h1, h2, List.length_append, List.length_singleton]
      refine ⟨by push_cast; omega, by push_cast; ring, ?_⟩
      rw [if_neg (by omega)]
      simp
    · simp only [hc, if_false, h1, h2, h3, List.length_append, List.length_singleton,
        Nat.add_zero]
      refine ⟨trivial, by push_cast; omega, ?_⟩
      by_cases hz : lineBreaks l = 0
      · simp only [hz, if_true]; push_cast; omega
      · simp only [hz, if_false]; push_cast; omega

/-- C20: for every data, indentation and mode, `write(data)` advances
`pos.Line` by the number of newline and formfeed bytes of data, `pos.Offset` by
the length of data plus the indentation for every line break, and sets
`pos.Column` to the old column plus the length of data when data holds no line
break, and to the indentation plus one plus the number of bytes after the last
line break otherwise; a byte that `GenHTML` mode escapes counts as one byte,
as the formulas do not depend on the mode. -/
theorem C20_write_pos (p : printer) (data : List Char) :
    (p.write data).pos.Line = p.pos.Line + lineBreaks data ∧
    (p.write data).pos.Offset =
      p.pos.Offset + data.length + (p.indent : Int) * lineBreaks data ∧
    (p.write data).pos.Column =
      if lineBreaks data = 0 then p.pos.Column + data.length
      else (p.indent : Int) + 1 + afterLastBreak data := by
  rw [printer.write_eq]
  exact advance_spec p.indent p.pos data

theorem C20_example :
    (({ printer.init GenHTML with indent := 2, pos := ⟨10, 3, 4⟩ } : printer).write
      ['a', '<', '\n', 'b', '&', 'c']).pos = ⟨18, 4, 6⟩ := by
  rfl

/-! ## The byte count and the line anchors -/

namespace printer

theorem Keeps.keeps_refl (p : printer) : p.Keeps p := ⟨id, rfl⟩

theorem Keeps.andKeeps {p q r : printer} (h1 : p.Keeps q) (h2 : q.Keeps r) : p.Keeps r :=
  ⟨fun h => h2.1 (h1.1 h), h2.2.trans h1.2⟩

theorem Keeps.steps {p q : printer} (h : p.Keeps q) : p.Steps q :=
  ⟨h.1, by rw [h.2]⟩

theorem Steps.steps_refl (p : printer) : p.Steps p := ⟨id, Int.le_refl _⟩

theorem Steps.andSteps {p q r : printer} (h1 : p.Steps q) (h2 : q.Steps r) : p.Steps r :=
  ⟨fun h => h2.1 (h1.1 h), Int.le_trans h1.2 h2.2⟩

theorem write0_keeps (p : printer) (data : List Char) : p.Keeps (p.write0 data) := by
  refine ⟨fun h => ?_, rfl⟩
  simp only [Counted, write0, List.length_append] at h ⊢
  omega

theorem emit_keeps (p : printer) (out : List Char) (pos : Position) :
    p.Keeps (p.emit out pos) := by
  refine ⟨fun h => ?_, rfl⟩
  simp only [Counted, emit, List.length_append] at h ⊢
  omega

theorem write_keeps (p : printer) (data : List Char) : p.Keeps (p.write data) := by
  rw [write_eq]
  exact emit_keeps p _ _

theorem writeNewlines_keeps (p : printer) (n : Int) : p.Keeps (p.writeNewlines n) := by
  rw [writeNewlines_eq]
  exact emit_keeps p _ _

theorem set_keeps (p q : printer) (ho : q.output = p.output) (hw : q.written = p.written)
    (hl : q.lastTaggedLine = p.lastTaggedLine) : p.Keeps q := by
  refine ⟨fun h => ?_, hl⟩
  simp only [Counted] at h ⊢
  rw [ho, hw, h]

theorem set_counted (p q : printer) (ho : q.output = p.output) (hw : q.written = p.written)
    (h : p.Counted) : q.Counted := by
  simp only [Counted] at h ⊢
  rw [ho, hw, h]

/-- The line anchor of `writeItem`: `lastTaggedLine` becomes `pos.Line` when
the mode is `GenHTML`, a line tag is asked for and the line is above the last
tagged line, and stays otherwise. -/
theorem writeItem_tag (p : printer) (pos : Position) (data : List Char) (slt : Bool) :
    (p.writeItem pos data slt).lastTaggedLine =
      if p.mode &&& GenHTML ≠ 0 ∧ slt = true ∧ pos.Line > p.lastTaggedLine then pos.Line
      else p.lastTaggedLine := by
  unfold writeItem
  simp only [write_eq]
  repeat' split
  all_goals first
    | rfl
    | (exfalso; simp_all; done)
    | (simp_all; done)

theorem writeItem_counted (p : printer) (pos : Position) (data : List Char) (slt : Bool)
    (h : p.Counted) : (p.writeItem pos data slt).Counted := by
  unfold writeItem
  simp only [write_eq]
  simp only [Counted] at h
  repeat' split
  all_goals simp only [Counted, emit, write0, List.length_append]
  all_goals omega

theorem writeItem_keeps (p : printer) (pos : Position) (data : List Char) :
    p.Keeps (p.writeItem pos data false) :=
  ⟨writeItem_counted p pos data false, by rw [writeItem_tag]; simp⟩

theorem writeItem_steps (p : printer) (pos : Position) (data : List Char) (slt : Bool) :
    p.Steps (p.writeItem pos data slt) := by
  refine ⟨writeItem_counted p pos data slt, ?_⟩
  rw [writeItem_tag]
  split
  · rename_i h; omega
  · exact Int.le_refl _

theorem writeComment_keeps (p : printer) (c : Comment) : p.Keeps (p.writeComment c) := by
  unfold writeComment
  simp only []
  repeat' split
  · exact (write_keeps p _).andKeeps (writeItem_keeps _ _ _)
  · exact (writeNewlines_keeps p _).andKeeps (writeItem_keeps _ _ _)
  · exact writeItem_keeps _ _ _

theorem intersperseGroup_keeps : ∀ (cs : List Comment) (fl : Int) (nn : Bool) (p : printer)
    (r : Int × Bool × printer), intersperseGroup cs fl nn p = .ok r → p.Keeps r.2.2
  | [], fl, nn, p, r, h => by
    simp only [intersperseGroup] at h
    cases h
    exact Keeps.keeps_refl p
  | c :: rest, fl, nn, p, r, h => by
    simp only [intersperseGroup] at h
    split at h
    · exact (writeComment_keeps p c).andKeeps (intersperseGroup_keeps rest _ _ _ r h)
    · cases h

theorem intersperseLoop_keeps (next : Position) : ∀ (gs : List CommentGroup) (fl : Int) (nn : Bool)
    (p : printer) (r : Int × Bool × printer),
    intersperseLoop next gs fl nn p = .ok r → p.Keeps r.2.2
  | [], fl, nn, p, r, h => by
    simp only [intersperseLoop] at h
    cases h
    exact set_keeps _ _ rfl rfl rfl
  | g :: gs, fl, nn, p, r, h => by
    simp only [intersperseLoop] at h
    split at h
    · cases h
    · split at h
      · split at h
        · cases h
        · rename_i fl1 nn1 p1 hg
          have h1 := intersperseGroup_keeps _ _ _ _ _ hg
          have h2 := intersperseLoop_keeps next gs _ _ _ r h
          exact (set_keeps p { p with comment := g :: gs } rfl rfl rfl).andKeeps (h1.andKeeps h2)
      · cases h
        exact set_keeps _ _ rfl rfl rfl

theorem intersperseComments_keeps (p : printer) (next : Position) (q : printer)
    (h : p.intersperseComments next = .ok q) : p.Keeps q := by
  unfold intersperseComments at h
  split at h
  · cases h
  · rename_i fl nn p1 hl
    have h1 := intersperseLoop_keeps next _ _ _ _ _ hl
    refine h1.andKeeps ?_
    simp only [] at h
    repeat' split at h
    all_goals cases h
    all_goals exact set_keeps _ _ rfl rfl rfl

theorem writeWhitespace_keeps (p q : printer) (h : p.writeWhitespace = .ok q) : p.Keeps q := by
  unfold writeWhitespace at h
  split at h
  · cases h
  · cases h
    exact (set_keeps p { p with buflen := 0 } rfl rfl rfl).andKeeps (write_keeps _ _)

theorem flush_keeps (p : printer) (next : Position) (q : printer) (h : p.flush next = .ok q) :
    p.Keeps q := by
  unfold flush at h
  repeat' split at h
  all_goals first
    | exact writeWhitespace_keeps _ _ h
    | cases h
    | (rename_i p1 hi
       exact (intersperseComments_keeps _ _ _ hi).andKeeps (writeWhitespace_keeps _ _ h))

end printer

namespace printer

theorem printItem_steps (p : printer) (slt : Bool) (f : Item) (r : Bool × printer)
    (h : p.printItem slt f = .ok r) : p.Steps r.2 := by
  unfold printItem at h
  simp only [] at h
  split at h
  · cases h
  · rename_i data next s p1 hstep
    have hk : p.Keeps p1 := by
      cases f with
      | int x =>
        simp only [] at hstep
        split at hstep
        · cases hstep
        · cases hstep
          exact set_keeps _ _ rfl rfl rfl
      | whiteSpace x =>
        simp only [] at hstep
        split at hstep
        · cases hstep
        · rename_i p0 hfl
          split at hstep
          · cases hstep
          · cases hstep
            refine Keeps.andKeeps ?_ (set_keeps p0 _ rfl rfl rfl)
            split at hfl
            · exact writeWhitespace_keeps _ _ hfl
            · cases hfl; exact Keeps.keeps_refl p
      | bytes d => cases hstep; exact Keeps.keeps_refl p
      | nilBytes => cases hstep; exact Keeps.keeps_refl p
      | string d => cases hstep; exact Keeps.keeps_refl p
      | token t => cases hstep; exact Keeps.keeps_refl p
      | position x =>
        simp only [] at hstep
        split at hstep <;> cases hstep <;> exact Keeps.keeps_refl p
      | lineTag x =>
        simp only [] at hstep
        split at hstep <;> cases hstep <;> exact Keeps.keeps_refl p
      | htmlTag x =>
        cases hstep
        exact set_keeps _ _ rfl rfl rfl
    cases data with
    | none =>
      simp only [] at h
      cases h
      exact (hk.andKeeps (set_keeps p1 _ rfl rfl rfl)).steps
    | some d =>
      simp only [] at h
      cases hf : ({ p1 with pos := next } : printer).flush next with
      | error e => rw [hf] at h; cases h
      | ok p2 =>
        rw [hf] at h
        cases h
        have k1 : p.Keeps p2 :=
          (hk.andKeeps (set_keeps p1 { p1 with pos := next } rfl rfl rfl)).andKeeps
            (flush_keeps _ _ _ hf)
        exact (k1.andKeeps (writeNewlines_keeps p2 _)).steps.andSteps (writeItem_steps _ _ _ _)

theorem printLoop_steps : ∀ (items : List Item) (slt : Bool) (p q : printer),
    printLoop items slt p = .ok q → p.Steps q
  | [], _, p, q, h => by cases h; exact Steps.steps_refl p
  | f :: rest, slt, p, q, h => by
    simp only [printLoop] at h
    cases hi : p.printItem slt f with
    | error e => rw [hi] at h; cases h
    | ok r =>
      rw [hi] at h
      exact (printItem_steps p slt f r hi).andSteps (printLoop_steps rest r.1 r.2 q h)

theorem print_steps (p : printer) (args : List Item) (q : printer) (h : p.print args = .ok q) :
    p.Steps q :=
  printLoop_steps args false p q h

theorem commentList_steps : ∀ (cs : List Comment) (p q : printer),
    commentList cs p = .ok q → p.Steps q
  | [], p, q, h => by cases h; exact Steps.steps_refl p
  | c :: rest, p, q, h => by
    simp only [commentList] at h
    cases h1 : p.print [.position c.pos, .bytes c.Text] with
    | error e => rw [h1] at h; cases h
    | ok p1 =>
      rw [h1] at h
      have s1 := print_steps _ _ _ h1
      simp only [] at h
      split at h
      · split at h
        · cases h2 : p1.print [.whiteSpace .newline] with
          | error e => rw [h2] at h; cases h
          | ok p2 =>
            rw [h2] at h
            exact (s1.andSteps (print_steps _ _ _ h2)).andSteps (commentList_steps rest p2 q h)
        · exact s1.andSteps (commentList_steps rest p1 q h)
      · cases h

theorem leadComment_steps (p : printer) (d : Option CommentGroup) (q : printer)
    (h : p.leadComment d = .ok q) : p.Steps q := by
  unfold leadComment at h
  split at h
  · cases h1 : commentList _ p with
    | error e => rw [h1] at h; cases h
    | ok p1 =>
      rw [h1] at h
      exact (commentList_steps _ _ _ h1).andSteps (print_steps _ _ _ h)
  · cases h; exact Steps.steps_refl p

theorem lineComment_steps (p : printer) (d : Option CommentGroup) (q : printer)
    (h : p.lineComment d = .ok q) : p.Steps q := by
  unfold lineComment at h
  split at h
  · cases h1 : p.print [.whiteSpace .tab] with
    | error e => rw [h1] at h; cases h
    | ok p1 =>
      rw [h1] at h
      exact (print_steps _ _ _ h1).andSteps (commentList_steps _ _ _ h)
  · cases h; exact Steps.steps_refl p

theorem runOp_steps (p : printer) (op : Op) (q : printer) (h : p.runOp op = .ok q) :
    p.Steps q := by
  cases op with
  | print args => exact print_steps p args q h
  | leadComment d => exact leadComment_steps p d q h
  | lineComment d => exact lineComment_steps p d q h
  | levelInc => cases h; exact (set_keeps _ _ rfl rfl rfl).steps
  | levelDec => cases h; exact (set_keeps _ _ rfl rfl rfl).steps
  | crash msg => cases h

theorem run_steps : ∀ (ops : List Op) (p q : printer), p.run ops = .ok q → p.Steps q
  | [], p, q, h => by cases h; exact Steps.steps_refl p
  | op :: rest, p, q, h => by
    simp only [run] at h
    cases h1 : p.runOp op with
    | error e => rw [h1] at h; cases h
    | ok p1 =>
      rw [h1] at h
      exact (runOp_steps p op p1 h1).andSteps (run_steps rest p1 q h)

end printer

theorem Fprint_final_counted (node : Node) (mode : Nat) (q : printer)
    (h : Fprint.final node mode = .ok q) : q.Counted := by
  unfold Fprint.final at h
  split at h
  · cases h; rfl
  · rename_i ops _
    cases h1 : ({ printer.init mode with comment := nodeComments node } : printer).run ops with
    | error e => rw [h1] at h; cases h
    | ok p1 =>
      rw [h1] at h
      have s1 := printer.run_steps _ _ _ h1
      have s2 := printer.flush_keeps _ _ _ h
      exact s2.1 (s1.1 rfl)

theorem encByte_length (mode k : Nat) (b : Char) :
    (encByte mode k b).length =
      1 + k * (if b = '\n' ∨ b = '\x0c' then 1 else 0) + htmlExtra mode [b] := by
  unfold encByte htmlExtra
  by_cases hb : b = '\n' ∨ b = '\x0c'
  · have h1 : b ≠ '&' := by rcases hb with h | h <;> rw [h] <;> decide
    have h2 : b ≠ '<' := by rcases hb with h | h <;> rw [h] <;> decide
    have h3 : b ≠ '>' := by rcases hb with h | h <;> rw [h] <;> decide
    simp only [hb, if_true, List.length_cons, List.length_replicate, List.count_cons,
      List.count_nil, beq_iff_eq, h1, h2, h3, if_false]
    split <;> omega
  · simp only [hb, if_false]
    by_cases hm : mode &&& GenHTML ≠ 0
    · simp only [hm, ne_eq, not_false_eq_true, true_and, if_true]
      by_cases h1 : b = '&'
      · subst h1; rfl
      · by_cases h2 : b = '<'
        · subst h2; rfl
        · by_cases h3 : b = '>'
          · subst h3; rfl
          · simp [h1, h2, h3, List.count_cons]
    · simp [hm]

theorem lineBreaks_cons (b : Char) (l : List Char) :
    lineBreaks (b :: l) = lineBreaks l + (if b = '\n' ∨ b = '\x0c' then 1 else 0) := by
  unfold lineBreaks
  by_cases hb : b = '\n' ∨ b = '\x0c' <;> simp [List.countP_cons, hb]

theorem htmlExtra_cons (mode : Nat) (b : Char) (l : List Char) :
    htmlExtra mode (b :: l) = htmlExtra mode [b] + htmlExtra mode l := by
  unfold htmlExtra
  split
  · simp only [List.count_cons, List.count_nil]
    omega
  · rfl

theorem enc_length (mode k : Nat) : ∀ (data : List Char),
    (enc mode k data).length = data.length + k * lineBreaks data + htmlExtra mode data
  | [] => by simp [enc, lineBreaks, htmlExtra]
  | b :: l => by
    have ih := enc_length mode k l
    simp only [enc, List.flatMap_cons, List.length_append] at ih ⊢
    rw [ih, htmlExtra_cons mode b l, encByte_length, lineBreaks_cons]
    simp only [List.length_cons]
    by_cases hb : b = '\n' ∨ b = '\x0c'
    · simp only [hb, if_true, Nat.mul_add, Nat.mul_one]
      omega
    · simp only [hb, if_false, Nat.mul_zero, Nat.add_zero]
      omega

/-- C13: the count `Fprint` returns is the number of bytes written to the
sink (in `RawFormat` mode the output itself); `written` is the length of the
output in every state reached by `print` from a state where it is; and
`write(data)` keeps this and adds to `written` the length of data, the
indentation for every newline and formfeed of data and, in `GenHTML` mode, 4
for every `&` and 3 for every `<` or `>`. -/
theorem C13_written (node : Node) (mode : Nat) (r : FprintResult)
    (h : Fprint node mode = .ok r) (p : printer) (hp : p.Counted) (data : List Char)
    (args : List Item) (q : printer) (hq : p.print args = .ok q) :
    r.written = r.output.length ∧ q.Counted ∧ (p.write data).Counted ∧
    (p.write data).written =
      p.written + data.length + p.indent * lineBreaks data + htmlExtra p.mode data := by
  refine ⟨?_, (printer.print_steps p args q hq).1 hp, (printer.write_keeps p data).1 hp, ?_⟩
  · unfold Fprint at h
    split at h
    · cases h; rfl
    · cases hf : Fprint.final node mode with
      | error e => rw [hf] at h; cases h
      | ok p1 =>
        rw [hf] at h
        cases h
        exact Fprint_final_counted node mode p1 hf
  · rw [printer.write_eq]
    show p.written + (enc p.mode p.indent data).length = _
    rw [enc_length]
    omega

theorem C13_written_witness :
    (⟨22, none, "package p\n\nimport ".toList ++ ['"', 'x', '"', '\n']⟩ : FprintResult).written =
      (⟨22, none, "package p\n\nimport ".toList ++ ['"', 'x', '"', '\n']⟩ :
        FprintResult).output.length ∧
    C13_after.Counted ∧
    ((printer.init GenHTML).write ['a', '&', '\n', '<']).Counted ∧
    ((printer.init GenHTML).write ['a', '&', '\n', '<']).written =
      (printer.init GenHTML).written + ['a', '&', '\n', '<'].length +
        (printer.init GenHTML).indent * lineBreaks ['a', '&', '\n', '<'] +
        htmlExtra (printer.init GenHTML).mode ['a', '&', '\n', '<'] :=
  C13_written (.File C1_import) RawFormat
    ⟨22, none, "package p\n\nimport ".toList ++ ['"', 'x', '"', '\n']⟩ rfl
    (printer.init GenHTML) rfl ['a', '&', '\n', '<']
    [.int 2, .string ['a', '&', '\n', 'b']]
    C13_after rfl

/-! ## Line anchors -/

theorem le_getLast (a : Int) : ∀ (l : List Int), l.Pairwise (· < ·) →
    ∀ x ∈ l, x ≤ l.getLast?.getD a
  | [], _, x, hx => by cases hx
  | [y], _, x, hx => by
    simp only [List.mem_singleton] at hx
    subst hx
    simp
  | y :: z :: zs, hp, x, hx => by
    rw [List.pairwise_cons] at hp
    have e : (y :: z :: zs).getLast?.getD a = (z :: zs).getLast?.getD a := by
      simp [List.getLast?_cons_cons]
    rw [e]
    have ih := le_getLast a (z :: zs) hp.2
    rcases List.mem_cons.1 hx with rfl | hx
    · have := ih z (List.mem_cons_self _ _)
      have := hp.1 z (List.mem_cons_self _ _)
      omega
    · exact ih x hx

theorem mem_getLast (a : Int) (l : List Int) (h : l ≠ []) : l.getLast?.getD a ∈ l := by
  rw [List.getLast?_eq_getLast _ h]
  exact List.getLast_mem h

/-- Two logs of anchor lines in a row: when the lines of each increase
strictly and lie above the line tagged last before it, so do the lines of
both, and the line tagged last is that of the second. -/
theorem log_append (a : Int) (l1 l2 : List Int)
    (h1 : (∀ l ∈ l1, a < l) ∧ l1.Pairwise (· < ·))
    (h2 : (∀ l ∈ l2, l1.getLast?.getD a < l) ∧ l2.Pairwise (· < ·)) :
    ((∀ l ∈ l1 ++ l2, a < l) ∧ (l1 ++ l2).Pairwise (· < ·)) ∧
      (l1 ++ l2).getLast?.getD a = l2.getLast?.getD (l1.getLast?.getD a) := by
  have hlast : a ≤ l1.getLast?.getD a := by
    by_cases hl : l1 = []
    · subst hl; simp
    · have := h1.1 _ (mem_getLast a l1 hl)
      omega
  refine ⟨⟨?_, ?_⟩, ?_⟩
  · intro l hl
    rcases List.mem_append.1 hl with h | h
    · exact h1.1 l h
    · have := h2.1 l h
      omega
  · rw [List.pairwise_append]
    refine ⟨h1.2, h2.2, ?_⟩
    intro x hx y hy
    have := le_getLast a l1 h1.2 x hx
    have := h2.1 y hy
    omega
  · cases l2 with
    | nil => simp
    | cons y ys =>
      rw [List.getLast?_append_of_ne_nil _ (by simp)]
      rw [List.getLast?_eq_getLast _ (by simp : y :: ys ≠ [])]
      rfl

namespace printer

theorem itemsLog_spec : ∀ (items : List Item) (slt : Bool) (p : printer),
    ((∀ l ∈ p.itemsLog items slt, p.lastTaggedLine < l) ∧
      (p.itemsLog items slt).Pairwise (· < ·)) ∧
    ∀ q, printLoop items slt p = .ok q →
      q.lastTaggedLine = (p.itemsLog items slt).getLast?.getD p.lastTaggedLine
  | [], slt, p => by
    refine ⟨⟨(fun l hl => by cases hl), List.Pairwise.nil⟩, ?_⟩
    intro q hq
    cases hq
    rfl
  | f :: rest, slt, p => by
    cases hi : p.printItem slt f with
    | error e =>
      simp only [itemsLog, printLoop, hi]
      exact ⟨⟨(fun l hl => by cases hl), List.Pairwise.nil⟩, fun q hq => by cases hq⟩
    | ok r =>
      obtain ⟨s1, q1⟩ := r
      have hs := (printItem_steps p slt f _ hi).2
      simp only [] at hs
      obtain ⟨ih1, ih2⟩ := itemsLog_spec rest s1 q1
      simp only [itemsLog, printLoop, hi]
      have h1 : (∀ l ∈ (if q1.lastTaggedLine ≠ p.lastTaggedLine then [q1.lastTaggedLine]
          else []), p.lastTaggedLine < l) ∧
          (if q1.lastTaggedLine ≠ p.lastTaggedLine then [q1.lastTaggedLine]
            else []).Pairwise (· < ·) := by
        split
        · rename_i hne
          refine ⟨fun l hl => ?_, List.pairwise_singleton _ _⟩
          simp only [List.mem_singleton] at hl
          subst hl
          omega
        · exact ⟨(fun l hl => by cases hl), List.Pairwise.nil⟩
      have e : (if q1.lastTaggedLine ≠ p.lastTaggedLine then [q1.lastTaggedLine]
          else []).getLast?.getD p.lastTaggedLine = q1.lastTaggedLine := by
        split
        · rfl
        · rename_i hne
          simp only [ne_eq, Decidable.not_not] at hne
          simp [hne]
      obtain ⟨g1, g2⟩ := log_append p.lastTaggedLine _ (q1.itemsLog rest s1) h1
        (by rw [e]; exact ih1)
      refine ⟨g1, fun q hq => ?_⟩
      rw [g2, e]
      exact ih2 q hq

theorem callsLog_spec : ∀ (calls : List (List Item)) (p : printer),
    ((∀ l ∈ p.callsLog calls, p.lastTaggedLine < l) ∧ (p.callsLog calls).Pairwise (· < ·)) ∧
    ∀ q, p.prints calls = .ok q →
      q.lastTaggedLine = (p.callsLog calls).getLast?.getD p.lastTaggedLine
  | [], p => by
    refine ⟨⟨(fun l hl => by cases hl), List.Pairwise.nil⟩, ?_⟩
    intro q hq
    cases hq
    rfl
  | args :: rest, p => by
    obtain ⟨i1, i2⟩ := itemsLog_spec args false p
    cases hp : p.print args with
    | error e =>
      simp only [callsLog, prints, hp, List.append_nil]
      exact ⟨i1, fun q hq => by cases hq⟩
    | ok q1 =>
      obtain ⟨ih1, ih2⟩ := callsLog_spec rest q1
      have e := i2 q1 hp
      simp only [callsLog, prints, hp]
      obtain ⟨g1, g2⟩ := log_append p.lastTaggedLine _ (q1.callsLog rest) i1
        (by rw [← e]; exact ih1)
      refine ⟨g1, fun q hq => ?_⟩
      rw [g2, ← e]
      exact ih2 q hq

/-- In `GenHTML` mode `writeItem` writes, in this order, the line anchor or
else the stored start tag, the data as `write` sends it, and the stored end
tag. -/
theorem writeItem_output (p : printer) (pos : Position) (data : List Char) (slt : Bool)
    (hm : p.mode &&& GenHTML ≠ 0) :
    (p.writeItem pos data slt).output =
      p.output ++
        (if slt = true ∧ pos.Line > p.lastTaggedLine then lineAnchor pos.Line else p.tag.start) ++
        enc p.mode p.indent data ++ p.tag.«end» := by
  unfold writeItem
  simp only [write_eq, hm, ne_eq, not_false_eq_true, if_true]
  repeat' split
  all_goals simp_all [emit, write0, List.append_assoc]

end printer

/-- C11: over every sequence of calls of `print` from a fresh printer (with
any pending comments), the lines of the line anchors created are positive and
strictly increasing, so no line gets two anchors, and `lastTaggedLine` is the
line of the last anchor, 0 if there is none; no call of `print` decreases
`lastTaggedLine`; and in `GenHTML` mode `writeItem` sets `lastTaggedLine` to
the line of the item exactly when it writes the anchor `<a id="L{line}"></a>`
of that line, which it does when a line tag is asked for and the line is
above `lastTaggedLine`. -/
theorem C11_line_anchors (mode : Nat) (cs : List CommentGroup) (calls : List (List Item))
    (p : printer) (pos : Position) (data : List Char) (slt : Bool)
    (hm : p.mode &&& GenHTML ≠ 0) :
    (∀ l ∈ (printer.fresh mode cs).callsLog calls, 0 < l) ∧
    ((printer.fresh mode cs).callsLog calls).Pairwise (· < ·) ∧
    (∀ q, (printer.fresh mode cs).prints calls = .ok q →
      q.lastTaggedLine = ((printer.fresh mode cs).callsLog calls).getLast?.getD 0) ∧
    (∀ args q, p.print args = .ok q → p.lastTaggedLine ≤ q.lastTaggedLine) ∧
    (p.writeItem pos data slt).lastTaggedLine =
      (if slt = true ∧ pos.Line > p.lastTaggedLine then pos.Line else p.lastTaggedLine) ∧
    (p.writeItem pos data slt).output =
      p.output ++
        (if slt = true ∧ pos.Line > p.lastTaggedLine then printer.lineAnchor pos.Line else p.tag.start) ++
        enc p.mode p.indent data ++ p.tag.«end» := by
  obtain ⟨⟨h1, h2⟩, h3⟩ := printer.callsLog_spec calls (printer.fresh mode cs)
  refine ⟨h1, h2, h3, fun args q hq => (printer.print_steps p args q hq).2, ?_,
    printer.writeItem_output p pos data slt hm⟩
  rw [printer.writeItem_tag]
  simp only [hm, ne_eq, not_false_eq_true, true_and]

theorem C11_line_anchors_witness :
    (∀ l ∈ (printer.fresh GenHTML []).callsLog C11_calls, 0 < l) ∧
    ((printer.fresh GenHTML []).callsLog C11_calls).Pairwise (· < ·) ∧
    (∀ q, (printer.fresh GenHTML []).prints C11_calls = .ok q →
      q.lastTaggedLine = ((printer.fresh GenHTML []).callsLog C11_calls).getLast?.getD 0) ∧
    (∀ args q, (printer.init GenHTML).print args = .ok q →
      (printer.init GenHTML).lastTaggedLine ≤ q.lastTaggedLine) ∧
    ((printer.init GenHTML).writeItem ⟨1, 3, 1⟩ ['x'] true).lastTaggedLine =
      (if true = true ∧ (⟨1, 3, 1⟩ : Position).Line > (printer.init GenHTML).lastTaggedLine
        then (⟨1, 3, 1⟩ : Position).Line else (printer.init GenHTML).lastTaggedLine) ∧
    ((printer.init GenHTML).writeItem ⟨1, 3, 1⟩ ['x'] true).output =
      (printer.init GenHTML).output ++
        (if true = true ∧ (⟨1, 3, 1⟩ : Position).Line > (printer.init GenHTML).lastTaggedLine
          then printer.lineAnchor (⟨1, 3, 1⟩ : Position).Line else (printer.init GenHTML).tag.start) ++
        enc (printer.init GenHTML).mode (printer.init GenHTML).indent ['x'] ++
        (printer.init GenHTML).tag.«end» :=
  C11_line_anchors GenHTML [] C11_calls (printer.init GenHTML) ⟨1, 3, 1⟩ ['x'] true
    (by decide)

theorem C11_example :
    (printer.fresh GenHTML []).callsLog C11_calls = [3, 4] ∧
    ((printer.fresh GenHTML []).prints C11_calls).map (fun q => (q.output, q.lastTaggedLine)) =
      .ok ("<a id=".toList ++ ['"', 'L', '3', '"'] ++ "></a>varvar<a id=".toList ++
        ['"', 'L', '4', '"'] ++ "></a>func".toList, 4) := by
  constructor <;> rfl

/-! ## `Fprint` and unsupported nodes -/

/-- C14: when `Fprint` returns, its error is `unsupported node type` if and
only if the node is neither an expression, a statement, a declaration nor a
file; for such a node `Fprint` does return, with the count 0 and nothing
written. -/
theorem C14_unsupported (node : Node) (mode : Nat) (r : FprintResult)
    (h : Fprint node mode = .ok r) :
    (r.err = some "unsupported node type" ↔ node = Node.other) ∧
    (r.err = some "unsupported node type" → r.written = 0 ∧ r.output = []) ∧
    Fprint Node.other mode =
      .ok { written := 0, err := some "unsupported node type", output := [] } := by
  have sup : ∀ n, nodeOps n ≠ none → Fprint n mode = .ok r → r.err = none := by
    intro n hn hf
    unfold Fprint at hf
    split at hf
    · rename_i hnone; exact absurd hnone hn
    · split at hf
      · cases hf
      · cases hf; rfl
  refine ⟨?_, ?_, rfl⟩
  · cases node with
    | other =>
      cases h
      simp
    | Expr n =>
      have := sup _ (by simp [nodeOps]) h
      simp [this]
    | Stmt n =>
      have := sup _ (by simp [nodeOps]) h
      simp [this]
    | Decl n =>
      have := sup _ (by simp [nodeOps]) h
      simp [this]
    | File n =>
      have := sup _ (by simp [nodeOps]) h
      simp [this]
  · intro he
    cases node with
    | other => cases h; exact ⟨rfl, rfl⟩
    | Expr n => rw [sup _ (by simp [nodeOps]) h] at he; cases he
    | Stmt n => rw [sup _ (by simp [nodeOps]) h] at he; cases he
    | Decl n => rw [sup _ (by simp [nodeOps]) h] at he; cases he
    | File n => rw [sup _ (by simp [nodeOps]) h] at he; cases he

theorem C14_unsupported_witness :
    ((⟨1, none, ['x']⟩ : FprintResult).err = some "unsupported node type" ↔
      Node.Expr (.Ident ⟨⟨1, 1, 1⟩, ['x']⟩) = Node.other) ∧
    ((⟨1, none, ['x']⟩ : FprintResult).err = some "unsupported node type" →
      (⟨1, none, ['x']⟩ : FprintResult).written = 0 ∧
      (⟨1, none, ['x']⟩ : FprintResult).output = []) ∧
    Fprint Node.other RawFormat =
      .ok { written := 0, err := some "unsupported node type", output := [] } :=
  C14_unsupported (.Expr (.Ident ⟨⟨1, 1, 1⟩, ['x']⟩)) RawFormat ⟨1, none, ['x']⟩ rfl

/-! ## Statement lists -/

theorem stmts_map : ∀ (l : List Stmt), stmts l = l.map stmt
  | [] => stmts_nil_eq
  | s :: rest => by rw [stmts_cons_eq, stmts_map rest]; rfl

/-- The loop of `stmtList` from the second statement on, followed by the
semicolon after the last statement: the semicolon of the statement before,
then a newline and the statement, for each statement. -/
theorem stmtListLoop_ops : ∀ (list : List (Walk Bool)) (i : Nat) (optSemi : Bool), 0 < i →
    (stmtListLoop i optSemi list).ops ++
      (if (stmtListLoop i optSemi list).val then [] else [Op.print [.token .SEMICOLON]]) =
    (if optSemi then [] else [Op.print [.token .SEMICOLON]]) ++
      list.flatMap (fun s => Op.print [.whiteSpace .newline] :: stmtSemi s)
  | [], i, optSemi, _ => by simp [stmtListLoop]
  | s :: rest, i, optSemi, hi => by
    have ih := stmtListLoop_ops rest (i + 1) s.val (Nat.succ_pos i)
    cases optSemi <;>
      simp only [stmtListLoop, hi, if_true, Walk.bind_ops, Walk.bind_val, List.append_assoc,
        List.flatMap_cons, Bool.not_false, Bool.not_true, Walk.print_ops, Walk.pure_ops,
        gt_iff_lt, Bool.false_eq_true, if_false, List.nil_append, List.singleton_append,
        List.cons_append] <;>
      rw [ih] <;> simp [stmtSemi, List.append_assoc]

theorem stmtList_ops (s : Walk Bool) (rest : List (Walk Bool)) :
    (stmtList (s :: rest)).ops =
      Op.print [.int 1, .whiteSpace .formfeed] ::
        (stmtSemi s ++ rest.flatMap (fun t => Op.print [.whiteSpace .newline] :: stmtSemi t) ++
          [Op.print [.int (-1)]]) := by
  have h := stmtListLoop_ops rest 1 s.val Nat.one_pos
  have e : ∀ b : Bool, (if (!b) = true then (do
      Walk.print [Item.token Token.SEMICOLON]
      Walk.print [Item.int (-1)]) else (do
      (pure PUnit.unit : Walk PUnit)
      Walk.print [Item.int (-1)])).ops =
      (if b then [] else [Op.print [.token .SEMICOLON]]) ++ [Op.print [.int (-1)]] := by
    intro b; cases b <;> rfl
  simp only [stmtList, stmtListLoop, List.length_cons, Nat.zero_lt_succ, if_true, Walk.bind_ops,
    Walk.bind_val, Walk.print_ops, Nat.lt_irrefl, if_false, Walk.pure_ops, List.nil_append,
    Nat.zero_add, List.singleton_append, List.cons_append, List.append_assoc, gt_iff_lt]
  simp only [stmtSemi, List.append_assoc]
  congr 1
  congr 1
  rw [e, ← List.append_assoc (stmtListLoop 1 s.val rest).ops, h]
  simp only [List.append_assoc]
  rfl

/-- The calls of `stmtList` for a non-empty statement list: `+1` and a
formfeed, the statements in order, each after the first behind a newline, a
semicolon directly after a statement if and only if printing that statement
returned `optSemi = false`, the last statement included, and `-1`. -/
theorem stmtList_stmts_ops (s : Stmt) (rest : List Stmt) :
    (stmtList (stmts (s :: rest))).ops =
      Op.print [.int 1, .whiteSpace .formfeed] ::
        (stmtSemi (stmt s) ++
          rest.flatMap (fun t => Op.print [.whiteSpace .newline] :: stmtSemi (stmt t)) ++
          [Op.print [.int (-1)]]) ∧
    ∀ t, stmtSemi (stmt t) =
      (stmt t).ops ++ if (stmt t).val then [] else [Op.print [.token .SEMICOLON]] := by
  refine ⟨?_, fun t => rfl⟩
  rw [stmts_map, List.map_cons, stmtList_ops, List.flatMap_map]

theorem C15_example :
    (Fprint (.Stmt (.BlockStmt (.mk ⟨1, 1, 1⟩
      [.ExprStmt (.Ident ⟨⟨3, 2, 2⟩, ['a']⟩),
       .BlockStmt (.mk ⟨6, 3, 2⟩ [] ⟨7, 3, 3⟩),
       .ExprStmt (.Ident ⟨⟨10, 4, 2⟩, ['b']⟩)] ⟨12, 5, 1⟩))) RawFormat).map
        (fun r => r.output) = .ok "\x7b\n\ta;\n\t\x7b\x7d\n\tb;\n\x7d".toList := by
  rfl

/-! ## Field lists -/

theorem C16_example :
    (Fprint (.Expr C16_iface) RawFormat).map (fun r => r.output) =
      .ok "interface \x7b\n\tA();\n\tB();\n\x7d".toList := by
  rfl

/-- C16, refuted as stated: the interface `interface { A(); B() }` has two
members, and between the name of a member and its signature no separator is
printed, neither a tab nor a blank; no call of `print` has a tab among its
arguments. -/
theorem C16_counterexample :
    (expr C16_iface).ops =
      [Op.print [.position ⟨1, 1, 1⟩],
       Op.print [.token .INTERFACE],
       Op.print [.whiteSpace .blank, .position ⟨11, 1, 11⟩, .token .LBRACE, .int 1,
         .whiteSpace .formfeed],
       Op.leadComment none,
       Op.print [.position ⟨13, 1, 13⟩], Op.print [.string ['A']],
       Op.print [.token .LPAREN], Op.print [.token .RPAREN],
       Op.print [.token .SEMICOLON], Op.lineComment none,
       Op.print [.whiteSpace .newline],
       Op.leadComment none,
       Op.print [.position ⟨18, 1, 18⟩], Op.print [.string ['B']],
       Op.print [.token .LPAREN], Op.print [.token .RPAREN],
       Op.print [.token .SEMICOLON], Op.lineComment none,
       Op.print [.int (-1), .whiteSpace .formfeed, .position ⟨23, 1, 23⟩, .token .RBRACE]] ∧
    (∀ op ∈ (expr C16_iface).ops, ∀ args, op = Op.print args →
      Item.whiteSpace .tab ∉ args) := by
  have h : (expr C16_iface).ops =
      [Op.print [.position ⟨1, 1, 1⟩],
       Op.print [.token .INTERFACE],
       Op.print [.whiteSpace .blank, .position ⟨11, 1, 11⟩, .token .LBRACE, .int 1,
         .whiteSpace .formfeed],
       Op.leadComment none,
       Op.print [.position ⟨13, 1, 13⟩], Op.print [.string ['A']],
       Op.print [.token .LPAREN], Op.print [.token .RPAREN],
       Op.print [.token .SEMICOLON], Op.lineComment none,
       Op.print [.whiteSpace .newline],
       Op.leadComment none,
       Op.print [.position ⟨18, 1, 18⟩], Op.print [.string ['B']],
       Op.print [.token .LPAREN], Op.print [.token .RPAREN],
       Op.print [.token .SEMICOLON], Op.lineComment none,
       Op.print [.int (-1), .whiteSpace .formfeed, .position ⟨23, 1, 23⟩, .token .RBRACE]] := rfl
  refine ⟨h, ?_⟩
  intro op hop args e
  subst e
  rw [h] at hop
  simp only [List.mem_cons, Op.print.injEq, List.mem_singleton, List.not_mem_nil, or_false,
    reduceCtorEq, false_or] at hop
  repeat (first | (rcases hop with h | hop; · subst h; simp) | (subst hop; simp))

/-- C16, amended: for a non-empty list of struct fields the separator printed
between the names of a field and its type, and between the type and the tag,
is `separator(len(list) > 1)`, a blank for one entry and a tab for more; for
an interface what is printed between the names of a member and its signature
is a blank if the member has more than one name and nothing otherwise,
whatever the length of the list. -/
theorem C16_fieldList (lbrace rbrace : Position) (f : FieldW) (rest : List FieldW)
    (isIncomplete : Bool) (n i : Nat) (sep : whiteSpace) :
    (fieldList lbrace (f :: rest) rbrace isIncomplete true).ops =
      Op.print [.whiteSpace .blank, .position lbrace, .token .LBRACE, .int 1,
          .whiteSpace .formfeed] ::
        ((fieldListStruct (if rest.length = 0 then whiteSpace.blank else whiteSpace.tab)
            (rest.length + 1) isIncomplete 0 (f :: rest)).ops ++
          (if isIncomplete then [Op.print [.string "// contains unexported fields".toList]]
            else []) ++
          [Op.print [.int (-1), .whiteSpace .formfeed, .position rbrace, .token .RBRACE]]) ∧
    (fieldListStruct sep n isIncomplete i (f :: rest)).ops =
      Op.leadComment f.Doc ::
        ((if 0 < (namesOf f.Names).length then
            (identList (namesOf f.Names)).ops ++ [Op.print [.whiteSpace sep]] else []) ++
          f.Typ.ops ++
          (match f.Tag with
            | some tag => Op.print [.whiteSpace sep] :: (exprStringList tag).ops
            | none => []) ++
          [Op.print [.token .SEMICOLON], Op.lineComment f.Comment] ++
          (if i + 1 < n ∨ isIncomplete then [Op.print [.whiteSpace .newline]] else []) ++
          (fieldListStruct sep n isIncomplete (i + 1) rest).ops) ∧
    (fieldList lbrace (f :: rest) rbrace isIncomplete false).ops =
      Op.print [.whiteSpace .blank, .position lbrace, .token .LBRACE, .int 1,
          .whiteSpace .formfeed] ::
        ((fieldListInterface (rest.length + 1) isIncomplete 0 (f :: rest)).ops ++
          (if isIncomplete then [Op.print [.string "// contains unexported methods".toList]]
            else []) ++
          [Op.print [.int (-1), .whiteSpace .formfeed, .position rbrace, .token .RBRACE]]) ∧
    (fieldListInterface n isIncomplete i (f :: rest)).ops =
      Op.leadComment f.Doc ::
        ((identList (namesOf f.Names)).ops ++
          (if 1 < (namesOf f.Names).length then [Op.print [.whiteSpace .blank]] else []) ++
          (match f.Ftyp with
            | some sig => sig.ops
            | none => f.Typ.ops) ++
          [Op.print [.token .SEMICOLON], Op.lineComment f.Comment] ++
          (if i + 1 < n ∨ isIncomplete then [Op.print [.whiteSpace .newline]] else []) ++
          (fieldListInterface n isIncomplete (i + 1) rest).ops) := by
  refine ⟨?_, ?_, ?_, ?_⟩
  · cases rest <;> cases isIncomplete <;>
      simp [fieldList, separator, Walk.leadComment, Walk.lineComment]
  · cases h1 : f.Tag <;> by_cases h2 : 0 < (namesOf f.Names).length <;>
      by_cases h3 : (i + 1 < n ∨ isIncomplete = true) <;>
      simp [fieldListStruct, h1, h2, h3, Walk.leadComment, Walk.lineComment, List.append_assoc]
  · cases isIncomplete <;> simp [fieldList, Walk.leadComment, Walk.lineComment]
  · cases h1 : f.Ftyp <;> by_cases h2 : 1 < (namesOf f.Names).length <;>
      by_cases h3 : (i + 1 < n ∨ isIncomplete = true) <;>
      simp [fieldListInterface, h1, h2, h3, Walk.leadComment, Walk.lineComment,
        List.append_assoc]

theorem C16_struct_example :
    (Fprint (.Expr (.StructType ⟨1, 1, 1⟩ ⟨8, 1, 8⟩
      [.mk none (some [⟨⟨10, 1, 10⟩, ['a']⟩]) (.Ident ⟨⟨12, 1, 12⟩, ['T']⟩) none none]
      ⟨14, 1, 14⟩ false)) RawFormat).map (fun r => r.output) =
        .ok "struct \x7b\n\ta T;\n\x7d".toList ∧
    (Fprint (.Expr (.StructType ⟨1, 1, 1⟩ ⟨8, 1, 8⟩
      [.mk none (some [⟨⟨10, 1, 10⟩, ['a']⟩]) (.Ident ⟨⟨12, 1, 12⟩, ['T']⟩) none none,
       .mk none (some [⟨⟨15, 1, 15⟩, ['b']⟩]) (.Ident ⟨⟨17, 1, 17⟩, ['U']⟩) none none]
      ⟨19, 1, 19⟩ false)) RawFormat).map (fun r => r.output) =
        .ok "struct \x7b\n\ta\tT;\n\tb\tU;\n\x7d".toList := by
  exact ⟨rfl, rfl⟩

/-! ## Labeled statements -/

/-- C18, the code falls short of it: `Fprint` of a labeled statement, in every
mode and whatever the label and the statement, stops with the fatal error
`print: negative indentation`: the statement starts with `p.print(-1, formfeed)`
and the indentation of a fresh printer is 0. -/
theorem C18_labeled_negative (Label : Ident) (s : Stmt) (mode : Nat) :
    Fprint (.Stmt (.LabeledStmt Label s)) mode = .error "print: negative indentation" ∧
    (printer.init mode).indent = 0 ∧
    (stmt (.LabeledStmt Label s)).ops.take 2 =
      [Op.print [.position Label.pos], Op.print [.int (-1), .whiteSpace .formfeed]] := by
  refine ⟨?_, rfl, ?_⟩
  · cases hv : Label.pos.IsValid <;>
      simp [Fprint, Fprint.final, nodeOps, nodeComments, stmt_LabeledStmt_eq, printer.run,
        printer.runOp, printer.print, printer.printLoop, printer.printItem, hv, printer.init,
        Walk.printPos]
  · simp [stmt_LabeledStmt_eq, Walk.printPos]

theorem C18_example :
    Fprint (.Stmt (.LabeledStmt ⟨⟨1, 1, 1⟩, ['L']⟩ (.EmptyStmt ⟨3, 1, 3⟩))) 0 =
      .error "print: negative indentation" := by
  rfl

/-! ## Grouped imports -/

theorem exprStringList_single (x : BasicLit) :
    exprStringList [x] =
      ⟨false, [Op.print [.position x.pos], Op.print [.position x.pos],
        Op.print [.bytes x.Value]]⟩ := by
  have e : exprStringList [x] =
      (if x.pos.Line = x.pos.Line then
        (⟨false, [Op.print [.position x.pos], Op.print [.position x.pos],
          Op.print [.bytes x.Value]]⟩ : Walk Bool)
       else ⟨false, Op.print [.position x.pos] :: (exprList [⟨some x.pos, exprBasicLit x⟩] 0).ops⟩) := by
    by_cases h : x.pos.Line = x.pos.Line
    · simp only [exprStringList, stringList, exprList, List.map, List.head?, List.getLast?,
        List.getLast, h, if_true]
      rfl
    · exact absurd rfl h
  rw [e, if_pos rfl]

theorem C17_ops (ppos pname pimport lparen px py pz rparen : Position)
    (h : lparen.IsValid = true) :
    nodeOps (.File (C17_file ppos pname pimport lparen px py pz rparen)) = some
      [Op.leadComment none,
       Op.print [.position ppos, .token .PACKAGE, .whiteSpace .blank],
       Op.print [.position pname], Op.print [.string ['p']],
       Op.print [.whiteSpace .newline, .whiteSpace .newline],
       Op.leadComment none,
       Op.print [.lineTag pimport, .token .IMPORT, .whiteSpace .blank],
       Op.print [.position lparen, .token .LPAREN],
       Op.print [.int 1, .whiteSpace .formfeed],
       Op.leadComment none,
       Op.print [.whiteSpace .tab],
       Op.print [.position px], Op.print [.position px],
       Op.print [.bytes ['"', 'x', '"']],
       Op.print [.token .SEMICOLON], Op.lineComment none,
       Op.print [.whiteSpace .newline],
       Op.leadComment none,
       Op.print [.position py], Op.print [.string ['y']],
       Op.print [.whiteSpace .tab],
       Op.print [.position pz], Op.print [.position pz],
       Op.print [.bytes ['"', 'z', '"']],
       Op.print [.token .SEMICOLON], Op.lineComment none,
       Op.print [.int (-1), .whiteSpace .formfeed],
       Op.print [.position rparen, .token .RPAREN],
       Op.lineComment none,
       Op.print [.whiteSpace .newline]] := by
  have e : (decl (.GenDecl none pimport .IMPORT lparen
      [.ImportSpec none none [⟨px, .STRING, ['"', 'x', '"']⟩] none,
       .ImportSpec none (some ⟨py, ['y']⟩) [⟨pz, .STRING, ['"', 'z', '"']⟩] none]
      rparen)) = ⟨(none, true),
      [Op.leadComment none,
       Op.print [.lineTag pimport, .token .IMPORT, .whiteSpace .blank],
       Op.print [.position lparen, .token .LPAREN],
       Op.print [.int 1, .whiteSpace .formfeed],
       Op.leadComment none,
       Op.print [.whiteSpace .tab],
       Op.print [.position px], Op.print [.position px],
       Op.print [.bytes ['"', 'x', '"']],
       Op.print [.token .SEMICOLON], Op.lineComment none,
       Op.print [.whiteSpace .newline],
       Op.leadComment none,
       Op.print [.position py], Op.print [.string ['y']],
       Op.print [.whiteSpace .tab],
       Op.print [.position pz], Op.print [.position pz],
       Op.print [.bytes ['"', 'z', '"']],
       Op.print [.token .SEMICOLON], Op.lineComment none,
       Op.print [.int (-1), .whiteSpace .formfeed],
       Op.print [.position rparen, .token .RPAREN]]⟩ := by
    rw [decl_GenDecl_eq]
    simp only [h, if_true, countImportRenames, specs_cons_eq, specs_nil_eq, spec_ImportSpec_eq,
      exprStringList_single]
    rfl
  simp only [nodeOps, C17_file, file_ops, fileDecls_ops, declOps, e]
  rfl

/-- C17, refuted as stated: for the file of the source text
`package p` / `import ( "x"; y "z" )` the output in `RawFormat` mode, and in
the aligned mode 0, is not the text of the claim. -/
theorem C17_counterexample :
    (Fprint (.File (C17_file ⟨1, 2, 1⟩ ⟨9, 2, 9⟩ ⟨11, 3, 1⟩ ⟨18, 3, 8⟩ ⟨20, 3, 10⟩ ⟨25, 3, 15⟩
        ⟨27, 3, 17⟩ ⟨31, 3, 21⟩)) RawFormat).map (fun r => r.output) ≠
      .ok "package p\n\nimport (\n\t\"x\";\n\ty\t\"z\";\n)\n".toList ∧
    (Fprint (.File (C17_file ⟨1, 2, 1⟩ ⟨9, 2, 9⟩ ⟨11, 3, 1⟩ ⟨18, 3, 8⟩ ⟨20, 3, 10⟩ ⟨25, 3, 15⟩
        ⟨27, 3, 17⟩ ⟨31, 3, 21⟩)) 0).map (fun r => r.output) ≠
      .ok "package p\n\nimport (\n\t\"x\";\n\ty\t\"z\";\n)\n".toList := by
  constructor
  · intro h
    have e : (Fprint (.File (C17_file ⟨1, 2, 1⟩ ⟨9, 2, 9⟩ ⟨11, 3, 1⟩ ⟨18, 3, 8⟩ ⟨20, 3, 10⟩
        ⟨25, 3, 15⟩ ⟨27, 3, 17⟩ ⟨31, 3, 21⟩)) RawFormat).map (fun r => r.output) =
        .ok "package p\n\nimport (\n\t\t\"x\";\n\ty\t\"z\";\n)\n".toList := rfl
    rw [e] at h
    exact absurd (Except.ok.inj h) (by decide)
  · intro h
    have e : (Fprint (.File (C17_file ⟨1, 2, 1⟩ ⟨9, 2, 9⟩ ⟨11, 3, 1⟩ ⟨18, 3, 8⟩ ⟨20, 3, 10⟩
        ⟨25, 3, 15⟩ ⟨27, 3, 17⟩ ⟨31, 3, 21⟩)) 0).map (fun r => r.output) =
        .ok "package p\n\nimport (\x0c\t\t\"x\";\n\ty\t\"z\";\x0c)\n".toList := rfl
    rw [e] at h
    exact absurd (Except.ok.inj h) (by decide)

/-- C17, amended: for the file `package p` with the grouped import of "x" (no
rename) and y "z" (rename y) and no comments, whatever the positions, the
opening parenthesis being present, the output in `RawFormat` mode is
`package p\n\nimport (\n\t\t"x";\n\ty\t"z";\n)\n`: the line of the import
without a rename is the indentation tab, the tab that ends the empty name
column, and its path; in the aligned mode 0 the same bytes are written with a
formfeed for the line break after `(` and before `)`. -/
theorem C17_import_group (ppos pname pimport lparen px py pz rparen : Position)
    (h : lparen.IsValid = true) :
    (Fprint (.File (C17_file ppos pname pimport lparen px py pz rparen)) RawFormat).map
        (fun r => r.output) =
      .ok "package p\n\nimport (\n\t\t\"x\";\n\ty\t\"z\";\n)\n".toList ∧
    (Fprint (.File (C17_file ppos pname pimport lparen px py pz rparen)) 0).map
        (fun r => r.output) =
      .ok "package p\n\nimport (\x0c\t\t\"x\";\n\ty\t\"z\";\x0c)\n".toList := by
  have ho := C17_ops ppos pname pimport lparen px py pz rparen h
  constructor
  · rw [Fprint_abs _ _ _ ho rfl (Or.inl rfl)]
    rfl
  · rw [Fprint_abs _ _ _ ho rfl (Or.inl rfl)]
    rfl

theorem C17_import_group_witness :
    (Fprint (.File (C17_file ⟨1, 2, 1⟩ ⟨9, 2, 9⟩ ⟨11, 3, 1⟩ ⟨18, 3, 8⟩ ⟨20, 3, 10⟩ ⟨25, 3, 15⟩
        ⟨27, 3, 17⟩ ⟨31, 3, 21⟩)) RawFormat).map (fun r => r.output) =
      .ok "package p\n\nimport (\n\t\t\"x\";\n\ty\t\"z\";\n)\n".toList ∧
    (Fprint (.File (C17_file ⟨1, 2, 1⟩ ⟨9, 2, 9⟩ ⟨11, 3, 1⟩ ⟨18, 3, 8⟩ ⟨20, 3, 10⟩ ⟨25, 3, 15⟩
        ⟨27, 3, 17⟩ ⟨31, 3, 21⟩)) 0).map (fun r => r.output) =
      .ok "package p\n\nimport (\x0c\t\t\"x\";\n\ty\t\"z\";\x0c)\n".toList :=
  C17_import_group ⟨1, 2, 1⟩ ⟨9, 2, 9⟩ ⟨11, 3, 1⟩ ⟨18, 3, 8⟩ ⟨20, 3, 10⟩ ⟨25, 3, 15⟩
    ⟨27, 3, 17⟩ ⟨31, 3, 21⟩ rfl

/-! ## The whitespace buffer and interspersed comments -/

/-- C19, the code falls short of it: in `C19_printer`, the state `Fprint`
reaches for `C19_file` in `RawFormat` mode, `buflen` is 1; `p.flush(next)` for
the estimated position `next` of the `(` of the result list calls
`intersperseComments`, which writes the comment of line 4 and sets `buflen` to
`next.Line - p.last.Line = -1`, and the slice `b[0 : p.buflen]` of
`writeWhitespace` is out of range: `flush`, `print` of the token and `Fprint`
of the file stop with that fatal error. -/
theorem C19_buflen_negative :
    (printer.fresh RawFormat C19_file.Comments).run ((file C19_file).ops.take 12) =
      .ok C19_printer ∧
    ((file C19_file).ops.drop 12).head? = some (Op.print [.token .LPAREN]) ∧
    (0 ≤ C19_printer.buflen ∧ C19_printer.buflen ≤ 8) ∧
    (C19_printer.intersperseComments ⟨19, 3, 9⟩).map (fun q => (q.buflen, q.output)) =
      .ok (-1, "package p\n\nfunc f()\n// c".toList) ∧
    C19_printer.flush ⟨19, 3, 9⟩ = .error "slice bounds out of range" ∧
    C19_printer.print [.token .LPAREN] = .error "slice bounds out of range" ∧
    Fprint (.File C19_file) RawFormat = .error "slice bounds out of range" ∧
    Fprint (.File C19_file) 0 = .error "slice bounds out of range" := by
  refine ⟨rfl, rfl, by decide, rfl, rfl, rfl, rfl, rfl⟩

/-! ## Line anchors and stored tags -/

theorem lineAnchor_ne_nil (line : Int) : printer.lineAnchor line ≠ [] := by
  simp [printer.lineAnchor]

/-- In `GenHTML` mode `writeItem` leaves both stored tags empty. -/
theorem writeItem_tag_empty (p : printer) (pos : Position) (data : List Char) (slt : Bool)
    (hm : p.mode &&& GenHTML ≠ 0) : (p.writeItem pos data slt).tag = ⟨[], []⟩ := by
  unfold printer.writeItem
  simp only [printer.write_eq, hm, ne_eq, not_false_eq_true, if_true]
  have hl := lineAnchor_ne_nil pos.Line
  have he : ∀ t : htmlTag, t.start = [] → t.«end» = [] → t = ⟨[], []⟩ := by
    intro t h1 h2
    cases t
    simp_all
  repeat' split
  all_goals simp_all [printer.emit, printer.write0]

/-- In `GenHTML` mode, when `writeItem` is called with a line anchor requested
for a position whose line is above `lastTaggedLine`, the anchor takes the place
of the stored start tag: the output is the anchor `<a id="L{line}"></a>`, then
the escaped data, then the stored end tag; the stored start tag is not
written, both stored tags are empty afterwards and `lastTaggedLine` is the
line. -/
theorem writeItem_anchor (p : printer) (pos : Position) (data : List Char)
    (hm : p.mode &&& GenHTML ≠ 0) (hl : pos.Line > p.lastTaggedLine) :
    (p.writeItem pos data true).output =
      p.output ++ printer.lineAnchor pos.Line ++ enc p.mode p.indent data ++ p.tag.«end» ∧
    (p.writeItem pos data true).tag = ⟨[], []⟩ ∧
    (p.writeItem pos data true).lastTaggedLine = pos.Line := by
  refine ⟨?_, writeItem_tag_empty p pos data true hm, ?_⟩
  · rw [printer.writeItem_output p pos data true hm]
    simp [hl]
  · have h := printer.writeItem_tag p pos data true
    simp only [hm, ne_eq, not_false_eq_true, hl, and_self, if_true, true_and] at h
    first
    | exact h
    | simp_all

theorem writeItem_anchor_example :
    (C21_printer.writeItem ⟨1, 3, 1⟩ ['a', '<', 'b'] true).output =
      "<a id=\"L3\"></a>a&lt;b</b>".toList ∧
    (C21_printer.writeItem ⟨1, 3, 1⟩ ['a', '<', 'b'] true).tag = ⟨[], []⟩ ∧
    (C21_printer.writeItem ⟨1, 3, 1⟩ ['a', '<', 'b'] true).lastTaggedLine = 3 := by
  refine ⟨rfl, rfl, rfl⟩

/-- C21, the code falls short of it: in `GenHTML` mode `writeItem` assigns the
line anchor to `p.tag.start`, so that for a token with a line anchor requested
on a line above `lastTaggedLine` the output is the anchor, the escaped data and
the stored end tag: a stored start tag is lost and its end tag is still
written. The call `print(htmlTag{"<b>", "</b>"}, lineTag(pos), "x")` with `pos`
on line 3 writes `<a id="L3"></a>x</b>`, where the claim has
`<a id="L3"></a><b>x</b>`; the same call with the position in place of the line
tag writes `<b>x</b>`. -/
theorem C21_anchor_start_tag :
    (∀ (p : printer) (pos : Position) (data : List Char),
      p.mode &&& GenHTML ≠ 0 → pos.Line > p.lastTaggedLine →
      (p.writeItem pos data true).output =
        p.output ++ printer.lineAnchor pos.Line ++ enc p.mode p.indent data ++ p.tag.«end» ∧
      (p.writeItem pos data true).tag = ⟨[], []⟩ ∧
      (p.writeItem pos data true).lastTaggedLine = pos.Line) ∧
    ((printer.init GenHTML).print
        [.htmlTag ⟨"<b>".toList, "</b>".toList⟩, .lineTag ⟨1, 3, 1⟩, .string ['x']]).map
        (fun q => (q.output, q.tag)) = .ok ("<a id=\"L3\"></a>x</b>".toList, ⟨[], []⟩) ∧
    "<a id=\"L3\"></a>x</b>".toList ≠ "<a id=\"L3\"></a><b>x</b>".toList ∧
    ((printer.init GenHTML).print
        [.htmlTag ⟨"<b>".toList, "</b>".toList⟩, .position ⟨1, 3, 1⟩, .string ['x']]).map
        (fun q => (q.output, q.tag)) = .ok ("<b>x</b>".toList, ⟨[], []⟩) ∧
    (printer.init GenHTML).print [.htmlTag ⟨"<b>".toList, "</b>".toList⟩] = .ok C21_printer := by
  refine ⟨fun p pos data hm hl => writeItem_anchor p pos data hm hl, rfl, by decide, rfl, rfl⟩

/-! ## The optional-semicolon result of `expr` -/

/-- C23, refuted as stated: the composite literal `T{}` and the function
literal `func() {}` are written with a closing brace at the end, and `expr`
returns `optSemi = false` for both. -/
theorem C23_counterexample :
    (Fprint (.Expr C23_lit) RawFormat).map (fun r => r.output) = .ok "T\x7b\x7d".toList ∧
    (expr C23_lit).val = false ∧
    (Fprint (.Expr C23_func) RawFormat).map (fun r => r.output) =
      .ok "func() \x7b\x7d".toList ∧
    (expr C23_func).val = false := by
  refine ⟨rfl, rfl, rfl, rfl⟩

/-- C23, amended: `expr1` returns `optSemi = true` for a struct type and for
an interface type; for a pointer, array, map and channel type it returns what
`expr` returns for the element type, and for a function type what `signature`
returns; for a composite literal and for a function literal, whose rendering
ends in a closing brace too, it returns `optSemi = false`. -/
theorem C23_optSemi (pos Lbrace Rbrace : Position) (Fields : List ast.Field) (Incomplete : Bool)
    (X Key : Expr) (Len : Option Expr) (Dir : Nat) (Elts : List Expr) (Typ : FuncType)
    (Body : BlockStmt) (prec1 : Nat) :
    (expr1 (.StructType pos Lbrace Fields Rbrace Incomplete) prec1).val = true ∧
    (expr1 (.InterfaceType pos Lbrace Fields Rbrace Incomplete) prec1).val = true ∧
    (expr1 (.StarExpr pos X) prec1).val = (expr X).val ∧
    (expr1 (.ArrayType pos Len X) prec1).val = (expr X).val ∧
    (expr1 (.MapType pos Key X) prec1).val = (expr X).val ∧
    (expr1 (.ChanType pos Dir X) prec1).val = (expr X).val ∧
    (expr1 (.FuncType Typ) prec1).val = (funcType Typ).val ∧
    (expr1 (.CompositeLit X Lbrace Elts Rbrace) prec1).val = false ∧
    (expr1 (.FuncLit Typ Body) prec1).val = false := by
  refine ⟨?_, ?_, ?_, ?_, ?_, ?_, ?_, ?_, ?_⟩
  · rw [expr1_StructType_eq]; rfl
  · rw [expr1_InterfaceType_eq]; rfl
  · rw [expr1_StarExpr_eq]; rfl
  · rw [expr1_ArrayType_eq]; cases Len <;> rfl
  · rw [expr1_MapType_eq]; rfl
  · rw [expr1_ChanType_eq]
    simp only [Walk.bind_val]
    repeat' split
    all_goals rfl
  · rw [expr1_FuncType_eq]; rfl
  · rw [expr1_CompositeLit_eq]; rfl
  · rw [expr1_FuncLit_eq]; rfl

theorem C23_example :
    (expr (.StarExpr ⟨1, 1, 1⟩ (.StructType ⟨2, 1, 2⟩ ⟨8, 1, 8⟩ [] ⟨9, 1, 9⟩ false))).val = true ∧
    (expr (.StarExpr ⟨1, 1, 1⟩ (.Ident ⟨⟨2, 1, 2⟩, ['T']⟩))).val = false ∧
    (expr (.MapType ⟨1, 1, 1⟩ (.Ident ⟨⟨5, 1, 5⟩, ['K']⟩)
      (.InterfaceType ⟨7, 1, 7⟩ ⟨16, 1, 16⟩ [] ⟨17, 1, 17⟩ false))).val = true := by
  refine ⟨rfl, rfl, rfl⟩

/-! ## Control clauses -/

/-- The calls of `controlClause`: with `init` and `post` both absent a blank
and the condition, or nothing when the condition is absent too; otherwise a
blank, `init` if present, a semicolon and a blank, the condition if present,
and for a `for` clause a second semicolon and a blank and `post` if present. -/
theorem controlClause_ops (isForStmt : Bool) (init cond post : Option (Walk Bool)) :
    (controlClause isForStmt init cond post).ops =
      if init.isNone ∧ post.isNone then
        match cond with
        | some e => Op.print [.whiteSpace .blank] :: e.ops
        | none => []
      else
        Op.print [.whiteSpace .blank] ::
          (optOps init ++
            Op.print [.token .SEMICOLON, .whiteSpace .blank] ::
              (optOps cond ++
                if isForStmt then
                  Op.print [.token .SEMICOLON, .whiteSpace .blank] :: optOps post
                else [])) := by
  cases init <;> cases cond <;> cases post <;> cases isForStmt <;>
    simp [controlClause, optOps]

/-! ## Parentheses of binary expressions -/

/-- C26: a binary expression printed under the precedence `prec1` is written
in parentheses exactly when the precedence of its operator is below `prec1`;
inside the parentheses, and without them otherwise, it is written as `expr`
writes it: the leftmost operand of its chain and each right operand, printed
under the precedence of the operator. A right operand that is a binary
expression of the same precedence is therefore written without parentheses:
the tree of `a - (b - c)` without a `ParenExpr` prints `a`, `-`, `b`, `-`, `c`,
while the tree of `(a + b) * c` prints its left operand in parentheses. -/
theorem C26_binaryExpr_parens (X : Expr) (OpPos : Position) (tok : Token) (Y : Expr)
    (prec1 : Nat) :
    (expr1 (.BinaryExpr X OpPos tok Y) prec1).ops =
      (if tok.Precedence < prec1 then
        (printPos X.Pos).ops ++ Op.print [.token .LPAREN] ::
          ((expr (.BinaryExpr X OpPos tok Y)).ops ++ [Op.print [.token .RPAREN]])
       else (expr (.BinaryExpr X OpPos tok Y)).ops) ∧
    (expr (.BinaryExpr X OpPos tok Y)).ops =
      (printPos X.Pos).ops ++
        ((expr1 (leftSpine tok.Precedence (.BinaryExpr X OpPos tok Y)).2 tok.Precedence).ops ++
          (leftSpine tok.Precedence (.BinaryExpr X OpPos tok Y)).1.flatMap (fun n =>
            chainOp (chainBlanks tok.Precedence
                (leftSpine tok.Precedence (.BinaryExpr X OpPos tok Y)).1
                (leftSpine tok.Precedence (.BinaryExpr X OpPos tok Y)).2) n.1 n.2.1 ++
              (expr1 n.2.2 tok.Precedence).ops)) ∧
    (expr C26_sub).ops =
      [Op.print [.position ⟨1, 1, 1⟩], Op.print [.position ⟨1, 1, 1⟩], Op.print [.string ['a']],
       Op.print [.whiteSpace .blank, .position ⟨3, 1, 3⟩, .token .SUB, .whiteSpace .blank],
       Op.print [.position ⟨6, 1, 6⟩], Op.print [.position ⟨6, 1, 6⟩], Op.print [.string ['b']],
       Op.print [.position ⟨8, 1, 8⟩, .token .SUB],
       Op.print [.position ⟨10, 1, 10⟩], Op.print [.string ['c']]] ∧
    (expr C26_mul).ops =
      [Op.print [.position ⟨2, 1, 2⟩], Op.print [.position ⟨2, 1, 2⟩],
       Op.print [.token .LPAREN],
       Op.print [.position ⟨2, 1, 2⟩], Op.print [.position ⟨2, 1, 2⟩], Op.print [.string ['a']],
       Op.print [.position ⟨4, 1, 4⟩, .token .ADD],
       Op.print [.position ⟨6, 1, 6⟩], Op.print [.string ['b']],
       Op.print [.token .RPAREN],
       Op.print [.whiteSpace .blank, .position ⟨9, 1, 9⟩, .token .MUL, .whiteSpace .blank],
       Op.print [.position ⟨11, 1, 11⟩], Op.print [.string ['c']]] := by
  refine ⟨?_, binaryExpr_chain_ops X OpPos tok Y LowestPrec (Nat.zero_le _), rfl, rfl⟩
  have h0 : ¬ tok.Precedence < LowestPrec := Nat.not_lt_zero _
  unfold expr
  rw [expr1_binary_eq, expr1_binary_eq]
  by_cases h : tok.Precedence < prec1
  · simp only [h, h0, if_true, if_false, Walk.bind_ops, Walk.pure_ops, List.append_nil,
      Walk.print_ops, List.singleton_append, List.append_assoc, List.cons_append,
      List.nil_append]
  · simp only [h, h0, if_false, Walk.bind_ops, Walk.pure_ops, List.append_nil]

theorem C26_example :
    (Fprint (.Expr C26_sub) RawFormat).map (fun r => r.output) = .ok "a - b-c".toList ∧
    (Fprint (.Expr C26_mul) RawFormat).map (fun r => r.output) = .ok "(a+b) * c".toList := by
  exact ⟨rfl, rfl⟩

/-! ## Indentation and nesting level in the printer -/

namespace printer

theorem Nest.nest_refl (p : printer) : p.Nest p := ⟨rfl, rfl⟩

theorem Nest.andNest {p q r : printer} (h1 : p.Nest q) (h2 : q.Nest r) : p.Nest r :=
  ⟨h2.1.trans h1.1, h2.2.trans h1.2⟩

theorem emit_nest (p : printer) (out : List Char) (pos : Position) : p.Nest (p.emit out pos) :=
  ⟨rfl, rfl⟩

theorem write_nest (p : printer) (data : List Char) : p.Nest (p.write data) := by
  rw [write_eq]
  exact emit_nest p _ _

theorem writeNewlines_nest (p : printer) (n : Int) : p.Nest (p.writeNewlines n) := by
  rw [writeNewlines_eq]
  exact emit_nest p _ _

/-- What `writeItem` leaves alone: the indentation, the nesting level, the
mode, the whitespace buffer and the comments. -/
theorem writeItem_frame (p : printer) (pos : Position) (data : List Char) (slt : Bool) :
    (p.writeItem pos data slt).indent = p.indent ∧ (p.writeItem pos data slt).level = p.level ∧
    (p.writeItem pos data slt).mode = p.mode ∧ (p.writeItem pos data slt).buffer = p.buffer ∧
    (p.writeItem pos data slt).buflen = p.buflen ∧
    (p.writeItem pos data slt).comment = p.comment := by
  unfold writeItem
  simp only [write_eq]
  repeat' split
  all_goals exact ⟨rfl, rfl, rfl, rfl, rfl, rfl⟩

theorem writeItem_nest (p : printer) (pos : Position) (data : List Char) (slt : Bool) :
    p.Nest (p.writeItem pos data slt) :=
  ⟨(writeItem_frame p pos data slt).1, (writeItem_frame p pos data slt).2.1⟩

theorem writeComment_nest (p : printer) (c : Comment) : p.Nest (p.writeComment c) := by
  unfold writeComment
  simp only []
  repeat' split
  · exact (write_nest p _).andNest (writeItem_nest _ _ _ _)
  · exact (writeNewlines_nest p _).andNest (writeItem_nest _ _ _ _)
  · exact writeItem_nest _ _ _ _

theorem intersperseGroup_nest : ∀ (cs : List Comment) (fl : Int) (nn : Bool) (p : printer)
    (r : Int × Bool × printer), intersperseGroup cs fl nn p = .ok r → p.Nest r.2.2
  | [], fl, nn, p, r, h => by
    simp only [intersperseGroup] at h
    cases h
    exact Nest.nest_refl p
  | c :: rest, fl, nn, p, r, h => by
    simp only [intersperseGroup] at h
    split at h
    · exact (writeComment_nest p c).andNest (intersperseGroup_nest rest _ _ _ r h)
    · cases h

theorem intersperseLoop_nest (next : Position) : ∀ (gs : List CommentGroup) (fl : Int) (nn : Bool)
    (p : printer) (r : Int × Bool × printer),
    intersperseLoop next gs fl nn p = .ok r → p.Nest r.2.2
  | [], fl, nn, p, r, h => by
    simp only [intersperseLoop] at h
    cases h
    exact ⟨rfl, rfl⟩
  | g :: gs, fl, nn, p, r, h => by
    simp only [intersperseLoop] at h
    split at h
    · cases h
    · split at h
      · split at h
        · cases h
        · rename_i fl1 nn1 p1 hg
          have h1 := intersperseGroup_nest _ _ _ _ _ hg
          have h2 := intersperseLoop_nest next gs _ _ _ r h
          have h0 : p.Nest { p with comment := g :: gs } := ⟨rfl, rfl⟩
          exact h0.andNest (h1.andNest h2)
      · cases h
        exact ⟨rfl, rfl⟩

theorem intersperseComments_nest (p : printer) (next : Position) (q : printer)
    (h : p.intersperseComments next = .ok q) : p.Nest q := by
  unfold intersperseComments at h
  split at h
  · cases h
  · rename_i fl nn p1 hl
    have h1 := intersperseLoop_nest next _ _ _ _ _ hl
    refine h1.andNest ?_
    simp only [] at h
    repeat' split at h
    all_goals cases h
    all_goals exact ⟨rfl, rfl⟩

theorem writeWhitespace_nest (p q : printer) (h : p.writeWhitespace = .ok q) : p.Nest q := by
  unfold writeWhitespace at h
  split at h
  · cases h
  · cases h
    have h0 : p.Nest { p with buflen := 0 } := ⟨rfl, rfl⟩
    exact h0.andNest (write_nest _ _)

theorem flush_nest (p : printer) (next : Position) (q : printer) (h : p.flush next = .ok q) :
    p.Nest q := by
  unfold flush at h
  repeat' split at h
  all_goals first
    | exact writeWhitespace_nest _ _ h
    | cases h
    | (rename_i p1 hi
       exact (intersperseComments_nest _ _ _ hi).andNest (writeWhitespace_nest _ _ h))

/-- One argument of `print` changes the indentation by its amount if it is an
`int` and not at all otherwise, and leaves the nesting level alone. -/
theorem printItem_nest (p : printer) (slt : Bool) (f : Item) (r : Bool × printer)
    (h : p.printItem slt f = .ok r) :
    (r.2.indent : Int) = p.indent + f.delta ∧ r.2.level = p.level := by
  unfold printItem at h
  simp only [] at h
  split at h
  · cases h
  · rename_i data next s p1 hstep
    have hk : (p1.indent : Int) = p.indent + f.delta ∧ p1.level = p.level := by
      cases f with
      | int x =>
        simp only [] at hstep
        split at hstep
        · cases hstep
        · rename_i hx
          cases hstep
          refine ⟨?_, rfl⟩
          simp only [Item.delta]
          omega
      | whiteSpace x =>
        simp only [] at hstep
        split at hstep
        · cases hstep
        · rename_i p0 hfl
          split at hstep
          · cases hstep
          · cases hstep
            have h0 : p.Nest p0 := by
              split at hfl
              · exact writeWhitespace_nest _ _ hfl
              · cases hfl; exact Nest.nest_refl p
            exact ⟨by simp [Item.delta, h0.1], h0.2⟩
      | bytes d => cases hstep; exact ⟨by simp [Item.delta], rfl⟩
      | nilBytes => cases hstep; exact ⟨by simp [Item.delta], rfl⟩
      | string d => cases hstep; exact ⟨by simp [Item.delta], rfl⟩
      | token t => cases hstep; exact ⟨by simp [Item.delta], rfl⟩
      | position x =>
        simp only [] at hstep
        split at hstep <;> cases hstep <;> exact ⟨by simp [Item.delta], rfl⟩
      | lineTag x =>
        simp only [] at hstep
        split at hstep <;> cases hstep <;> exact ⟨by simp [Item.delta], rfl⟩
      | htmlTag x =>
        cases hstep
        exact ⟨by simp [Item.delta], rfl⟩
    cases data with
    | none =>
      simp only [] at h
      cases h
      exact hk
    | some d =>
      simp only [] at h
      cases hf : ({ p1 with pos := next } : printer).flush next with
      | error e => rw [hf] at h; cases h
      | ok p2 =>
        rw [hf] at h
        cases h
        have k1 := flush_nest _ _ _ hf
        have k2 := (writeNewlines_nest p2 (next.Line - p2.pos.Line)).andNest
          (writeItem_nest _ next d s)
        have k := k1.andNest k2
        exact ⟨by rw [k.1]; exact hk.1, by rw [k.2]; exact hk.2⟩

theorem printLoop_nest : ∀ (items : List Item) (slt : Bool) (p q : printer),
    printLoop items slt p = .ok q →
    (q.indent : Int) = p.indent + itemsDelta items ∧ q.level = p.level
  | [], _, p, q, h => by cases h; exact ⟨by simp [itemsDelta], rfl⟩
  | f :: rest, slt, p, q, h => by
    simp only [printLoop] at h
    cases hi : p.printItem slt f with
    | error e => rw [hi] at h; cases h
    | ok r =>
      rw [hi] at h
      have h1 := printItem_nest p slt f r hi
      have h2 := printLoop_nest rest r.1 r.2 q h
      refine ⟨?_, h2.2.trans h1.2⟩
      simp only [itemsDelta, List.map_cons, List.sum_cons] at h2 ⊢
      omega

theorem print_nest (p : printer) (args : List Item) (q : printer) (h : p.print args = .ok q) :
    (q.indent : Int) = p.indent + itemsDelta args ∧ q.level = p.level :=
  printLoop_nest args false p q h

theorem print_nest_zero (p : printer) (args : List Item) (q : printer)
    (h : p.print args = .ok q) (h0 : itemsDelta args = 0) : p.Nest q := by
  have h1 := print_nest p args q h
  rw [h0] at h1
  exact ⟨by omega, h1.2⟩

theorem commentList_nest : ∀ (cs : List Comment) (p q : printer),
    commentList cs p = .ok q → p.Nest q
  | [], p, q, h => by cases h; exact Nest.nest_refl p
  | c :: rest, p, q, h => by
    simp only [commentList] at h
    cases h1 : p.print [.position c.pos, .bytes c.Text] with
    | error e => rw [h1] at h; cases h
    | ok p1 =>
      rw [h1] at h
      have s1 := print_nest_zero _ _ _ h1 rfl
      simp only [] at h
      split at h
      · split at h
        · cases h2 : p1.print [.whiteSpace .newline] with
          | error e => rw [h2] at h; cases h
          | ok p2 =>
            rw [h2] at h
            exact (s1.andNest (print_nest_zero _ _ _ h2 rfl)).andNest
              (commentList_nest rest p2 q h)
        · exact s1.andNest (commentList_nest rest p1 q h)
      · cases h

theorem leadComment_nest (p : printer) (d : Option CommentGroup) (q : printer)
    (h : p.leadComment d = .ok q) : p.Nest q := by
  unfold leadComment at h
  split at h
  · cases h1 : commentList _ p with
    | error e => rw [h1] at h; cases h
    | ok p1 =>
      rw [h1] at h
      exact (commentList_nest _ _ _ h1).andNest (print_nest_zero _ _ _ h rfl)
  · cases h; exact Nest.nest_refl p

theorem lineComment_nest (p : printer) (d : Option CommentGroup) (q : printer)
    (h : p.lineComment d = .ok q) : p.Nest q := by
  unfold lineComment at h
  split at h
  · cases h1 : p.print [.whiteSpace .tab] with
    | error e => rw [h1] at h; cases h
    | ok p1 =>
      rw [h1] at h
      exact (print_nest_zero _ _ _ h1 rfl).andNest (commentList_nest _ _ _ h)
  · cases h; exact Nest.nest_refl p

theorem runOp_nest (p : printer) (op : Op) (q : printer) (h : p.runOp op = .ok q) :
    (q.indent : Int) = p.indent + op.delta ∧ q.level = p.level + op.lvl := by
  cases op with
  | print args =>
    have h1 := print_nest p args q h
    exact ⟨h1.1, by simp [Op.lvl, h1.2]⟩
  | leadComment d =>
    have h1 := leadComment_nest p d q h
    exact ⟨by simp [Op.delta, h1.1], by simp [Op.lvl, h1.2]⟩
  | lineComment d =>
    have h1 := lineComment_nest p d q h
    exact ⟨by simp [Op.delta, h1.1], by simp [Op.lvl, h1.2]⟩
  | levelInc => cases h; exact ⟨by simp [Op.delta], by simp [Op.lvl]⟩
  | levelDec => cases h; exact ⟨by simp [Op.delta], by simp [Op.lvl]; rfl⟩
  | crash msg => cases h

/-- A run that completes changes the indentation by the sum of the `int`
arguments of its calls of `print`, and the nesting level by the number of
`p.level++` minus the number of `p.level--`. -/
theorem run_nest : ∀ (ops : List Op) (p q : printer), p.run ops = .ok q →
    (q.indent : Int) = p.indent + opsDelta ops ∧ q.level = p.level + opsLvl ops
  | [], p, q, h => by cases h; exact ⟨by simp [opsDelta], by simp [opsLvl]⟩
  | op :: rest, p, q, h => by
    simp only [run] at h
    cases h1 : p.runOp op with
    | error e => rw [h1] at h; cases h
    | ok p1 =>
      rw [h1] at h
      have k1 := runOp_nest p op p1 h1
      have k2 := run_nest rest p1 q h
      simp only [opsDelta, opsLvl, List.map_cons, List.sum_cons] at k2 ⊢
      omega

end printer

/-! ## Balance of the nesting level

Every walk asks for as many `p.level++` as `p.level--`. -/

@[simp] theorem opsLvl_nil : opsLvl [] = 0 := rfl

@[simp] theorem opsLvl_cons (op : Op) (ops : List Op) :
    opsLvl (op :: ops) = op.lvl + opsLvl ops := by
  simp [opsLvl]

@[simp] theorem opsLvl_append (a b : List Op) : opsLvl (a ++ b) = opsLvl a + opsLvl b := by
  simp [opsLvl]

@[simp] theorem opsLvl_printPos (pos : Option Position) : opsLvl (printPos pos).ops = 0 := by
  cases pos <;> simp [printPos, Op.lvl]

@[simp] theorem opsLvl_ite (c : Prop) [Decidable c] (a b : List Op) :
    opsLvl (if c then a else b) = if c then opsLvl a else opsLvl b := by
  split <;> rfl

theorem exprListLine_lvl (mode : Nat) : ∀ (list : List ExprW) (i : Nat),
    (∀ x ∈ list, opsLvl x.expr.ops = 0) → opsLvl (exprListLine mode i list).ops = 0
  | [], _, _ => rfl
  | x :: rest, i, h => by
    have ih := exprListLine_lvl mode rest (i + 1) (fun y hy => h y (List.mem_cons_of_mem _ hy))
    have hx := h x (List.mem_cons_self _ _)
    simp only [exprListLine]
    repeat' split
    all_goals simp [Op.lvl, ih, hx]

theorem exprListLines_lvl (mode : Nat) : ∀ (list : List ExprW) (i : Nat) (line : Int),
    (∀ x ∈ list, opsLvl x.expr.ops = 0) → opsLvl (exprListLines mode i line list).ops = 0
  | [], _, _, _ => rfl
  | x :: rest, i, line, h => by
    have hx := h x (List.mem_cons_self _ _)
    have ih := fun l => exprListLines_lvl mode rest (i + 1) l
      (fun y hy => h y (List.mem_cons_of_mem _ hy))
    simp only [exprListLines]
    repeat' split
    all_goals simp [Op.lvl, ih, hx]

theorem exprList_lvl (list : List ExprW) (mode : Nat)
    (h : ∀ x ∈ list, opsLvl x.expr.ops = 0) : opsLvl (exprList list mode).ops = 0 := by
  have h1 := exprListLine_lvl mode list 0 h
  have h2 := fun l => exprListLines_lvl mode list 0 l h
  unfold exprList
  repeat' split
  all_goals simp [Op.lvl, h1, h2]

@[simp] theorem exprIdent_lvl (x : Ident) : opsLvl (exprIdent x).ops = 0 := by
  simp [exprIdent, Op.lvl]

@[simp] theorem exprBasicLit_lvl (x : BasicLit) : opsLvl (exprBasicLit x).ops = 0 := by
  simp [exprBasicLit, Op.lvl]

@[simp] theorem identList_lvl (list : List Ident) : opsLvl (identList list).ops = 0 := by
  unfold identList
  apply exprList_lvl
  intro x hx
  obtain ⟨y, _, rfl⟩ := List.mem_map.1 hx
  exact exprIdent_lvl y

@[simp] theorem stringList_lvl (list : List BasicLit) : opsLvl (stringList list).ops = 0 := by
  unfold stringList
  apply exprList_lvl
  intro x hx
  obtain ⟨y, _, rfl⟩ := List.mem_map.1 hx
  exact exprBasicLit_lvl y

@[simp] theorem exprStringList_lvl (list : List BasicLit) :
    opsLvl (exprStringList list).ops = 0 := by
  simp [exprStringList]

theorem parametersLoop_lvl : ∀ (list : List FieldW) (i : Nat),
    (∀ f ∈ list, f.BalLvl) → opsLvl (parametersLoop i list).ops = 0
  | [], _, _ => rfl
  | par :: rest, i, h => by
    have ih := parametersLoop_lvl rest (i + 1) (fun y hy => h y (List.mem_cons_of_mem _ hy))
    have hx := (h par (List.mem_cons_self _ _)).1
    simp only [parametersLoop]
    repeat' split
    all_goals simp [Op.lvl, ih, hx]

theorem parameters_lvl (list : List FieldW) (h : ∀ f ∈ list, f.BalLvl) :
    opsLvl (parameters list).ops = 0 := by
  have h1 := parametersLoop_lvl list 0 h
  unfold parameters
  repeat' split
  all_goals simp [Op.lvl, h1]

theorem signature_lvl (params : List FieldW) (result : Option (List FieldW))
    (hp : ∀ f ∈ params, f.BalLvl) (hr : ∀ l, result = some l → ∀ f ∈ l, f.BalLvl) :
    opsLvl (signature params result).ops = 0 := by
  have h1 := parameters_lvl params hp
  unfold signature
  cases result with
  | none => simp [h1]
  | some l =>
    have h2 := parameters_lvl l (hr l rfl)
    have h3 : ∀ f ∈ l, opsLvl f.Typ.ops = 0 := fun f hf => (hr l rfl f hf).1
    simp only []
    repeat' split
    all_goals simp [Op.lvl, h1, h2, h3]

theorem fieldListStruct_lvl (sep : whiteSpace) (n : Nat) (isIncomplete : Bool) :
    ∀ (list : List FieldW) (i : Nat),
    (∀ f ∈ list, f.BalLvl) → opsLvl (fieldListStruct sep n isIncomplete i list).ops = 0
  | [], _, _ => rfl
  | f :: rest, i, h => by
    have ih := fieldListStruct_lvl sep n isIncomplete rest (i + 1)
      (fun y hy => h y (List.mem_cons_of_mem _ hy))
    have hx := (h f (List.mem_cons_self _ _)).1
    simp only [fieldListStruct]
    repeat' split
    all_goals simp [Op.lvl, ih, hx]

theorem fieldListInterface_lvl (n : Nat) (isIncomplete : Bool) :
    ∀ (list : List FieldW) (i : Nat),
    (∀ f ∈ list, f.BalLvl) → opsLvl (fieldListInterface n isIncomplete i list).ops = 0
  | [], _, _ => rfl
  | f :: rest, i, h => by
    have ih := fieldListInterface_lvl n isIncomplete rest (i + 1)
      (fun y hy => h y (List.mem_cons_of_mem _ hy))
    have hx := (h f (List.mem_cons_self _ _)).1
    have hy := (h f (List.mem_cons_self _ _)).2
    simp only [fieldListInterface]
    repeat' split
    all_goals simp [Op.lvl, ih, hx]
    all_goals exact hy _ (by assumption)

theorem fieldList_lvl (lbrace : Position) (list : List FieldW) (rbrace : Position)
    (isIncomplete isStruct : Bool) (h : ∀ f ∈ list, f.BalLvl) :
    opsLvl (fieldList lbrace list rbrace isIncomplete isStruct).ops = 0 := by
  have h1 := fun sep => fieldListStruct_lvl sep list.length isIncomplete list 0 h
  have h2 := fieldListInterface_lvl list.length isIncomplete list 0 h
  unfold fieldList
  repeat' split
  all_goals simp [Op.lvl, h1, h2]

@[simp] theorem binaryExprOp_lvl (printBlanks : Bool) (OpPos : Position) (tok : Token) :
    opsLvl (binaryExprOp printBlanks OpPos tok).ops = 0 := by
  unfold binaryExprOp
  split <;> simp [Op.lvl]

theorem stmtListLoop_lvl : ∀ (list : List (Walk Bool)) (i : Nat) (optSemi : Bool),
    (∀ s ∈ list, opsLvl s.ops = 0) → opsLvl (stmtListLoop i optSemi list).ops = 0
  | [], _, _, _ => rfl
  | s :: rest, i, optSemi, h => by
    have ih := fun o => stmtListLoop_lvl rest (i + 1) o
      (fun y hy => h y (List.mem_cons_of_mem _ hy))
    have hx := h s (List.mem_cons_self _ _)
    simp only [stmtListLoop]
    repeat' split
    all_goals simp [Op.lvl, ih, hx]

theorem stmtList_lvl (list : List (Walk Bool)) (h : ∀ s ∈ list, opsLvl s.ops = 0) :
    opsLvl (stmtList list).ops = 0 := by
  have h1 := stmtListLoop_lvl list 0 false h
  unfold stmtList
  repeat' split
  all_goals simp [Op.lvl, h1]

theorem block_lvl (s : BlockW) (h : ∀ w ∈ s.List, opsLvl w.ops = 0) :
    opsLvl (block s).ops = 0 := by
  have h1 := stmtList_lvl s.List h
  unfold block
  repeat' split
  all_goals simp [Op.lvl, h1]

theorem switchBlockLoop_lvl : ∀ (list : List (Walk Bool)),
    (∀ s ∈ list, opsLvl s.ops = 0) → opsLvl (switchBlockLoop list).ops = 0
  | [], _ => rfl
  | s :: rest, h => by
    have ih := switchBlockLoop_lvl rest (fun y hy => h y (List.mem_cons_of_mem _ hy))
    have hx := h s (List.mem_cons_self _ _)
    simp [switchBlockLoop, Op.lvl, ih, hx]

theorem switchBlock_lvl (s : BlockW) (h : ∀ w ∈ s.List, opsLvl w.ops = 0) :
    opsLvl (switchBlock s).ops = 0 := by
  have h1 := switchBlockLoop_lvl s.List h
  unfold switchBlock
  repeat' split
  all_goals simp [Op.lvl, h1]

theorem stmtBlock_lvl (s : BlockW) (h : ∀ w ∈ s.List, opsLvl w.ops = 0) :
    opsLvl (stmtBlock s).ops = 0 := by
  have h1 := block_lvl s h
  simp [stmtBlock, Op.lvl, h1]

theorem controlClause_lvl (isForStmt : Bool) (init expr post : Option (Walk Bool))
    (hi : ∀ w, init = some w → opsLvl w.ops = 0)
    (he : ∀ w, expr = some w → opsLvl w.ops = 0)
    (hp : ∀ w, post = some w → opsLvl w.ops = 0) :
    opsLvl (controlClause isForStmt init expr post).ops = 0 := by
  unfold controlClause
  cases init <;> cases expr <;> cases post <;>
    simp_all [Op.lvl]

theorem declSpecs_lvl : ∀ (list : List (Walk (Option CommentGroup × Bool))) (i : Nat)
    (comment : Option CommentGroup),
    (∀ s ∈ list, opsLvl s.ops = 0) → opsLvl (declSpecs i comment list).ops = 0
  | [], _, _, _ => rfl
  | s :: rest, i, comment, h => by
    have ih := fun c => declSpecs_lvl rest (i + 1) c
      (fun y hy => h y (List.mem_cons_of_mem _ hy))
    have hx := h s (List.mem_cons_self _ _)
    simp only [declSpecs]
    repeat' split
    all_goals simp [Op.lvl, ih, hx]

set_option maxHeartbeats 1600000

mutual

theorem expr1_lvl (e : Expr) (prec1 : Nat) : opsLvl (expr1 e prec1).ops = 0 := by
  cases e with
  | BadExpr pos => rw [expr1_BadExpr_eq]; simp [Op.lvl]
  | Ident x => rw [expr1_Ident_eq]; simp [Op.lvl]
  | Ellipsis pos => rw [expr1_Ellipsis_eq]; simp [Op.lvl]
  | BasicLit x => rw [expr1_BasicLit_eq]; simp [Op.lvl]
  | StringList Strings => rw [expr1_StringList_eq]; simp [Op.lvl]
  | FuncLit Typ Body =>
    have h1 := funcType_lvl Typ
    have h2 := stmtBlock_lvl (blockW Body) (blockW_lvl Body)
    rw [expr1_FuncLit_eq]; simp [Op.lvl, h1, h2]
  | CompositeLit Typ Lbrace Elts Rbrace =>
    have h1 := fun p => expr1_lvl Typ p
    have h2 := fun m => exprList_lvl (exprs Elts) m (exprs_lvl Elts)
    rw [expr1_CompositeLit_eq]; simp [Op.lvl, h1, h2]
  | ParenExpr pos X Rparen =>
    have h1 := fun p => expr1_lvl X p
    rw [expr1_ParenExpr_eq]; simp [Op.lvl, h1]
  | SelectorExpr X Sel =>
    have h1 := fun p => expr1_lvl X p
    rw [expr1_SelectorExpr_eq]; simp [Op.lvl, h1]
  | IndexExpr X Index End =>
    have h1 := fun p => expr1_lvl X p
    have h2 := fun p => expr1_lvl Index p
    cases End with
    | none => rw [expr1_IndexExpr_eq]; simp [Op.lvl, h1, h2]
    | some e =>
      have h3 := fun p => expr1_lvl e p
      rw [expr1_IndexExpr_eq]
      simp only []
      split <;> simp [Op.lvl, h1, h2, h3]
  | TypeAssertExpr X Typ =>
    have h1 := fun p => expr1_lvl X p
    cases Typ with
    | none => rw [expr1_TypeAssertExpr_eq]; simp [Op.lvl, h1]
    | some t =>
      have h3 := fun p => expr1_lvl t p
      rw [expr1_TypeAssertExpr_eq]; simp [Op.lvl, h1, h3]
  | CallExpr x =>
    have h1 := callExpr_lvl x
    rw [expr1_CallExpr_eq]; simp [Op.lvl, h1]
  | StarExpr pos X =>
    have h1 := fun p => expr1_lvl X p
    rw [expr1_StarExpr_eq]; simp [Op.lvl, h1]
  | UnaryExpr pos tok X =>
    have h1 := fun p => expr1_lvl X p
    rw [expr1_UnaryExpr_eq]
    simp only []
    repeat' split
    all_goals simp [Op.lvl, h1]
  | BinaryExpr X OpPos tok Y =>
    have h1 := fun p => expr1_lvl X p
    have h2 := fun p => expr1_lvl Y p
    have h3 := fun b p => binaryExprSpine_lvl b p X
    rw [expr1_BinaryExpr_eq]
    simp only []
    repeat' split
    all_goals simp [Op.lvl, h1, h2, h3]
  | KeyValueExpr Key Colon Value =>
    have h1 := fun p => expr1_lvl Key p
    have h2 := fun p => expr1_lvl Value p
    rw [expr1_KeyValueExpr_eq]; simp [Op.lvl, h1, h2]
  | ArrayType pos Len Elt =>
    have h1 := fun p => expr1_lvl Elt p
    cases Len with
    | none => rw [expr1_ArrayType_eq]; simp [Op.lvl, h1]
    | some l =>
      have h3 := fun p => expr1_lvl l p
      rw [expr1_ArrayType_eq]; simp [Op.lvl, h1, h3]
  | StructType pos Lbrace Fields Rbrace Incomplete =>
    have h1 := fun a b c d => fieldList_lvl a (fields Fields) b c d (fields_lvl Fields)
    rw [expr1_StructType_eq]; simp [Op.lvl, h1]
  | FuncType x =>
    have h1 := funcType_lvl x
    rw [expr1_FuncType_eq]; simp [Op.lvl, h1]
  | InterfaceType pos Lbrace Methods Rbrace Incomplete =>
    have h1 := fun a b c d => fieldList_lvl a (fields Methods) b c d (fields_lvl Methods)
    rw [expr1_InterfaceType_eq]; simp [Op.lvl, h1]
  | MapType pos Key Value =>
    have h1 := fun p => expr1_lvl Key p
    have h2 := fun p => expr1_lvl Value p
    rw [expr1_MapType_eq]; simp [Op.lvl, h1, h2]
  | ChanType pos Dir Value =>
    have h1 := fun p => expr1_lvl Value p
    rw [expr1_ChanType_eq]
    simp only []
    repeat' split
    all_goals simp [Op.lvl, h1]
termination_by sizeOf e

theorem binaryExprSpine_lvl (printBlanks : Bool) (prec : Nat) (e : Expr) :
    opsLvl (binaryExprSpine printBlanks prec e).ops = 0 := by
  cases e with
  | BinaryExpr X OpPos tok Y =>
    have h1 := fun p => expr1_lvl X p
    have h2 := fun p => expr1_lvl Y p
    have h3 := fun b p => binaryExprSpine_lvl b p X
    rw [binaryExprSpine_BinaryExpr_eq]
    simp only []
    repeat' split
    all_goals simp [Op.lvl, h1, h2, h3]
  | _ => rfl
termination_by sizeOf e

theorem exprs_lvl (l : List Expr) : ∀ w ∈ exprs l, opsLvl w.expr.ops = 0 := by
  cases l with
  | nil => rw [exprs_nil_eq]; intro w hw; cases hw
  | cons x rest =>
    have h1 := fun p => expr1_lvl x p
    have h2 := exprs_lvl rest
    rw [exprs_cons_eq]
    intro w hw
    rcases List.mem_cons.1 hw with rfl | hw
    · exact h1 _
    · exact h2 w hw
termination_by sizeOf l

theorem callExpr_lvl (c : CallExpr) : opsLvl (callExpr c).ops = 0 := by
  cases c with
  | mk Fun Lparen Args Rparen =>
    have h1 := fun p => expr1_lvl Fun p
    have h2 := fun m => exprList_lvl (exprs Args) m (exprs_lvl Args)
    rw [callExpr_mk_eq]; simp [Op.lvl, h1, h2]
termination_by sizeOf c

theorem funcSignature_lvl (t : FuncType) : opsLvl (funcSignature t).ops = 0 := by
  cases t with
  | mk pos Params Results =>
    have h1 := fields_lvl Params
    cases Results with
    | none =>
      rw [funcSignature_mk_eq]
      exact signature_lvl _ _ h1 (fun l hl => by cases hl)
    | some r =>
      have h2 := fields_lvl r
      rw [funcSignature_mk_eq]
      exact signature_lvl _ _ h1 (fun l hl => by cases hl; exact h2)
termination_by sizeOf t

theorem funcType_lvl (t : FuncType) : opsLvl (funcType t).ops = 0 := by
  cases t with
  | mk pos Params Results =>
    have h1 := fields_lvl Params
    cases Results with
    | none =>
      have h3 := signature_lvl (fields Params) none h1 (fun l hl => by cases hl)
      rw [funcType_mk_eq]; simp [Op.lvl, h3]
    | some r =>
      have h2 := fields_lvl r
      have h3 := signature_lvl (fields Params) (some (fields r)) h1
        (fun l hl => by cases hl; exact h2)
      rw [funcType_mk_eq]; simp [Op.lvl, h3]
termination_by sizeOf t

theorem fieldW_lvl (f : ast.Field) : (fieldW f).BalLvl := by
  cases f with
  | mk Doc Names Typ Tag Comment =>
    have h1 := fun p => expr1_lvl Typ p
    rw [fieldW_mk_eq]
    refine ⟨h1 _, ?_⟩
    cases Typ with
    | FuncType x =>
      cases x with
      | mk pos Params Results =>
        have h2 := fields_lvl Params
        cases Results with
        | none =>
          intro s hs
          simp only [Option.some.injEq] at hs
          subst hs
          exact signature_lvl _ _ h2 (fun l hl => by cases hl)
        | some r =>
          have h3 := fields_lvl r
          intro s hs
          simp only [Option.some.injEq] at hs
          subst hs
          exact signature_lvl _ _ h2 (fun l hl => by cases hl; exact h3)
    | _ => intro s hs; cases hs
termination_by sizeOf f

theorem fields_lvl (l : List ast.Field) : ∀ f ∈ fields l, f.BalLvl := by
  cases l with
  | nil => rw [fields_nil_eq]; intro w hw; cases hw
  | cons x rest =>
    have h1 := fieldW_lvl x
    have h2 := fields_lvl rest
    rw [fields_cons_eq]
    intro w hw
    rcases List.mem_cons.1 hw with rfl | hw
    · exact h1
    · exact h2 w hw
termination_by sizeOf l

theorem blockW_lvl (b : BlockStmt) : ∀ w ∈ (blockW b).List, opsLvl w.ops = 0 := by
  cases b with
  | mk pos list Rbrace =>
    have h1 := stmts_lvl list
    rw [blockW_mk_eq]
    exact h1
termination_by sizeOf b

theorem stmts_lvl (l : List Stmt) : ∀ w ∈ stmts l, opsLvl w.ops = 0 := by
  cases l with
  | nil => rw [stmts_nil_eq]; intro w hw; cases hw
  | cons x rest =>
    have h1 := stmt_lvl x
    have h2 := stmts_lvl rest
    rw [stmts_cons_eq]
    intro w hw
    rcases List.mem_cons.1 hw with rfl | hw
    · exact h1
    · exact h2 w hw
termination_by sizeOf l

theorem stmt_lvl (s : Stmt) : opsLvl (stmt s).ops = 0 := by
  cases s with
  | BadStmt pos => rw [stmt_BadStmt_eq]; simp [Op.lvl]
  | DeclStmt d =>
    have h1 := decl_lvl d
    rw [stmt_DeclStmt_eq]
    simp only [Walk.bind_ops, opsLvl_append, opsLvl_printPos, h1]
    cases (decl d).val.1 <;> simp [Op.lvl]
  | EmptyStmt pos => rw [stmt_EmptyStmt_eq]; simp [Op.lvl]
  | LabeledStmt Label s1 =>
    have h1 := stmt_lvl s1
    rw [stmt_LabeledStmt_eq]; simp [Op.lvl, h1]
  | ExprStmt X =>
    have h1 := fun p => expr1_lvl X p
    rw [stmt_ExprStmt_eq]; simp [Op.lvl, h1]
  | IncDecStmt X Tok =>
    have h1 := fun p => expr1_lvl X p
    rw [stmt_IncDecStmt_eq]; simp [Op.lvl, h1]
  | AssignStmt Lhs TokPos Tok Rhs =>
    have h1 := fun m => exprList_lvl (exprs Lhs) m (exprs_lvl Lhs)
    have h2 := fun m => exprList_lvl (exprs Rhs) m (exprs_lvl Rhs)
    rw [stmt_AssignStmt_eq]; simp [Op.lvl, h1, h2]
  | GoStmt pos Call =>
    have h1 := callExpr_lvl Call
    rw [stmt_GoStmt_eq]; simp [Op.lvl, h1]
  | DeferStmt pos Call =>
    have h1 := callExpr_lvl Call
    rw [stmt_DeferStmt_eq]; simp [Op.lvl, h1]
  | ReturnStmt pos Results =>
    cases Results with
    | none => rw [stmt_ReturnStmt_eq]; simp [Op.lvl]
    | some l =>
      have h1 := fun m => exprList_lvl (exprs l) m (exprs_lvl l)
      rw [stmt_ReturnStmt_eq]; simp [Op.lvl, h1]
  | BranchStmt pos Tok Label =>
    rw [stmt_BranchStmt_eq]
    cases Label <;> simp [Op.lvl]
  | BlockStmt b =>
    have h1 := block_lvl (blockW b) (blockW_lvl b)
    rw [stmt_BlockStmt_eq]; simp [Op.lvl, h1]
  | IfStmt pos Init Cond Body Else =>
    have h1 := block_lvl (blockW Body) (blockW_lvl Body)
    have hI : ∀ s, Init = some s → opsLvl (stmt s).ops = 0 :=
      fun s hs => by subst hs; exact stmt_lvl s
    have hC : ∀ x, Cond = some x → ∀ p, opsLvl (expr1 x p).ops = 0 :=
      fun x hx p => by subst hx; exact expr1_lvl x p
    have hE : ∀ s, Else = some s → opsLvl (stmt s).ops = 0 :=
      fun s hs => by subst hs; exact stmt_lvl s
    rw [stmt_IfStmt_eq]
    cases Init <;> cases Cond <;> cases Else <;>
      simp [controlClause, Op.lvl, h1, hI, hC, hE]
  | CaseClause pos Values Colon Body =>
    have h1 := stmtList_lvl (stmts Body) (stmts_lvl Body)
    cases Values with
    | none => rw [stmt_CaseClause_eq]; simp [Op.lvl, h1]
    | some l =>
      have h2 := fun m => exprList_lvl (exprs l) m (exprs_lvl l)
      rw [stmt_CaseClause_eq]; simp [Op.lvl, h1, h2]
  | SwitchStmt pos Init Tag Body =>
    have h1 := switchBlock_lvl (blockW Body) (blockW_lvl Body)
    have hI : ∀ s, Init = some s → opsLvl (stmt s).ops = 0 :=
      fun s hs => by subst hs; exact stmt_lvl s
    have hC : ∀ x, Tag = some x → ∀ p, opsLvl (expr1 x p).ops = 0 :=
      fun x hx p => by subst hx; exact expr1_lvl x p
    rw [stmt_SwitchStmt_eq]
    cases Init <;> cases Tag <;>
      simp [controlClause, Op.lvl, h1, hI, hC]
  | TypeCaseClause pos Types Colon Body =>
    have h1 := stmtList_lvl (stmts Body) (stmts_lvl Body)
    cases Types with
    | none => rw [stmt_TypeCaseClause_eq]; simp [Op.lvl, h1]
    | some l =>
      have h2 := fun m => exprList_lvl (exprs l) m (exprs_lvl l)
      rw [stmt_TypeCaseClause_eq]; simp [Op.lvl, h1, h2]
  | TypeSwitchStmt pos Init Assign Body =>
    have h1 := switchBlock_lvl (blockW Body) (blockW_lvl Body)
    have h2 := stmt_lvl Assign
    cases Init with
    | none => rw [stmt_TypeSwitchStmt_eq]; simp [Op.lvl, h1, h2]
    | some s =>
      have h3 := stmt_lvl s
      rw [stmt_TypeSwitchStmt_eq]; simp [Op.lvl, h1, h2, h3]
  | CommClause pos Tok Lhs Rhs Colon Body =>
    have h1 := stmtList_lvl (stmts Body) (stmts_lvl Body)
    cases Rhs with
    | none => rw [stmt_CommClause_eq]; simp [Op.lvl, h1]
    | some rhs =>
      have h2 := fun p => expr1_lvl rhs p
      cases Lhs with
      | none => rw [stmt_CommClause_eq]; simp [Op.lvl, h1, h2]
      | some lhs =>
        have h3 := fun p => expr1_lvl lhs p
        rw [stmt_CommClause_eq]; simp [Op.lvl, h1, h2, h3]
  | SelectStmt pos Body =>
    have h1 := switchBlock_lvl (blockW Body) (blockW_lvl Body)
    rw [stmt_SelectStmt_eq]; simp [Op.lvl, h1]
  | ForStmt pos Init Cond Post Body =>
    have h1 := block_lvl (blockW Body) (blockW_lvl Body)
    have hI : ∀ s, Init = some s → opsLvl (stmt s).ops = 0 :=
      fun s hs => by subst hs; exact stmt_lvl s
    have hC : ∀ x, Cond = some x → ∀ p, opsLvl (expr1 x p).ops = 0 :=
      fun x hx p => by subst hx; exact expr1_lvl x p
    have hP : ∀ s, Post = some s → opsLvl (stmt s).ops = 0 :=
      fun s hs => by subst hs; exact stmt_lvl s
    rw [stmt_ForStmt_eq]
    cases Init <;> cases Cond <;> cases Post <;>
      simp [controlClause, Op.lvl, h1, hI, hC, hP]
  | RangeStmt pos Key Value TokPos Tok X Body =>
    have h1 := block_lvl (blockW Body) (blockW_lvl Body)
    have h2 := fun p => expr1_lvl Key p
    have h3 := fun p => expr1_lvl X p
    cases Value with
    | none => rw [stmt_RangeStmt_eq]; simp [Op.lvl, h1, h2, h3]
    | some v =>
      have h4 := fun p => expr1_lvl v p
      rw [stmt_RangeStmt_eq]; simp [Op.lvl, h1, h2, h3, h4]
termination_by sizeOf s

theorem spec_lvl (s : Spec) (m n : Nat) : opsLvl (spec s m n).ops = 0 := by
  cases s with
  | ImportSpec Doc Name Path Comment =>
    rw [spec_ImportSpec_eq]
    simp only []
    repeat' split
    all_goals simp [Op.lvl]
  | ValueSpec Doc Names Typ Values Comment =>
    cases Typ with
    | none =>
      cases Values with
      | none =>
        rw [spec_ValueSpec_eq]
        simp only []
        repeat' split
        all_goals simp [Op.lvl]
      | some l =>
        have h2 := fun m => exprList_lvl (exprs l) m (exprs_lvl l)
        rw [spec_ValueSpec_eq]
        simp only []
        repeat' split
        all_goals simp [Op.lvl, h2]
    | some t =>
      have h1 := fun p => expr1_lvl t p
      cases Values with
      | none =>
        rw [spec_ValueSpec_eq]
        simp only []
        repeat' split
        all_goals simp [Op.lvl, h1]
      | some l =>
        have h2 := fun m => exprList_lvl (exprs l) m (exprs_lvl l)
        rw [spec_ValueSpec_eq]
        simp only []
        repeat' split
        all_goals simp [Op.lvl, h1, h2]
  | TypeSpec Doc Name Typ Comment =>
    have h1 := fun p => expr1_lvl Typ p
    rw [spec_TypeSpec_eq]; simp [Op.lvl, h1]
termination_by sizeOf s

theorem specs_lvl (m n : Nat) (l : List Spec) : ∀ w ∈ specs m n l, opsLvl w.ops = 0 := by
  cases l with
  | nil => rw [specs_nil_eq]; intro w hw; cases hw
  | cons x rest =>
    have h1 := spec_lvl x m n
    have h2 := specs_lvl m n rest
    rw [specs_cons_eq]
    intro w hw
    rcases List.mem_cons.1 hw with rfl | hw
    · exact h1
    · exact h2 w hw
termination_by sizeOf l

theorem decl_lvl (d : Decl) : opsLvl (decl d).ops = 0 := by
  cases d with
  | BadDecl pos => rw [decl_BadDecl_eq]; simp [Op.lvl]
  | GenDecl Doc pos Tok Lparen Specs Rparen =>
    have h1 := fun m n => declSpecs_lvl (specs m n Specs) 0 none (specs_lvl m n Specs)
    cases Specs with
    | nil =>
      rw [decl_GenDecl_eq]
      simp only []
      repeat' split
      all_goals simp [Op.lvl, h1]
    | cons s rest =>
      have h2 := fun m n => spec_lvl s m n
      rw [decl_GenDecl_eq]
      simp only []
      repeat' split
      all_goals simp [Op.lvl, h1, h2]
  | FuncDecl Doc Recv Name Typ Body =>
    have h1 := funcSignature_lvl Typ
    cases Recv with
    | none =>
      cases Body with
      | none => rw [decl_FuncDecl_eq]; simp [Op.lvl, h1]
      | some b =>
        have h2 := stmtBlock_lvl (blockW b) (blockW_lvl b)
        rw [decl_FuncDecl_eq]; simp [Op.lvl, h1, h2]
    | some f =>
      cases f with
      | mk a Names RecvTyp c e =>
        have h3 := fun p => expr1_lvl RecvTyp p
        cases Body with
        | none =>
          rw [decl_FuncDecl_eq]
          simp only []
          repeat' split
          all_goals simp [Op.lvl, h1, h3]
        | some b =>
          have h2 := stmtBlock_lvl (blockW b) (blockW_lvl b)
          rw [decl_FuncDecl_eq]
          simp only []
          repeat' split
          all_goals simp [Op.lvl, h1, h2, h3]
termination_by sizeOf d

end

/-! ## The formatter methods keep the indentation and the nesting level -/

theorem fileDecls_delta : ∀ (l : List Decl), opsDelta (fileDecls l).ops = 0
  | [] => rfl
  | d :: rest => by
    have h1 := decl_delta d
    have h2 := fileDecls_delta rest
    simp [fileDecls, Op.delta, itemsDelta, Item.delta, h1, h2]

theorem fileDecls_lvl : ∀ (l : List Decl), opsLvl (fileDecls l).ops = 0
  | [] => rfl
  | d :: rest => by
    have h1 := decl_lvl d
    have h2 := fileDecls_lvl rest
    simp [fileDecls, Op.lvl, h1, h2]

/-- The calls of a formatter method ask for indentation changes that sum to
zero and for as many `p.level++` as `p.level--`. -/
theorem formatterOps_balanced (f : Formatter) :
    opsDelta (formatterOps f) = 0 ∧ opsLvl (formatterOps f) = 0 := by
  cases f with
  | exprList list mode =>
    exact ⟨exprList_delta (exprs list) mode (exprs_delta list),
      exprList_lvl (exprs list) mode (exprs_lvl list)⟩
  | fieldList lbrace list rbrace isIncomplete isStruct =>
    exact ⟨fieldList_delta lbrace (fields list) rbrace isIncomplete isStruct (fields_delta list),
      fieldList_lvl lbrace (fields list) rbrace isIncomplete isStruct (fields_lvl list)⟩
  | expr x => exact ⟨expr1_delta x LowestPrec, expr1_lvl x LowestPrec⟩
  | stmtList list =>
    exact ⟨stmtList_delta (stmts list) (stmts_delta list),
      stmtList_lvl (stmts list) (stmts_lvl list)⟩
  | stmt s => exact ⟨stmt_delta s, stmt_lvl s⟩
  | decl d => exact ⟨decl_delta d, decl_lvl d⟩
  | file src =>
    have h1 := fileDecls_delta src.Decls
    have h2 := fileDecls_lvl src.Decls
    constructor
    · simp [formatterOps, file, exprIdent, Op.delta, itemsDelta, Item.delta, h1]
    · simp [formatterOps, file, exprIdent, Op.lvl, h2]

/-- C27: a call of `exprList`, `fieldList`, `expr`, `stmtList`, `stmt`, `decl`
or `file` that completes, on any syntax tree and from any printer state,
leaves `indent` and `level` at their values at entry. -/
theorem C27_frame (f : Formatter) (p q : printer) (h : p.run (formatterOps f) = .ok q) :
    q.indent = p.indent ∧ q.level = p.level := by
  have hb := formatterOps_balanced f
  have hn := printer.run_nest (formatterOps f) p q h
  rw [hb.1, hb.2] at hn
  exact ⟨by omega, by omega⟩

theorem C27_frame_witness :
    C27_start.run (formatterOps C27_formatter) = .ok C27_end ∧
    C27_end.indent = C27_start.indent ∧ C27_end.level = C27_start.level :=
  ⟨rfl, C27_frame C27_formatter C27_start C27_end rfl⟩

theorem C27_example :
    formatterOps C27_formatter =
      [Op.print [.position ⟨1, 1, 1⟩], Op.print [.position ⟨1, 1, 1⟩],
       Op.print [.token .FUNC], Op.print [.token .LPAREN],
       Op.levelInc,
       Op.print [.position ⟨6, 1, 6⟩], Op.print [.string ['x']],
       Op.print [.whiteSpace .blank],
       Op.print [.position ⟨8, 1, 8⟩], Op.print [.string ['T']],
       Op.levelDec,
       Op.print [.token .RPAREN], Op.print [.whiteSpace .blank],
       Op.levelInc,
       Op.print [.position ⟨11, 1, 11⟩],
       Op.print [.position ⟨11, 1, 11⟩, .token .LBRACE],
       Op.print [.int 1, .whiteSpace .formfeed],
       Op.print [.position ⟨13, 1, 13⟩], Op.print [.position ⟨13, 1, 13⟩],
       Op.print [.string ['a']],
       Op.print [.token .SEMICOLON],
       Op.print [.int (-1)],
       Op.print [.whiteSpace .formfeed],
       Op.print [.position ⟨15, 1, 15⟩, .token .RBRACE],
       Op.levelDec] := by
  rfl

/-! ## Data without a comment before it -/

namespace printer

/-- With no comment before `next`, `flush(next)` is `writeWhitespace`. -/
theorem flush_no_comment (p : printer) (next : Position)
    (hc : p.comment = [] ∨ ∃ g gs c0 l, p.comment = g :: gs ∧ g.list = c0 :: l ∧
      next.Offset ≤ c0.pos.Offset) :
    p.flush next = p.writeWhitespace := by
  rcases hc with hc | ⟨g, gs, c0, l, hc, hg, ho⟩
  · exact flush_plain p next hc
  · unfold flush
    have hlt : ¬ c0.pos.Offset < next.Offset := by omega
    simp only [hc, hg, hlt, if_false]

end printer

theorem printData_no_comment (p : printer) (slt : Bool) (f : Item) (d : List Char)
    (hf : f = .bytes d ∨ f = .string d ∨ ∃ t, f = .token t ∧ d = t.String)
    (h0 : 0 ≤ p.buflen) (h8 : p.buflen ≤ 8)
    (hc : p.comment = [] ∨ ∃ g gs c0 l, p.comment = g :: gs ∧ g.list = c0 :: l ∧
      p.pos.Offset ≤ c0.pos.Offset) :
    p.printItem slt f = .ok (false,
      (({ p with buflen := 0 } : printer).write
          (wsBytes (p.buffer.take p.buflen.toNat))).writeItem p.pos d slt) := by
  have hline : p.pos.Line - (({ p with buflen := 0 } : printer).write
      (wsBytes (p.buffer.take p.buflen.toNat))).pos.Line ≤ 0 := by
    rw [printer.write_eq]
    simp only [printer.emit]
    have := advance_line_ge p.indent (wsBytes (p.buffer.take p.buflen.toNat)) p.pos
    omega
  rcases hf with h | h | ⟨t, h, ht⟩
  all_goals
    subst h
    try subst ht
    unfold printer.printItem
    simp only [printer.eta_pos]
    rw [printer.flush_no_comment p _ hc, printer.writeWhitespace_plain p h0 h8]
    simp only []
    rw [printer.writeNewlines_nonpos _ _ hline]

/-- C25: when no comment precedes the next token (the comment cursor is nil,
or its first comment has an offset not below that of the token, which is
`p.pos` when `print` reaches the data), `print` of a data item (a byte slice
that is not nil, a string or a token) writes the buffered whitespace atoms in
order as `write` sends them, each line break followed by the indentation, and
then the data (in `GenHTML` mode between the line anchor or the stored start
tag and the stored end tag); the buffer is empty afterwards and the comment
cursor is where it was. No newline is written beyond the buffered ones,
whatever the line of the position of the token. A nil byte slice is no data:
`print` leaves the state, the buffer included, as it is. -/
theorem C25_print_data (p : printer) (slt : Bool) (f : Item) (d : List Char)
    (hf : f = .bytes d ∨ f = .string d ∨ ∃ t, f = .token t ∧ d = t.String)
    (h0 : 0 ≤ p.buflen) (h8 : p.buflen ≤ 8)
    (hc : p.comment = [] ∨ ∃ g gs c0 l, p.comment = g :: gs ∧ g.list = c0 :: l ∧
      p.pos.Offset ≤ c0.pos.Offset) :
    (∃ q, p.printItem slt f = .ok (false, q) ∧
      q.output = p.output ++ enc p.mode p.indent (wsBytes (p.buffer.take p.buflen.toNat)) ++
        (if p.mode &&& GenHTML ≠ 0 then
          (if slt = true ∧ p.pos.Line > p.lastTaggedLine then printer.lineAnchor p.pos.Line
            else p.tag.start) ++ enc p.mode p.indent d ++ p.tag.«end»
         else enc p.mode p.indent d) ∧
      q.buflen = 0 ∧ q.comment = p.comment ∧ q.indent = p.indent) ∧
    p.printItem slt .nilBytes = .ok (slt, p) := by
  refine ⟨⟨_, printData_no_comment p slt f d hf h0 h8 hc, ?_, ?_, ?_, ?_⟩, ?_⟩
  · by_cases hm : p.mode &&& GenHTML ≠ 0
    · rw [printer.writeItem_output _ _ _ _ (by rw [printer.write_eq]; exact hm)]
      rw [if_pos hm]
      simp only [printer.write_eq, printer.emit, List.append_assoc]
    · have hm0 : p.mode &&& GenHTML = 0 := by simpa using hm
      rw [printer.writeItem_noTag _ _ _ _ (Or.inl (by rw [printer.write_eq]; exact hm0))]
      rw [if_neg hm]
      simp only [printer.write_eq, printer.emit, List.append_assoc]
  · rw [(printer.writeItem_frame _ _ _ _).2.2.2.2.1, printer.write_eq]; rfl
  · rw [(printer.writeItem_frame _ _ _ _).2.2.2.2.2, printer.write_eq]; rfl
  · rw [(printer.writeItem_frame _ _ _ _).1, printer.write_eq]; rfl
  · unfold printer.printItem
    simp only [printer.eta_pos]

theorem C25_print_data_witness :
    (∃ q, C25_printer.printItem false (.bytes ['v', 'a', 'r']) = .ok (false, q) ∧
      q.output = C25_printer.output ++ enc C25_printer.mode C25_printer.indent
          (wsBytes (C25_printer.buffer.take C25_printer.buflen.toNat)) ++
        (if C25_printer.mode &&& GenHTML ≠ 0 then
          (if false = true ∧ C25_printer.pos.Line > C25_printer.lastTaggedLine then
            printer.lineAnchor C25_printer.pos.Line
            else C25_printer.tag.start) ++ enc C25_printer.mode C25_printer.indent
              ['v', 'a', 'r'] ++ C25_printer.tag.«end»
         else enc C25_printer.mode C25_printer.indent ['v', 'a', 'r']) ∧
      q.buflen = 0 ∧ q.comment = C25_printer.comment ∧ q.indent = C25_printer.indent) ∧
    C25_printer.printItem false .nilBytes = .ok (false, C25_printer) :=
  C25_print_data C25_printer false (.bytes ['v', 'a', 'r']) ['v', 'a', 'r']
    (Or.inl rfl) (by decide) (by decide)
    (Or.inr ⟨_, _, _, _, rfl, rfl, by decide⟩)

theorem C25_example :
    (C25_printer.print [.token .VAR]).map (fun q => (q.output, q.buflen)) =
      .ok ("x\n\tvar".toList, 0) ∧
    (C25_printer.print [.bytes []]).map (fun q => (q.output, q.buflen)) =
      .ok ("x\n\t".toList, 0) ∧
    (C25_printer.print [.nilBytes]).map (fun q => (q.output, q.buflen)) =
      .ok ("x".toList, 1) := by
  refine ⟨rfl, rfl, rfl⟩

/-! ## The whitespace buffer after a line comment -/

namespace printer

/-- The method `intersperseComments` is its loop over the comments followed by
the adjustment of the whitespace buffer. -/
theorem intersperseComments_adjust (p : printer) (next : Position) (fl : Int) (nn : Bool)
    (p1 : printer) (hl : intersperseLoop next p.comment 0 false p = .ok (fl, nn, p1)) :
    p.intersperseComments next = .ok (p1.adjust next fl nn) := by
  unfold intersperseComments
  rw [hl]
  cases nn <;> rfl

theorem getD_set_zero (buf : List whiteSpace) (ch : whiteSpace) (k : Nat) (hlen : 0 < buf.length) :
    (buf.set 0 ch).getD k .blank = if k = 0 then ch else buf.getD k .blank := by
  cases buf with
  | nil => simp at hlen
  | cons a rest =>
    cases k with
    | zero => simp
    | succ k => simp

/-- The number of buffered atoms after the adjustment that follows a `//`
comment: the newlines and formfeeds of the buffer, capped by the line
difference to `next` when the last item has a position, and 1 if that is 0. -/
theorem adjust_true_buflen (q : printer) (next : Position) (fl : Int) :
    (q.adjust next fl true).buflen =
      if (if q.last.IsValid = true ∧
            next.Line - q.last.Line < ((compactLoop q.buflen.toNat 0 0 q.buffer).2 : Int)
          then next.Line - q.last.Line
          else ((compactLoop q.buflen.toNat 0 0 q.buffer).2 : Int)) = 0 then 1
      else (if q.last.IsValid = true ∧
            next.Line - q.last.Line < ((compactLoop q.buflen.toNat 0 0 q.buffer).2 : Int)
          then next.Line - q.last.Line
          else ((compactLoop q.buflen.toNat 0 0 q.buffer).2 : Int)) := by
  unfold adjust
  simp only [if_true]
  by_cases hv : q.last.IsValid = true <;>
    by_cases hlt : next.Line - q.last.Line <
      ((compactLoop q.buflen.toNat 0 0 q.buffer).2 : Int) <;>
    simp only [hv, hlt, if_true, if_false, true_and, false_and, and_true, and_false,
      Bool.false_eq_true] <;>
    split <;> rfl

theorem adjust_true_buffer (q : printer) (next : Position) (fl : Int) :
    ∃ ch, (q.adjust next fl true).buffer = (compactLoop q.buflen.toNat 0 0 q.buffer).1.set 0 ch ∧
      (ch = .newline ∨ ch = .formfeed ∨
        (ch = (compactLoop q.buflen.toNat 0 0 q.buffer).1.getD 0 .blank ∧
          (if q.last.IsValid = true ∧
            next.Line - q.last.Line < ((compactLoop q.buflen.toNat 0 0 q.buffer).2 : Int)
          then next.Line - q.last.Line
          else ((compactLoop q.buflen.toNat 0 0 q.buffer).2 : Int)) ≠ 0)) := by
  unfold adjust
  simp only [if_true]
  by_cases hv : q.last.IsValid = true <;>
    by_cases hlt : next.Line - q.last.Line <
      ((compactLoop q.buflen.toNat 0 0 q.buffer).2 : Int) <;>
    simp only [hv, hlt, if_true, if_false, true_and, false_and, and_true, and_false,
      Bool.false_eq_true] <;>
    split <;> split <;>
    first
    | exact ⟨_, rfl, Or.inr (Or.inl rfl)⟩
    | exact ⟨_, rfl, Or.inl rfl⟩
    | (rename_i h1 h2; exact ⟨_, rfl, Or.inr (Or.inr ⟨rfl, h1⟩)⟩)
    | (rename_i h1 h2; exact ⟨_, rfl, Or.inr (Or.inr ⟨rfl, h2⟩)⟩)

/-- After a `//` comment, when `next` is not on a line above the last item, the
adjusted buffer holds at least one atom, and only newlines and formfeeds. -/
theorem adjust_line_break (q : printer) (next : Position) (fl : Int)
    (hlen : 0 < q.buffer.length)
    (hn : q.last.IsValid = true → q.last.Line ≤ next.Line) :
    1 ≤ (q.adjust next fl true).buflen ∧
    ∀ k : Nat, (k : Int) < (q.adjust next fl true).buflen →
      (q.adjust next fl true).buffer.getD k .blank = .newline ∨
      (q.adjust next fl true).buffer.getD k .blank = .formfeed := by
  have hlb := compactLoop_lb q.buflen.toNat 0 0 q.buffer (Nat.le_refl 0)
    (fun k hk => absurd hk (Nat.not_lt_zero k))
  obtain ⟨_, _, hb⟩ := compactLoop_bound q.buflen.toNat 0 0 q.buffer
  have hlen1 : 0 < (compactLoop q.buflen.toNat 0 0 q.buffer).1.length := by rw [hb]; exact hlen
  obtain ⟨ch, hbuf, hch⟩ := adjust_true_buffer q next fl
  rw [adjust_true_buflen, hbuf]
  generalize (compactLoop q.buflen.toNat 0 0 q.buffer).2 = j at *
  generalize (compactLoop q.buflen.toNat 0 0 q.buffer).1 = buf at *
  have hB : 0 ≤ (if q.last.IsValid = true ∧ next.Line - q.last.Line < (j : Int)
      then next.Line - q.last.Line else (j : Int)) ∧
      (if q.last.IsValid = true ∧ next.Line - q.last.Line < (j : Int)
      then next.Line - q.last.Line else (j : Int)) ≤ j := by
    split
    · rename_i h
      have := hn h.1
      omega
    · omega
  generalize (if q.last.IsValid = true ∧ next.Line - q.last.Line < (j : Int)
      then next.Line - q.last.Line else (j : Int)) = B at *
  constructor
  · split <;> omega
  · intro k hk
    rw [getD_set_zero _ _ _ hlen1]
    by_cases hk0 : k = 0
    · simp only [hk0, if_true]
      rcases hch with h | h | ⟨h, hne⟩
      · left; exact h
      · right; exact h
      · rw [h]
        exact hlb 0 (by omega)
    · simp only [hk0, if_false]
      apply hlb k
      split at hk <;> omega

theorem writeComment_buffer (p : printer) (c : Comment) :
    (p.writeComment c).buffer = p.buffer := by
  unfold writeComment
  simp only []
  repeat' split
  all_goals rw [(writeItem_frame _ _ _ _).2.2.2.1]
  · rw [write_eq]; rfl
  · rw [writeNewlines_eq]; rfl

theorem intersperseGroup_buffer : ∀ (cs : List Comment) (fl : Int) (nn : Bool) (p : printer)
    (r : Int × Bool × printer), intersperseGroup cs fl nn p = .ok r → r.2.2.buffer = p.buffer
  | [], fl, nn, p, r, h => by
    simp only [intersperseGroup] at h
    cases h
    rfl
  | c :: rest, fl, nn, p, r, h => by
    simp only [intersperseGroup] at h
    split at h
    · rw [intersperseGroup_buffer rest _ _ _ r h, writeComment_buffer]
    · cases h

theorem intersperseLoop_buffer (next : Position) : ∀ (gs : List CommentGroup) (fl : Int)
    (nn : Bool) (p : printer) (r : Int × Bool × printer),
    intersperseLoop next gs fl nn p = .ok r → r.2.2.buffer = p.buffer
  | [], fl, nn, p, r, h => by
    simp only [intersperseLoop] at h
    cases h
    rfl
  | g :: gs, fl, nn, p, r, h => by
    simp only [intersperseLoop] at h
    split at h
    · cases h
    · split at h
      · split at h
        · cases h
        · rename_i fl1 nn1 p1 hg
          rw [intersperseLoop_buffer next gs _ _ _ r h, intersperseGroup_buffer _ _ _ _ _ hg]
      · cases h
        rfl

/-- After the comments before `next`, the last of which is a `//` comment,
when `next` is not on a line above the end of that comment,
`intersperseComments` leaves at least one atom in the whitespace buffer, and
every atom it leaves is a newline or a formfeed. -/
theorem intersperseComments_line_break (p : printer) (next : Position) (fl : Int)
    (p1 : printer) (hlen : p.buffer.length = 8)
    (hl : intersperseLoop next p.comment 0 false p = .ok (fl, true, p1))
    (hn : p1.last.IsValid = true → p1.last.Line ≤ next.Line) :
    ∃ q, p.intersperseComments next = .ok q ∧ 1 ≤ q.buflen ∧
      ∀ k : Nat, (k : Int) < q.buflen →
        q.buffer.getD k .blank = .newline ∨ q.buffer.getD k .blank = .formfeed := by
  have hb := intersperseLoop_buffer next _ _ _ _ _ hl
  simp only [] at hb
  have h := adjust_line_break p1 next fl (by rw [hb, hlen]; decide) hn
  exact ⟨_, intersperseComments_adjust p next fl true p1 hl, h.1, h.2⟩

end printer

/-- C22, the code falls short of it: after the comments before `next`, the
last of which is a `//` comment, `intersperseComments` leaves at least one
atom in the whitespace buffer, all of them newlines or formfeeds, provided
`next` is not on a line above the end of the last comment. In `C19_printer`
the token `(` is estimated at line 3 and the comment `// c` ends on line 4:
`needsNewline` is true and `buflen` becomes -1, so that the buffer holds no
atom and `flush` stops with a fatal error instead of starting a new line. -/
theorem C22_line_comment_break :
    (∀ (p : printer) (next : Position) (fl : Int) (p1 : printer),
      p.buffer.length = 8 →
      printer.intersperseLoop next p.comment 0 false p = .ok (fl, true, p1) →
      (p1.last.IsValid = true → p1.last.Line ≤ next.Line) →
      ∃ q, p.intersperseComments next = .ok q ∧ 1 ≤ q.buflen ∧
        ∀ k : Nat, (k : Int) < q.buflen →
          q.buffer.getD k .blank = .newline ∨ q.buffer.getD k .blank = .formfeed) ∧
    (printer.intersperseLoop ⟨19, 3, 9⟩ C19_printer.comment 0 false C19_printer).map
        (fun r => (r.1, r.2.1, r.2.2.last, r.2.2.buflen)) =
      .ok (4, true, ⟨22, 4, 5⟩, 1) ∧
    (C19_printer.intersperseComments ⟨19, 3, 9⟩).map (fun q => q.buflen) = .ok (-1) ∧
    (C19_printer.flush ⟨19, 3, 9⟩).map (fun q => q.output) =
      .error "slice bounds out of range" := by
  refine ⟨fun p next fl p1 hlen hl hn =>
    printer.intersperseComments_line_break p next fl p1 hlen hl hn, rfl, rfl, rfl⟩

theorem C22_example :
    (printer.intersperseLoop ⟨20, 4, 1⟩ C2_printer.comment 0 false C2_printer).map
        (fun r => (r.1, r.2.1, r.2.2.last)) = .ok (3, true, ⟨17, 3, 6⟩) ∧
    (C2_printer.intersperseComments ⟨20, 4, 1⟩).map
        (fun q => (q.buflen, q.buffer.take q.buflen.toNat)) = .ok (1, [whiteSpace.newline]) := by
  exact ⟨rfl, rfl⟩

theorem C22_example_break :
    ∃ q, C2_printer.intersperseComments ⟨20, 4, 1⟩ = .ok q ∧ 1 ≤ q.buflen ∧
      ∀ k : Nat, (k : Int) < q.buflen →
        q.buffer.getD k .blank = .newline ∨ q.buffer.getD k .blank = .formfeed :=
  printer.intersperseComments_line_break C2_printer ⟨20, 4, 1⟩ 3 _ rfl rfl (fun _ => by decide)

/-! ## The WebSocket handshake -/

namespace websocket

/-- An accepted request whose `Hijack` and `Flush` succeed is served: the
response is the status line, the `Upgrade`, `Connection`, `WebSocket-Origin`
and `WebSocket-Location` lines, the `WebSocket-Protocol` line with the value of
the header `Websocket-Protocol` if the request has one, and an empty line; the
connection has the origin, the location and the empty protocol. -/
theorem ServeHTTP_served (req : Request)
    (hacc : req.Method = "GET" ∧ req.Proto = "HTTP/1.1" ∧
      index req.Header "Upgrade" = "WebSocket" ∧ index req.Header "Connection" = "Upgrade") :
    ServeHTTP req none none =
      .served
        ("HTTP/1.1 101 Web Socket Protocol Handshake\r\n" ++ "Upgrade: WebSocket\r\n" ++
          "Connection: Upgrade\r\n" ++
          ("WebSocket-Origin: " ++ index req.Header "Origin" ++ "\r\n") ++
          ("WebSocket-Location: " ++ ("ws://" ++ req.Host ++ req.Path) ++ "\r\n") ++
          (match lookup req.Header "Websocket-Protocol" with
            | some v => "WebSocket-Protocol: " ++ v ++ "\r\n"
            | none => "") ++ "\r\n")
        { Origin := index req.Header "Origin", Location := "ws://" ++ req.Host ++ req.Path,
          Protocol := "" } := by
  obtain ⟨h1, h2, h3, h4⟩ := hacc
  unfold ServeHTTP
  simp only [h1, h2, h3, h4, ne_eq, not_true_eq_false, or_self, if_false]
  cases lookup req.Header "Websocket-Protocol" <;> simp [String.append_assoc]

/-- The handler is called only for an accepted request, and only with the
empty protocol. -/
theorem ServeHTTP_protocol (req : Request) (hijackErr flushErr : Option String)
    (response : String) (ws : Conn)
    (h : ServeHTTP req hijackErr flushErr = .served response ws) :
    ws.Protocol = "" ∧
      (req.Method = "GET" ∧ req.Proto = "HTTP/1.1" ∧
        index req.Header "Upgrade" = "WebSocket" ∧ index req.Header "Connection" = "Upgrade") := by
  unfold ServeHTTP at h
  split at h
  · cases h
  · rename_i hacc
    have hacc' : req.Method = "GET" ∧ req.Proto = "HTTP/1.1" ∧
        index req.Header "Upgrade" = "WebSocket" ∧ index req.Header "Connection" = "Upgrade" := by
      simp only [ne_eq, not_or, not_not] at hacc
      exact hacc
    refine ⟨?_, hacc'⟩
    split at h
    · cases h
    · simp only [] at h
      split at h
      · cases h
      · cases h
        rfl

end websocket

/-- C28: for every accepted handshake request (method `GET`, protocol
`HTTP/1.1`, `Upgrade: WebSocket`, `Connection: Upgrade`) whose connection is
taken over and whose response is flushed, `ServeHTTP` calls the handler with a
connection whose protocol is the empty string, also when the request has a
`Websocket-Protocol` header, whose value is written in the
`WebSocket-Protocol:` line of the response; and the handler is never called
with another protocol. -/
theorem C28_protocol (req : websocket.Request)
    (hacc : req.Method = "GET" ∧ req.Proto = "HTTP/1.1" ∧
      websocket.index req.Header "Upgrade" = "WebSocket" ∧
      websocket.index req.Header "Connection" = "Upgrade") :
    websocket.ServeHTTP req none none =
      .served
        ("HTTP/1.1 101 Web Socket Protocol Handshake\r\n" ++ "Upgrade: WebSocket\r\n" ++
          "Connection: Upgrade\r\n" ++
          ("WebSocket-Origin: " ++ websocket.index req.Header "Origin" ++ "\r\n") ++
          ("WebSocket-Location: " ++ ("ws://" ++ req.Host ++ req.Path) ++ "\r\n") ++
          (match websocket.lookup req.Header "Websocket-Protocol" with
            | some v => "WebSocket-Protocol: " ++ v ++ "\r\n"
            | none => "") ++ "\r\n")
        { Origin := websocket.index req.Header "Origin",
          Location := "ws://" ++ req.Host ++ req.Path, Protocol := "" } ∧
    ∀ hijackErr flushErr response ws,
      websocket.ServeHTTP req hijackErr flushErr = .served response ws → ws.Protocol = "" :=
  ⟨websocket.ServeHTTP_served req hacc,
    fun hijackErr flushErr response ws h =>
      (websocket.ServeHTTP_protocol req hijackErr flushErr response ws h).1⟩

theorem C28_protocol_witness :
    (websocket.C28_request.Method = "GET" ∧ websocket.C28_request.Proto = "HTTP/1.1" ∧
      websocket.index websocket.C28_request.Header "Upgrade" = "WebSocket" ∧
      websocket.index websocket.C28_request.Header "Connection" = "Upgrade") ∧
    websocket.ServeHTTP websocket.C28_request none none =
      .served
        ("HTTP/1.1 101 Web Socket Protocol Handshake\r\n" ++ "Upgrade: WebSocket\r\n" ++
          "Connection: Upgrade\r\n" ++
          ("WebSocket-Origin: " ++ websocket.index websocket.C28_request.Header "Origin" ++
            "\r\n") ++
          ("WebSocket-Location: " ++
            ("ws://" ++ websocket.C28_request.Host ++ websocket.C28_request.Path) ++ "\r\n") ++
          (match websocket.lookup websocket.C28_request.Header "Websocket-Protocol" with
            | some v => "WebSocket-Protocol: " ++ v ++ "\r\n"
            | none => "") ++ "\r\n")
        { Origin := websocket.index websocket.C28_request.Header "Origin",
          Location := "ws://" ++ websocket.C28_request.Host ++ websocket.C28_request.Path,
          Protocol := "" } ∧
    ∀ hijackErr flushErr response ws,
      websocket.ServeHTTP websocket.C28_request hijackErr flushErr = .served response ws →
        ws.Protocol = "" :=
  ⟨by decide, C28_protocol websocket.C28_request (by decide)⟩

theorem C28_example :
    websocket.ServeHTTP websocket.C28_request none none =
      .served
        ("HTTP/1.1 101 Web Socket Protocol Handshake\r\nUpgrade: WebSocket\r\n" ++
          "Connection: Upgrade\r\nWebSocket-Origin: http://example.com\r\n" ++
          "WebSocket-Location: ws://example.com/echo\r\nWebSocket-Protocol: chat\r\n\r\n")
        { Origin := "http://example.com", Location := "ws://example.com/echo",
          Protocol := "" } := by
  rfl

/-! ## Bytes written when no comment is interspersed -/

namespace printer

theorem run_append : ∀ (a b : List Op) (p : printer),
    p.run (a ++ b) =
      match p.run a with
      | .error e => .error e
      | .ok q => q.run b
  | [], b, p => rfl
  | op :: a, b, p => by
    simp only [List.cons_append, run]
    cases p.runOp op with
    | error e => rfl
    | ok q => exact run_append a b q

/-- A run whose reading without comments returns, returns. -/
theorem run_ok_of_abs (p : printer) (ops : List Op) (a : Abs) (hp : p.Plain) (ht : p.TagFree)
    (hf : p.mode &&& GenHTML = 0 ∨ ops.all Op.plain = true)
    (h : absRun p.mode ops p.abs = .ok a) :
    ∃ q, p.run ops = .ok q ∧ q.abs = a ∧ q.Plain ∧ q.mode = p.mode ∧ q.TagFree := by
  have hs := run_abs ops p hp ht hf
  rw [h] at hs
  exact Sim_ok_inv hs

theorem flush_abs (p : printer) :
    Abs.flush p.mode p.abs = p.output ++ enc p.mode p.indent p.pending := rfl

end printer

theorem absItem_simple (mode : Nat) (a : Abs) (f : Item) (hs : f.simple = true) :
    ∃ b, absItem mode a f = .ok b ∧ b.indent = a.indent ∧
      Abs.flush mode b = Abs.flush mode a ++ enc mode a.indent f.data := by
  cases f with
  | int x => simp [Item.simple] at hs
  | lineTag x => simp [Item.simple] at hs
  | htmlTag x => simp [Item.simple] at hs
  | whiteSpace x => exact absItem_ws mode a x
  | bytes d =>
    exact ⟨_, rfl, rfl, by simp [Abs.flush, Abs.data, Item.data, enc_append, wsBytes, enc_nil]⟩
  | nilBytes => exact ⟨_, rfl, rfl, by simp [Item.data, enc_nil]⟩
  | string d =>
    exact ⟨_, rfl, rfl, by simp [Abs.flush, Abs.data, Item.data, enc_append, wsBytes, enc_nil]⟩
  | token t =>
    exact ⟨_, rfl, rfl, by simp [Abs.flush, Abs.data, Item.data, enc_append, wsBytes, enc_nil]⟩
  | position x => exact ⟨_, rfl, rfl, by simp [Item.data, enc_nil]⟩

theorem absPrint_simple (mode : Nat) : ∀ (items : List Item) (a : Abs),
    (∀ f ∈ items, f.simple = true) →
    ∃ b, absPrint mode items a = .ok b ∧ b.indent = a.indent ∧
      Abs.flush mode b = Abs.flush mode a ++ enc mode a.indent (items.flatMap Item.data)
  | [], a, _ => ⟨a, rfl, rfl, by simp [enc_nil]⟩
  | f :: rest, a, hs => by
    obtain ⟨b, hb, hi, hfl⟩ := absItem_simple mode a f (hs f (List.mem_cons_self _ _))
    obtain ⟨c, hc, hi2, hfl2⟩ := absPrint_simple mode rest b
      (fun g hg => hs g (List.mem_cons_of_mem _ hg))
    refine ⟨c, ?_, hi2.trans hi, ?_⟩
    · simp only [absPrint, hb, hc]
    · rw [hfl2, hfl, hi, List.flatMap_cons, enc_append, List.append_assoc]

theorem absPrint_append (mode : Nat) : ∀ (xs ys : List Item) (a : Abs),
    absPrint mode (xs ++ ys) a =
      match absPrint mode xs a with
      | .error e => .error e
      | .ok b => absPrint mode ys b
  | [], ys, a => rfl
  | f :: xs, ys, a => by
    simp only [List.cons_append, absPrint]
    cases absItem mode a f with
    | error e => rfl
    | ok b => exact absPrint_append mode xs ys b

theorem absItem_data (mode : Nat) (a : Abs) (f : Item) (hd : f.isData = true) :
    ∃ b, absItem mode a f = .ok b ∧ b.pending = [] := by
  cases f with
  | bytes d => exact ⟨_, rfl, rfl⟩
  | string d => exact ⟨_, rfl, rfl⟩
  | token t => exact ⟨_, rfl, rfl⟩
  | int x => simp [Item.isData] at hd
  | lineTag x => simp [Item.isData] at hd
  | htmlTag x => simp [Item.isData] at hd
  | whiteSpace x => simp [Item.isData] at hd
  | nilBytes => simp [Item.isData] at hd
  | position x => simp [Item.isData] at hd

theorem simple_of_isData (f : Item) (hd : f.isData = true) : f.simple = true := by
  cases f <;> simp_all [Item.isData, Item.simple]

theorem plain_of_simple (f : Item) (hs : f.simple = true) : f.plain = true := by
  cases f <;> simp_all [Item.plain, Item.simple]

/-- One call of `print` with whitespace, data and positions adds the bytes of
its arguments to what is written or buffered. -/
theorem emits_print (mode n : Nat) (items : List Item) (hs : ∀ f ∈ items, f.simple = true) :
    Emits mode n [Op.print items] (enc mode n (items.flatMap Item.data)) := by
  intro p hp
  obtain ⟨hpl, ht, hm, hi⟩ := hp
  obtain ⟨b, hb, hbi, hfl⟩ := absPrint_simple mode items p.abs hs
  have hrun : absRun p.mode [Op.print items] p.abs = .ok b := by
    simp only [absRun, absOp, hm, hb]
  obtain ⟨q, hq, hqa, hqp, hqm, hqt⟩ := printer.run_ok_of_abs p _ b hpl ht
    (Or.inr (by
      simp only [List.all_cons, List.all_nil, Bool.and_true, Op.plain, List.all_eq_true]
      exact fun f hf => plain_of_simple f (hs f hf))) hrun
  have hqi : q.indent = n := by
    have : q.abs.indent = b.indent := by rw [hqa]
    rw [hbi] at this
    exact this.trans hi
  refine ⟨q, hq, ⟨hqp, hqt, hqm.trans hm, hqi⟩, ?_⟩
  have e1 := printer.flush_abs q
  have e2 := printer.flush_abs p
  rw [hqa, hqm, hm, hqi] at e1
  rw [hm, hi] at e2
  rw [← e1, hfl, e2]
  show _ ++ enc mode p.abs.indent _ = _
  have : p.abs.indent = n := hi
  rw [this]

/-- One call of `print` whose last argument is data leaves the buffer empty. -/
theorem renders_print (mode n : Nat) (items : List Item) (f : Item)
    (hs : ∀ g ∈ items, g.simple = true) (hd : f.isData = true) :
    Renders mode n [Op.print (items ++ [f])] (enc mode n ((items ++ [f]).flatMap Item.data)) := by
  intro p hp
  have hs2 : ∀ g ∈ items ++ [f], g.simple = true := by
    intro g hg
    rcases List.mem_append.1 hg with h | h
    · exact hs g h
    · simp only [List.mem_singleton] at h
      rw [h]; exact simple_of_isData f hd
  obtain ⟨q, hq, hqat, hout⟩ := emits_print mode n (items ++ [f]) hs2 p hp
  obtain ⟨hpl, ht, hm, hi⟩ := hp
  -- the buffer is empty after the data
  obtain ⟨b, hb, _, _⟩ := absPrint_simple mode items p.abs hs
  obtain ⟨c, hc, hcp⟩ := absItem_data mode b f hd
  have hrun : absRun p.mode [Op.print (items ++ [f])] p.abs = .ok c := by
    simp only [absRun, absOp, hm, absPrint_append, hb, absPrint, hc]
  obtain ⟨q2, hq2, hqa, hqp, _, _⟩ := printer.run_ok_of_abs p _ c hpl ht
    (Or.inr (by
      simp only [List.all_cons, List.all_nil, Bool.and_true, Op.plain, List.all_eq_true]
      exact fun g hg => plain_of_simple g (hs2 g hg))) hrun
  rw [hq] at hq2
  cases hq2
  have hz : q.buflen = 0 := Plain.buflen_zero hqp (by rw [hqa]; exact hcp)
  refine ⟨q, hq, hqat, hz, ?_⟩
  have hpz : q.pending = [] := by simp [printer.pending, hz, wsBytes]
  rw [hpz, enc_nil, List.append_nil] at hout
  exact hout

theorem emits_nil (mode n : Nat) : Emits mode n [] [] := by
  intro p hp
  exact ⟨p, rfl, hp, by simp⟩

theorem Renders.emits {mode n : Nat} {ops : List Op} {d : List Char}
    (h : Renders mode n ops d) : Emits mode n ops d := by
  intro p hp
  obtain ⟨q, hq, hqat, hz, hout⟩ := h p hp
  refine ⟨q, hq, hqat, ?_⟩
  have hpz : q.pending = [] := by simp [printer.pending, hz, wsBytes]
  rw [hpz, enc_nil, List.append_nil]
  exact hout

theorem Emits.andEmits {mode n : Nat} {a b : List Op} {d1 d2 : List Char}
    (h1 : Emits mode n a d1) (h2 : Emits mode n b d2) : Emits mode n (a ++ b) (d1 ++ d2) := by
  intro p hp
  obtain ⟨q, hq, hqat, hout⟩ := h1 p hp
  obtain ⟨r, hr, hrat, hout2⟩ := h2 q hqat
  refine ⟨r, ?_, hrat, ?_⟩
  · rw [printer.run_append, hq]; exact hr
  · rw [hout2, hout, List.append_assoc]

theorem Emits.andRenders {mode n : Nat} {a b : List Op} {d1 d2 : List Char}
    (h1 : Emits mode n a d1) (h2 : Renders mode n b d2) : Renders mode n (a ++ b) (d1 ++ d2) := by
  intro p hp
  obtain ⟨q, hq, hqat, hout⟩ := h1 p hp
  obtain ⟨r, hr, hrat, hz, hout2⟩ := h2 q hqat
  refine ⟨r, ?_, hrat, hz, ?_⟩
  · rw [printer.run_append, hq]; exact hr
  · rw [hout2, hout, List.append_assoc]

theorem Renders.thenRenders {mode n : Nat} {a b : List Op} {d1 d2 : List Char}
    (h1 : Renders mode n a d1) (h2 : Renders mode n b d2) :
    Renders mode n (a ++ b) (d1 ++ d2) :=
  h1.emits.andRenders h2

theorem Renders.flatMap {α : Type} {mode n : Nat} (f : α → List Op) (g : α → List Char)
    {base : List Op} {d0 : List Char} (h0 : Renders mode n base d0) :
    ∀ (l : List α), (∀ x ∈ l, Renders mode n (f x) (g x)) →
      Renders mode n (base ++ l.flatMap f) (d0 ++ l.flatMap g) := by
  intro l
  induction l using List.reverseRecOn with
  | nil =>
    intro _
    simpa using h0
  | append_singleton l x ih =>
    intro h
    have h1 := ih (fun y hy => h y (List.mem_append_left _ hy))
    have h2 := h x (List.mem_append_right _ (List.mem_singleton_self x))
    have := h1.thenRenders h2
    simpa [List.flatMap_append, List.append_assoc] using this

/-- An identifier is written as its name. -/
theorem renders_ident (mode n : Nat) (x : Ident) (prec1 : Nat) :
    Renders mode n (expr1 (.Ident x) prec1).ops (enc mode n x.Value) := by
  have e : (expr1 (.Ident x) prec1).ops =
      [Op.print [.position x.pos]] ++ [Op.print ([] ++ [.string x.Value])] := by
    rw [expr1_Ident_eq]; rfl
  rw [e]
  have h1 := emits_print mode n [.position x.pos] (by simp [Item.simple])
  have h2 := renders_print mode n [] (.string x.Value) (by simp) rfl
  simpa [Item.data, enc_nil] using h1.andRenders h2

/-- An expression statement that is an identifier is written as its name. -/
theorem renders_ident_stmt (mode n : Nat) (x : Ident) :
    Renders mode n (stmt (.ExprStmt (.Ident x))).ops (enc mode n x.Value) := by
  have e : (stmt (.ExprStmt (.Ident x))).ops =
      [Op.print [.position x.pos]] ++ (expr1 (.Ident x) LowestPrec).ops := by
    rw [stmt_ExprStmt_eq]; rfl
  rw [e]
  have h1 := emits_print mode n [.position x.pos] (by simp [Item.simple])
  simpa [Item.data, enc_nil] using h1.andRenders (renders_ident mode n x LowestPrec)

theorem token_no_break (t : Token) : ∀ b ∈ t.String, b ≠ '\n' ∧ b ≠ '\x0c' := by
  cases t <;> decide

/-- Outside `GenHTML` mode `write` sends an operator, with or without its
blanks, as it is. -/
theorem enc_opBytes (mode n : Nat) (blanks : Bool) (t : Token) (hm : mode &&& GenHTML = 0) :
    enc mode n (opBytes blanks t) = opBytes blanks t := by
  apply enc_eq_self
  intro b hb
  have hne : b ≠ '\n' ∧ b ≠ '\x0c' := by
    unfold opBytes at hb
    split at hb
    · simp only [List.mem_cons, List.mem_append, List.mem_singleton, List.not_mem_nil,
        or_false] at hb
      rcases hb with (h | h) | h
      · rw [h]; decide
      · exact token_no_break t b h
      · rw [h]; decide
    · exact token_no_break t b hb
  simp [encByte, hne.1, hne.2, hm]

theorem emits_chainOp (mode n : Nat) (blanks : Bool) (OpPos : Position) (t : Token) :
    Emits mode n (chainOp blanks OpPos t) (enc mode n (opBytes blanks t)) := by
  cases blanks with
  | true =>
    have h := emits_print mode n
      [.whiteSpace .blank, .position OpPos, .token t, .whiteSpace .blank]
      (by simp [Item.simple])
    simpa [chainOp, opBytes, Item.data, whiteSpace.toByte] using h
  | false =>
    have h := emits_print mode n [.position OpPos, .token t] (by simp [Item.simple])
    simpa [chainOp, opBytes, Item.data] using h

/-! ## Binary expressions: the bytes of a chain -/

/-- C6, refuted as stated: in the file of `var x = averyveryverylongname +
/* c */ b` the operand `averyveryverylongname` needs blanks, and without the
comment the operator is written with one blank on each side; with the comment
`/* c */` between `+` and `b` the blank after the operator is not written:
the output has `+`, a tab, the comment and `b`. -/
theorem C6_counterexample :
    needsBlanks (.Ident ⟨⟨19, 3, 9⟩, "averyveryverylongname".toList⟩) = true ∧
    (Fprint (.File (C6_file [])) RawFormat).map (fun r => r.output) =
      .ok "package p\n\nvar x = averyveryverylongname + b\n".toList ∧
    (Fprint (.File (C6_file [C6_comment])) RawFormat).map (fun r => r.output) =
      .ok "package p\n\nvar x = averyveryverylongname +\t/* c */b\n".toList := by
  refine ⟨rfl, rfl, rfl⟩

/-- C6, amended: a binary expression printed without parentheses (its
precedence is not below the enclosing one) at indentation `n`, with no comment
left to intersperse, whose left operand has a position (`x.X.Pos()` returns)
and whose operands are written as `render` gives, is written as its chain, the maximal left spine of binary expressions of the same
precedence: the leftmost operand, then every operator of the chain followed by
its right operand; every operator of the chain is written with one blank on
each side if the precedence is at most that of `==` or some operand of the
chain needs blanks, and every operator without blanks otherwise. The bytes of
an operator go through `write`, which outside `GenHTML` mode leaves them as
they are. -/
theorem C6_binaryExpr_bytes (X : Expr) (OpPos : Position) (tok : Token) (Y : Expr)
    (prec1 mode n : Nat) (pos : Position) (render : Expr → List Char)
    (h : prec1 ≤ tok.Precedence) (hpos : X.Pos = some pos)
    (hl : Renders mode n
      (expr1 (leftSpine tok.Precedence (.BinaryExpr X OpPos tok Y)).2 tok.Precedence).ops
      (render (leftSpine tok.Precedence (.BinaryExpr X OpPos tok Y)).2))
    (hr : ∀ x ∈ (leftSpine tok.Precedence (.BinaryExpr X OpPos tok Y)).1,
      Renders mode n (expr1 x.2.2 tok.Precedence).ops (render x.2.2)) :
    Renders mode n (expr1 (.BinaryExpr X OpPos tok Y) prec1).ops
      (render (leftSpine tok.Precedence (.BinaryExpr X OpPos tok Y)).2 ++
        (leftSpine tok.Precedence (.BinaryExpr X OpPos tok Y)).1.flatMap (fun x =>
          enc mode n (opBytes (chainBlanks tok.Precedence
            (leftSpine tok.Precedence (.BinaryExpr X OpPos tok Y)).1
            (leftSpine tok.Precedence (.BinaryExpr X OpPos tok Y)).2) x.2.1) ++
          render x.2.2)) ∧
    (mode &&& GenHTML = 0 →
      ∀ (blanks : Bool) (t : Token), enc mode n (opBytes blanks t) = opBytes blanks t) := by
  refine ⟨?_, fun hm blanks t => enc_opBytes mode n blanks t hm⟩
  rw [binaryExpr_chain_ops X OpPos tok Y prec1 h, hpos, ← List.append_assoc]
  have h0 : Emits mode n (printPos (some pos)).ops [] := by
    have := emits_print mode n [.position pos] (by simp [Item.simple])
    simpa [printPos, Item.data, enc_nil] using this
  have h1 := h0.andRenders hl
  rw [List.nil_append] at h1
  apply Renders.flatMap _ _ h1
  intro x hx
  exact (emits_chainOp mode n _ x.1 x.2.1).andRenders (hr x hx)

theorem C6_binaryExpr_bytes_witness :
    LowestPrec ≤ Token.ADD.Precedence ∧
    Renders RawFormat 0 (expr1 C6_sum LowestPrec).ops
      ("averyveryverylongname".toList ++ (" + ".toList ++ ['b'])) :=
  ⟨by decide, by
    have h := (C6_binaryExpr_bytes (.Ident ⟨⟨19, 3, 9⟩, "averyveryverylongname".toList⟩)
      ⟨41, 3, 31⟩ .ADD (.Ident ⟨⟨51, 3, 41⟩, ['b']⟩) LowestPrec RawFormat 0 ⟨19, 3, 9⟩
      (fun e => match e with
        | .Ident x => x.Value
        | _ => [])
      (by decide) rfl
      (by
        have := renders_ident RawFormat 0 ⟨⟨19, 3, 9⟩, "averyveryverylongname".toList⟩
          Token.ADD.Precedence
        simpa [leftSpine, enc, encByte] using this)
      (by
        intro x hx
        have hx' : x = (⟨41, 3, 31⟩, Token.ADD, Expr.Ident ⟨⟨51, 3, 41⟩, ['b']⟩) := by
          simpa [leftSpine] using hx
        subst hx'
        have := renders_ident RawFormat 0 ⟨⟨51, 3, 41⟩, ['b']⟩ Token.ADD.Precedence
        simpa [enc, encByte] using this)).1
    simpa [leftSpine, chainBlanks, needsBlanks, opBytes, enc, encByte, Token.String,
      C6_sum] using h⟩

theorem C6_example :
    (Fprint (.Expr C6_sum) RawFormat).map (fun r => r.output) =
      .ok "averyveryverylongname + b".toList ∧
    (Fprint (.Expr C6_sum) GenHTML).map (fun r => r.output) =
      .ok "averyveryverylongname + b".toList ∧
    (Fprint (.Expr (.BinaryExpr (.Ident ⟨⟨1, 1, 1⟩, ['a']⟩) ⟨2, 1, 2⟩ .LSS
      (.Ident ⟨⟨3, 1, 3⟩, ['b']⟩))) GenHTML).map (fun r => r.output) =
      .ok "a &lt; b".toList := by
  refine ⟨rfl, rfl, rfl⟩

/-! ## Statement lists: the bytes written -/

/-- The call `p.print(+1, formfeed)`: the indentation goes up by one and the
formfeed joins the buffered whitespace, which will be written at the new
indentation. -/
theorem run_indent_formfeed (mode n : Nat) (p : printer) (hp : p.At mode n) :
    ∃ q, p.run [Op.print [.int 1, .whiteSpace .formfeed]] = .ok q ∧ q.At mode (n + 1) ∧
      q.output ++ enc mode (n + 1) q.pending =
        p.output ++ enc mode (n + 1) (p.pending ++ ['\x0c']) := by
  obtain ⟨hpl, ht, hm, hi⟩ := hp
  obtain ⟨b, hb, hbi, hfl⟩ := absItem_ws mode ⟨n + 1, p.abs.pending, p.abs.out⟩ .formfeed
  have hrun : absRun p.mode [Op.print [.int 1, .whiteSpace .formfeed]] p.abs = .ok b := by
    have hnn : ¬ ((p.abs.indent : Int) + 1 < 0) := by omega
    have e : ((p.abs.indent : Int) + 1).toNat = n + 1 := by
      have : p.abs.indent = n := hi
      rw [this]; omega
    simp only [absRun, absOp, absPrint, absItem, hnn, if_false, e, hm]
    simp only [absItem] at hb
    rw [hb]
  obtain ⟨q, hq, hqa, hqp, hqm, hqt⟩ := printer.run_ok_of_abs p _ b hpl ht
    (Or.inr (by decide)) hrun
  have hqi : q.indent = n + 1 := by
    have : q.abs.indent = b.indent := by rw [hqa]
    exact this.trans hbi
  refine ⟨q, hq, ⟨hqp, hqt, hqm.trans hm, hqi⟩, ?_⟩
  have e1 := printer.flush_abs q
  rw [hqa, hqm, hm, hqi] at e1
  rw [← e1, hfl]
  simp only [Abs.flush, enc_append, List.append_assoc]
  rfl

/-- The call `p.print(-1)` with an empty buffer: the indentation goes down by
one and nothing is written. -/
theorem run_indent_back (mode n : Nat) (q : printer) (hq : q.At mode (n + 1))
    (hz : q.buflen = 0) :
    ∃ r, q.run [Op.print [.int (-1)]] = .ok r ∧ r.At mode n ∧ r.buflen = 0 ∧
      r.output = q.output := by
  obtain ⟨hpl, ht, hm, hi⟩ := hq
  have ha := abs_of_buflen_zero q hz
  have hrun : absRun q.mode [Op.print [.int (-1)]] q.abs = .ok ⟨n, [], q.output⟩ := by
    rw [ha, hi]
    have hnn : ¬ (((n + 1 : Nat) : Int) + -1 < 0) := by omega
    have e : (((n + 1 : Nat) : Int) + -1).toNat = n := by omega
    simp only [absRun, absOp, absPrint, absItem, hnn, if_false, e]
  obtain ⟨r, hr, hra, hrp, hrm, hrt⟩ := printer.run_ok_of_abs q _ _ hpl ht
    (Or.inr (by decide)) hrun
  refine ⟨r, hr, ⟨hrp, hrt, hrm.trans hm, ?_⟩, ?_, ?_⟩
  · exact congrArg Abs.indent hra
  · exact Plain.buflen_zero hrp (congrArg Abs.pending hra)
  · exact congrArg Abs.out hra

theorem enc_line (mode n : Nat) : enc mode n ['\n'] = '\n' :: List.replicate n '\t' := by
  simp [enc, encByte]

/-- A statement of a list with the semicolon that follows it. -/
theorem renders_stmtSemi (mode n : Nat) (w : Walk Bool) (d : List Char)
    (h : Renders mode n w.ops d) : Renders mode n (stmtSemi w) (d ++ semiBytes w.val) := by
  unfold stmtSemi semiBytes
  cases w.val with
  | true =>
    simpa using h
  | false =>
    have h2 := renders_print mode n [] (.token .SEMICOLON) (by simp) rfl
    have := h.thenRenders h2
    simpa [Item.data, Token.String, enc, encByte] using this

/-- C15, refuted as stated: in the block `{ L: a; b }` the labeled statement
starts with an empty line and its label at the indentation of the block, not
at the indentation of the statements; and in the file of
`func f() { a; /* c */ b }` the statement `b` is written on the line of `a;`
behind the comment, not on a line of its own. -/
theorem C15_counterexample :
    (Fprint (.Stmt C15_labeled) RawFormat).map (fun r => r.output) =
      .ok "\x7b\n\nL:\t\n\ta;\n\tb;\n\x7d".toList ∧
    (Fprint (.File (C15_file [C15_comment])) RawFormat).map (fun r => r.output) =
      .ok "package p\n\nfunc f() \x7b\n\ta;\t/* c */b;\n\x7d\n".toList ∧
    (Fprint (.File (C15_file [])) RawFormat).map (fun r => r.output) =
      .ok "package p\n\nfunc f() \x7b\n\ta;\n\tb;\n\x7d\n".toList := by
  refine ⟨rfl, rfl, rfl⟩

/-- C15, amended: for a non-empty statement list printed at indentation `n`
with no comment left to intersperse, every statement of which, printed at
indentation `n + 1`, writes the buffered whitespace and then its bytes
`render t` and leaves the buffer empty, `stmtList` returns and writes the
whitespace buffered before and a formfeed at indentation `n + 1`, then the
statements in order, the first behind that line break and each other behind a
newline and `n + 1` tabs, with a semicolon directly after a statement if and
only if printing that statement returned `optSemi = false`, the last statement
included; afterwards the indentation is `n` again and the buffer is empty. -/
theorem C15_stmtList_bytes (s : Stmt) (rest : List Stmt) (mode n : Nat)
    (render : Stmt → List Char)
    (hr : ∀ t ∈ s :: rest, Renders mode (n + 1) (stmt t).ops (render t))
    (p : printer) (hp : p.At mode n) :
    ∃ q, p.run (stmtList (stmts (s :: rest))).ops = .ok q ∧ q.At mode n ∧ q.buflen = 0 ∧
      q.output = p.output ++ enc mode (n + 1) (p.pending ++ ['\x0c']) ++
        ((render s ++ semiBytes (stmt s).val) ++
          rest.flatMap (fun t =>
            ('\n' :: List.replicate (n + 1) '\t') ++ (render t ++ semiBytes (stmt t).val))) := by
  have hops := (stmtList_stmts_ops s rest).1
  have e : (stmtList (stmts (s :: rest))).ops =
      [Op.print [.int 1, .whiteSpace .formfeed]] ++
        ((stmtSemi (stmt s) ++
          rest.flatMap (fun t => [Op.print [.whiteSpace .newline]] ++ stmtSemi (stmt t))) ++
        [Op.print [.int (-1)]]) := by
    rw [hops]; rfl
  have hmid : Renders mode (n + 1)
      (stmtSemi (stmt s) ++
        rest.flatMap (fun t => [Op.print [.whiteSpace .newline]] ++ stmtSemi (stmt t)))
      ((render s ++ semiBytes (stmt s).val) ++
        rest.flatMap (fun t =>
          ('\n' :: List.replicate (n + 1) '\t') ++ (render t ++ semiBytes (stmt t).val))) := by
    apply Renders.flatMap _ _
      (renders_stmtSemi mode (n + 1) (stmt s) (render s) (hr s (List.mem_cons_self _ _)))
    intro t ht
    have h1 := emits_print mode (n + 1) [.whiteSpace .newline] (by simp [Item.simple])
    have h2 := renders_stmtSemi mode (n + 1) (stmt t) (render t)
      (hr t (List.mem_cons_of_mem _ ht))
    have := h1.andRenders h2
    simpa [Item.data, whiteSpace.toByte, enc_line] using this
  obtain ⟨q0, hq0, hq0at, hout0⟩ := run_indent_formfeed mode n p hp
  obtain ⟨q1, hq1, hq1at, hz1, hout1⟩ := hmid q0 hq0at
  obtain ⟨q2, hq2, hq2at, hz2, hout2⟩ := run_indent_back mode n q1 hq1at hz1
  refine ⟨q2, ?_, hq2at, hz2, ?_⟩
  · rw [e, printer.run_append, hq0]
    simp only []
    rw [printer.run_append, hq1]
    exact hq2
  · rw [hout2, hout1, hout0]

theorem C15_stmtList_bytes_witness :
    (∀ t ∈ [Stmt.ExprStmt (.Ident ⟨⟨3, 2, 2⟩, ['a']⟩),
        Stmt.BlockStmt (.mk ⟨6, 3, 2⟩ [] ⟨7, 3, 3⟩),
        Stmt.ExprStmt (.Ident ⟨⟨10, 4, 2⟩, ['b']⟩)],
      Renders RawFormat 1 (stmt t).ops
        (match t with
          | .ExprStmt (.Ident x) => x.Value
          | _ => ['\x7b', '\x7d'])) ∧
    (printer.init RawFormat).At RawFormat 0 ∧
    ∃ q, (printer.init RawFormat).run (stmtList (stmts
        [Stmt.ExprStmt (.Ident ⟨⟨3, 2, 2⟩, ['a']⟩),
         Stmt.BlockStmt (.mk ⟨6, 3, 2⟩ [] ⟨7, 3, 3⟩),
         Stmt.ExprStmt (.Ident ⟨⟨10, 4, 2⟩, ['b']⟩)])).ops = .ok q ∧
      q.At RawFormat 0 ∧ q.buflen = 0 ∧ q.output = "\n\ta;\n\t\x7b\x7d\n\tb;".toList := by
  have hr : ∀ t ∈ [Stmt.ExprStmt (.Ident ⟨⟨3, 2, 2⟩, ['a']⟩),
        Stmt.BlockStmt (.mk ⟨6, 3, 2⟩ [] ⟨7, 3, 3⟩),
        Stmt.ExprStmt (.Ident ⟨⟨10, 4, 2⟩, ['b']⟩)],
      Renders RawFormat 1 (stmt t).ops
        (match t with
          | .ExprStmt (.Ident x) => x.Value
          | _ => ['\x7b', '\x7d']) := by
    intro t ht
    simp only [List.mem_cons, List.mem_singleton, List.not_mem_nil, or_false] at ht
    rcases ht with h | h | h
    · subst h
      have := renders_ident_stmt RawFormat 1 ⟨⟨3, 2, 2⟩, ['a']⟩
      simpa [enc, encByte] using this
    · subst h
      have e : (stmt (.BlockStmt (.mk ⟨6, 3, 2⟩ [] ⟨7, 3, 3⟩))).ops =
          [Op.print [.position ⟨6, 3, 2⟩]] ++
            ([Op.print ([.position ⟨6, 3, 2⟩] ++ [.token .LBRACE])] ++
              [Op.print ([.position ⟨7, 3, 3⟩] ++ [.token .RBRACE])]) := rfl
      rw [e]
      have h1 := emits_print RawFormat 1 [.position ⟨6, 3, 2⟩] (by simp [Item.simple])
      have h2 := renders_print RawFormat 1 [.position ⟨6, 3, 2⟩] (.token .LBRACE)
        (by simp [Item.simple]) rfl
      have h3 := renders_print RawFormat 1 [.position ⟨7, 3, 3⟩] (.token .RBRACE)
        (by simp [Item.simple]) rfl
      have := h1.andRenders (h2.thenRenders h3)
      simpa [Item.data, Token.String, enc, encByte] using this
    · subst h
      have := renders_ident_stmt RawFormat 1 ⟨⟨10, 4, 2⟩, ['b']⟩
      simpa [enc, encByte] using this
  have hat : (printer.init RawFormat).At RawFormat 0 :=
    ⟨⟨rfl, rfl, by decide, by decide⟩, Or.inr rfl, rfl, rfl⟩
  refine ⟨hr, hat, ?_⟩
  have h := C15_stmtList_bytes (.ExprStmt (.Ident ⟨⟨3, 2, 2⟩, ['a']⟩))
    [.BlockStmt (.mk ⟨6, 3, 2⟩ [] ⟨7, 3, 3⟩), .ExprStmt (.Ident ⟨⟨10, 4, 2⟩, ['b']⟩)]
    RawFormat 0
    (fun t => match t with
      | .ExprStmt (.Ident x) => x.Value
      | _ => ['\x7b', '\x7d'])
    hr (printer.init RawFormat) hat
  obtain ⟨q, hq, hqat, hz, hout⟩ := h
  refine ⟨q, hq, hqat, hz, ?_⟩
  rw [hout]
  rfl

/-! ## Control clauses: the bytes written -/

theorem emits_opt (mode n : Nat) (w : Option (Walk Bool × List Char))
    (h : ∀ x, w = some x → Renders mode n x.1.ops x.2) :
    Emits mode n (optOps (w.map fun x => x.1)) ((w.map fun x => x.2).getD []) := by
  cases w with
  | none => exact emits_nil mode n
  | some x => exact (h x rfl).emits

theorem emits_semicolon (mode n : Nat) :
    Emits mode n [Op.print [.token .SEMICOLON, .whiteSpace .blank]] [';', ' '] := by
  have h := emits_print mode n [.token .SEMICOLON, .whiteSpace .blank] (by simp [Item.simple])
  simpa [Item.data, Token.String, whiteSpace.toByte, enc, encByte] using h

theorem emits_blank (mode n : Nat) :
    Emits mode n [Op.print [.whiteSpace .blank]] [' '] := by
  have h := emits_print mode n [.whiteSpace .blank] (by simp [Item.simple])
  simpa [Item.data, whiteSpace.toByte, enc, encByte] using h

/-- C24, refuted as stated: in the file of `for a; /* c */ b; c {}` the first
semicolon of the clause is followed by a tab and the comment, not by a blank;
without the comment every semicolon is followed by a blank. -/
theorem C24_counterexample :
    (Fprint (.File (C24_file [C24_comment])) RawFormat).map (fun r => r.output) =
      .ok "package p\n\nfunc f() \x7b\n\tfor a;\t/* c */b; c \x7b\x7d\n\x7d\n".toList ∧
    (Fprint (.File (C24_file [])) RawFormat).map (fun r => r.output) =
      .ok "package p\n\nfunc f() \x7b\n\tfor a; b; c \x7b\x7d\n\x7d\n".toList := by
  refine ⟨rfl, rfl⟩

/-- C24, amended: with no comment left to intersperse, and every part that
is present written as its bytes, `controlClause` returns and adds to what is
written or buffered: nothing when `init`, `post` and the condition are absent;
a blank and the condition when `init` and `post` are absent; otherwise a
blank, `init` if present, a semicolon and a blank, the condition if present,
and for a `for` clause a second semicolon and a blank and `post` if present:
one semicolon for an `if` or `switch` clause, two for a `for` clause, also
when `post` is absent, each followed by a blank. -/
theorem C24_controlClause_bytes (isForStmt : Bool)
    (init cond post : Option (Walk Bool × List Char)) (mode n : Nat)
    (hi : ∀ x, init = some x → Renders mode n x.1.ops x.2)
    (hc : ∀ x, cond = some x → Renders mode n x.1.ops x.2)
    (hp : ∀ x, post = some x → Renders mode n x.1.ops x.2) :
    Emits mode n
      (controlClause isForStmt (init.map fun x => x.1) (cond.map fun x => x.1)
        (post.map fun x => x.1)).ops
      (controlClauseBytes isForStmt (init.map fun x => x.2) (cond.map fun x => x.2)
        (post.map fun x => x.2)) := by
  have ei := emits_opt mode n init hi
  have ec := emits_opt mode n cond hc
  have ep := emits_opt mode n post hp
  rw [controlClause_ops]
  by_cases hnone : init.isNone = true ∧ post.isNone = true
  · have h1 : ((init.map fun x => x.1).isNone = true ∧ (post.map fun x => x.1).isNone = true) := by
      simpa using hnone
    have h2 : ((init.map fun x => x.2).isNone = true ∧ (post.map fun x => x.2).isNone = true) := by
      simpa using hnone
    unfold controlClauseBytes
    rw [if_pos h1, if_pos h2]
    cases cond with
    | none => exact emits_nil mode n
    | some x =>
      have := (emits_blank mode n).andEmits (hc x rfl).emits
      simpa using this
  · have h1 : ¬ ((init.map fun x => x.1).isNone = true ∧
        (post.map fun x => x.1).isNone = true) := by
      simpa using hnone
    have h2 : ¬ ((init.map fun x => x.2).isNone = true ∧
        (post.map fun x => x.2).isNone = true) := by
      simpa using hnone
    unfold controlClauseBytes
    rw [if_neg h1, if_neg h2]
    cases isForStmt with
    | false =>
      have := (emits_blank mode n).andEmits (ei.andEmits ((emits_semicolon mode n).andEmits ec))
      simpa [List.append_assoc] using this
    | true =>
      have := (emits_blank mode n).andEmits (ei.andEmits ((emits_semicolon mode n).andEmits
        (ec.andEmits ((emits_semicolon mode n).andEmits ep))))
      simpa [List.append_assoc] using this

theorem C24_controlClause_bytes_witness :
    (∀ x, some (stmt (.ExprStmt (.Ident ⟨⟨26, 3, 16⟩, ['a']⟩)), ['a']) = some x →
      Renders RawFormat 1 x.1.ops x.2) ∧
    (∀ x, some (expr (.Ident ⟨⟨37, 3, 27⟩, ['b']⟩), ['b']) = some x →
      Renders RawFormat 1 x.1.ops x.2) ∧
    (∀ x, (none : Option (Walk Bool × List Char)) = some x →
      Renders RawFormat 1 x.1.ops x.2) ∧
    Emits RawFormat 1
      (controlClause true (some (stmt (.ExprStmt (.Ident ⟨⟨26, 3, 16⟩, ['a']⟩))))
        (some (expr (.Ident ⟨⟨37, 3, 27⟩, ['b']⟩))) none).ops
      " a; b; ".toList := by
  have hi : ∀ x, some (stmt (.ExprStmt (.Ident ⟨⟨26, 3, 16⟩, ['a']⟩)), ['a']) = some x →
      Renders RawFormat 1 x.1.ops x.2 := by
    intro x hx
    cases hx
    have := renders_ident_stmt RawFormat 1 ⟨⟨26, 3, 16⟩, ['a']⟩
    simpa [enc, encByte] using this
  have hc : ∀ x, some (expr (.Ident ⟨⟨37, 3, 27⟩, ['b']⟩), ['b']) = some x →
      Renders RawFormat 1 x.1.ops x.2 := by
    intro x hx
    cases hx
    have := renders_ident RawFormat 1 ⟨⟨37, 3, 27⟩, ['b']⟩ LowestPrec
    simpa [enc, encByte, expr] using this
  have hp : ∀ x, (none : Option (Walk Bool × List Char)) = some x →
      Renders RawFormat 1 x.1.ops x.2 := by
    intro x hx
    cases hx
  exact ⟨hi, hc, hp, C24_controlClause_bytes true
    (some (stmt (.ExprStmt (.Ident ⟨⟨26, 3, 16⟩, ['a']⟩)), ['a']))
    (some (expr (.Ident ⟨⟨37, 3, 27⟩, ['b']⟩), ['b'])) none RawFormat 1 hi hc hp⟩

theorem C24_example :
    (Fprint (.Stmt C24_for) RawFormat).map (fun r => r.output) =
      .ok "for a; b; c \x7b\x7d".toList ∧
    (Fprint (.Stmt (.ForStmt ⟨22, 3, 12⟩ (some (.ExprStmt (.Ident ⟨⟨26, 3, 16⟩, ['a']⟩)))
      (some (.Ident ⟨⟨37, 3, 27⟩, ['b']⟩)) none (.mk ⟨42, 3, 32⟩ [] ⟨43, 3, 33⟩))) RawFormat).map
        (fun r => r.output) = .ok "for a; b;  \x7b\x7d".toList ∧
    (Fprint (.Stmt (.IfStmt ⟨22, 3, 12⟩ (some (.ExprStmt (.Ident ⟨⟨26, 3, 16⟩, ['a']⟩)))
      (some (.Ident ⟨⟨37, 3, 27⟩, ['b']⟩)) (.mk ⟨42, 3, 32⟩ [] ⟨43, 3, 33⟩) none)) RawFormat).map
        (fun r => r.output) = .ok "if a; b \x7b\x7d".toList ∧
    (Fprint (.Stmt (.ForStmt ⟨22, 3, 12⟩ none (some (.Ident ⟨⟨37, 3, 27⟩, ['b']⟩)) none
      (.mk ⟨42, 3, 32⟩ [] ⟨43, 3, 33⟩))) RawFormat).map
        (fun r => r.output) = .ok "for b \x7b\x7d".toList := by
  refine ⟨rfl, rfl, rfl, rfl⟩

/-! ## Comments before a token -/

/-- C3, the code falls short of it: for a comment list sorted by source offset
(groups non-empty, comment texts of at least two bytes) `flush(next)` writes,
in list order and each exactly once, the comments of the groups whose first
comment lies before `next`, then the buffered whitespace, and leaves the
cursor at the first group that does not lie before `next`, provided the last
comment it writes ends on a line not after that of `next`. In `C19_printer`,
the state `Fprint` reaches for `C19_file`, the list is sorted, the comment
`// c` lies before `next` and ends on line 4 while `next`, the estimated
position of the token `(`, is on line 3: `flush(next)` does not return, it
stops with a fatal error after the comment is written. -/
theorem C3_flush_sorted :
    (∀ (p : printer) (next : Position),
      p.TagFree → 0 ≤ p.buflen → p.buflen ≤ 8 →
      (∀ g ∈ p.comment, g.list ≠ []) →
      (p.comment.flatMap (fun g => g.list)).Pairwise
        (fun a b => a.pos.Offset ≤ b.pos.Offset) →
      (∀ c ∈ (p.comment.filter (CommentGroup.before next)).flatMap (fun g => g.list),
        2 ≤ c.Text.length) →
      (∀ c ∈ ((p.comment.filter (CommentGroup.before next)).flatMap
        (fun g => g.list)).getLast?, c.pos.Line + lineBreaks c.Text ≤ next.Line) →
      ∃ q, p.flush next = .ok q ∧
        q.comment = p.comment.filter (fun g => !CommentGroup.before next g) ∧
        (∀ g ∈ q.comment.head?, ∀ c ∈ g.list.head?, next.Offset ≤ c.pos.Offset) ∧
        (∀ g ∈ p.comment, ∀ c ∈ g.list, c.pos.Offset < next.Offset →
          c ∈ (p.comment.filter (CommentGroup.before next)).flatMap (fun g => g.list)) ∧
        ((p.comment.filter (CommentGroup.before next)).flatMap (fun g => g.list)).Pairwise
          (fun a b => a.pos.Offset ≤ b.pos.Offset) ∧
        ∃ (seps : List (List Char)) (ws : List whiteSpace),
          seps.length =
            ((p.comment.filter (CommentGroup.before next)).flatMap (fun g => g.list)).length ∧
          (∀ s ∈ seps, ∀ b ∈ s, b = '\t' ∨ b = '\n') ∧
          q.output = p.output ++
            (List.zipWith (fun s c => s ++ enc p.mode p.indent c.Text) seps
              ((p.comment.filter (CommentGroup.before next)).flatMap (fun g => g.list))).flatten ++
            enc p.mode p.indent (wsBytes ws)) ∧
    (printer.fresh RawFormat C19_file.Comments).run ((file C19_file).ops.take 12) =
      .ok C19_printer ∧
    ((file C19_file).ops.drop 12).head? = some (Op.print [.token .LPAREN]) ∧
    C19_printer.pos = ⟨19, 3, 9⟩ ∧
    (C19_printer.TagFree ∧ 0 ≤ C19_printer.buflen ∧ C19_printer.buflen ≤ 8 ∧
      (∀ g ∈ C19_printer.comment, g.list ≠ []) ∧
      (C19_printer.comment.flatMap (fun g => g.list)).Pairwise
        (fun a b => a.pos.Offset ≤ b.pos.Offset) ∧
      (∀ c ∈ (C19_printer.comment.filter (CommentGroup.before ⟨19, 3, 9⟩)).flatMap
        (fun g => g.list), 2 ≤ c.Text.length)) ∧
    (C19_printer.comment.filter (CommentGroup.before ⟨19, 3, 9⟩)).flatMap (fun g => g.list) =
      [⟨⟨18, 4, 1⟩, ['/', '/', ' ', 'c']⟩] ∧
    C19_printer.flush ⟨19, 3, 9⟩ = .error "slice bounds out of range" ∧
    C19_printer.print [.token .LPAREN] = .error "slice bounds out of range" := by
  refine ⟨fun p next ht h0 h8 hne hs htext hend =>
      flush_sorted p next ht h0 h8 hne hs htext hend,
    rfl, rfl, rfl,
    ⟨Or.inl (by decide), by decide, by decide, by decide, by decide, by decide⟩,
    rfl, rfl, rfl⟩
